import Mathlib

/-!
# textsearch_ko: normalizers of the Japanese and Korean text-search parsers

A shallow embedding of the byte-level normalizers of `encoding_utf8.c` and
`ts_mecab_ko.c`.  Bytes are natural numbers below 256, a `StringInfo` is the
list of its bytes, and a source pointer `s` is the list of the bytes from `s`
up to `end`.
-/

namespace TextsearchKo

/-- An appender `append(dst, src, srclen)`: it receives the buffer and the
`srclen` bytes at `src`, and returns the new buffer. -/
abbrev append_t := List Nat → List Nat → List Nat

/-- The host's `appendBinaryStringInfo(dst, src, srclen)`: the verbatim appender. -/
def appendBinaryStringInfo : append_t := fun dst src => dst ++ src

/-- The host's `appendStringInfoChar(dst, c)`; the value is stored in one byte. -/
def appendStringInfoChar (dst : List Nat) (c : Nat) : List Nat := dst ++ [c % 256]

/-- The byte `p[i]` of a source pointer; past the end of the text the
terminating NUL is read. -/
def byteAt (s : List Nat) (i : Nat) : Nat := s.getD i 0

/-- The byte `StringInfoTail(str, at)[i]`, that is `str->data[str->len - at + i]`. -/
def StringInfoTail (str : List Nat) (k i : Nat) : Nat := str.getD (str.length - k + i) 0

/-- The assignment `StringInfoTail(str, at)[i] = v` on an unsigned char. -/
def setStringInfoTail (str : List Nat) (k i v : Nat) : List Nat :=
  str.set (str.length - k + i) (v % 256)

/-- Modelled from the spec: the host's multi-byte-length primitive `pg_mblen`
(`uchar_mblen` is a macro for it), which is not part of this repository, for
the UTF-8 database encoding.  The length is decided by the lead byte alone. -/
def uchar_mblen (s : List Nat) : Nat :=
  let c := byteAt s 0
  if c &&& 0x80 = 0 then 1
  else if c &&& 0xe0 = 0xc0 then 2
  else if c &&& 0xf0 = 0xe0 then 3
  else if c &&& 0xf8 = 0xf0 then 4
  else 1

/-- The macro `WIDEN(c1, c2)`: two unsigned chars joined into 16 bits. -/
def WIDEN (c1 c2 : Nat) : Nat := ((c1 % 256) <<< 8) ||| (c2 % 256)

/-- The struct `Map`: a 16-bit key and up to 3 output bytes (the C array
`to[4]` is zero-filled behind them). -/
structure Map where
  from_ : Nat
  to_ : List Nat
deriving Repr, DecidableEq

/-- The array `to[4]` of an entry, with its zero fill. -/
def Map.to4 (m : Map) : List Nat := (m.to_ ++ [0, 0, 0, 0]).take 4

/-- The libc `strlen` on an unsigned char array: the bytes before the first NUL. -/
def uchar_strlen (a : List Nat) : Nat := (a.takeWhile (fun b => b != 0)).length

/-- The table `UTF8_MAP`, keyed by the last two bytes of a 3-byte character. -/
def UTF8_MAP : List Map := [
  Map.mk 0xbc81 [0x21],
  Map.mk 0xbc83 [0x23],
  Map.mk 0xbc84 [0x24],
  Map.mk 0xbc85 [0x25],
  Map.mk 0xbc86 [0x26],
  Map.mk 0xbc88 [0x28],
  Map.mk 0xbc89 [0x29],
  Map.mk 0xbc8a [0x2a],
  Map.mk 0xbc8b [0x2b],
  Map.mk 0xbc8c [0x2c],
  Map.mk 0xbc8d [0x2d],
  Map.mk 0xbc8e [0x2e],
  Map.mk 0xbc8f [0x2f],
  Map.mk 0xbc90 [0x30],
  Map.mk 0xbc91 [0x31],
  Map.mk 0xbc92 [0x32],
  Map.mk 0xbc93 [0x33],
  Map.mk 0xbc94 [0x34],
  Map.mk 0xbc95 [0x35],
  Map.mk 0xbc96 [0x36],
  Map.mk 0xbc97 [0x37],
  Map.mk 0xbc98 [0x38],
  Map.mk 0xbc99 [0x39],
  Map.mk 0xbc9a [0x3a],
  Map.mk 0xbc9b [0x3b],
  Map.mk 0xbc9c [0x3c],
  Map.mk 0xbc9d [0x3d],
  Map.mk 0xbc9e [0x3e],
  Map.mk 0xbc9f [0x3f],
  Map.mk 0xbca0 [0x40],
  Map.mk 0xbca1 [0x41],
  Map.mk 0xbca2 [0x42],
  Map.mk 0xbca3 [0x43],
  Map.mk 0xbca4 [0x44],
  Map.mk 0xbca5 [0x45],
  Map.mk 0xbca6 [0x46],
  Map.mk 0xbca7 [0x47],
  Map.mk 0xbca8 [0x48],
  Map.mk 0xbca9 [0x49],
  Map.mk 0xbcaa [0x4a],
  Map.mk 0xbcab [0x4b],
  Map.mk 0xbcac [0x4c],
  Map.mk 0xbcad [0x4d],
  Map.mk 0xbcae [0x4e],
  Map.mk 0xbcaf [0x4f],
  Map.mk 0xbcb0 [0x50],
  Map.mk 0xbcb1 [0x51],
  Map.mk 0xbcb2 [0x52],
  Map.mk 0xbcb3 [0x53],
  Map.mk 0xbcb4 [0x54],
  Map.mk 0xbcb5 [0x55],
  Map.mk 0xbcb6 [0x56],
  Map.mk 0xbcb7 [0x57],
  Map.mk 0xbcb8 [0x58],
  Map.mk 0xbcb9 [0x59],
  Map.mk 0xbcba [0x5a],
  Map.mk 0xbcbb [0x5b],
  Map.mk 0xbcbd [0x5d],
  Map.mk 0xbcbe [0x5e],
  Map.mk 0xbcbf [0x5f],
  Map.mk 0xbd81 [0x61],
  Map.mk 0xbd82 [0x62],
  Map.mk 0xbd83 [0x63],
  Map.mk 0xbd84 [0x64],
  Map.mk 0xbd85 [0x65],
  Map.mk 0xbd86 [0x66],
  Map.mk 0xbd87 [0x67],
  Map.mk 0xbd88 [0x68],
  Map.mk 0xbd89 [0x69],
  Map.mk 0xbd8a [0x6a],
  Map.mk 0xbd8b [0x6b],
  Map.mk 0xbd8c [0x6c],
  Map.mk 0xbd8d [0x6d],
  Map.mk 0xbd8e [0x6e],
  Map.mk 0xbd8f [0x6f],
  Map.mk 0xbd90 [0x70],
  Map.mk 0xbd91 [0x71],
  Map.mk 0xbd92 [0x72],
  Map.mk 0xbd93 [0x73],
  Map.mk 0xbd94 [0x74],
  Map.mk 0xbd95 [0x75],
  Map.mk 0xbd96 [0x76],
  Map.mk 0xbd97 [0x77],
  Map.mk 0xbd98 [0x78],
  Map.mk 0xbd99 [0x79],
  Map.mk 0xbd9a [0x7a],
  Map.mk 0xbd9b [0x7b],
  Map.mk 0xbd9c [0x7c],
  Map.mk 0xbd9d [0x7d],
  Map.mk 0xbda6 [0xe3, 0x83, 0xb2],
  Map.mk 0xbda7 [0xe3, 0x82, 0xa1],
  Map.mk 0xbda8 [0xe3, 0x82, 0xa3],
  Map.mk 0xbda9 [0xe3, 0x82, 0xa5],
  Map.mk 0xbdaa [0xe3, 0x82, 0xa7],
  Map.mk 0xbdab [0xe3, 0x82, 0xa9],
  Map.mk 0xbdac [0xe3, 0x83, 0xa3],
  Map.mk 0xbdad [0xe3, 0x83, 0xa5],
  Map.mk 0xbdae [0xe3, 0x83, 0xa7],
  Map.mk 0xbdaf [0xe3, 0x83, 0x83],
  Map.mk 0xbdb0 [0xe3, 0x83, 0xbc],
  Map.mk 0xbdb1 [0xe3, 0x82, 0xa2],
  Map.mk 0xbdb2 [0xe3, 0x82, 0xa4],
  Map.mk 0xbdb3 [0xe3, 0x82, 0xa6],
  Map.mk 0xbdb4 [0xe3, 0x82, 0xa8],
  Map.mk 0xbdb5 [0xe3, 0x82, 0xaa],
  Map.mk 0xbdb6 [0xe3, 0x82, 0xab],
  Map.mk 0xbdb7 [0xe3, 0x82, 0xad],
  Map.mk 0xbdb8 [0xe3, 0x82, 0xaf],
  Map.mk 0xbdb9 [0xe3, 0x82, 0xb1],
  Map.mk 0xbdba [0xe3, 0x82, 0xb3],
  Map.mk 0xbdbb [0xe3, 0x82, 0xb5],
  Map.mk 0xbdbc [0xe3, 0x82, 0xb7],
  Map.mk 0xbdbd [0xe3, 0x82, 0xb9],
  Map.mk 0xbdbe [0xe3, 0x82, 0xbb],
  Map.mk 0xbdbf [0xe3, 0x82, 0xbd],
  Map.mk 0xbe80 [0xe3, 0x82, 0xbf],
  Map.mk 0xbe81 [0xe3, 0x83, 0x81],
  Map.mk 0xbe82 [0xe3, 0x83, 0x84],
  Map.mk 0xbe83 [0xe3, 0x83, 0x86],
  Map.mk 0xbe84 [0xe3, 0x83, 0x88],
  Map.mk 0xbe85 [0xe3, 0x83, 0x8a],
  Map.mk 0xbe86 [0xe3, 0x83, 0x8b],
  Map.mk 0xbe87 [0xe3, 0x83, 0x8c],
  Map.mk 0xbe88 [0xe3, 0x83, 0x8d],
  Map.mk 0xbe89 [0xe3, 0x83, 0x8e],
  Map.mk 0xbe8a [0xe3, 0x83, 0x8f],
  Map.mk 0xbe8b [0xe3, 0x83, 0x92],
  Map.mk 0xbe8c [0xe3, 0x83, 0x95],
  Map.mk 0xbe8d [0xe3, 0x83, 0x98],
  Map.mk 0xbe8e [0xe3, 0x83, 0x9b],
  Map.mk 0xbe8f [0xe3, 0x83, 0x9e],
  Map.mk 0xbe90 [0xe3, 0x83, 0x9f],
  Map.mk 0xbe91 [0xe3, 0x83, 0xa0],
  Map.mk 0xbe92 [0xe3, 0x83, 0xa1],
  Map.mk 0xbe93 [0xe3, 0x83, 0xa2],
  Map.mk 0xbe94 [0xe3, 0x83, 0xa4],
  Map.mk 0xbe95 [0xe3, 0x83, 0xa6],
  Map.mk 0xbe96 [0xe3, 0x83, 0xa8],
  Map.mk 0xbe97 [0xe3, 0x83, 0xa9],
  Map.mk 0xbe98 [0xe3, 0x83, 0xaa],
  Map.mk 0xbe99 [0xe3, 0x83, 0xab],
  Map.mk 0xbe9a [0xe3, 0x83, 0xac],
  Map.mk 0xbe9b [0xe3, 0x83, 0xad],
  Map.mk 0xbe9c [0xe3, 0x83, 0xaf],
  Map.mk 0xbe9d [0xe3, 0x83, 0xb3],
  Map.mk 0xbe9e [0xe3, 0x82, 0x9b],
  Map.mk 0xbe9f [0xe3, 0x82, 0x9c],
  Map.mk 0xbfa3 [0x7e],
  Map.mk 0xbfa5 [0x5c]
]

def DAKUTEN_HALF : List Nat := [0xef, 0xbe, 0x9e]
def DAKUTEN_WIDE : List Nat := [0xe3, 0x82, 0x9b]
def HANDAKU_HALF : List Nat := [0xef, 0xbe, 0x9f]
def HANDAKU_WIDE : List Nat := [0xe3, 0x82, 0x9c]

/-- The comparison `mapcmp(lhs, rhs)` as `bsearch` calls it: `lhs` is the
searched key, `rhs` the table entry, both read through their leading 16 bits. -/
def mapcmp (lhs : Nat) (rhs : Map) : Int :=
  if lhs < rhs.from_ then -1
  else if lhs > rhs.from_ then 1
  else 0

/-- The loop of the libc `bsearch` over the index range `[l, u)`. -/
def bsearch_loop (key : Nat) (map : List Map) : Nat → Nat → Nat → Option Map
  | 0, _, _ => none
  | fuel + 1, l, u =>
    if l < u then
      let idx := (l + u) / 2
      match map.get? idx with
      | none => none
      | some p =>
        let comparison := mapcmp key p
        if comparison < 0 then bsearch_loop key map fuel l idx
        else if comparison > 0 then bsearch_loop key map fuel (idx + 1) u
        else some p
    else none

/-- Modelled from the spec: the libc `bsearch(&c, map, maplen, sizeof(Map), mapcmp)`,
a binary search that halves the range at every step; `maplen + 1` steps
always exhaust the range. -/
def bsearch (key : Nat) (map : List Map) : Option Map :=
  bsearch_loop key map (map.length + 1) 0 map.length

/-- The function `appendMappedChar`: a 3-byte character found in the table is
replaced by the entry's bytes, anything else is appended as it is. -/
def appendMappedChar (dst s : List Nat) (srclen : Nat) (map : List Map)
    (append : append_t) : List Nat :=
  if srclen = 3 then
    match bsearch (WIDEN (byteAt s 1) (byteAt s 2)) map with
    | some m => append dst (m.to4.take (uchar_strlen m.to4))
    | none => append dst (s.take srclen)
  else append dst (s.take srclen)

/-- The macro `EQ3(a, b)`. -/
def EQ3 (a b : List Nat) : Bool :=
  byteAt a 0 == byteAt b 0 && byteAt a 1 == byteAt b 1 && byteAt a 2 == byteAt b 2

/-- The kana of the `prev[2] += 1` cases of the dakuten switch. -/
def dakutenPlus1 : List Nat := [
  0x818b, 0x818d, 0x818f, 0x8191, 0x8193, 0x8195, 0x8197, 0x8199, 0x819b, 0x819d,
  0x819f, 0x81a1, 0x81a4, 0x81a6, 0x81a8, 0x81af, 0x81b2, 0x81b5, 0x81b8, 0x81bb,
  0x82ab, 0x82ad, 0x82af, 0x82b1, 0x82b3, 0x82b5, 0x82b7, 0x82b9, 0x82bb, 0x82bd,
  0x8381, 0x8384, 0x8386, 0x8388, 0x838f, 0x8392, 0x8395, 0x8398, 0x839b]

/-- The kana of the `prev[2] += 2` cases of the handakuten switch. -/
def handakuPlus2 : List Nat := [
  0x81af, 0x81b2, 0x81b5, 0x81b8, 0x81bb, 0x838f, 0x8392, 0x8395, 0x8398, 0x839b]

/-- The voicing-mark block of `normalize_utf8` (the `if (len == 3 && dst->len >= 3
&& ...)` statement): `some dst'` when a case of a switch rewrote the last
character and ran `continue`, `none` when control falls through. -/
def normalize_utf8_voicing (dst s : List Nat) (len : Nat) : Option (List Nat) :=
  if len = 3 ∧ dst.length ≥ 3 ∧ StringInfoTail dst 3 0 = 0xe3 then
    if EQ3 s DAKUTEN_HALF || EQ3 s DAKUTEN_WIDE then
      let w := WIDEN (StringInfoTail dst 3 1) (StringInfoTail dst 3 2)
      if w = 0x8186 ∨ w = 0x82a6 then
        some (setStringInfoTail (setStringInfoTail dst 3 1 0x83) 3 2 0xb4)
      else if w = 0x82bf then
        some (setStringInfoTail (setStringInfoTail dst 3 1 0x83) 3 2 0x80)
      else if w ∈ dakutenPlus1 then
        some (setStringInfoTail dst 3 2 (StringInfoTail dst 3 2 + 1))
      else none
    else if EQ3 s HANDAKU_HALF || EQ3 s HANDAKU_WIDE then
      let w := WIDEN (StringInfoTail dst 3 1) (StringInfoTail dst 3 2)
      if w ∈ handakuPlus2 then
        some (setStringInfoTail dst 3 2 (StringInfoTail dst 3 2 + 2))
      else none
    else none
  else none

/-- The statement `switch (s[0])` that ends the loop body of `normalize_utf8`. -/
def normalize_utf8_switch (append : append_t) (dst s : List Nat) (len : Nat) : List Nat :=
  if byteAt s 0 = 0xe2 then
    if byteAt s 1 = 0x80 then
      if byteAt s 2 = 0x98 then appendStringInfoChar dst 0x60
      else if byteAt s 2 = 0x99 then appendStringInfoChar dst 0x27
      else if byteAt s 2 = 0x9d then appendStringInfoChar dst 0x22
      else append dst (s.take len)
    else append dst (s.take len)
  else if byteAt s 0 = 0xe3 then
    if byteAt s 1 = 0x80 ∧ byteAt s 2 = 0x80 then appendStringInfoChar dst 0x20
    else append dst (s.take len)
  else if byteAt s 0 = 0xef then
    appendMappedChar dst s len UTF8_MAP append
  else append dst (s.take len)

/-- One iteration of the `for` loop of `normalize_utf8` at the source position
`s`: the new buffer and `len`, the number of bytes the iteration consumes.  On
a final character that `srclen` cuts short, which well-formed UTF-8 does not
have, `s.take len` is the bytes that are left, while the C code hands on `len`
bytes and so reads past `end`. -/
def normalize_utf8_body (append : append_t) (dst s : List Nat) : List Nat × Nat :=
  let len := uchar_mblen s
  if len = 1 then (append dst (s.take len), len)
  else
    match normalize_utf8_voicing dst s len with
    | some dst1 => (dst1, len)
    | none => (normalize_utf8_switch append dst s len, len)

/-- The loop `for (; s < end; s += len)` of `normalize_utf8`; every iteration
consumes at least one byte, so `srclen` iterations always reach `end`. -/
def normalize_utf8_loop (append : append_t) : Nat → List Nat → List Nat → List Nat
  | 0, dst, _ => dst
  | fuel + 1, dst, s =>
    if s = [] then dst
    else
      let r := normalize_utf8_body append dst s
      normalize_utf8_loop append fuel r.1 (s.drop r.2)

/-- The function `normalize_utf8(dst, src, srclen, append)`. -/
def normalize_utf8 (dst src : List Nat) (append : append_t) : List Nat :=
  normalize_utf8_loop append src.length dst src

namespace TsMecabKo

/-- The string `ascii_sign` of `ts_mecab_ko.c`, as its bytes (the closing NUL
left out). -/
def ascii_sign : List Nat := [
  0x60, 0x7e, 0x21, 0x40, 0x23, 0x24, 0x25, 0x5e, 0x26, 0x2a, 0x28, 0x29, 0x2d, 0x3d,
  0x5c, 0x5f, 0x2b, 0x7c, 0x5b, 0x5d, 0x7b, 0x7d, 0x3b, 0x27, 0x3a, 0x22, 0x2c, 0x2e,
  0x3c, 0x3e, 0x2f, 0x3f, 0x20]

/-- Modelled from the spec: the libc test `strchr(str, c) == 0`, true when the
byte `c` occurs nowhere in the string; the closing NUL of the string counts as
part of it, so `c = 0` is always found. -/
def strchr_is_null (str : List Nat) (c : Nat) : Bool :=
  !(c % 256 == 0 || str.contains (c % 256))

/-- The function `ismbascii(s, &c)`: `some c` stands for the result `true` with
the char stored through the pointer, `none` for `false` (nothing stored). -/
def ismbascii (s : List Nat) : Option Nat :=
  let charval := (256 * 256) * byteAt s 0 + 256 * byteAt s 1 + byteAt s 2
  if charval ≥ 15711360 ∧ charval ≤ 15711646 then
    some ((charval - 15711360 + 32) % 256)
  else none

/-- The first `if` of the loop body of `normalize`: the new buffer and
`current_len`.  On a final character that `srclen` cuts short, which
well-formed UTF-8 does not have, `s.take len` is the bytes that are left, while
the C code copies `len` bytes and so reads past `end`. -/
def normalize_emit (dst s : List Nat) (len : Nat) : List Nat × Nat :=
  let ch := byteAt s 0
  if len = 1 then (appendStringInfoChar dst ch, 1)
  else if len = 3 then
    match ismbascii s with
    | some c => (appendStringInfoChar dst c, 1)
    | none => (appendBinaryStringInfo dst (s.take len), 3)
  else (appendBinaryStringInfo dst (s.take len), 3)

/-- The second `if` of the loop body of `normalize`, the look-ahead at the
character at `s + len` (the list `next`; it is empty when `s + len` is not
below `end`). -/
def normalize_gap (dst s next : List Nat) (current_len : Nat) : List Nat :=
  if next ≠ [] then
    let nextcharlen := uchar_mblen next
    let next_len := if nextcharlen = 3 ∧ ismbascii next = none then 3 else 1
    if current_len ≠ next_len then
      if (current_len = 3 ∧ strchr_is_null ascii_sign (byteAt next 0))
          ∨ (current_len = 1 ∧ strchr_is_null ascii_sign (byteAt s 0)) then
        appendBinaryStringInfo dst [0x20]
      else dst
    else dst
  else dst

/-- One iteration of the `for` loop of `normalize`: the new buffer and `len`. -/
def normalize_body (dst s : List Nat) : List Nat × Nat :=
  let len := uchar_mblen s
  let r := normalize_emit dst s len
  (normalize_gap r.1 s (s.drop len) r.2, len)

/-- The loop `for (; s < end; s += len)` of `normalize`; every iteration
consumes at least one byte, so `srclen` iterations always reach `end`. -/
def normalize_loop : Nat → List Nat → List Nat → List Nat
  | 0, dst, _ => dst
  | fuel + 1, dst, s =>
    if s = [] then dst
    else
      let r := normalize_body dst s
      normalize_loop fuel r.1 (s.drop r.2)

/-- The function `normalize(dst, src, srclen, append)` of `ts_mecab_ko.c`; its
body never calls `append`. -/
def normalize (dst src : List Nat) (_append : append_t) : List Nat :=
  normalize_loop src.length dst src

end TsMecabKo

/-- The table `UTF8_HANKANA2ZENHIRA`: half-width katakana to hiragana (the
source writes the output bytes in octal). -/
def UTF8_HANKANA2ZENHIRA : List Map := [
  Map.mk 0xbda6 [0o343, 0o202, 0o222],
  Map.mk 0xbda7 [0o343, 0o201, 0o201],
  Map.mk 0xbda8 [0o343, 0o201, 0o203],
  Map.mk 0xbda9 [0o343, 0o201, 0o205],
  Map.mk 0xbdaa [0o343, 0o201, 0o207],
  Map.mk 0xbdab [0o343, 0o201, 0o211],
  Map.mk 0xbdac [0o343, 0o202, 0o203],
  Map.mk 0xbdad [0o343, 0o202, 0o205],
  Map.mk 0xbdae [0o343, 0o202, 0o207],
  Map.mk 0xbdaf [0o343, 0o201, 0o243],
  Map.mk 0xbdb1 [0o343, 0o201, 0o202],
  Map.mk 0xbdb2 [0o343, 0o201, 0o204],
  Map.mk 0xbdb3 [0o343, 0o201, 0o206],
  Map.mk 0xbdb4 [0o343, 0o201, 0o210],
  Map.mk 0xbdb5 [0o343, 0o201, 0o212],
  Map.mk 0xbdb6 [0o343, 0o201, 0o213],
  Map.mk 0xbdb7 [0o343, 0o201, 0o215],
  Map.mk 0xbdb8 [0o343, 0o201, 0o217],
  Map.mk 0xbdb9 [0o343, 0o201, 0o221],
  Map.mk 0xbdba [0o343, 0o201, 0o223],
  Map.mk 0xbdbb [0o343, 0o201, 0o225],
  Map.mk 0xbdbc [0o343, 0o201, 0o227],
  Map.mk 0xbdbd [0o343, 0o201, 0o231],
  Map.mk 0xbdbe [0o343, 0o201, 0o233],
  Map.mk 0xbdbf [0o343, 0o201, 0o235],
  Map.mk 0xbe80 [0o343, 0o201, 0o237],
  Map.mk 0xbe81 [0o343, 0o201, 0o241],
  Map.mk 0xbe82 [0o343, 0o201, 0o244],
  Map.mk 0xbe83 [0o343, 0o201, 0o246],
  Map.mk 0xbe84 [0o343, 0o201, 0o250],
  Map.mk 0xbe85 [0o343, 0o201, 0o252],
  Map.mk 0xbe86 [0o343, 0o201, 0o253],
  Map.mk 0xbe87 [0o343, 0o201, 0o254],
  Map.mk 0xbe88 [0o343, 0o201, 0o255],
  Map.mk 0xbe89 [0o343, 0o201, 0o256],
  Map.mk 0xbe8a [0o343, 0o201, 0o257],
  Map.mk 0xbe8b [0o343, 0o201, 0o262],
  Map.mk 0xbe8c [0o343, 0o201, 0o265],
  Map.mk 0xbe8d [0o343, 0o201, 0o270],
  Map.mk 0xbe8e [0o343, 0o201, 0o273],
  Map.mk 0xbe8f [0o343, 0o201, 0o276],
  Map.mk 0xbe90 [0o343, 0o201, 0o277],
  Map.mk 0xbe91 [0o343, 0o202, 0o200],
  Map.mk 0xbe92 [0o343, 0o202, 0o201],
  Map.mk 0xbe93 [0o343, 0o202, 0o202],
  Map.mk 0xbe94 [0o343, 0o202, 0o204],
  Map.mk 0xbe95 [0o343, 0o202, 0o206],
  Map.mk 0xbe96 [0o343, 0o202, 0o210],
  Map.mk 0xbe97 [0o343, 0o202, 0o211],
  Map.mk 0xbe98 [0o343, 0o202, 0o212],
  Map.mk 0xbe99 [0o343, 0o202, 0o213],
  Map.mk 0xbe9a [0o343, 0o202, 0o214],
  Map.mk 0xbe9b [0o343, 0o202, 0o215],
  Map.mk 0xbe9c [0o343, 0o202, 0o217],
  Map.mk 0xbe9d [0o343, 0o202, 0o223]
]

/-- The macro `appendMBString(dst, ustr, len)`. -/
def appendMBString (dst ustr : List Nat) : List Nat := appendBinaryStringInfo dst ustr

/-- The kana of the `prev[2] += 1` cases of the dakuten switch of `hiragana_utf8`. -/
def hiraganaDakutenPlus1 : List Nat := [
  0x818b, 0x818d, 0x818f, 0x8191, 0x8193, 0x8195, 0x8197, 0x8199, 0x819b, 0x819d,
  0x819f, 0x81a1, 0x81a4, 0x81a6, 0x81a8, 0x81af, 0x81b2, 0x81b5, 0x81b8, 0x81bb]

/-- The kana of the `prev[2] += 2` cases of the handakuten switch of `hiragana_utf8`. -/
def hiraganaHandakuPlus2 : List Nat := [0x81af, 0x81b2, 0x81b5, 0x81b8, 0x81bb]

/-- The voicing-mark block of `hiragana_utf8` (the `if (dst->len >= 3 && ...)`
statement): `some dst'` when a case of a switch rewrote the last character and
ran `continue`, `none` when control falls through. -/
def hiragana_utf8_voicing (dst s : List Nat) : Option (List Nat) :=
  if dst.length ≥ 3 ∧ StringInfoTail dst 3 0 = 0xe3 then
    if EQ3 s DAKUTEN_HALF || EQ3 s DAKUTEN_WIDE then
      let w := WIDEN (StringInfoTail dst 3 1) (StringInfoTail dst 3 2)
      if w ∈ hiraganaDakutenPlus1 then
        some (setStringInfoTail dst 3 2 (StringInfoTail dst 3 2 + 1))
      else none
    else if EQ3 s HANDAKU_HALF || EQ3 s HANDAKU_WIDE then
      let w := WIDEN (StringInfoTail dst 3 1) (StringInfoTail dst 3 2)
      if w ∈ hiraganaHandakuPlus2 then
        some (setStringInfoTail dst 3 2 (StringInfoTail dst 3 2 + 2))
      else none
    else none
  else none

/-- The rest of the loop body of `hiragana_utf8` for a 3-byte character: the
katakana ranges, the half-width katakana table, and the final `appendMBString`
that every other path reaches. -/
def hiragana_utf8_convert (dst s : List Nat) (len : Nat) : List Nat :=
  if byteAt s 0 = 0xe3 then
    if byteAt s 1 = 0o202 ∧ 0o241 ≤ byteAt s 2 ∧ byteAt s 2 ≤ 0o277 then
      appendStringInfoChar (appendStringInfoChar (appendStringInfoChar dst 0xe3) 0o201)
        (byteAt s 2 - 0o40)
    else if byteAt s 1 = 0o203 then
      if 0o200 ≤ byteAt s 2 ∧ byteAt s 2 ≤ 0o237 then
        appendStringInfoChar (appendStringInfoChar (appendStringInfoChar dst 0xe3) 0o201)
          (byteAt s 2 + 0o40)
      else if 0o237 < byteAt s 2 ∧ byteAt s 2 ≤ 0o263 then
        appendStringInfoChar (appendStringInfoChar (appendStringInfoChar dst 0xe3) 0o202)
          (byteAt s 2 - 0o40)
      else appendMBString dst (s.take len)
    else appendMBString dst (s.take len)
  else if byteAt s 0 = 0xef then
    appendMappedChar dst s len UTF8_HANKANA2ZENHIRA appendBinaryStringInfo
  else appendMBString dst (s.take len)

/-- One iteration of the `for` loop of `hiragana_utf8`: the new buffer and `len`. -/
def hiragana_utf8_body (dst s : List Nat) : List Nat × Nat :=
  let len := uchar_mblen s
  if len ≠ 3 then (appendMBString dst (s.take len), len)
  else
    match hiragana_utf8_voicing dst s with
    | some dst1 => (dst1, len)
    | none => (hiragana_utf8_convert dst s len, len)

/-- The loop `for (; s < end; s += len)` of `hiragana_utf8`; `srclen`
iterations always reach `end`. -/
def hiragana_utf8_loop : Nat → List Nat → List Nat → List Nat
  | 0, dst, _ => dst
  | fuel + 1, dst, s =>
    if s = [] then dst
    else
      let r := hiragana_utf8_body dst s
      hiragana_utf8_loop fuel r.1 (s.drop r.2)

/-- The function `hiragana_utf8(dst, src, srclen)`: katakana to hiragana. -/
def hiragana_utf8 (dst src : List Nat) : List Nat :=
  hiragana_utf8_loop src.length dst src

/-- One iteration of the `for` loop of `katakana_utf8`: the new buffer and `len`. -/
def katakana_utf8_body (dst s : List Nat) : List Nat × Nat :=
  let len := uchar_mblen s
  if len = 3 ∧ byteAt s 0 = 0xe3 then
    if byteAt s 1 = 0o201 then
      if 0o201 ≤ byteAt s 2 ∧ byteAt s 2 ≤ 0o237 then
        (appendStringInfoChar (appendStringInfoChar (appendStringInfoChar dst 0xe3) 0o202)
          (byteAt s 2 + 0o40), len)
      else if 0o237 < byteAt s 2 ∧ byteAt s 2 ≤ 0o277 then
        (appendStringInfoChar (appendStringInfoChar (appendStringInfoChar dst 0xe3) 0o203)
          (byteAt s 2 - 0o40), len)
      else (appendMBString dst (s.take len), len)
    else if byteAt s 1 = 0o202 ∧ 0o200 ≤ byteAt s 2 ∧ byteAt s 2 ≤ 0o223 then
      (appendStringInfoChar (appendStringInfoChar (appendStringInfoChar dst 0xe3) 0o203)
        (byteAt s 2 + 0o40), len)
    else (appendMBString dst (s.take len), len)
  else (appendMBString dst (s.take len), len)

/-- The loop `for (; s < end; s += len)` of `katakana_utf8`; `srclen`
iterations always reach `end`. -/
def katakana_utf8_loop : Nat → List Nat → List Nat → List Nat
  | 0, dst, _ => dst
  | fuel + 1, dst, s =>
    if s = [] then dst
    else
      let r := katakana_utf8_body dst s
      katakana_utf8_loop fuel r.1 (s.drop r.2)

/-- The function `katakana_utf8(dst, src, srclen)`: hiragana to katakana. -/
def katakana_utf8 (dst src : List Nat) : List Nat :=
  katakana_utf8_loop src.length dst src

namespace TextsearchJa

/-- The constant `SEPARATOR_CHAR`, the vertical tab. -/
def SEPARATOR_CHAR : Nat := 0x0b

/-- Modelled from the spec: the libc `isprint` on one byte, true for the
printable ASCII bytes `0x20..0x7E` (bytes with the high bit set are not
printable in the C and UTF-8 locales). -/
def isprint (c : Nat) : Bool := 0x20 ≤ c && c ≤ 0x7e

/-- The host macro `IS_HIGHBIT_SET(ch)`. -/
def IS_HIGHBIT_SET (ch : Nat) : Bool := (ch % 256) &&& 0x80 != 0

/-- The function `appendString(dst, src, srclen)` of `textsearch_ja.c`, the
appender of the tokenizer pre-pass. -/
def appendString : append_t := fun dst src =>
  let srclen := src.length
  if srclen = 1 ∧ ¬ isprint (byteAt src 0) then
    if dst.length = 0 ∨ StringInfoTail dst 1 0 ≠ SEPARATOR_CHAR then
      appendStringInfoChar dst SEPARATOR_CHAR
    else dst
  else if dst.length > 1 then
    let dst1 :=
      if StringInfoTail dst 1 0 = SEPARATOR_CHAR then
        let ishigh := IS_HIGHBIT_SET (StringInfoTail dst 2 0)
        if srclen = 1 ∧ ¬ ishigh then setStringInfoTail dst 1 0 0x20
        else if ishigh then dst.take (dst.length - 1)
        else dst
      else
        let ishigh := IS_HIGHBIT_SET (StringInfoTail dst 1 0)
        if (srclen = 1 ∧ ishigh) ∨ (srclen > 1 ∧ ¬ ishigh) then
          appendStringInfoChar dst SEPARATOR_CHAR
        else dst
    appendBinaryStringInfo dst1 src
  else appendBinaryStringInfo dst src

/-- The pre-pass of `ts_ja_start` under UTF-8: `normalize(&parser->str, input,
len, appendString)` on a fresh buffer. -/
def ts_ja_start_normalize (input : List Nat) : List Nat :=
  normalize_utf8 [] input appendString

end TextsearchJa

/-! ## The hybrid tokenizer -/

/-- The lexical types of the default parser that the tokenizers name. -/
def WORD_T : Nat := 2
def NUMWORD : Nat := 3
def NUMPARTHWORD : Nat := 9
def PARTHWORD : Nat := 10
def NUMHWORD : Nat := 15
def HWORD : Nat := 17
def SPACE : Nat := 12

/-- Modelled from the spec: the lexical type `ASCIIWORD` (1, "Word, all ASCII")
of the host's default parser, which the tokenizers do not name: it is the type
that `prsd_nexttoken` gives a word of ASCII letters only, while `WORD_T` and
the other types above are those of words that may hold letters outside ASCII. -/
def ASCIIWORD : Nat := 1

/-- The feature columns `MECAB_BASIC`, `MECAB_CONJTYPE`, `MECAB_DETAIL`. -/
def MECAB_BASIC : Nat := 3
def MECAB_CONJTYPE : Nat := 4
def MECAB_DETAIL : Nat := 7

/-- Modelled from the spec: the status tags `MECAB_BOS_NODE` and
`MECAB_EOS_NODE` of the analyzer's header `mecab.h`, which is not part of this
repository. -/
def MECAB_BOS_NODE : Nat := 2
def MECAB_EOS_NODE : Nat := 3

/-- The fields of the analyzer's `mecab_node_t` that the code reads.  A pointer
into the analyzed text is its byte offset in the normalized buffer; `feature`
holds the bytes of the NUL-terminated feature string, the NUL left out; the
`next` link is the rest of the list the node stands in. -/
structure mecab_node_t where
  surface : Nat
  length : Nat
  stat : Nat
  feature : List Nat
deriving Repr, DecidableEq

/-- Modelled from the spec: a token of the host's default (ASCII) word parser:
lexical type, pointer (byte offset in the normalized buffer) and length. -/
structure prsd_token where
  lextype : Nat
  t : Nat
  tlen : Nat
deriving Repr, DecidableEq

/-- The struct `parser_data` (`ts_ja_parser` in `textsearch_ja.c`): the
normalized buffer, the node cursor `node`, the ASCII parser handle `ascprs`
(the tokens it has yet to return) and `last_node_pos` (`ja_pos`), `none` for
`NULL`. -/
structure parser_data where
  str : List Nat
  node : List mecab_node_t
  ascprs : List prsd_token
  last_node_pos : Option Nat
deriving Repr, DecidableEq

/-- Modelled from the spec: the libc `strchr(s, c)` for a byte `c` other than
NUL on a NUL-terminated string given by its bytes: the pointer to the first
occurrence, as the bytes from there on, or `none` for `NULL`. -/
def strchr (s : List Nat) (c : Nat) : Option (List Nat) :=
  match s with
  | [] => none
  | b :: rest => if b = c then some (b :: rest) else strchr rest c

/-- Modelled from the spec: the libc test `strncmp(a, b, n) == 0` on two
NUL-terminated strings given by their bytes. -/
def strncmp_eq (a b : List Nat) (n : Nat) : Bool :=
  (a ++ [0]).take n == (b ++ [0]).take n

/-- The `for` loop of `feature`: skip `n` columns; `none` when a comma is missing. -/
def feature_skip (csv : List Nat) : Nat → Option (List Nat)
  | 0 => some csv
  | n + 1 =>
    match strchr csv 0x2c with
    | none => none
    | some next => feature_skip (next.drop 1) n

/-- The function `feature(node, n, &t, &tlen)`: `some (t, tlen)` stands for the
result `true` with the column's pointer (the bytes from there to the end of
the feature string) and length stored, `none` for `false` (nothing stored). -/
def feature (node : mecab_node_t) (n : Nat) : Option (List Nat × Nat) :=
  match feature_skip node.feature n with
  | none => none
  | some csv =>
    let len := match strchr csv 0x2c with
      | none => csv.length
      | some next => csv.length - next.length
    if len = 0 ∨ (len = 1 ∧ byteAt csv 0 = 0x2a) then none
    else some (csv, len)

/-- The function `next_token(parser)` (`ja_gettoken` in `textsearch_ja.c`): the
next node that is neither BOS nor EOS, and the advanced cursor. -/
def next_token : List mecab_node_t → Option mecab_node_t × List mecab_node_t
  | [] => (none, [])
  | n :: rest =>
    if n.stat = MECAB_BOS_NODE ∨ n.stat = MECAB_EOS_NODE then next_token rest
    else (some n, rest)

/-- The pointer comparison `node->surface < skip`; nothing is below `NULL`. -/
def surface_before (surface : Nat) (skip : Option Nat) : Bool :=
  match skip with
  | none => false
  | some p => surface < p

/-- The loop `do { node = next_token(parser); if (node == NULL) return 0; }
while (node->surface < skip)`; every iteration consumes a node, so as many
iterations as there are nodes always end it. -/
def skip_nodes (skip : Option Nat) : Nat → List mecab_node_t →
    Option mecab_node_t × List mecab_node_t
  | 0, nodes => (none, nodes)
  | fuel + 1, nodes =>
    match next_token nodes with
    | (none, rest) => (none, rest)
    | (some node, rest) =>
      if surface_before node.surface skip then skip_nodes skip fuel rest
      else (some node, rest)

/-- What a call of `gettoken` leaves: the returned type, the outputs `*t` and
`*tlen`, the parser and the global `current_node`. -/
structure gettoken_result where
  lextype : Nat
  t : Nat
  tlen : Nat
  parser : parser_data
  current_node : Option mecab_node_t
deriving Repr, DecidableEq

/-- The outcome of the `if (parser->last_node_pos == NULL)` statement. -/
inductive ascii_phase where
  | returned (r : gettoken_result)
  | analyzer (skip : Option Nat) (t tlen : Nat) (parser : parser_data)
deriving Repr, DecidableEq

/-- The loop `for (;;)` of `gettoken`, for a word test `isWord`
(`IS_MECAB_WORD`, `IS_JWORD`).  Every iteration calls the host's
`prsd_nexttoken(ascprs, &t, &tlen)`, modelled from the spec: it returns the
next token of the ASCII parser, and type 0 when the parser is done. -/
def ascii_loop (isWord : Nat → Bool) (parser : parser_data) (t0 tlen0 : Nat) :
    List prsd_token → ascii_phase
  | [] => ascii_phase.returned
      (gettoken_result.mk 0 t0 tlen0 { parser with ascprs := [] } none)
  | tok :: rest =>
    if tok.lextype = 0 then
      ascii_phase.returned
        (gettoken_result.mk 0 tok.t tok.tlen { parser with ascprs := rest } none)
    else if tok.lextype = SPACE ∧ tok.tlen > 0 ∧ byteAt parser.str tok.t = 0x0b then
      ascii_loop isWord parser tok.t tok.tlen rest
    else if isWord tok.lextype then
      ascii_phase.analyzer (some tok.t) tok.t tok.tlen
        { parser with ascprs := rest, last_node_pos := some (tok.t + tok.tlen) }
    else
      ascii_phase.returned
        (gettoken_result.mk tok.lextype tok.t tok.tlen
          { parser with ascprs := rest, last_node_pos := none } none)

/-- The statements of `gettoken` behind the `if`: pull the next node at or
after `skip`, classify it, store its surface in `*t` and `*tlen`, and clear
`last_node_pos` when the node reaches it.  `classify` is the statement that
sets `lextype` (`none` when it is undefined in C); `t1`, `tlen1` are the values
of `*t` and `*tlen` on entry. -/
def analyzer_phase (classify : mecab_node_t → Option Nat) (skip : Option Nat)
    (t1 tlen1 : Nat) (parser1 : parser_data) : Option gettoken_result :=
  match skip_nodes skip parser1.node.length parser1.node with
  | (none, rest) => some (gettoken_result.mk 0 t1 tlen1 { parser1 with node := rest } none)
  | (some node, rest) =>
    match classify node with
    | none => none
    | some lextype =>
      let last :=
        match parser1.last_node_pos with
        | none => none
        | some e => if node.surface + node.length ≥ e then none else some e
      some (gettoken_result.mk lextype node.surface node.length
        { parser1 with node := rest, last_node_pos := last } (some node))

/-- The text that `ts_mecabko_gettoken` and `ts_ja_gettoken` share: `isWord` is
the macro that sends a token to the analyzer, `classify` the statement that
sets `lextype` for the emitted node.  `t0` and `tlen0` are the values of `*t`
and `*tlen` at the call. -/
def gettoken (isWord : Nat → Bool) (classify : mecab_node_t → Option Nat)
    (parser : parser_data) (t0 tlen0 : Nat) : Option gettoken_result :=
  let phase :=
    match parser.last_node_pos with
    | none => ascii_loop isWord parser t0 tlen0 parser.ascprs
    | some _ => ascii_phase.analyzer none t0 tlen0 parser
  match phase with
  | ascii_phase.returned r => some r
  | ascii_phase.analyzer skip t1 tlen1 parser1 => analyzer_phase classify skip t1 tlen1 parser1

namespace TsMecabKo

/-- The macro `IS_MECAB_WORD(t)` as it is defined (the variant with `NUMWORD`
stands in a comment). -/
def IS_MECAB_WORD (t : Nat) : Bool :=
  t == WORD_T || t == NUMPARTHWORD || t == PARTHWORD || t == NUMHWORD || t == HWORD

/-- The array `accept_parts_of_speech`, NNG NNP NNB NNBC NR VV VA MM MAG XSN XR
SH, as bytes; the closing empty string is the end of the list. -/
def accept_parts_of_speech : List (List Nat) := [
  [0x4e, 0x4e, 0x47],
  [0x4e, 0x4e, 0x50],
  [0x4e, 0x4e, 0x42],
  [0x4e, 0x4e, 0x42, 0x43],
  [0x4e, 0x52],
  [0x56, 0x56],
  [0x56, 0x41],
  [0x4d, 0x4d],
  [0x4d, 0x41, 0x47],
  [0x58, 0x53, 0x4e],
  [0x58, 0x52],
  [0x53, 0x48]
]

/-- The function `accept_mecab_ko_part(str, slen)`.  The first `slen` bytes of
`str` are copied into `input_str[15]` and closed with NUL; `none` stands for
the undefined cases, a negative `slen` or one past the 15 bytes. -/
def accept_mecab_ko_part (str : List Nat) (slen : Int) : Option Bool :=
  if slen < 0 ∨ slen ≥ 15 then none
  else
    let input_str := str.take slen.toNat
    some (accept_parts_of_speech.any (fun a => strncmp_eq a input_str (slen.toNat + 1)))

/-- The text `Inflect,` that the conjugation-type column is compared with. -/
def Inflect_comma : List Nat := [0x49, 0x6e, 0x66, 0x6c, 0x65, 0x63, 0x74, 0x2c]

/-- The test `feature(node, MECAB_CONJTYPE, ..) && strncmp(.., "Inflect,", 8) == 0
&& feature(node, MECAB_DETAIL, ..)` of the tokenizer and the lexizer: `some`
of the detail column when it holds. -/
def inflect_detail (node : mecab_node_t) : Option (List Nat × Nat) :=
  match feature node MECAB_CONJTYPE with
  | none => none
  | some (conjstr, _) =>
    if strncmp_eq conjstr Inflect_comma 8 then feature node MECAB_DETAIL else none

/-- The statement of `ts_mecabko_gettoken` that sets `lextype` for the emitted
node.  `strchr(node->feature, ',') - node->feature` is undefined when the
feature has no comma. -/
def classify (node : mecab_node_t) : Option Nat :=
  match inflect_detail node with
  | some _ => some WORD_T
  | none =>
    match strchr node.feature 0x2c with
    | none => none
    | some next =>
      match accept_mecab_ko_part node.feature
          ((node.feature.length : Int) - (next.length : Int)) with
      | none => none
      | some true => some WORD_T
      | some false => some SPACE

/-- The function `ts_mecabko_gettoken`. -/
def ts_mecabko_gettoken (parser : parser_data) (t0 tlen0 : Nat) : Option gettoken_result :=
  gettoken IS_MECAB_WORD classify parser t0 tlen0

/-- The function `lexize(str, len)` of `ts_mecab_ko.c`: a copy of the `len`
bytes at `str` (closed with NUL). -/
def lexize (str : List Nat) (len : Nat) : List Nat := str.take len

/-- The first `do ... while (pluspos != NULL)` loop of `ts_mecabko_lexize`: it
counts into `pluscnt`; every further iteration starts behind a `+`, so one
iteration more than the bytes at `t` always ends it. -/
def count_loop : Nat → List Nat → Nat → Nat
  | 0, _, pluscnt => pluscnt
  | fuel + 1, t, pluscnt =>
    match strchr t 0x2b with
    | none => pluscnt + 1
    | some pluspos => count_loop fuel (pluspos.drop 1) (pluscnt + 1)

/-- The second `do ... while (pluspos != NULL)` loop of `ts_mecabko_lexize`, on
the array `res` and the index `i`.  `none` stands for the undefined cases:
arithmetic on a `NULL` `slashpos` or `commapos`, an undefined call of
`accept_mecab_ko_part`, a store behind the end of `res`. -/
def split_loop : Nat → List Nat → List (Option (List Nat)) → Nat →
    Option (List (Option (List Nat)))
  | 0, _, _, _ => none
  | fuel + 1, t, res, i =>
    match strchr t 0x2f with
    | none => none
    | some slashpos =>
      match strchr t 0x2b with
      | some pluspos =>
        match accept_mecab_ko_part (slashpos.drop 1)
            ((slashpos.length : Int) - (pluspos.length : Int) - 1) with
        | none => none
        | some true =>
          if i < res.length then
            split_loop fuel (pluspos.drop 1)
              (res.set i (some (lexize t (t.length - slashpos.length)))) (i + 1)
          else none
        | some false => split_loop fuel (pluspos.drop 1) res i
      | none =>
        match strchr t 0x2c with
        | none => none
        | some commapos =>
          match accept_mecab_ko_part (slashpos.drop 1)
              ((slashpos.length : Int) - (commapos.length : Int) - 1) with
          | none => none
          | some true =>
            if i < res.length then
              some (res.set i (some (lexize t (t.length - slashpos.length))))
            else none
          | some false => some res

/-- The function `ts_mecabko_lexize` for the global `current_node` and the
token `(t, tlen)`; `t` is the pointer as the bytes from there on.  The result
is the array `res` of `lexeme` pointers, `none` for a zeroed slot (the NIL
terminator); the outer `none` stands for an undefined run. -/
def ts_mecabko_lexize (current_node : Option mecab_node_t) (t : List Nat) (tlen : Nat) :
    Option (List (Option (List Nat))) :=
  match current_node with
  | some node =>
    let r1 := match feature node MECAB_CONJTYPE with
      | some r => r
      | none => (t, tlen)
    match inflect_detail node with
    | some (td, _) =>
      let pluscnt := count_loop (td.length + 1) td 0
      split_loop (td.length + 1) td (List.replicate (pluscnt + 1) none) 0
    | none =>
      let r2 := match feature node MECAB_BASIC with
        | some r => r
        | none => r1
      some [some (lexize r2.1 r2.2), none]
  | none => some [some (lexize t tlen), none]

end TsMecabKo

/-- The struct `IgnorableWord`. -/
structure IgnorableWord where
  len : Nat
  word : List Nat
deriving Repr, DecidableEq

/-- The table `IGNORE_UTF8` as it is compiled: the Japanese entries stand in
comments, the 28 Korean tags follow, each with its comma; the closing `{ 0 }`
is the end of the list. -/
def IGNORE_UTF8 : List IgnorableWord := [
  IgnorableWord.mk 4 [0x4a, 0x4b, 0x53, 0x2c],
  IgnorableWord.mk 4 [0x4a, 0x4b, 0x43, 0x2c],
  IgnorableWord.mk 4 [0x4a, 0x4b, 0x47, 0x2c],
  IgnorableWord.mk 4 [0x4a, 0x4b, 0x4f, 0x2c],
  IgnorableWord.mk 4 [0x4a, 0x4b, 0x42, 0x2c],
  IgnorableWord.mk 4 [0x4a, 0x4b, 0x56, 0x2c],
  IgnorableWord.mk 4 [0x4a, 0x4b, 0x51, 0x2c],
  IgnorableWord.mk 3 [0x4a, 0x58, 0x2c],
  IgnorableWord.mk 3 [0x4a, 0x43, 0x2c],
  IgnorableWord.mk 3 [0x53, 0x46, 0x2c],
  IgnorableWord.mk 3 [0x53, 0x45, 0x2c],
  IgnorableWord.mk 4 [0x53, 0x53, 0x4f, 0x2c],
  IgnorableWord.mk 4 [0x53, 0x53, 0x43, 0x2c],
  IgnorableWord.mk 3 [0x53, 0x43, 0x2c],
  IgnorableWord.mk 3 [0x53, 0x59, 0x2c],
  IgnorableWord.mk 4 [0x4e, 0x4e, 0x42, 0x2c],
  IgnorableWord.mk 3 [0x4e, 0x50, 0x2c],
  IgnorableWord.mk 3 [0x49, 0x43, 0x2c],
  IgnorableWord.mk 3 [0x45, 0x50, 0x2c],
  IgnorableWord.mk 3 [0x45, 0x46, 0x2c],
  IgnorableWord.mk 3 [0x45, 0x43, 0x2c],
  IgnorableWord.mk 4 [0x45, 0x54, 0x4e, 0x2c],
  IgnorableWord.mk 4 [0x45, 0x54, 0x4d, 0x2c],
  IgnorableWord.mk 4 [0x58, 0x53, 0x4e, 0x2c],
  IgnorableWord.mk 4 [0x58, 0x53, 0x56, 0x2c],
  IgnorableWord.mk 4 [0x58, 0x53, 0x41, 0x2c],
  IgnorableWord.mk 4 [0x56, 0x43, 0x50, 0x2c],
  IgnorableWord.mk 4 [0x56, 0x43, 0x4e, 0x2c]
]

namespace TextsearchJa

/-- The macro `IS_JWORD(t)`. -/
def IS_JWORD (t : Nat) : Bool :=
  t == WORD_T || t == NUMWORD || t == NUMPARTHWORD || t == PARTHWORD ||
    t == NUMHWORD || t == HWORD

/-- The loop of `ignore` over a table: `strncmp(node->feature, ignore->word,
ignore->len) == 0` for some entry. -/
def ignore_loop (node : mecab_node_t) : List IgnorableWord → Bool
  | [] => false
  | w :: rest =>
    if w.len > 0 then
      if strncmp_eq node.feature w.word w.len then true else ignore_loop node rest
    else false

/-- The function `ignore(node)` for the database encoding UTF-8. -/
def ignore (node : mecab_node_t) : Bool := ignore_loop node IGNORE_UTF8

/-- The statement of `ts_ja_gettoken` that sets `lextype` for the emitted node. -/
def classify (node : mecab_node_t) : Option Nat :=
  some (if ignore node then SPACE else WORD_T)

/-- The function `ts_ja_gettoken` for the database encoding UTF-8. -/
def ts_ja_gettoken (parser : parser_data) (t0 tlen0 : Nat) : Option gettoken_result :=
  gettoken IS_JWORD classify parser t0 tlen0

end TextsearchJa

/-- Modelled from the spec: the host's use of the parser, repeated `next()`
calls until the terminator 0; the result is the list of the tokens returned
before it.  Every call that returns a token consumes a token of the ASCII
parser or a node, so one call more than there are of both always reaches the
terminator; `none` stands for a run that does not (or is undefined). -/
def token_stream (isWord : Nat → Bool) (classify : mecab_node_t → Option Nat) :
    Nat → parser_data → Nat → Nat → Option (List prsd_token)
  | 0, _, _, _ => none
  | fuel + 1, parser, t0, tlen0 =>
    match gettoken isWord classify parser t0 tlen0 with
    | none => none
    | some r =>
      if r.lextype = 0 then some []
      else
        match token_stream isWord classify fuel r.parser r.t r.tlen with
        | none => none
        | some toks => some (prsd_token.mk r.lextype r.t r.tlen :: toks)

/-- Modelled from the spec: the parser that `start` leaves for a normalized
buffer, the analyzer's node list for it and the ASCII parser's tokens for it:
no analyzer region is active. -/
def parser_start (str : List Nat) (node : List mecab_node_t) (ascprs : List prsd_token) :
    parser_data :=
  { str := str, node := node, ascprs := ascprs, last_node_pos := none }

/-- The constant `DASH`, the long-vowel mark ー, and the macros `CHAR_LEN` and
`DASH_LEN`. -/
def DASH : List Nat := [0xe3, 0x83, 0xbc]
def CHAR_LEN : Nat := 3
def DASH_LEN : Nat := 3

/-- The function `lexize_utf8(s, len)`: `none` stands for `NULL`, `some` for
the copy of the first `len` bytes, or of 3 bytes less.  The test
`memcmp(&str[len - DASH_LEN], DASH, DASH_LEN) == 0` compares the last 3 of the
`len` bytes with `DASH`. -/
def lexize_utf8 (s : List Nat) (len : Nat) : Option (List Nat) :=
  let widen := WIDEN (byteAt s 1) (byteAt s 2)
  if len = CHAR_LEN ∧ byteAt s 0 = 0xe3 ∧ 0x8181 ≤ widen ∧ widen ≤ 0x83b6 then none
  else
    let len1 :=
      if len ≥ 4 * CHAR_LEN ∧
          (List.range DASH_LEN).map (fun i => byteAt s (len - DASH_LEN + i)) = DASH
      then len - DASH_LEN else len
    some (s.take len1)

/-- The function `appendString(dst, src, srclen)` of `ts_mecab_ko.c`, the
appender that `ts_mecabko_start` hands to `normalize`; `SEPARATOR_CHAR` is
the vertical tab there too. -/
def TsMecabKo.appendString : append_t := fun dst src =>
  let srclen := src.length
  if srclen = 1 ∧ ¬ TextsearchJa.isprint (byteAt src 0) then
    if dst.length = 0 ∨ StringInfoTail dst 1 0 ≠ 0x0b then
      appendStringInfoChar dst 0x0b
    else dst
  else if dst.length > 1 then
    let dst1 :=
      if StringInfoTail dst 1 0 = 0x0b then
        let ishigh := TextsearchJa.IS_HIGHBIT_SET (StringInfoTail dst 2 0)
        if srclen = 1 ∧ ¬ ishigh then setStringInfoTail dst 1 0 0x20
        else if ishigh then dst.take (dst.length - 1)
        else dst
      else
        let ishigh := TextsearchJa.IS_HIGHBIT_SET (StringInfoTail dst 1 0)
        if (srclen = 1 ∧ ishigh) ∨ (srclen > 1 ∧ ¬ ishigh) then
          appendStringInfoChar dst 0x0b
        else dst
    appendBinaryStringInfo dst1 src
  else appendBinaryStringInfo dst src

/-- The pre-pass of `ts_mecabko_start`: `normalize(&parser->str, input, len,
appendString)` on a fresh buffer. -/
def TsMecabKo.ts_mecabko_start_normalize (input : List Nat) : List Nat :=
  TsMecabKo.normalize [] input TsMecabKo.appendString

/-- The call of `korean_normalize`: `normalize(&str, ..., appendBinaryStringInfo)`
on a fresh buffer. -/
def TsMecabKo.korean_normalize_call (txt : List Nat) : List Nat :=
  TsMecabKo.normalize [] txt appendBinaryStringInfo

/-! ## Vocabulary of the statements -/

/-- The UTF-8 encoding of a codepoint of `U+0800..U+FFFF`, 3 bytes. -/
def utf8_encode3 (c : Nat) : List Nat :=
  [0xe0 + c / 0x1000, 0x80 + c / 0x40 % 0x40, 0x80 + c % 0x40]

/-- The codepoint that 3 bytes encode when they are well-formed UTF-8. -/
def utf8_decode3 (b : List Nat) : Nat :=
  (byteAt b 0 - 0xe0) * 0x1000 + (byteAt b 1 - 0x80) * 0x40 + (byteAt b 2 - 0x80)

/-- A byte list is one well-formed 3-byte UTF-8 character: lead byte
`E0..EF`, two continuation bytes `80..BF`, neither overlong nor a surrogate. -/
abbrev wellFormed3 (b : List Nat) : Prop :=
  b.length = 3 ∧ 0xe0 ≤ byteAt b 0 ∧ byteAt b 0 ≤ 0xef ∧
  0x80 ≤ byteAt b 1 ∧ byteAt b 1 ≤ 0xbf ∧ 0x80 ≤ byteAt b 2 ∧ byteAt b 2 ≤ 0xbf ∧
  0x800 ≤ utf8_decode3 b ∧ ¬ (0xd800 ≤ utf8_decode3 b ∧ utf8_decode3 b ≤ 0xdfff)

/-- The hiragana that take a dakuten: か き く け こ さ し す せ そ た ち つ て と は ひ ふ へ ほ. -/
def hiraganaVoicable : List Nat := [
  0x304b, 0x304d, 0x304f, 0x3051, 0x3053, 0x3055, 0x3057, 0x3059, 0x305b, 0x305d,
  0x305f, 0x3061, 0x3064, 0x3066, 0x3068, 0x306f, 0x3072, 0x3075, 0x3078, 0x307b]

/-- Their katakana counterparts カ..ホ, `0x60` codepoints further. -/
def katakanaVoicable : List Nat := hiraganaVoicable.map (fun k => k + 0x60)

/-- The fusible set of the dakuten property: the 20 hiragana and the 20 katakana. -/
def fusibleKana : List Nat := hiraganaVoicable ++ katakanaVoicable

/-- The kana of the `+1` cases: the fusible set without タ (U+30BF). -/
def plus1Kana : List Nat := fusibleKana.filter (fun k => k != 0x30bf)

/-- The kana that take a handakuten: は ひ ふ へ ほ ハ ヒ フ ヘ ホ. -/
def plus2Kana : List Nat := [
  0x306f, 0x3072, 0x3075, 0x3078, 0x307b, 0x30cf, 0x30d2, 0x30d5, 0x30d8, 0x30db]

/-- The key of a codepoint in the tables and switches: the last two bytes of
its 3-byte UTF-8 encoding, joined. -/
def lowKey (c : Nat) : Nat := WIDEN (byteAt (utf8_encode3 c) 1) (byteAt (utf8_encode3 c) 2)

/-- The full-width forms of the half-width katakana block `U+FF66..U+FF9F`, in
codepoint order: ヲ, the small ァ ィ ゥ ェ ォ ャ ュ ョ ッ, the long-vowel mark ー,
ア..ン, and the voicing marks ゛ (U+309B) and ゜ (U+309C). -/
def fullwidthOfHalfwidth : List Nat := [
  0x30f2, 0x30a1, 0x30a3, 0x30a5, 0x30a7, 0x30a9, 0x30e3, 0x30e5, 0x30e7, 0x30c3,
  0x30fc, 0x30a2, 0x30a4, 0x30a6, 0x30a8, 0x30aa, 0x30ab, 0x30ad, 0x30af, 0x30b1,
  0x30b3, 0x30b5, 0x30b7, 0x30b9, 0x30bb, 0x30bd, 0x30bf, 0x30c1, 0x30c4, 0x30c6,
  0x30c8, 0x30ca, 0x30cb, 0x30cc, 0x30cd, 0x30ce, 0x30cf, 0x30d2, 0x30d5, 0x30d8,
  0x30db, 0x30de, 0x30df, 0x30e0, 0x30e1, 0x30e2, 0x30e4, 0x30e6, 0x30e8, 0x30e9,
  0x30ea, 0x30eb, 0x30ec, 0x30ed, 0x30ef, 0x30f3, 0x309b, 0x309c]

/-- The half-width katakana ｳ, ｶ..ｺ, ｻ..ｿ, ﾀ..ﾄ, ﾊ..ﾎ, each with the full-width
voiced katakana ヴ, ガ..ゴ, ザ..ゾ, ダ..ド, バ..ボ. -/
def halfwidthVoiced : List (Nat × Nat) := [
  (0xff73, 0x30f4), (0xff76, 0x30ac), (0xff77, 0x30ae), (0xff78, 0x30b0), (0xff79, 0x30b2),
  (0xff7a, 0x30b4), (0xff7b, 0x30b6), (0xff7c, 0x30b8), (0xff7d, 0x30ba), (0xff7e, 0x30bc),
  (0xff7f, 0x30be), (0xff80, 0x30c0), (0xff81, 0x30c2), (0xff82, 0x30c5), (0xff83, 0x30c7),
  (0xff84, 0x30c9), (0xff8a, 0x30d0), (0xff8b, 0x30d3), (0xff8c, 0x30d6), (0xff8d, 0x30d9),
  (0xff8e, 0x30dc)]

/-- The half-width katakana ﾊ..ﾎ, each with the full-width semi-voiced katakana パ..ポ. -/
def halfwidthSemiVoiced : List (Nat × Nat) := [
  (0xff8a, 0x30d1), (0xff8b, 0x30d4), (0xff8c, 0x30d7), (0xff8d, 0x30da), (0xff8e, 0x30dd)]

/-- The Korean filter tags JKS JKC JKG JKO JKB JKV JKQ JX JC SF SE SSO SSC SC SY
NNB NP IC EP EF EC ETN ETM XSN XSV XSA VCP VCN, as bytes. -/
def koreanFilterTags : List (List Nat) := [
  [0x4a, 0x4b, 0x53], [0x4a, 0x4b, 0x43], [0x4a, 0x4b, 0x47], [0x4a, 0x4b, 0x4f],
  [0x4a, 0x4b, 0x42], [0x4a, 0x4b, 0x56], [0x4a, 0x4b, 0x51], [0x4a, 0x58],
  [0x4a, 0x43], [0x53, 0x46], [0x53, 0x45], [0x53, 0x53, 0x4f],
  [0x53, 0x53, 0x43], [0x53, 0x43], [0x53, 0x59], [0x4e, 0x4e, 0x42],
  [0x4e, 0x50], [0x49, 0x43], [0x45, 0x50], [0x45, 0x46],
  [0x45, 0x43], [0x45, 0x54, 0x4e], [0x45, 0x54, 0x4d], [0x58, 0x53, 0x4e],
  [0x58, 0x53, 0x56], [0x58, 0x53, 0x41], [0x56, 0x43, 0x50], [0x56, 0x43, 0x4e]
]

/-- The tags NNB and XSN, which stand on the filter list and on the whitelist
`accept_parts_of_speech`. -/
def tagNNB : List Nat := [0x4e, 0x4e, 0x42]
def tagXSN : List Nat := [0x58, 0x53, 0x4e]

/-- The feature string `NNB,*,F,*,*,*,*,*` of a dependent noun. -/
def featureNNB : List Nat :=
  [0x4e, 0x4e, 0x42, 0x2c, 0x2a, 0x2c, 0x46, 0x2c, 0x2a, 0x2c, 0x2a, 0x2c, 0x2a, 0x2c, 0x2a,
   0x2c, 0x2a]

/-- The feature string `SL,*,*,*,*,*,*,*` of a foreign-language word. -/
def featureSL : List Nat :=
  [0x53, 0x4c, 0x2c, 0x2a, 0x2c, 0x2a, 0x2c, 0x2a, 0x2c, 0x2a, 0x2c, 0x2a, 0x2c, 0x2a, 0x2c, 0x2a]

/-- The feature string `JKS,*,T,*,*,*,*,*` of a subject particle. -/
def featureJKS : List Nat :=
  [0x4a, 0x4b, 0x53, 0x2c, 0x2a, 0x2c, 0x54, 0x2c, 0x2a, 0x2c, 0x2a, 0x2c, 0x2a, 0x2c, 0x2a,
   0x2c, 0x2a]

/-- The parser after `start` on the text `ABC`: the ASCII parser has the single
word token `ABC`, of the host's type `ASCIIWORD`, the analyzer the nodes BOS,
`ABC` (tagged SL) and EOS. -/
def parserABC : parser_data :=
  { str := [0x41, 0x42, 0x43],
    node := [mecab_node_t.mk 0 0 MECAB_BOS_NODE [], mecab_node_t.mk 0 3 0 featureSL,
      mecab_node_t.mk 3 0 MECAB_EOS_NODE []],
    ascprs := [prsd_token.mk ASCIIWORD 0 3],
    last_node_pos := none }

/-- The parser after `start` on the text `것` (EA B2 83): the ASCII parser has
the single token `것` of type `WORD_T`, a word with letters outside ASCII, the
analyzer the nodes BOS, `것` (tagged NNB) and EOS. -/
def parserGeot : parser_data :=
  { str := [0xea, 0xb2, 0x83],
    node := [mecab_node_t.mk 0 0 MECAB_BOS_NODE [], mecab_node_t.mk 0 3 0 featureNNB,
      mecab_node_t.mk 3 0 MECAB_EOS_NODE []],
    ascprs := [prsd_token.mk WORD_T 0 3],
    last_node_pos := none }

/-- The UTF-8 text of a list of codepoints of `U+0800..U+FFFF`. -/
def utf8_text3 (cs : List Nat) : List Nat := cs.flatMap utf8_encode3

/-- The nodes that `next_token` returns: those that are neither BOS nor EOS. -/
def real_nodes (nodes : List mecab_node_t) : List mecab_node_t :=
  nodes.filter (fun n => !(n.stat == MECAB_BOS_NODE || n.stat == MECAB_EOS_NODE))

/-- The tokens of the ASCII parser partition the bytes `p..q` of the buffer:
each is non-empty, has a type other than 0, and starts where the one before
ends. -/
def tokens_partition : List prsd_token → Nat → Nat → Prop
  | [], p, q => p = q
  | tok :: rest, p, q =>
    tok.t = p ∧ tok.tlen > 0 ∧ tok.lextype ≠ 0 ∧ tokens_partition rest (p + tok.tlen) q

/-- The surfaces of the nodes partition the bytes `p..q` of the buffer in
order: each is non-empty and starts where the one before ends. -/
def nodes_partition : List mecab_node_t → Nat → Nat → Prop
  | [], p, q => p = q
  | n :: rest, p, q =>
    n.surface = p ∧ n.length > 0 ∧ nodes_partition rest (p + n.length) q

/-- The position `x` is a boundary of the nodes that partition the bytes from
`p` on: the start of a node or the end of the last one. -/
def node_boundary : List mecab_node_t → Nat → Nat → Prop
  | [], p, x => x = p
  | n :: rest, p, x => x = p ∨ node_boundary rest (p + n.length) x

/-- The byte `i` lies in the range of one of the tokens. -/
def covered (toks : List prsd_token) (i : Nat) : Prop :=
  ∃ tok ∈ toks, tok.t ≤ i ∧ i < tok.t + tok.tlen

/-- The byte `i` lies in a SPACE token of the ASCII parser that begins with the
SEPARATOR byte, the tokens that `gettoken` discards. -/
def in_separator (str : List Nat) (ascprs : List prsd_token) (i : Nat) : Prop :=
  ∃ tok ∈ ascprs, tok.lextype = SPACE ∧ byteAt str tok.t = 0x0b ∧
    tok.t ≤ i ∧ i < tok.t + tok.tlen

/-- The returned tokens lie at or behind `p`, in increasing order without
overlap; every byte of `p..q` lies in one of them or in a discarded separator
token, and no byte of a returned token lies in a discarded separator token. -/
def partition_from (str : List Nat) (ascprs toks : List prsd_token) (p q : Nat) : Prop :=
  (∀ tok ∈ toks, p ≤ tok.t ∧ tok.lextype ≠ 0) ∧
  toks.Pairwise (fun a b => a.t + a.tlen ≤ b.t) ∧
  (∀ i, p ≤ i → i < q → covered toks i ∨ in_separator str ascprs i) ∧
  ∀ i, covered toks i → ¬ in_separator str ascprs i

/-- The buffer `AB`, SEPARATOR, `あ` that the pre-pass of `ts_ja_start` makes of
`ABあ`, with the tokens of the ASCII parser (`AB` of type `ASCIIWORD`, the
separator of type `SPACE`, `あ` of type `WORD_T`) and analyzer nodes whose
surfaces partition the buffer. -/
def parserSeparated : parser_data :=
  parser_start [0x41, 0x42, 0x0b, 0xe3, 0x81, 0x82]
    [mecab_node_t.mk 0 0 MECAB_BOS_NODE [], mecab_node_t.mk 0 2 0 featureSL,
      mecab_node_t.mk 2 1 0 featureSL, mecab_node_t.mk 3 3 0 featureNNB,
      mecab_node_t.mk 6 0 MECAB_EOS_NODE []]
    [prsd_token.mk ASCIIWORD 0 2, prsd_token.mk SPACE 2 1, prsd_token.mk WORD_T 3 3]

/-- The buffer `AB`, SEPARATOR, space, `것` that the normalizer of
`ts_mecabko_start` makes of `AB`, vertical tab, `것`, with the tokens of the
ASCII parser (`AB` of type `ASCIIWORD`, the blank run of type `SPACE`, `것` of
type `WORD_T`) and analyzer nodes whose surfaces partition the buffer. -/
def parserSeparatedKo : parser_data :=
  parser_start [0x41, 0x42, 0x0b, 0x20, 0xea, 0xb2, 0x83]
    [mecab_node_t.mk 0 0 MECAB_BOS_NODE [], mecab_node_t.mk 0 2 0 featureSL,
      mecab_node_t.mk 2 2 0 featureSL, mecab_node_t.mk 4 3 0 featureNNB,
      mecab_node_t.mk 7 0 MECAB_EOS_NODE []]
    [prsd_token.mk ASCIIWORD 0 2, prsd_token.mk SPACE 2 2, prsd_token.mk WORD_T 4 3]

/-- The state of the tokenizer when everything before the byte `p` is done, for
a buffer of `L` bytes.  With no analyzer region active, the remaining tokens of
the ASCII parser partition `p..L` and the remaining nodes partition `q..L` for
some `q ≤ p`; with a region active up to `e`, the remaining nodes partition
`p..L`, `e` is a node boundary and the remaining tokens partition `e..L`.  In
both cases every remaining token that `isWord` sends to the analyzer starts
and ends at a node boundary. -/
def stream_inv (isWord : Nat → Bool) (L : Nat) (parser : parser_data) (p : Nat) : Prop :=
  (parser.last_node_pos = none ∧ tokens_partition parser.ascprs p L ∧
    ∃ q, q ≤ p ∧ nodes_partition (real_nodes parser.node) q L ∧
      ∀ tok ∈ parser.ascprs, isWord tok.lextype = true →
        node_boundary (real_nodes parser.node) q tok.t ∧
        node_boundary (real_nodes parser.node) q (tok.t + tok.tlen)) ∨
  (∃ e, parser.last_node_pos = some e ∧ p < e ∧ tokens_partition parser.ascprs e L ∧
    nodes_partition (real_nodes parser.node) p L ∧
    node_boundary (real_nodes parser.node) p e ∧
    ∀ tok ∈ parser.ascprs, isWord tok.lextype = true →
      node_boundary (real_nodes parser.node) p tok.t ∧
      node_boundary (real_nodes parser.node) p (tok.t + tok.tlen))

/-- The buffers that `normalize_utf8` (verbatim appender) reproduces: each is a
sequence of complete characters, every one of which the loop body appends as it
is to what stands before it. -/
inductive Stable : List Nat → Prop
  | nil : Stable []
  | snoc (d c : List Nat) : Stable d → c ≠ [] → c.length = uchar_mblen c →
      normalize_utf8_body appendBinaryStringInfo d c = (d ++ c, c.length) → Stable (d ++ c)

/-- A feature string given by its columns: every column is followed by a comma. -/
def csv_columns (cols : List (List Nat)) : List Nat := cols.flatMap (fun c => c ++ [0x2c])

/-- The text `Inflect` of the conjugation-type column. -/
def Inflect : List Nat := [0x49, 0x6e, 0x66, 0x6c, 0x65, 0x63, 0x74]

/-- The text `surface/POS` of a morph `(surface, POS)`. -/
def morph_text (m : List Nat × List Nat) : List Nat := m.1 ++ 0x2f :: m.2

/-- The detail column of a list of morphs: their texts, separated by `+`. -/
def detail_text : List (List Nat × List Nat) → List Nat
  | [] => []
  | [m] => morph_text m
  | m :: m2 :: rest => morph_text m ++ 0x2b :: detail_text (m2 :: rest)

/-- The feature string of an inflected node: columns 0 to 3, `Inflect` in
column 4, columns 5 and 6, the morphs in column 7, each column followed by a
comma, and then `post`, whatever stands behind the comma of column 7. -/
def inflected_feature (c0 c1 c2 c3 c5 c6 : List Nat) (morphs : List (List Nat × List Nat))
    (post : List Nat) : List Nat :=
  csv_columns [c0, c1, c2, c3, Inflect, c5, c6, detail_text morphs] ++ post

/-- The surfaces of the morphs whose part of speech is on the whitelist
`accept_parts_of_speech`, in order. -/
def accepted_surfaces (morphs : List (List Nat × List Nat)) : List (List Nat) :=
  (morphs.filter (fun m => decide (m.2 ∈ TsMecabKo.accept_parts_of_speech))).map Prod.fst

/-- The morphs `가깝/VV`, `어/EC`, `었/EP`. -/
def morphsGakkap : List (List Nat × List Nat) := [
  ([0xea, 0xb0, 0x80, 0xea, 0xb9, 0x9d], [0x56, 0x56]),
  ([0xec, 0x96, 0xb4], [0x45, 0x43]),
  ([0xec, 0x97, 0x88], [0x45, 0x50])]

/-- An inflected node with the feature string
`VV+EC+EP,*,F,가까워,Inflect,VV,EP,가깝/VV+어/EC+었/EP,`. -/
def nodeGakkawo : mecab_node_t :=
  mecab_node_t.mk 0 9 0
    (inflected_feature [0x56, 0x56, 0x2b, 0x45, 0x43, 0x2b, 0x45, 0x50] [0x2a] [0x46]
      [0xea, 0xb0, 0x80, 0xea, 0xb9, 0x8c, 0xec, 0x9b, 0x8c] [0x56, 0x56] [0x45, 0x50]
      morphsGakkap [])

/-- An inflected node with the feature string `VV,*,F,x,Inflect,VV,EC,a/VV,b+c/NNG,`:
column 7 is the single morph `a/VV`, and a `+` stands in the column behind it. -/
def nodePlusBehind : mecab_node_t :=
  mecab_node_t.mk 0 1 0
    (inflected_feature [0x56, 0x56] [0x2a] [0x46] [0x78] [0x56, 0x56] [0x45, 0x43]
      [([0x61], [0x56, 0x56])] [0x62, 0x2b, 0x63, 0x2f, 0x4e, 0x4e, 0x47, 0x2c])

/-- An inflected node with the feature string `VV,*,F,x,Inflect,VV,EC,a/VVVVVVVVVVVVVVV,`:
the part of speech of its morph has 15 bytes. -/
def nodeLongPos : mecab_node_t :=
  mecab_node_t.mk 0 1 0
    (inflected_feature [0x56, 0x56] [0x2a] [0x46] [0x78] [0x56, 0x56] [0x45, 0x43]
      [([0x61], List.replicate 15 0x56)] [])

/-- A node with the feature string `NNG,*,F,*,Compound,*,*,*`: no base form in
column 3, `Compound` in column 4. -/
def nodeCompound : mecab_node_t :=
  mecab_node_t.mk 0 3 0
    [0x4e, 0x4e, 0x47, 0x2c, 0x2a, 0x2c, 0x46, 0x2c, 0x2a, 0x2c, 0x43, 0x6f, 0x6d, 0x70, 0x6f,
     0x75, 0x6e, 0x64, 0x2c, 0x2a, 0x2c, 0x2a, 0x2c, 0x2a]

/-- A node with the feature string `VV,*,F,*,Inflect,*,*,*`: no base form in
column 3, `Inflect` in column 4, no detail in column 7. -/
def nodeInflectNoDetail : mecab_node_t :=
  mecab_node_t.mk 0 3 0
    [0x56, 0x56, 0x2c, 0x2a, 0x2c, 0x46, 0x2c, 0x2a, 0x2c, 0x49, 0x6e, 0x66, 0x6c, 0x65, 0x63,
     0x74, 0x2c, 0x2a, 0x2c, 0x2a, 0x2c, 0x2a]

/-- A node with the feature string `NNG,*,T,한국,*,*,*,*`: the base form `한국` in
column 3. -/
def nodeHanguk : mecab_node_t :=
  mecab_node_t.mk 0 6 0
    [0x4e, 0x4e, 0x47, 0x2c, 0x2a, 0x2c, 0x54, 0x2c, 0xed, 0x95, 0x9c, 0xea, 0xb5, 0xad, 0x2c,
     0x2a, 0x2c, 0x2a, 0x2c, 0x2a, 0x2c, 0x2a]

/-- The four recognized forms of the voicing marks: the wide dakuten and
handakuten (U+309B, U+309C) and the half-width ones (U+FF9E, U+FF9F). -/
def voicingMarks : List (List Nat) := [DAKUTEN_WIDE, HANDAKU_WIDE, DAKUTEN_HALF, HANDAKU_HALF]

/-- The wide form of a voicing mark: the half-width marks have the wide marks
as their `UTF8_MAP` images. -/
def wideMark (m : List Nat) : List Nat :=
  if m = DAKUTEN_HALF then DAKUTEN_WIDE
  else if m = HANDAKU_HALF then HANDAKU_WIDE
  else m

/-- The kana that fuse with a mark: for a dakuten う, ウ and the fusible set, for
a handakuten は ひ ふ へ ほ ハ ヒ フ ヘ ホ. -/
def markKana (m : List Nat) : List Nat :=
  if m = DAKUTEN_WIDE ∨ m = DAKUTEN_HALF then 0x3046 :: 0x30a6 :: fusibleKana
  else if m = HANDAKU_WIDE ∨ m = HANDAKU_HALF then plus2Kana
  else []

/-- The buffer ends in a character that is voicing-compatible with the mark `m`. -/
abbrev voicingCompatible (dst m : List Nat) : Prop :=
  ∃ k ∈ markKana m, utf8_encode3 k <:+ dst

/-- The fold of the `switch` of `normalize_utf8` on the characters with lead
byte E2 or E3: the quotes U+2018, U+2019, U+201D and the full-width space
U+3000 become one ASCII byte, every other character stays as it is. -/
def foldedChar (c : List Nat) : List Nat :=
  if c = [0xe2, 0x80, 0x98] then [0x60]
  else if c = [0xe2, 0x80, 0x99] then [0x27]
  else if c = [0xe2, 0x80, 0x9d] then [0x22]
  else if c = [0xe3, 0x80, 0x80] then [0x20]
  else c

/-- The comma-separated columns of a feature string, by the words of the
claim: the text is cut at every comma, so a string with `k` commas has `k + 1`
columns, some of them possibly empty. -/
def feature_columns : List Nat → List (List Nat)
  | [] => [[]]
  | b :: rest =>
    if b = 0x2c then [] :: feature_columns rest
    else
      match feature_columns rest with
      | [] => [[b]]
      | c :: cs => (b :: c) :: cs

/-- The byte offset at which column `n` starts: the lengths of the columns
before it and one comma for each. -/
def column_offset (cols : List (List Nat)) (n : Nat) : Nat :=
  ((cols.take n).map (fun c => c.length + 1)).sum

/-- A character of the two kinds the Korean normalizer tells apart: one ASCII
byte other than NUL, or a well-formed 3-byte character. -/
abbrev koChar (c : List Nat) : Prop :=
  (c.length = 1 ∧ 0 < byteAt c 0 ∧ byteAt c 0 < 0x80) ∨ wellFormed3 c

/-- A full-width ASCII character: a well-formed 3-byte character of
`U+FF00..U+FF5E`. -/
abbrev fullwidthAscii (c : List Nat) : Prop :=
  wellFormed3 c ∧ 0xff00 ≤ utf8_decode3 c ∧ utf8_decode3 c ≤ 0xff5e

/-- A single-byte character or a full-width ASCII character. -/
abbrev singleLike (c : List Nat) : Prop := c.length = 1 ∨ fullwidthAscii c

/-- A 3-byte character that is not full-width ASCII. -/
abbrev wide3 (c : List Nat) : Prop := wellFormed3 c ∧ ¬ fullwidthAscii c

/-- A single-byte character that is one of the ASCII signs of `ascii_sign`
(the space among them). -/
abbrev asciiSign (c : List Nat) : Prop := c.length = 1 ∧ byteAt c 0 ∈ TsMecabKo.ascii_sign

/-- The pairs of adjacent characters between which a space belongs, by the
words of the claim: one is single-byte or full-width ASCII, the other a 3-byte
character that is not full-width ASCII, and the single-byte character is no
ASCII sign. -/
abbrev spaceBetween (c n : List Nat) : Prop :=
  (singleLike c ∧ wide3 n ∧ ¬ asciiSign c) ∨ (wide3 c ∧ singleLike n ∧ ¬ asciiSign n)

/-- A text that is a sequence of complete characters as the normalizers step
through it: every character has the length that its lead byte announces. -/
inductive Aligned : List Nat → Prop
  | nil : Aligned []
  | cons (c rest : List Nat) : c ≠ [] → c.length = uchar_mblen c → Aligned rest →
      Aligned (c ++ rest)

/-- A continuation byte of UTF-8, `80..BF`. -/
abbrev contByte (b : Nat) : Prop := 0x80 ≤ b ∧ b ≤ 0xbf

/-- A byte list is one complete well-formed UTF-8 character: an ASCII byte, a
2-byte character with lead `C2..DF`, a well-formed 3-byte character, or a
4-byte character of `U+10000..U+10FFFF`. -/
abbrev utf8Char (c : List Nat) : Prop :=
  (c.length = 1 ∧ byteAt c 0 < 0x80) ∨
  (c.length = 2 ∧ 0xc2 ≤ byteAt c 0 ∧ byteAt c 0 ≤ 0xdf ∧ contByte (byteAt c 1)) ∨
  wellFormed3 c ∨
  (c.length = 4 ∧ 0xf0 ≤ byteAt c 0 ∧ byteAt c 0 ≤ 0xf4 ∧ contByte (byteAt c 1) ∧
    contByte (byteAt c 2) ∧ contByte (byteAt c 3) ∧
    (byteAt c 0 ≠ 0xf0 ∨ 0x90 ≤ byteAt c 1) ∧ (byteAt c 0 ≠ 0xf4 ∨ byteAt c 1 ≤ 0x8f))

/-- Well-formed UTF-8 text: a concatenation of complete well-formed characters. -/
inductive Utf8 : List Nat → Prop
  | nil : Utf8 []
  | cons (c rest : List Nat) : utf8Char c → Utf8 rest → Utf8 (c ++ rest)

/-- The bytes that the `switch` of `normalize_utf8` emits for the character `c`
on its own: one ASCII byte for a folded character, the table image for a
character of `UTF8_MAP`, the character itself otherwise. -/
def emitted (c : List Nat) : List Nat :=
  normalize_utf8_switch appendBinaryStringInfo [] c c.length

/-- A printable ASCII byte other than the space. -/
abbrev glyphByte (b : Nat) : Prop := 0x21 ≤ b ∧ b ≤ 0x7e

/-- Two neighbouring bytes of which one is a printable ASCII byte other than
the space and the other a byte of a multi-byte character. -/
abbrev mixedPair (a b : Nat) : Prop := (glyphByte a ∧ 0x80 ≤ b) ∨ (0x80 ≤ a ∧ glyphByte b)

/-- No printable ASCII byte other than the space stands next to a byte of a
multi-byte character. -/
abbrev noMixedPair (out : List Nat) : Prop := out.Chain' (fun a b => ¬ mixedPair a b)

/-- A character that is emitted as one printable ASCII byte other than the space. -/
abbrev asciiGlyph (c : List Nat) : Prop :=
  (emitted c).length = 1 ∧ glyphByte (byteAt (emitted c) 0)

/-- A character that is emitted as a multi-byte character. -/
abbrev wideGlyph (c : List Nat) : Prop := 1 < (emitted c).length

/-- A non-printable single byte. -/
abbrev controlChar (c : List Nat) : Prop :=
  c.length = 1 ∧ TextsearchJa.isprint (byteAt c 0) = false

/-- The quotes U+2018, U+2019 and U+201D, which `normalize_utf8` writes as one
ASCII byte without calling the appender. -/
abbrev foldedQuote (c : List Nat) : Prop :=
  c = [0xe2, 0x80, 0x98] ∨ c = [0xe2, 0x80, 0x99] ∨ c = [0xe2, 0x80, 0x9d]

/-- The characters behind a run of non-printable bytes: the first character
that is no non-printable byte is not handed to the appender as an ASCII glyph
(it may be a folded quote). -/
def noGlyphBehindControls : List (List Nat) → Bool
  | [] => true
  | c :: r =>
    if controlChar c then noGlyphBehindControls r
    else decide (¬ (asciiGlyph c ∧ ¬ foldedQuote c))

/-- The characters behind a multi-byte character: no folded quote at once, and
behind non-printable bytes only no ASCII glyph that goes through the appender. -/
def safeBehindWide : List (List Nat) → Bool
  | [] => true
  | c :: r => if controlChar c then noGlyphBehindControls r else decide (¬ foldedQuote c)

/-- Every character of the text that is emitted as a multi-byte character is
followed as `safeBehindWide` says. -/
def gapsSafe : List (List Nat) → Bool
  | [] => true
  | c :: r => (decide (¬ wideGlyph c) || safeBehindWide r) && gapsSafe r

/-- The text does not begin with an ASCII glyph that a multi-byte character
follows at once. -/
def headSafe : List (List Nat) → Bool
  | c :: n :: _ => decide (¬ (asciiGlyph c ∧ wideGlyph n))
  | _ => true

/-- The characters that `normalize_utf8` writes with `appendStringInfoChar`,
without calling the appender: the three quotes and the full-width space U+3000. -/
abbrev directFold (c : List Nat) : Prop := foldedQuote c ∨ c = [0xe3, 0x80, 0x80]

/-- The invariant of the pre-pass loop for the claim about script boundaries:
the buffer `dst` is well-formed and has no mixed pair, and the characters
`rest` still to come are safe for the state the buffer is in (empty, one ASCII
glyph, ending in a multi-byte character, ending in a separator behind a
multi-byte character). -/
abbrev prepassInv (dst : List Nat) (rest : List (List Nat)) : Prop :=
  noMixedPair dst ∧ Utf8 dst ∧
  (dst = [] → headSafe rest = true) ∧
  ((∃ g, dst = [g] ∧ glyphByte g) → ∀ n r, rest = n :: r → ¬ wideGlyph n) ∧
  ((∃ x, dst.getLast? = some x ∧ 0x80 ≤ x) → safeBehindWide rest = true) ∧
  ((∃ d0 y, dst = d0 ++ [y, 0x0b] ∧ 0x80 ≤ y) → noGlyphBehindControls rest = true) ∧
  gapsSafe rest = true

/-! ## Theorems -/

theorem uchar_mblen_ascii (b : Nat) (rest : List Nat) (h : b < 0x80) :
    uchar_mblen (b :: rest) = 1 := by
  have key : ∀ x < 0x80, x &&& 0x80 = 0 := by decide
  simp [uchar_mblen, byteAt, key b h]

theorem uchar_mblen_pos (s : List Nat) : 1 ≤ uchar_mblen s := by
  unfold uchar_mblen
  simp only []
  split_ifs <;> omega

theorem normalize_utf8_body_len (append : append_t) (dst s : List Nat) :
    (normalize_utf8_body append dst s).2 = uchar_mblen s := by
  unfold normalize_utf8_body
  simp only []
  split_ifs
  · rfl
  · cases normalize_utf8_voicing dst s (uchar_mblen s) <;> rfl

/-- The loop of `normalize_utf8` reaches `end` within `srclen` iterations: any
two iteration budgets of at least the remaining length give the same buffer. -/
theorem normalize_utf8_loop_fuel (append : append_t) (n : Nat) :
    ∀ (s dst : List Nat) (f1 f2 : Nat), s.length ≤ n → s.length ≤ f1 → s.length ≤ f2 →
      normalize_utf8_loop append f1 dst s = normalize_utf8_loop append f2 dst s := by
  induction n with
  | zero =>
    intro s dst f1 f2 hn _ _
    have hs : s = [] := List.length_eq_zero.mp (by omega)
    subst hs
    cases f1 <;> cases f2 <;> simp [normalize_utf8_loop]
  | succ n ih =>
    intro s dst f1 f2 hn h1 h2
    cases s with
    | nil => cases f1 <;> cases f2 <;> simp [normalize_utf8_loop]
    | cons b rest =>
      cases f1 with
      | zero => simp at h1
      | succ g1 =>
        cases f2 with
        | zero => simp at h2
        | succ g2 =>
          have hpos := uchar_mblen_pos (b :: rest)
          have hlen := normalize_utf8_body_len append dst (b :: rest)
          have hdrop : ((b :: rest).drop (normalize_utf8_body append dst (b :: rest)).2).length
              ≤ rest.length := by
            rw [hlen, List.length_drop]
            simp only [List.length_cons]
            omega
          simp only [List.length_cons] at hn h1 h2
          simp only [normalize_utf8_loop, reduceCtorEq, if_false]
          exact ih _ _ g1 g2 (by omega) (by omega) (by omega)

theorem TsMecabKo.normalize_loop_fuel (n : Nat) :
    ∀ (s dst : List Nat) (f1 f2 : Nat), s.length ≤ n → s.length ≤ f1 → s.length ≤ f2 →
      TsMecabKo.normalize_loop f1 dst s = TsMecabKo.normalize_loop f2 dst s := by
  induction n with
  | zero =>
    intro s dst f1 f2 hn _ _
    have hs : s = [] := List.length_eq_zero.mp (by omega)
    subst hs
    cases f1 <;> cases f2 <;> simp [TsMecabKo.normalize_loop]
  | succ n ih =>
    intro s dst f1 f2 hn h1 h2
    cases s with
    | nil => cases f1 <;> cases f2 <;> simp [TsMecabKo.normalize_loop]
    | cons b rest =>
      cases f1 with
      | zero => simp at h1
      | succ g1 =>
        cases f2 with
        | zero => simp at h2
        | succ g2 =>
          have hpos := uchar_mblen_pos (b :: rest)
          have hdrop : ((b :: rest).drop (TsMecabKo.normalize_body dst (b :: rest)).2).length
              ≤ rest.length := by
            simp only [TsMecabKo.normalize_body, List.length_drop, List.length_cons]
            omega
          simp only [List.length_cons] at hn h1 h2
          simp only [TsMecabKo.normalize_loop, reduceCtorEq, if_false]
          exact ih _ _ g1 g2 (by omega) (by omega) (by omega)

theorem normalize_utf8_loop_ascii (s : List Nat) :
    ∀ (fuel : Nat) (dst : List Nat), (∀ b ∈ s, b < 0x80) → s.length ≤ fuel →
      normalize_utf8_loop appendBinaryStringInfo fuel dst s = dst ++ s := by
  induction s with
  | nil =>
    intro fuel dst _ _
    cases fuel <;> simp [normalize_utf8_loop]
  | cons b rest ih =>
    intro fuel dst hb hf
    cases fuel with
    | zero => simp at hf
    | succ f =>
      have hlen : uchar_mblen (b :: rest) = 1 :=
        uchar_mblen_ascii b rest (hb b (List.mem_cons_self b rest))
      have hrest : ∀ x ∈ rest, x < 0x80 := fun x hx => hb x (List.mem_cons_of_mem b hx)
      have hf2 : rest.length ≤ f := by simpa using hf
      simp [normalize_utf8_loop, normalize_utf8_body, hlen, appendBinaryStringInfo,
        ih f (dst ++ [b]) hrest hf2]

/-- C1: on an input made only of printable ASCII bytes `0x20..0x7E`,
`normalize_utf8` with the verbatim appender returns the input unchanged. -/
theorem normalize_utf8_printable_ascii (src : List Nat)
    (h : ∀ b ∈ src, 0x20 ≤ b ∧ b ≤ 0x7e) :
    normalize_utf8 [] src appendBinaryStringInfo = src := by
  have hlt : ∀ b ∈ src, b < 0x80 := fun b hb => by have := h b hb; omega
  simpa [normalize_utf8] using normalize_utf8_loop_ascii src src.length [] hlt (le_refl _)

theorem normalize_utf8_printable_ascii_witness :
    (∀ b ∈ [0x48, 0x69, 0x20, 0x7e], 0x20 ≤ b ∧ b ≤ 0x7e) ∧
    normalize_utf8 [] [0x48, 0x69, 0x20, 0x7e] appendBinaryStringInfo = [0x48, 0x69, 0x20, 0x7e] :=
  ⟨by decide, normalize_utf8_printable_ascii [0x48, 0x69, 0x20, 0x7e] (by decide)⟩

theorem TsMecabKo.normalize_body_ascii (b : Nat) (rest dst : List Nat) (hb : b < 0x80)
    (hrest : ∀ x ∈ rest, x < 0x80) :
    TsMecabKo.normalize_body dst (b :: rest) = (dst ++ [b], 1) := by
  have hlen : uchar_mblen (b :: rest) = 1 := uchar_mblen_ascii b rest hb
  have hmod : b % 256 = b := Nat.mod_eq_of_lt (by omega)
  cases rest with
  | nil =>
    simp [TsMecabKo.normalize_body, TsMecabKo.normalize_emit, TsMecabKo.normalize_gap, hlen,
      appendStringInfoChar, byteAt, hmod]
  | cons c rest2 =>
    have hlen2 : uchar_mblen (c :: rest2) = 1 :=
      uchar_mblen_ascii c rest2 (hrest c (List.mem_cons_self c rest2))
    simp [TsMecabKo.normalize_body, TsMecabKo.normalize_emit, TsMecabKo.normalize_gap, hlen,
      hlen2, appendStringInfoChar, byteAt, hmod]

theorem TsMecabKo.normalize_loop_ascii (s : List Nat) :
    ∀ (fuel : Nat) (dst : List Nat), (∀ b ∈ s, b < 0x80) → s.length ≤ fuel →
      TsMecabKo.normalize_loop fuel dst s = dst ++ s := by
  induction s with
  | nil =>
    intro fuel dst _ _
    cases fuel <;> simp [TsMecabKo.normalize_loop]
  | cons b rest ih =>
    intro fuel dst hb hf
    cases fuel with
    | zero => simp at hf
    | succ f =>
      have hrest : ∀ x ∈ rest, x < 0x80 := fun x hx => hb x (List.mem_cons_of_mem b hx)
      have hf2 : rest.length ≤ f := by simpa using hf
      have hbody := TsMecabKo.normalize_body_ascii b rest dst
        (hb b (List.mem_cons_self b rest)) hrest
      simp [TsMecabKo.normalize_loop, hbody, ih f (dst ++ [b]) hrest hf2]

/-- C2: on an input made only of printable ASCII bytes `0x20..0x7E`, the Korean
normalizer returns the input unchanged, whatever appender it is given: no byte
is changed and no space is inserted. -/
theorem ko_normalize_printable_ascii (src : List Nat) (append : append_t)
    (h : ∀ b ∈ src, 0x20 ≤ b ∧ b ≤ 0x7e) :
    TsMecabKo.normalize [] src append = src := by
  have hlt : ∀ b ∈ src, b < 0x80 := fun b hb => by have := h b hb; omega
  simpa [TsMecabKo.normalize] using
    TsMecabKo.normalize_loop_ascii src src.length [] hlt (le_refl _)

theorem ko_normalize_printable_ascii_witness :
    (∀ b ∈ [0x61, 0x2d, 0x31, 0x20, 0x5a], 0x20 ≤ b ∧ b ≤ 0x7e) ∧
    TsMecabKo.normalize [] [0x61, 0x2d, 0x31, 0x20, 0x5a] appendBinaryStringInfo
      = [0x61, 0x2d, 0x31, 0x20, 0x5a] :=
  ⟨by decide, ko_normalize_printable_ascii [0x61, 0x2d, 0x31, 0x20, 0x5a] _ (by decide)⟩

/-- C3: for every codepoint `c` of `U+FF01..U+FF5E`, `normalize_utf8` with the
verbatim appender turns the 3-byte encoding of `c` into the single byte
`c - 0xFEE0`, except for `U+FF02`, `U+FF07`, `U+FF3C`, `U+FF40` and `U+FF5E`,
whose 3 bytes are output unchanged. -/
theorem normalize_utf8_fullwidth_ascii (c : Nat) (h1 : 0xff01 ≤ c) (h2 : c ≤ 0xff5e) :
    normalize_utf8 [] (utf8_encode3 c) appendBinaryStringInfo =
      if c ∈ [0xff02, 0xff07, 0xff3c, 0xff40, 0xff5e] then utf8_encode3 c
      else [c - 0xfee0] := by
  have key : ∀ i < 94,
      normalize_utf8 [] (utf8_encode3 (0xff01 + i)) appendBinaryStringInfo =
        if 0xff01 + i ∈ [0xff02, 0xff07, 0xff3c, 0xff40, 0xff5e] then utf8_encode3 (0xff01 + i)
        else [0xff01 + i - 0xfee0] := by decide!
  have hc := key (c - 0xff01) (by omega)
  rwa [show 0xff01 + (c - 0xff01) = c by omega] at hc

theorem normalize_utf8_fullwidth_ascii_witness :
    (0xff01 ≤ 0xff21 ∧ 0xff21 ≤ 0xff5e) ∧
    normalize_utf8 [] (utf8_encode3 0xff21) appendBinaryStringInfo =
      if 0xff21 ∈ [0xff02, 0xff07, 0xff3c, 0xff40, 0xff5e] then utf8_encode3 0xff21
      else [0xff21 - 0xfee0] :=
  ⟨by decide, normalize_utf8_fullwidth_ascii 0xff21 (by decide) (by decide)⟩

/-- C4 (the code at the failing input): the Korean normalizer turns the
full-width `ｅ` (U+FF45, bytes EF BD 85) into the byte 0x25 where `c - 0xFEE0`
is 0x65, and the full-width text `Ｈｅｌｌｏ` into the bytes of `H%,,/`. -/
theorem ko_normalize_fullwidth_lowercase :
    utf8_encode3 0xff45 = [0xef, 0xbd, 0x85] ∧ 0xff45 - 0xfee0 = 0x65 ∧
    TsMecabKo.normalize [] (utf8_encode3 0xff45) appendBinaryStringInfo = [0x25] ∧
    TsMecabKo.normalize []
      (utf8_encode3 0xff28 ++ utf8_encode3 0xff45 ++ utf8_encode3 0xff4c ++
        utf8_encode3 0xff4c ++ utf8_encode3 0xff4f) appendBinaryStringInfo
      = [0x48, 0x25, 0x2c, 0x2c, 0x2f] := by decide!

/-- C5 (counterexample): か followed by the combining dakuten U+3099 (bytes
E3 82 99) is not fused: the 6 input bytes come out unchanged, not E3 81 8C. -/
theorem normalize_utf8_combining_dakuten_not_fused :
    utf8_encode3 0x304b ++ utf8_encode3 0x3099 = [0xe3, 0x81, 0x8b, 0xe3, 0x82, 0x99] ∧
    normalize_utf8 [] [0xe3, 0x81, 0x8b, 0xe3, 0x82, 0x99] appendBinaryStringInfo
      = [0xe3, 0x81, 0x8b, 0xe3, 0x82, 0x99] ∧
    normalize_utf8 [] [0xe3, 0x81, 0x8b, 0xe3, 0x82, 0x99] appendBinaryStringInfo
      ≠ [0xe3, 0x81, 0x8c] := by decide!

/-- C5 (amended): for every kana `k` of the fusible set, `normalize_utf8` applied
to `k` followed by the dakuten U+309B (bytes E3 82 9B, the mark the code
recognizes) outputs exactly the 3 bytes of the voiced kana `k + 1`; followed by
the combining dakuten U+3099 the input is output unchanged. -/
theorem normalize_utf8_dakuten_wide_fusion (k : Nat) (hk : k ∈ fusibleKana) :
    utf8_encode3 0x309b = DAKUTEN_WIDE ∧
    normalize_utf8 [] (utf8_encode3 k ++ utf8_encode3 0x309b) appendBinaryStringInfo
      = utf8_encode3 (k + 1) ∧
    normalize_utf8 [] (utf8_encode3 k ++ utf8_encode3 0x3099) appendBinaryStringInfo
      = utf8_encode3 k ++ utf8_encode3 0x3099 := by
  have key : ∀ k ∈ fusibleKana,
      utf8_encode3 0x309b = DAKUTEN_WIDE ∧
      normalize_utf8 [] (utf8_encode3 k ++ utf8_encode3 0x309b) appendBinaryStringInfo
        = utf8_encode3 (k + 1) ∧
      normalize_utf8 [] (utf8_encode3 k ++ utf8_encode3 0x3099) appendBinaryStringInfo
        = utf8_encode3 k ++ utf8_encode3 0x3099 := by decide!
  exact key k hk

theorem normalize_utf8_dakuten_wide_fusion_witness :
    0x304b ∈ fusibleKana ∧
    normalize_utf8 [] (utf8_encode3 0x304b ++ utf8_encode3 0x309b) appendBinaryStringInfo
      = [0xe3, 0x81, 0x8c] :=
  ⟨by decide, (normalize_utf8_dakuten_wide_fusion 0x304b (by decide)).2.1⟩

/-- C6: the `+1` cases of the dakuten switch are the keys of the 20 hiragana
か..ほ and the 19 katakana カ..ホ without タ, and the `+2` cases those of
は ひ ふ へ ほ ハ ヒ フ ヘ ホ.  For every such kana `k` followed by a recognized
voicing mark (E3 82 9B or EF BE 9E) the output is the 3-byte UTF-8 of `k + 1`,
and for every kana of the second list followed by a semi-voicing mark
(E3 82 9C or EF BE 9F) it is the UTF-8 of `k + 2`; the rewritten low byte stays
within `0x80..0xBF`. -/
theorem normalize_utf8_voicing_plus (k : Nat) (m : List Nat) :
    plus1Kana.map lowKey = dakutenPlus1 ∧ plus2Kana.map lowKey = handakuPlus2 ∧
    (k ∈ plus1Kana → m ∈ [DAKUTEN_WIDE, DAKUTEN_HALF] →
      normalize_utf8 [] (utf8_encode3 k ++ m) appendBinaryStringInfo = utf8_encode3 (k + 1) ∧
      0x80 ≤ byteAt (normalize_utf8 [] (utf8_encode3 k ++ m) appendBinaryStringInfo) 2 ∧
      byteAt (normalize_utf8 [] (utf8_encode3 k ++ m) appendBinaryStringInfo) 2 ≤ 0xbf) ∧
    (k ∈ plus2Kana → m ∈ [HANDAKU_WIDE, HANDAKU_HALF] →
      normalize_utf8 [] (utf8_encode3 k ++ m) appendBinaryStringInfo = utf8_encode3 (k + 2) ∧
      0x80 ≤ byteAt (normalize_utf8 [] (utf8_encode3 k ++ m) appendBinaryStringInfo) 2 ∧
      byteAt (normalize_utf8 [] (utf8_encode3 k ++ m) appendBinaryStringInfo) 2 ≤ 0xbf) := by
  have key1 : ∀ k ∈ plus1Kana, ∀ m ∈ [DAKUTEN_WIDE, DAKUTEN_HALF],
      normalize_utf8 [] (utf8_encode3 k ++ m) appendBinaryStringInfo = utf8_encode3 (k + 1) ∧
      0x80 ≤ byteAt (normalize_utf8 [] (utf8_encode3 k ++ m) appendBinaryStringInfo) 2 ∧
      byteAt (normalize_utf8 [] (utf8_encode3 k ++ m) appendBinaryStringInfo) 2 ≤ 0xbf := by
    decide!
  have key2 : ∀ k ∈ plus2Kana, ∀ m ∈ [HANDAKU_WIDE, HANDAKU_HALF],
      normalize_utf8 [] (utf8_encode3 k ++ m) appendBinaryStringInfo = utf8_encode3 (k + 2) ∧
      0x80 ≤ byteAt (normalize_utf8 [] (utf8_encode3 k ++ m) appendBinaryStringInfo) 2 ∧
      byteAt (normalize_utf8 [] (utf8_encode3 k ++ m) appendBinaryStringInfo) 2 ≤ 0xbf := by
    decide!
  exact ⟨by decide!, by decide!, fun hk hm => key1 k hk m hm, fun hk hm => key2 k hk m hm⟩

theorem normalize_utf8_voicing_plus_witness :
    (0x306f ∈ plus1Kana ∧ DAKUTEN_HALF ∈ [DAKUTEN_WIDE, DAKUTEN_HALF] ∧
      normalize_utf8 [] (utf8_encode3 0x306f ++ DAKUTEN_HALF) appendBinaryStringInfo
        = [0xe3, 0x81, 0xb0]) ∧
    (0x30db ∈ plus2Kana ∧ HANDAKU_WIDE ∈ [HANDAKU_WIDE, HANDAKU_HALF] ∧
      normalize_utf8 [] (utf8_encode3 0x30db ++ HANDAKU_WIDE) appendBinaryStringInfo
        = [0xe3, 0x83, 0x9d]) :=
  ⟨⟨by decide, by decide,
      ((normalize_utf8_voicing_plus 0x306f DAKUTEN_HALF).2.2.1 (by decide) (by decide)).1⟩,
    ⟨by decide, by decide,
      ((normalize_utf8_voicing_plus 0x30db HANDAKU_WIDE).2.2.2 (by decide) (by decide)).1⟩⟩

/-- C7 (counterexample): う (E3 81 86) followed by a dakuten mark, in any of the
forms E3 82 9B, EF BE 9E or the combining E3 82 99, never gives the hiragana ゔ
(U+3094, bytes E3 82 94). -/
theorem normalize_utf8_hiragana_u_dakuten_not_vu :
    utf8_encode3 0x3094 = [0xe3, 0x82, 0x94] ∧
    ∀ m ∈ [[0xe3, 0x82, 0x9b], [0xef, 0xbe, 0x9e], [0xe3, 0x82, 0x99]],
      normalize_utf8 [] ([0xe3, 0x81, 0x86] ++ m) appendBinaryStringInfo ≠ [0xe3, 0x82, 0x94] := by
  decide!

/-- C7 (amended): `normalize_utf8` applied to hiragana う (E3 81 86) followed by
a recognized dakuten mark (E3 82 9B or EF BE 9E) outputs the katakana ヴ
(U+30F4, bytes E3 83 B4), the same character that ウ gives. -/
theorem normalize_utf8_hiragana_u_dakuten :
    utf8_encode3 0x3046 = [0xe3, 0x81, 0x86] ∧ utf8_encode3 0x30f4 = [0xe3, 0x83, 0xb4] ∧
    normalize_utf8 [] ([0xe3, 0x81, 0x86] ++ DAKUTEN_WIDE) appendBinaryStringInfo
      = [0xe3, 0x83, 0xb4] ∧
    normalize_utf8 [] ([0xe3, 0x81, 0x86] ++ DAKUTEN_HALF) appendBinaryStringInfo
      = [0xe3, 0x83, 0xb4] := by decide!

/-- C8: `normalize_utf8` applied to katakana ウ (E3 82 A6) followed by a
recognized dakuten mark outputs ヴ (E3 83 B4), and applied to タ (E3 82 BF)
followed by a recognized dakuten mark outputs ダ (E3 83 80); the output is
exactly 3 bytes in both cases. -/
theorem normalize_utf8_katakana_u_ta_dakuten :
    utf8_encode3 0x30a6 = [0xe3, 0x82, 0xa6] ∧ utf8_encode3 0x30f4 = [0xe3, 0x83, 0xb4] ∧
    utf8_encode3 0x30bf = [0xe3, 0x82, 0xbf] ∧ utf8_encode3 0x30c0 = [0xe3, 0x83, 0x80] ∧
    ∀ m ∈ [DAKUTEN_WIDE, DAKUTEN_HALF],
      normalize_utf8 [] ([0xe3, 0x82, 0xa6] ++ m) appendBinaryStringInfo = [0xe3, 0x83, 0xb4] ∧
      normalize_utf8 [] ([0xe3, 0x82, 0xbf] ++ m) appendBinaryStringInfo = [0xe3, 0x83, 0x80] ∧
      (normalize_utf8 [] ([0xe3, 0x82, 0xa6] ++ m) appendBinaryStringInfo).length = 3 ∧
      (normalize_utf8 [] ([0xe3, 0x82, 0xbf] ++ m) appendBinaryStringInfo).length = 3 := by
  decide!

/-- C9: for every half-width katakana `h` among ｳ, ｶ..ｺ, ｻ..ｿ, ﾀ..ﾄ, ﾊ..ﾎ,
`normalize_utf8` applied to `h` followed by the half-width dakuten U+FF9E
outputs exactly the 3 bytes of the full-width voiced katakana (`ｶﾞ` gives
ガ = E3 82 AC), and for ﾊ..ﾎ followed by the half-width handakuten U+FF9F it
outputs the full-width semi-voiced katakana. -/
theorem normalize_utf8_halfwidth_voicing (p : Nat × Nat) :
    (p ∈ halfwidthVoiced →
      normalize_utf8 [] (utf8_encode3 p.1 ++ utf8_encode3 0xff9e) appendBinaryStringInfo
        = utf8_encode3 p.2) ∧
    (p ∈ halfwidthSemiVoiced →
      normalize_utf8 [] (utf8_encode3 p.1 ++ utf8_encode3 0xff9f) appendBinaryStringInfo
        = utf8_encode3 p.2) := by
  have key1 : ∀ p ∈ halfwidthVoiced,
      normalize_utf8 [] (utf8_encode3 p.1 ++ utf8_encode3 0xff9e) appendBinaryStringInfo
        = utf8_encode3 p.2 := by decide!
  have key2 : ∀ p ∈ halfwidthSemiVoiced,
      normalize_utf8 [] (utf8_encode3 p.1 ++ utf8_encode3 0xff9f) appendBinaryStringInfo
        = utf8_encode3 p.2 := by decide!
  exact ⟨key1 p, key2 p⟩

theorem normalize_utf8_halfwidth_voicing_witness :
    ((0xff76, 0x30ac) ∈ halfwidthVoiced ∧
      normalize_utf8 [] ([0xef, 0xbd, 0xb6] ++ [0xef, 0xbe, 0x9e]) appendBinaryStringInfo
        = [0xe3, 0x82, 0xac]) ∧
    ((0xff8a, 0x30d1) ∈ halfwidthSemiVoiced ∧
      normalize_utf8 [] ([0xef, 0xbe, 0x8a] ++ [0xef, 0xbe, 0x9f]) appendBinaryStringInfo
        = [0xe3, 0x83, 0x91]) :=
  ⟨⟨by decide, (normalize_utf8_halfwidth_voicing (0xff76, 0x30ac)).1 (by decide)⟩,
    ⟨by decide, (normalize_utf8_halfwidth_voicing (0xff8a, 0x30d1)).2 (by decide)⟩⟩

/-- C10: for every codepoint `c` of `U+FF66..U+FF9F`, `UTF8_MAP` has an entry
keyed by the last two bytes of the UTF-8 of `c`; `normalize_utf8` applied to `c`
alone outputs that entry's 3 bytes, and they are one well-formed UTF-8
character of `U+3099..U+30FF`: the full-width katakana, long-vowel mark or
voicing mark that corresponds to `c`. -/
theorem normalize_utf8_halfwidth_katakana (c : Nat) (h1 : 0xff66 ≤ c) (h2 : c ≤ 0xff9f) :
    ∃ e ∈ UTF8_MAP, e.from_ = lowKey c ∧
      normalize_utf8 [] (utf8_encode3 c) appendBinaryStringInfo = e.to_ ∧
      wellFormed3 e.to_ ∧ utf8_encode3 (utf8_decode3 e.to_) = e.to_ ∧
      0x3099 ≤ utf8_decode3 e.to_ ∧ utf8_decode3 e.to_ ≤ 0x30ff ∧
      fullwidthOfHalfwidth.get? (c - 0xff66) = some (utf8_decode3 e.to_) := by
  have key : ∀ i < 58, ∃ e ∈ UTF8_MAP, e.from_ = lowKey (0xff66 + i) ∧
      normalize_utf8 [] (utf8_encode3 (0xff66 + i)) appendBinaryStringInfo = e.to_ ∧
      wellFormed3 e.to_ ∧ utf8_encode3 (utf8_decode3 e.to_) = e.to_ ∧
      0x3099 ≤ utf8_decode3 e.to_ ∧ utf8_decode3 e.to_ ≤ 0x30ff ∧
      fullwidthOfHalfwidth.get? (0xff66 + i - 0xff66) = some (utf8_decode3 e.to_) := by decide!
  have hc := key (c - 0xff66) (by omega)
  rwa [show 0xff66 + (c - 0xff66) = c by omega] at hc

theorem normalize_utf8_halfwidth_katakana_witness :
    (0xff66 ≤ 0xff71 ∧ 0xff71 ≤ 0xff9f) ∧ ∃ e ∈ UTF8_MAP, e.from_ = lowKey 0xff71 ∧
      normalize_utf8 [] (utf8_encode3 0xff71) appendBinaryStringInfo = e.to_ ∧
      wellFormed3 e.to_ ∧ utf8_encode3 (utf8_decode3 e.to_) = e.to_ ∧
      0x3099 ≤ utf8_decode3 e.to_ ∧ utf8_decode3 e.to_ ≤ 0x30ff ∧
      fullwidthOfHalfwidth.get? (0xff71 - 0xff66) = some (utf8_decode3 e.to_) :=
  ⟨by decide, normalize_utf8_halfwidth_katakana 0xff71 (by decide) (by decide)⟩

/-! ### The tokenizer -/

theorem strncmp_eq_prefix (a b : List Nat) (hb : 0 ∉ b) :
    strncmp_eq a b b.length = true ↔ b <+: a := by
  unfold strncmp_eq
  simp only [beq_iff_eq, List.take_left' rfl]
  constructor
  · intro h
    have hp : b <+: a ++ [0] := by
      rw [← h]; exact List.take_prefix _ _
    rcases List.prefix_concat_iff.mp hp with h1 | h1
    · exact absurd (by rw [h1]; simp) hb
    · exact h1
  · intro h
    have hp : b <+: a ++ [0] := h.trans (List.prefix_append a [0])
    exact (List.prefix_iff_eq_take.mp hp).symm

theorem TextsearchJa.ignore_loop_iff (node : mecab_node_t) (tbl : List IgnorableWord)
    (htbl : ∀ w ∈ tbl, w.len = w.word.length ∧ w.len > 0 ∧ 0 ∉ w.word) :
    TextsearchJa.ignore_loop node tbl = true ↔ ∃ w ∈ tbl, w.word <+: node.feature := by
  induction tbl with
  | nil => simp [TextsearchJa.ignore_loop]
  | cons w rest ih =>
    have hw := htbl w (List.mem_cons_self w rest)
    have hrest := ih (fun x hx => htbl x (List.mem_cons_of_mem w hx))
    have hpre := strncmp_eq_prefix node.feature w.word hw.2.2
    rw [← hw.1] at hpre
    simp only [TextsearchJa.ignore_loop, hw.2.1, if_true, List.mem_cons, exists_eq_or_imp]
    by_cases hc : strncmp_eq node.feature w.word w.len = true
    · simp [hc, hpre.mp hc]
    · have hnp : ¬ w.word <+: node.feature := fun h => hc (hpre.mpr h)
      simp [hc, hnp, hrest]

theorem ascii_loop_returned (isWord : Nat → Bool) (parser : parser_data) (toks : List prsd_token) :
    ∀ (t0 tlen0 : Nat) (r : gettoken_result),
      ascii_loop isWord parser t0 tlen0 toks = ascii_phase.returned r → r.current_node = none := by
  induction toks with
  | nil =>
    intro t0 tlen0 r h
    simp only [ascii_loop, ascii_phase.returned.injEq] at h
    rw [← h]
  | cons tok rest ih =>
    intro t0 tlen0 r h
    simp only [ascii_loop] at h
    split_ifs at h with h1 h2 h3
    · simp only [ascii_phase.returned.injEq] at h; rw [← h]
    · exact ih _ _ r h
    · simp only [ascii_phase.returned.injEq] at h; rw [← h]

/-- A call of `gettoken` that leaves a node in `current_node` reports the type
that `classify` gives for that node, and the node's surface range. -/
theorem gettoken_emitted (isWord : Nat → Bool) (classify : mecab_node_t → Option Nat)
    (parser : parser_data) (t0 tlen0 : Nat) (r : gettoken_result) (node : mecab_node_t)
    (hr : gettoken isWord classify parser t0 tlen0 = some r)
    (hn : r.current_node = some node) :
    classify node = some r.lextype ∧ r.t = node.surface ∧ r.tlen = node.length := by
  have hana : ∀ skip t1 tlen1 parser1,
      analyzer_phase classify skip t1 tlen1 parser1 = some r →
        classify node = some r.lextype ∧ r.t = node.surface ∧ r.tlen = node.length := by
    intro skip t1 tlen1 parser1 h
    unfold analyzer_phase at h
    rcases hsk : skip_nodes skip parser1.node.length parser1.node with ⟨o, rest⟩
    rw [hsk] at h
    cases o with
    | none =>
      simp only [Option.some.injEq] at h
      rw [← h] at hn; simp at hn
    | some nd =>
      simp only at h
      cases hc : classify nd with
      | none => rw [hc] at h; simp at h
      | some lt =>
        rw [hc] at h
        simp only [Option.some.injEq] at h
        rw [← h] at hn
        simp only [Option.some.injEq] at hn
        subst hn
        rw [← h]
        exact ⟨hc, rfl, rfl⟩
  unfold gettoken at hr
  cases hl : parser.last_node_pos with
  | none =>
    rw [hl] at hr
    simp only at hr
    cases hph : ascii_loop isWord parser t0 tlen0 parser.ascprs with
    | returned r1 =>
      rw [hph] at hr
      simp only [Option.some.injEq] at hr
      have := ascii_loop_returned isWord parser parser.ascprs t0 tlen0 r1 hph
      rw [hr] at this; rw [this] at hn; simp at hn
    | analyzer skip t1 tlen1 parser1 =>
      rw [hph] at hr
      exact hana _ _ _ _ hr
  | some e =>
    rw [hl] at hr
    exact hana _ _ _ _ hr

/-- C16: in `ts_ja_gettoken` under UTF-8, a node emitted in analyzer mode is
reported as SPACE (12) if and only if its feature string starts with one of
the `IGNORE_UTF8` entries (each a tag followed by a comma), and as WORD (2)
otherwise; the reported range is the node's surface. -/
theorem ts_ja_gettoken_space_iff_ignored (parser : parser_data) (t0 tlen0 : Nat)
    (r : gettoken_result) (node : mecab_node_t)
    (hr : TextsearchJa.ts_ja_gettoken parser t0 tlen0 = some r)
    (hn : r.current_node = some node) :
    (r.lextype = 12 ↔ ∃ w ∈ IGNORE_UTF8, w.word <+: node.feature) ∧
    (r.lextype ≠ 12 → r.lextype = 2) ∧
    (∀ w ∈ IGNORE_UTF8, w.len = w.word.length ∧ w.word.getLast? = some 0x2c) ∧
    r.t = node.surface ∧ r.tlen = node.length := by
  have htbl : ∀ w ∈ IGNORE_UTF8, w.len = w.word.length ∧ w.len > 0 ∧ 0 ∉ w.word := by decide
  have hem := gettoken_emitted TextsearchJa.IS_JWORD TextsearchJa.classify parser t0 tlen0 r node
    hr hn
  have hig := TextsearchJa.ignore_loop_iff node IGNORE_UTF8 htbl
  have hcl : (if TextsearchJa.ignore node = true then SPACE else WORD_T) = r.lextype := by
    simpa [TextsearchJa.classify] using hem.1
  refine ⟨?_, ?_, by decide, hem.2.1, hem.2.2⟩
  · rw [← hig, ← hcl]
    unfold TextsearchJa.ignore
    by_cases hc : TextsearchJa.ignore_loop node IGNORE_UTF8 = true <;> simp [hc, SPACE, WORD_T]
  · rw [← hcl]
    by_cases hc : TextsearchJa.ignore node = true <;> simp [hc, SPACE, WORD_T]

theorem ts_ja_gettoken_space_iff_ignored_witness :
    (12 = 12 ↔ ∃ w ∈ IGNORE_UTF8, w.word <+: featureJKS) ∧
    (∃ w ∈ IGNORE_UTF8, w.word <+: featureJKS) :=
  have hr : TextsearchJa.ts_ja_gettoken
      { str := [0xec, 0x9d, 0xb4], node := [mecab_node_t.mk 0 3 0 featureJKS], ascprs := [],
        last_node_pos := some 3 } 0 0
      = some (gettoken_result.mk 12 0 3
          { str := [0xec, 0x9d, 0xb4], node := [], ascprs := [], last_node_pos := none }
          (some (mecab_node_t.mk 0 3 0 featureJKS))) := by decide
  have h := ts_ja_gettoken_space_iff_ignored _ 0 0 _ (mecab_node_t.mk 0 3 0 featureJKS) hr rfl
  ⟨h.1, h.1.mp rfl⟩

theorem strchr_append_of_not_mem (tag rest : List Nat) (c : Nat) (hc : c ∉ tag) :
    strchr (tag ++ c :: rest) c = some (c :: rest) := by
  induction tag with
  | nil => simp [strchr]
  | cons b tl ih =>
    have hb : b ≠ c := fun h => hc (by simp [h])
    have htl : c ∉ tl := fun h => hc (List.mem_cons_of_mem b h)
    simp [strchr, hb, ih htl]

/-- The type that `ts_mecabko_gettoken` gives a node whose first feature column
is `tag`: WORD for an inflected node with a detail column and for a tag on the
whitelist, SPACE otherwise. -/
theorem TsMecabKo.classify_first_column (node : mecab_node_t) (tag rest : List Nat)
    (hc : 0x2c ∉ tag) (hl : tag.length < 15) (hf : node.feature = tag ++ 0x2c :: rest) :
    TsMecabKo.classify node =
      some (if (TsMecabKo.inflect_detail node).isSome ∨
          TsMecabKo.accept_parts_of_speech.any
            (fun a => strncmp_eq a tag (tag.length + 1)) = true
        then WORD_T else SPACE) := by
  unfold TsMecabKo.classify
  cases hi : TsMecabKo.inflect_detail node with
  | some d => simp
  | none =>
    have hs : strchr node.feature 0x2c = some (0x2c :: rest) := by
      rw [hf]; exact strchr_append_of_not_mem tag rest 0x2c hc
    have hlen : ((node.feature.length : Int) - ((0x2c :: rest).length : Int)) = (tag.length : Int) := by
      rw [hf]; simp only [List.length_append, List.length_cons]; push_cast; ring
    have htake : node.feature.take tag.length = tag := by
      rw [hf]; exact List.take_left tag _
    simp only [hs, hlen]
    have hacc : TsMecabKo.accept_mecab_ko_part node.feature (tag.length : Int) =
        some (TsMecabKo.accept_parts_of_speech.any
          (fun a => strncmp_eq a tag (tag.length + 1))) := by
      unfold TsMecabKo.accept_mecab_ko_part
      have h1 : ¬ ((tag.length : Int) < 0 ∨ (tag.length : Int) ≥ 15) := by omega
      simp only [h1, if_false, Int.toNat_ofNat, htake]
    rw [hacc]
    cases hany : TsMecabKo.accept_parts_of_speech.any
        (fun a => strncmp_eq a tag (tag.length + 1)) <;> simp

/-- C17 (counterexample): a node tagged NNB, one of the filter tags, is emitted
by `ts_mecabko_gettoken` as WORD (2), not as SPACE. -/
theorem ts_mecabko_gettoken_nnb_is_word :
    tagNNB ∈ koreanFilterTags ∧ featureNNB = tagNNB ++ 0x2c :: featureNNB.drop 4 ∧
    TsMecabKo.ts_mecabko_gettoken
      { str := [0xea, 0xb2, 0x83], node := [mecab_node_t.mk 0 3 0 featureNNB], ascprs := [],
        last_node_pos := some 3 } 0 0
      = some (gettoken_result.mk 2 0 3
          { str := [0xea, 0xb2, 0x83], node := [], ascprs := [], last_node_pos := none }
          (some (mecab_node_t.mk 0 3 0 featureNNB))) := by decide

/-- C17 (amended): in `ts_mecabko_gettoken`, a node whose first feature column
is one of the Korean filter tags is reported as SPACE when the tag is neither
NNB nor XSN and the node is not an inflected node with a detail column; a
node tagged NNB or XSN (both on the whitelist) and an inflected node with a
detail column are reported as WORD. -/
theorem ts_mecabko_gettoken_filter_tags (node : mecab_node_t) (tag rest : List Nat)
    (ht : tag ∈ koreanFilterTags) (hf : node.feature = tag ++ 0x2c :: rest) :
    TsMecabKo.classify node =
      some (if (TsMecabKo.inflect_detail node).isSome ∨ tag = tagNNB ∨ tag = tagXSN
        then WORD_T else SPACE) ∧
    ∀ (parser : parser_data) (t0 tlen0 : Nat) (r : gettoken_result),
      TsMecabKo.ts_mecabko_gettoken parser t0 tlen0 = some r → r.current_node = some node →
        r.lextype = (if (TsMecabKo.inflect_detail node).isSome ∨ tag = tagNNB ∨ tag = tagXSN
          then WORD_T else SPACE) := by
  have key : ∀ tag ∈ koreanFilterTags, 0x2c ∉ tag ∧ tag.length < 15 ∧
      (TsMecabKo.accept_parts_of_speech.any (fun a => strncmp_eq a tag (tag.length + 1)) = true
        ↔ (tag = tagNNB ∨ tag = tagXSN)) := by decide
  obtain ⟨hc, hl, hacc⟩ := key tag ht
  have hcl := TsMecabKo.classify_first_column node tag rest hc hl hf
  simp only [hacc] at hcl
  refine ⟨hcl, ?_⟩
  intro parser t0 tlen0 r hr hn
  have hem := gettoken_emitted TsMecabKo.IS_MECAB_WORD TsMecabKo.classify parser t0 tlen0 r node
    hr hn
  rw [hcl] at hem
  exact (Option.some.inj hem.1).symm

theorem ts_mecabko_gettoken_filter_tags_witness :
    [0x4a, 0x4b, 0x53] ∈ koreanFilterTags ∧
    TsMecabKo.classify (mecab_node_t.mk 0 3 0 featureJKS) = some SPACE :=
  ⟨by decide,
    (ts_mecabko_gettoken_filter_tags (mecab_node_t.mk 0 3 0 featureJKS) [0x4a, 0x4b, 0x53]
      (featureJKS.drop 4) (by decide) (by decide)).1.trans (by decide)⟩

theorem next_token_some (nodes : List mecab_node_t) :
    ∀ (n : mecab_node_t) (rest : List mecab_node_t), next_token nodes = (some n, rest) →
      n ∈ nodes ∧ rest.length < nodes.length := by
  induction nodes with
  | nil => intro n rest h; simp [next_token] at h
  | cons a tl ih =>
    intro n rest h
    simp only [next_token] at h
    split_ifs at h with hb
    · obtain ⟨h1, h2⟩ := ih n rest h
      exact ⟨List.mem_cons_of_mem a h1, by simp only [List.length_cons]; omega⟩
    · simp only [Prod.mk.injEq, Option.some.injEq] at h
      obtain ⟨h1, h2⟩ := h
      subst h1 h2
      exact ⟨List.mem_cons_self _ _, by simp⟩

theorem next_token_suffix (nodes : List mecab_node_t) :
    ∀ (o : Option mecab_node_t) (rest : List mecab_node_t), next_token nodes = (o, rest) →
      rest <:+ nodes := by
  induction nodes with
  | nil =>
    intro o rest h
    simp only [next_token, Prod.mk.injEq] at h
    rw [← h.2]
  | cons a tl ih =>
    intro o rest h
    simp only [next_token] at h
    split_ifs at h with hb
    · exact (ih o rest h).trans (List.suffix_cons a tl)
    · simp only [Prod.mk.injEq] at h
      rw [← h.2]; exact List.suffix_cons a tl

theorem skip_nodes_some (skip : Option Nat) (fuel : Nat) :
    ∀ (nodes : List mecab_node_t) (n : mecab_node_t) (rest : List mecab_node_t),
      skip_nodes skip fuel nodes = (some n, rest) →
        n ∈ nodes ∧ rest.length < nodes.length := by
  induction fuel with
  | zero => intro nodes n rest h; simp [skip_nodes] at h
  | succ f ih =>
    intro nodes n rest h
    simp only [skip_nodes] at h
    rcases hnt : next_token nodes with ⟨o, r1⟩
    rw [hnt] at h
    cases o with
    | none => simp at h
    | some nd =>
      simp only at h
      obtain ⟨hm, hlt⟩ := next_token_some nodes nd r1 hnt
      have hsuf := next_token_suffix nodes _ r1 hnt
      split_ifs at h with hb
      · obtain ⟨h1, h2⟩ := ih r1 n rest h
        exact ⟨hsuf.subset h1, by omega⟩
      · simp only [Prod.mk.injEq, Option.some.injEq] at h
        obtain ⟨h1, h2⟩ := h
        subst h1 h2
        exact ⟨hm, hlt⟩

/-- What the analyzer pull returns: 0 with no current node, or a node of the
list with its classification and its surface range, the cursor advanced. -/
theorem analyzer_phase_result (classify : mecab_node_t → Option Nat) (skip : Option Nat)
    (t1 tlen1 : Nat) (parser1 : parser_data) (r : gettoken_result)
    (h : analyzer_phase classify skip t1 tlen1 parser1 = some r) :
    (r.lextype = 0 ∧ r.current_node = none) ∨
    (∃ node ∈ parser1.node, r.current_node = some node ∧ r.t = node.surface ∧
      r.tlen = node.length ∧ classify node = some r.lextype ∧
      r.parser.node.length < parser1.node.length) := by
  unfold analyzer_phase at h
  rcases hsk : skip_nodes skip parser1.node.length parser1.node with ⟨o, rest⟩
  rw [hsk] at h
  cases o with
  | none =>
    simp only [Option.some.injEq] at h
    left; rw [← h]; exact ⟨rfl, rfl⟩
  | some nd =>
    simp only at h
    obtain ⟨hm, hlt⟩ := skip_nodes_some skip _ _ nd rest hsk
    cases hc : classify nd with
    | none => rw [hc] at h; simp at h
    | some lt =>
      rw [hc] at h
      simp only [Option.some.injEq] at h
      right
      refine ⟨nd, hm, ?_⟩
      rw [← h]
      exact ⟨rfl, rfl, rfl, hc, hlt⟩

/-- C18 (counterexample): with no analyzer region active, the ASCII parser's
token of type NUMWORD (3) is returned verbatim by `ts_mecabko_gettoken`: no
node is pulled and no region is opened. -/
theorem ts_mecabko_gettoken_numword_verbatim :
    TsMecabKo.ts_mecabko_gettoken
      { str := [0x61, 0x31], node := [mecab_node_t.mk 0 2 0 featureSL],
        ascprs := [prsd_token.mk NUMWORD 0 2], last_node_pos := none } 0 0
      = some (gettoken_result.mk 3 0 2
          { str := [0x61, 0x31], node := [mecab_node_t.mk 0 2 0 featureSL], ascprs := [],
            last_node_pos := none } none) := by decide

/-- C18 (amended): in `ts_mecabko_gettoken`, when no analyzer region is active
and the ASCII parser returns a token `(p, n)` that is neither the end (type 0)
nor a separator, then for the types WORD (2), NUMPARTHWORD (9), PARTHWORD (10),
NUMHWORD (15) and HWORD (17) the call is the analyzer pull with `skip = p` and
region end `p + n`, which returns either 0 or a node, never the ASCII token;
every other type, NUMWORD (3) included, is returned verbatim. -/
theorem ts_mecabko_gettoken_ascii_dispatch (parser : parser_data) (t0 tlen0 : Nat)
    (tok : prsd_token) (rest : List prsd_token)
    (hl : parser.last_node_pos = none) (ha : parser.ascprs = tok :: rest)
    (h0 : tok.lextype ≠ 0)
    (hsep : ¬ (tok.lextype = SPACE ∧ tok.tlen > 0 ∧ byteAt parser.str tok.t = 0x0b)) :
    (tok.lextype ∈ [2, 9, 10, 15, 17] →
      TsMecabKo.ts_mecabko_gettoken parser t0 tlen0 =
        analyzer_phase TsMecabKo.classify (some tok.t) tok.t tok.tlen
          { parser with ascprs := rest, last_node_pos := some (tok.t + tok.tlen) } ∧
      ∀ r, TsMecabKo.ts_mecabko_gettoken parser t0 tlen0 = some r →
        (r.lextype = 0 ∧ r.current_node = none) ∨
        (∃ node ∈ parser.node, r.current_node = some node ∧ r.t = node.surface ∧
          r.tlen = node.length)) ∧
    (tok.lextype ∉ [2, 9, 10, 15, 17] →
      TsMecabKo.ts_mecabko_gettoken parser t0 tlen0 =
        some (gettoken_result.mk tok.lextype tok.t tok.tlen
          { parser with ascprs := rest, last_node_pos := none } none)) := by
  have hword : TsMecabKo.IS_MECAB_WORD tok.lextype = true ↔ tok.lextype ∈ [2, 9, 10, 15, 17] := by
    simp [TsMecabKo.IS_MECAB_WORD, WORD_T, NUMPARTHWORD, PARTHWORD, NUMHWORD, HWORD, or_assoc]
  constructor
  · intro hw
    have heq : TsMecabKo.ts_mecabko_gettoken parser t0 tlen0 =
        analyzer_phase TsMecabKo.classify (some tok.t) tok.t tok.tlen
          { parser with ascprs := rest, last_node_pos := some (tok.t + tok.tlen) } := by
      simp [TsMecabKo.ts_mecabko_gettoken, gettoken, hl, ha, ascii_loop, h0, hsep,
        hword.mpr hw]
    refine ⟨heq, ?_⟩
    intro r hr
    rw [heq] at hr
    rcases analyzer_phase_result _ _ _ _ _ r hr with h | ⟨node, hm, h1, h2, h3, _⟩
    · exact Or.inl h
    · exact Or.inr ⟨node, hm, h1, h2, h3⟩
  · intro hw
    have hnw : ¬ TsMecabKo.IS_MECAB_WORD tok.lextype = true := fun h => hw (hword.mp h)
    simp [TsMecabKo.ts_mecabko_gettoken, gettoken, hl, ha, ascii_loop, h0, hsep, hnw]

theorem ts_mecabko_gettoken_ascii_dispatch_witness :
    TsMecabKo.ts_mecabko_gettoken parserGeot 0 0 =
      analyzer_phase TsMecabKo.classify (some 0) 0 3
        { parserGeot with ascprs := [], last_node_pos := some (0 + 3) } :=
  ((ts_mecabko_gettoken_ascii_dispatch parserGeot 0 0 (prsd_token.mk WORD_T 0 3) []
    rfl rfl (by decide) (by decide)).1 (by decide)).1

/-- C19: for an input of ASCII letters only, for which the ASCII parser returns
the single word token `(p, n)` (the host's type `ASCIIWORD`), `next()` returns
that token in both tokenizers and never enters analyzer mode: the analyzer
region end stays NIL, the node cursor is where it was (no analyzer node is
consumed) and `current_node` is NIL.  The call after it returns the terminator
0, again with the nodes untouched, so the token is the whole stream. -/
theorem gettoken_ascii_word_verbatim (parser : parser_data) (t0 tlen0 p n : Nat)
    (hl : parser.last_node_pos = none)
    (ha : parser.ascprs = [prsd_token.mk ASCIIWORD p n]) :
    (TsMecabKo.ts_mecabko_gettoken parser t0 tlen0 =
        some (gettoken_result.mk ASCIIWORD p n
          { parser with ascprs := [], last_node_pos := none } none) ∧
      TsMecabKo.ts_mecabko_gettoken { parser with ascprs := [], last_node_pos := none } p n =
        some (gettoken_result.mk 0 p n
          { parser with ascprs := [], last_node_pos := none } none) ∧
      token_stream TsMecabKo.IS_MECAB_WORD TsMecabKo.classify 2 parser t0 tlen0
        = some [prsd_token.mk ASCIIWORD p n]) ∧
    (TextsearchJa.ts_ja_gettoken parser t0 tlen0 =
        some (gettoken_result.mk ASCIIWORD p n
          { parser with ascprs := [], last_node_pos := none } none) ∧
      TextsearchJa.ts_ja_gettoken { parser with ascprs := [], last_node_pos := none } p n =
        some (gettoken_result.mk 0 p n
          { parser with ascprs := [], last_node_pos := none } none) ∧
      token_stream TextsearchJa.IS_JWORD TextsearchJa.classify 2 parser t0 tlen0
        = some [prsd_token.mk ASCIIWORD p n]) := by
  have hko : TsMecabKo.ts_mecabko_gettoken parser t0 tlen0 =
      some (gettoken_result.mk ASCIIWORD p n
        { parser with ascprs := [], last_node_pos := none } none) := by
    simp [TsMecabKo.ts_mecabko_gettoken, gettoken, hl, ha, ascii_loop, ASCIIWORD, WORD_T,
      NUMPARTHWORD, PARTHWORD, NUMHWORD, HWORD, SPACE, TsMecabKo.IS_MECAB_WORD]
  have hko2 : TsMecabKo.ts_mecabko_gettoken
      { parser with ascprs := [], last_node_pos := none } p n =
      some (gettoken_result.mk 0 p n
        { parser with ascprs := [], last_node_pos := none } none) := by
    simp [TsMecabKo.ts_mecabko_gettoken, gettoken, ascii_loop]
  have hja : TextsearchJa.ts_ja_gettoken parser t0 tlen0 =
      some (gettoken_result.mk ASCIIWORD p n
        { parser with ascprs := [], last_node_pos := none } none) := by
    simp [TextsearchJa.ts_ja_gettoken, gettoken, hl, ha, ascii_loop, ASCIIWORD, WORD_T,
      NUMWORD, NUMPARTHWORD, PARTHWORD, NUMHWORD, HWORD, SPACE, TextsearchJa.IS_JWORD]
  have hja2 : TextsearchJa.ts_ja_gettoken
      { parser with ascprs := [], last_node_pos := none } p n =
      some (gettoken_result.mk 0 p n
        { parser with ascprs := [], last_node_pos := none } none) := by
    simp [TextsearchJa.ts_ja_gettoken, gettoken, ascii_loop]
  refine ⟨⟨hko, hko2, ?_⟩, ⟨hja, hja2, ?_⟩⟩
  · unfold TsMecabKo.ts_mecabko_gettoken at hko hko2
    simp [token_stream, hko, hko2, ASCIIWORD]
  · unfold TextsearchJa.ts_ja_gettoken at hja hja2
    simp [token_stream, hja, hja2, ASCIIWORD]

theorem gettoken_ascii_word_verbatim_witness :
    TextsearchJa.ts_ja_start_normalize [0x41, 0x42, 0x43] = parserABC.str ∧
    TsMecabKo.ts_mecabko_start_normalize [0x41, 0x42, 0x43] = parserABC.str ∧
    TsMecabKo.ts_mecabko_gettoken parserABC 0 0 =
      some (gettoken_result.mk ASCIIWORD 0 3
        { parserABC with ascprs := [], last_node_pos := none } none) ∧
    TextsearchJa.ts_ja_gettoken parserABC 0 0 =
      some (gettoken_result.mk ASCIIWORD 0 3
        { parserABC with ascprs := [], last_node_pos := none } none) :=
  have h := gettoken_ascii_word_verbatim parserABC 0 0 0 3 rfl rfl
  ⟨by decide, by decide, h.1.1, h.2.1⟩

/-- C20: when the current-node slot is NIL, `ts_mecabko_lexize` on a token
`(t, tlen)` returns an array of exactly one lexeme, the bytes `t[0..tlen)`,
followed by the NIL terminator. -/
theorem ts_mecabko_lexize_no_node (t : List Nat) (tlen : Nat) :
    TsMecabKo.ts_mecabko_lexize none t tlen = some [some (t.take tlen), none] ∧
    (tlen ≤ t.length → (t.take tlen).length = tlen ∧
      ∀ i < tlen, (t.take tlen).get? i = t.get? i) := by
  refine ⟨rfl, fun h => ⟨by simp [h], fun i hi => ?_⟩⟩
  simp [List.getElem?_take, hi]

theorem ts_mecabko_lexize_no_node_witness :
    TsMecabKo.ts_mecabko_lexize none [0x41, 0x42, 0x43, 0x20, 0x44] 3
      = some [some [0x41, 0x42, 0x43], none] ∧
    ([0x41, 0x42, 0x43, 0x20, 0x44].take 3).length = 3 :=
  ⟨(ts_mecabko_lexize_no_node [0x41, 0x42, 0x43, 0x20, 0x44] 3).1,
    ((ts_mecabko_lexize_no_node [0x41, 0x42, 0x43, 0x20, 0x44] 3).2 (by decide)).1⟩

/-! ### The kana transliterators -/

theorem byteAt_append_of_lt (c rest : List Nat) (i : Nat) (h : i < c.length) :
    byteAt (c ++ rest) i = byteAt c i := by
  simp [byteAt, List.getD_eq_getElem?_getD, List.getElem?_append_left h]

theorem uchar_mblen_append (c rest : List Nat) (h : c ≠ []) :
    uchar_mblen (c ++ rest) = uchar_mblen c := by
  have h0 : 0 < c.length := List.length_pos.mpr h
  simp [uchar_mblen, byteAt_append_of_lt c rest 0 h0]

theorem EQ3_append (c rest m : List Nat) (h : c.length = 3) :
    EQ3 (c ++ rest) m = EQ3 c m := by
  simp [EQ3, byteAt_append_of_lt c rest 0 (by omega), byteAt_append_of_lt c rest 1 (by omega),
    byteAt_append_of_lt c rest 2 (by omega)]

theorem appendMappedChar_append (dst c rest : List Nat) (map : List Map) (append : append_t)
    (h : c.length = 3) :
    appendMappedChar dst (c ++ rest) 3 map append = appendMappedChar dst c 3 map append := by
  have ht : c.take 3 = c := List.take_of_length_le (by omega)
  simp [appendMappedChar, ht, byteAt_append_of_lt c rest 1 (by omega),
    byteAt_append_of_lt c rest 2 (by omega), List.take_left' h]

theorem hiragana_utf8_body_append (dst c rest : List Nat) (h : c.length = 3)
    (hm : uchar_mblen c = 3) :
    hiragana_utf8_body dst (c ++ rest) = hiragana_utf8_body dst c := by
  have hne : c ≠ [] := by intro h0; simp [h0] at h
  have ht : c.take 3 = c := List.take_of_length_le (by omega)
  simp [hiragana_utf8_body, ht, hiragana_utf8_voicing, hiragana_utf8_convert,
    uchar_mblen_append c rest hne, hm, EQ3_append c rest _ h,
    byteAt_append_of_lt c rest 0 (by omega), byteAt_append_of_lt c rest 1 (by omega),
    byteAt_append_of_lt c rest 2 (by omega), appendMappedChar_append dst c rest _ _ h,
    List.take_left' h]

theorem katakana_utf8_body_append (dst c rest : List Nat) (h : c.length = 3)
    (hm : uchar_mblen c = 3) :
    katakana_utf8_body dst (c ++ rest) = katakana_utf8_body dst c := by
  have hne : c ≠ [] := by intro h0; simp [h0] at h
  have ht : c.take 3 = c := List.take_of_length_le (by omega)
  simp [katakana_utf8_body, ht, uchar_mblen_append c rest hne, hm,
    byteAt_append_of_lt c rest 0 (by omega), byteAt_append_of_lt c rest 1 (by omega),
    byteAt_append_of_lt c rest 2 (by omega), List.take_left' h]

theorem appendMappedChar_binary (dst s : List Nat) (len : Nat) (map : List Map) :
    appendMappedChar dst s len map appendBinaryStringInfo =
      dst ++ appendMappedChar [] s len map appendBinaryStringInfo := by
  unfold appendMappedChar
  split_ifs
  · cases bsearch (WIDEN (byteAt s 1) (byteAt s 2)) map <;> simp [appendBinaryStringInfo]
  · simp [appendBinaryStringInfo]

theorem hiragana_utf8_convert_dst (dst s : List Nat) (len : Nat) :
    hiragana_utf8_convert dst s len = dst ++ hiragana_utf8_convert [] s len := by
  unfold hiragana_utf8_convert
  split_ifs <;>
    first
    | simp [appendStringInfoChar, appendMBString, appendBinaryStringInfo]
    | exact appendMappedChar_binary dst s len _

theorem hiragana_utf8_body_plain (dst s : List Nat) (hm : uchar_mblen s = 3)
    (hd : (EQ3 s DAKUTEN_HALF || EQ3 s DAKUTEN_WIDE) = false)
    (hh : (EQ3 s HANDAKU_HALF || EQ3 s HANDAKU_WIDE) = false) :
    hiragana_utf8_body dst s = (dst ++ hiragana_utf8_convert [] s 3, 3) := by
  have hv : hiragana_utf8_voicing dst s = none := by
    unfold hiragana_utf8_voicing
    simp [hd, hh]
  simp only [hiragana_utf8_body, hm, hv]
  rw [hiragana_utf8_convert_dst]
  simp

theorem katakana_utf8_body_dst (dst s : List Nat) :
    katakana_utf8_body dst s =
      (dst ++ (katakana_utf8_body [] s).1, (katakana_utf8_body [] s).2) := by
  unfold katakana_utf8_body
  simp only []
  split_ifs <;> simp [appendStringInfoChar, appendMBString, appendBinaryStringInfo]

theorem hiragana_utf8_loop_chars (f g : Nat → List Nat) (cs : List Nat)
    (hP : ∀ c ∈ cs, (f c).length = 3 ∧ uchar_mblen (f c) = 3 ∧
      (EQ3 (f c) DAKUTEN_HALF || EQ3 (f c) DAKUTEN_WIDE) = false ∧
      (EQ3 (f c) HANDAKU_HALF || EQ3 (f c) HANDAKU_WIDE) = false ∧
      hiragana_utf8_convert [] (f c) 3 = g c) :
    ∀ (fuel : Nat) (dst : List Nat), (cs.flatMap f).length ≤ fuel →
      hiragana_utf8_loop fuel dst (cs.flatMap f) = dst ++ cs.flatMap g := by
  induction cs with
  | nil =>
    intro fuel dst _
    cases fuel <;> simp [hiragana_utf8_loop]
  | cons c tl ih =>
    intro fuel dst hf
    obtain ⟨h3, hm, hd, hh, hg⟩ := hP c (List.mem_cons_self c tl)
    have htl := ih (fun x hx => hP x (List.mem_cons_of_mem c hx))
    simp only [List.flatMap_cons, List.length_append] at hf ⊢
    cases fuel with
    | zero => omega
    | succ k =>
      have hne : f c ++ tl.flatMap f ≠ [] := by
        intro h0
        have := congrArg List.length h0
        simp only [List.length_append, List.length_nil] at this
        omega
      have hbody : hiragana_utf8_body dst (f c ++ tl.flatMap f) = (dst ++ g c, 3) := by
        rw [hiragana_utf8_body_append dst (f c) _ h3 hm,
          hiragana_utf8_body_plain dst (f c) hm hd hh, hg]
      simp only [hiragana_utf8_loop, hne, if_false, hbody, List.drop_left' h3]
      rw [htl k (dst ++ g c) (by omega)]
      simp

theorem katakana_utf8_loop_chars (f g : Nat → List Nat) (cs : List Nat)
    (hP : ∀ c ∈ cs, (f c).length = 3 ∧ uchar_mblen (f c) = 3 ∧
      (katakana_utf8_body [] (f c)).1 = g c) :
    ∀ (fuel : Nat) (dst : List Nat), (cs.flatMap f).length ≤ fuel →
      katakana_utf8_loop fuel dst (cs.flatMap f) = dst ++ cs.flatMap g := by
  induction cs with
  | nil =>
    intro fuel dst _
    cases fuel <;> simp [katakana_utf8_loop]
  | cons c tl ih =>
    intro fuel dst hf
    obtain ⟨h3, hm, hg⟩ := hP c (List.mem_cons_self c tl)
    have htl := ih (fun x hx => hP x (List.mem_cons_of_mem c hx))
    simp only [List.flatMap_cons, List.length_append] at hf ⊢
    cases fuel with
    | zero => omega
    | succ k =>
      have hne : f c ++ tl.flatMap f ≠ [] := by
        intro h0
        have := congrArg List.length h0
        simp only [List.length_append, List.length_nil] at this
        omega
      have hlen : (katakana_utf8_body [] (f c)).2 = 3 := by
        unfold katakana_utf8_body
        simp only [hm]
        split_ifs <;> rfl
      have hbody : katakana_utf8_body dst (f c ++ tl.flatMap f) = (dst ++ g c, 3) := by
        rw [katakana_utf8_body_append dst (f c) _ h3 hm, katakana_utf8_body_dst dst (f c), hg,
          hlen]
      simp only [katakana_utf8_loop, hne, if_false, hbody, List.drop_left' h3]
      rw [htl k (dst ++ g c) (by omega)]
      simp

/-- C13: for every string `s` of characters of `U+30A1..U+30F6` in UTF-8,
`katakana_utf8(hiragana_utf8(s)) = s`. -/
theorem katakana_hiragana_roundtrip (cs : List Nat)
    (h : ∀ c ∈ cs, 0x30a1 ≤ c ∧ c ≤ 0x30f6) :
    katakana_utf8 [] (hiragana_utf8 [] (utf8_text3 cs)) = utf8_text3 cs := by
  have key : ∀ i < 86,
      (utf8_encode3 (0x30a1 + i)).length = 3 ∧ uchar_mblen (utf8_encode3 (0x30a1 + i)) = 3 ∧
      (EQ3 (utf8_encode3 (0x30a1 + i)) DAKUTEN_HALF ||
        EQ3 (utf8_encode3 (0x30a1 + i)) DAKUTEN_WIDE) = false ∧
      (EQ3 (utf8_encode3 (0x30a1 + i)) HANDAKU_HALF ||
        EQ3 (utf8_encode3 (0x30a1 + i)) HANDAKU_WIDE) = false ∧
      (hiragana_utf8_convert [] (utf8_encode3 (0x30a1 + i)) 3).length = 3 ∧
      uchar_mblen (hiragana_utf8_convert [] (utf8_encode3 (0x30a1 + i)) 3) = 3 ∧
      (katakana_utf8_body [] (hiragana_utf8_convert [] (utf8_encode3 (0x30a1 + i)) 3)).1
        = utf8_encode3 (0x30a1 + i) := by decide!
  have keyc : ∀ c ∈ cs,
      (utf8_encode3 c).length = 3 ∧ uchar_mblen (utf8_encode3 c) = 3 ∧
      (EQ3 (utf8_encode3 c) DAKUTEN_HALF || EQ3 (utf8_encode3 c) DAKUTEN_WIDE) = false ∧
      (EQ3 (utf8_encode3 c) HANDAKU_HALF || EQ3 (utf8_encode3 c) HANDAKU_WIDE) = false ∧
      (hiragana_utf8_convert [] (utf8_encode3 c) 3).length = 3 ∧
      uchar_mblen (hiragana_utf8_convert [] (utf8_encode3 c) 3) = 3 ∧
      (katakana_utf8_body [] (hiragana_utf8_convert [] (utf8_encode3 c) 3)).1
        = utf8_encode3 c := by
    intro c hc
    have hr := h c hc
    have hk := key (c - 0x30a1) (by omega)
    rwa [show 0x30a1 + (c - 0x30a1) = c by omega] at hk
  have h1 : hiragana_utf8 [] (utf8_text3 cs) =
      cs.flatMap (fun c => hiragana_utf8_convert [] (utf8_encode3 c) 3) := by
    have := hiragana_utf8_loop_chars utf8_encode3
      (fun c => hiragana_utf8_convert [] (utf8_encode3 c) 3) cs
      (fun c hc => by
        obtain ⟨a, b, d, e, _, _, _⟩ := keyc c hc
        exact ⟨a, b, d, e, rfl⟩)
      (cs.flatMap utf8_encode3).length [] (le_refl _)
    simpa [hiragana_utf8, utf8_text3] using this
  have h2 : katakana_utf8 [] (cs.flatMap (fun c => hiragana_utf8_convert [] (utf8_encode3 c) 3))
      = cs.flatMap utf8_encode3 := by
    have := katakana_utf8_loop_chars (fun c => hiragana_utf8_convert [] (utf8_encode3 c) 3)
      utf8_encode3 cs
      (fun c hc => by
        obtain ⟨_, _, _, _, a, b, d⟩ := keyc c hc
        exact ⟨a, b, d⟩)
      (cs.flatMap (fun c => hiragana_utf8_convert [] (utf8_encode3 c) 3)).length []
      (le_refl _)
    simpa [katakana_utf8] using this
  rw [h1, h2, utf8_text3]

theorem katakana_hiragana_roundtrip_witness :
    (∀ c ∈ [0x30ab, 0x30bf, 0x30f4], 0x30a1 ≤ c ∧ c ≤ 0x30f6) ∧
    katakana_utf8 [] (hiragana_utf8 [] (utf8_text3 [0x30ab, 0x30bf, 0x30f4]))
      = utf8_text3 [0x30ab, 0x30bf, 0x30f4] :=
  ⟨by decide, katakana_hiragana_roundtrip [0x30ab, 0x30bf, 0x30f4] (by decide)⟩

/-- C14 (counterexample): the hiragana か followed by the voicing mark U+309B,
both in the hiragana block, does not come back: `katakana_utf8` gives カ and
the mark, and `hiragana_utf8` fuses them into が (E3 81 8C). -/
theorem hiragana_katakana_roundtrip_fails :
    utf8_text3 [0x304b, 0x309b] = [0xe3, 0x81, 0x8b, 0xe3, 0x82, 0x9b] ∧
    katakana_utf8 [] (utf8_text3 [0x304b, 0x309b]) = [0xe3, 0x82, 0xab, 0xe3, 0x82, 0x9b] ∧
    hiragana_utf8 [] (katakana_utf8 [] (utf8_text3 [0x304b, 0x309b])) = [0xe3, 0x81, 0x8c] ∧
    hiragana_utf8 [] (katakana_utf8 [] (utf8_text3 [0x304b, 0x309b]))
      ≠ utf8_text3 [0x304b, 0x309b] := by decide!

/-- C14 (amended): for every string `s` of characters of the hiragana block
`U+3041..U+309F` other than the voicing marks U+309B and U+309C, in UTF-8,
`hiragana_utf8(katakana_utf8(s)) = s`. -/
theorem hiragana_katakana_roundtrip (cs : List Nat)
    (h : ∀ c ∈ cs, 0x3041 ≤ c ∧ c ≤ 0x309f ∧ c ≠ 0x309b ∧ c ≠ 0x309c) :
    hiragana_utf8 [] (katakana_utf8 [] (utf8_text3 cs)) = utf8_text3 cs := by
  have key : ∀ i < 95, (0x3041 + i = 0x309b ∨ 0x3041 + i = 0x309c) ∨
      (utf8_encode3 (0x3041 + i)).length = 3 ∧ uchar_mblen (utf8_encode3 (0x3041 + i)) = 3 ∧
      ((katakana_utf8_body [] (utf8_encode3 (0x3041 + i))).1).length = 3 ∧
      uchar_mblen (katakana_utf8_body [] (utf8_encode3 (0x3041 + i))).1 = 3 ∧
      (EQ3 (katakana_utf8_body [] (utf8_encode3 (0x3041 + i))).1 DAKUTEN_HALF ||
        EQ3 (katakana_utf8_body [] (utf8_encode3 (0x3041 + i))).1 DAKUTEN_WIDE) = false ∧
      (EQ3 (katakana_utf8_body [] (utf8_encode3 (0x3041 + i))).1 HANDAKU_HALF ||
        EQ3 (katakana_utf8_body [] (utf8_encode3 (0x3041 + i))).1 HANDAKU_WIDE) = false ∧
      hiragana_utf8_convert [] (katakana_utf8_body [] (utf8_encode3 (0x3041 + i))).1 3
        = utf8_encode3 (0x3041 + i) := by decide!
  have keyc : ∀ c ∈ cs,
      (utf8_encode3 c).length = 3 ∧ uchar_mblen (utf8_encode3 c) = 3 ∧
      ((katakana_utf8_body [] (utf8_encode3 c)).1).length = 3 ∧
      uchar_mblen (katakana_utf8_body [] (utf8_encode3 c)).1 = 3 ∧
      (EQ3 (katakana_utf8_body [] (utf8_encode3 c)).1 DAKUTEN_HALF ||
        EQ3 (katakana_utf8_body [] (utf8_encode3 c)).1 DAKUTEN_WIDE) = false ∧
      (EQ3 (katakana_utf8_body [] (utf8_encode3 c)).1 HANDAKU_HALF ||
        EQ3 (katakana_utf8_body [] (utf8_encode3 c)).1 HANDAKU_WIDE) = false ∧
      hiragana_utf8_convert [] (katakana_utf8_body [] (utf8_encode3 c)).1 3
        = utf8_encode3 c := by
    intro c hc
    have hr := h c hc
    have hk := key (c - 0x3041) (by omega)
    rw [show 0x3041 + (c - 0x3041) = c by omega] at hk
    rcases hk with (h1 | h1) | h1
    · exact absurd h1 hr.2.2.1
    · exact absurd h1 hr.2.2.2
    · exact h1
  have h1 : katakana_utf8 [] (utf8_text3 cs) =
      cs.flatMap (fun c => (katakana_utf8_body [] (utf8_encode3 c)).1) := by
    have := katakana_utf8_loop_chars utf8_encode3
      (fun c => (katakana_utf8_body [] (utf8_encode3 c)).1) cs
      (fun c hc => by
        obtain ⟨a, b, _⟩ := keyc c hc
        exact ⟨a, b, rfl⟩)
      (cs.flatMap utf8_encode3).length [] (le_refl _)
    simpa [katakana_utf8, utf8_text3] using this
  have h2 : hiragana_utf8 [] (cs.flatMap (fun c => (katakana_utf8_body [] (utf8_encode3 c)).1))
      = cs.flatMap utf8_encode3 := by
    have := hiragana_utf8_loop_chars (fun c => (katakana_utf8_body [] (utf8_encode3 c)).1)
      utf8_encode3 cs
      (fun c hc => by
        obtain ⟨_, _, a, b, d, e, g⟩ := keyc c hc
        exact ⟨a, b, d, e, g⟩)
      (cs.flatMap (fun c => (katakana_utf8_body [] (utf8_encode3 c)).1)).length []
      (le_refl _)
    simpa [hiragana_utf8] using this
  rw [h1, h2, utf8_text3]

theorem hiragana_katakana_roundtrip_witness :
    (∀ c ∈ [0x304b, 0x3093, 0x3099, 0x309e],
      0x3041 ≤ c ∧ c ≤ 0x309f ∧ c ≠ 0x309b ∧ c ≠ 0x309c) ∧
    hiragana_utf8 [] (katakana_utf8 [] (utf8_text3 [0x304b, 0x3093, 0x3099, 0x309e]))
      = utf8_text3 [0x304b, 0x3093, 0x3099, 0x309e] :=
  ⟨by decide, hiragana_katakana_roundtrip [0x304b, 0x3093, 0x3099, 0x309e] (by decide)⟩

/-! ### The tokenizer pre-pass -/

theorem StringInfoTail_concat (d : List Nat) (x : Nat) : StringInfoTail (d ++ [x]) 1 0 = x := by
  simp [StringInfoTail, List.getD_eq_getElem?_getD]

theorem StringInfoTail_concat2 (d : List Nat) (y x : Nat) :
    StringInfoTail (d ++ [y, x]) 2 0 = y ∧ StringInfoTail (d ++ [y, x]) 1 0 = x := by
  have h := StringInfoTail_concat (d ++ [y]) x
  simp only [List.append_assoc, List.singleton_append] at h
  refine ⟨?_, h⟩
  have hg : (d ++ [y, x])[d.length]? = some y := by
    rw [List.getElem?_append_right (le_refl _)]
    simp
  simp [StringInfoTail, List.getD_eq_getElem?_getD, hg]

theorem setStringInfoTail_concat (d : List Nat) (x v : Nat) :
    setStringInfoTail (d ++ [x]) 1 0 v = d ++ [v % 256] := by
  simp [setStringInfoTail]

theorem IS_HIGHBIT_SET_ascii (b : Nat) (h : b < 0x80) : TextsearchJa.IS_HIGHBIT_SET b = false := by
  have key : ∀ x < 0x80, TextsearchJa.IS_HIGHBIT_SET x = false := by decide
  exact key b h

/-- The effect of `appendString` with one ASCII byte on a buffer of ASCII bytes. -/
theorem TextsearchJa.appendString_ascii (d : List Nat) (b : Nat)
    (hd : ∀ x ∈ d, x < 0x80) :
    TextsearchJa.appendString d [b] =
      if TextsearchJa.isprint b = false then
        (if d = [] ∨ d.getLast? ≠ some 0x0b then d ++ [0x0b] else d)
      else if d.length > 1 ∧ d.getLast? = some 0x0b then d.dropLast ++ [0x20, b]
      else d ++ [b] := by
  rcases List.eq_nil_or_concat d with rfl | ⟨d1, x, rfl⟩
  · by_cases hp : TextsearchJa.isprint b = true <;>
      simp [TextsearchJa.appendString, byteAt, hp, appendStringInfoChar, appendBinaryStringInfo,
        TextsearchJa.SEPARATOR_CHAR]
  · have hx : x < 0x80 := hd x (by simp)
    have hxh := IS_HIGHBIT_SET_ascii x hx
    by_cases hp : TextsearchJa.isprint b = true
    · rcases List.eq_nil_or_concat d1 with rfl | ⟨d2, y, rfl⟩
      · simp [TextsearchJa.appendString, byteAt, hp, appendBinaryStringInfo]
      · have hy : y < 0x80 := hd y (by simp)
        have hyh := IS_HIGHBIT_SET_ascii y hy
        have ht2 := (StringInfoTail_concat2 d2 y x).1
        have ht1 := (StringInfoTail_concat2 d2 y x).2
        have hset : ∀ v, setStringInfoTail (d2 ++ [y, x]) 1 0 v = d2 ++ [y, v % 256] := by
          intro v
          have := setStringInfoTail_concat (d2 ++ [y]) x v
          simpa using this
        by_cases hv : x = 0x0b
        · subst hv
          simp [TextsearchJa.appendString, byteAt, hp, appendBinaryStringInfo,
            ht1, ht2, hyh, hset, TextsearchJa.SEPARATOR_CHAR, List.dropLast_concat]
        · simp [TextsearchJa.appendString, byteAt, hp, appendBinaryStringInfo,
            ht1, hxh, hv, TextsearchJa.SEPARATOR_CHAR]
    · by_cases hv : x = 0x0b
      · subst hv
        simp [TextsearchJa.appendString, byteAt, hp, appendStringInfoChar,
          StringInfoTail_concat, TextsearchJa.SEPARATOR_CHAR]
      · simp [TextsearchJa.appendString, byteAt, hp, appendStringInfoChar,
          StringInfoTail_concat, hv, TextsearchJa.SEPARATOR_CHAR]

/-- On bytes below `0x80` the loop of `normalize_utf8` hands every byte to the
appender on its own. -/
theorem normalize_utf8_loop_ascii_fold (append : append_t) (s : List Nat) :
    ∀ (fuel : Nat) (dst : List Nat), (∀ b ∈ s, b < 0x80) → s.length ≤ fuel →
      normalize_utf8_loop append fuel dst s = s.foldl (fun d b => append d [b]) dst := by
  induction s with
  | nil =>
    intro fuel dst _ _
    cases fuel <;> simp [normalize_utf8_loop]
  | cons b rest ih =>
    intro fuel dst hb hf
    cases fuel with
    | zero => simp at hf
    | succ f =>
      have hlen : uchar_mblen (b :: rest) = 1 :=
        uchar_mblen_ascii b rest (hb b (List.mem_cons_self b rest))
      have hrest : ∀ x ∈ rest, x < 0x80 := fun x hx => hb x (List.mem_cons_of_mem b hx)
      have hf2 : rest.length ≤ f := by simpa using hf
      simp [normalize_utf8_loop, normalize_utf8_body, hlen, ih f (append dst [b]) hrest hf2]

theorem TextsearchJa.appendString_ascii_bytes (d : List Nat) (b : Nat)
    (hd : ∀ x ∈ d, x < 0x80) (hb : b < 0x80) :
    ∀ x ∈ TextsearchJa.appendString d [b], x < 0x80 := by
  rw [TextsearchJa.appendString_ascii d b hd]
  intro x hx
  split_ifs at hx with h1 h2 h3
  · rcases List.mem_append.mp hx with h | h
    · exact hd x h
    · simp at h; omega
  · exact hd x hx
  · rcases List.mem_append.mp hx with h | h
    · exact hd x (List.dropLast_subset d h)
    · simp at h; omega
  · rcases List.mem_append.mp hx with h | h
    · exact hd x h
    · simp at h; omega

theorem prefix_stable_concat (step : List Nat → Nat → List Nat) (d : List Nat) (x : Nat)
    (hQ : ∀ p, p <+: d → p.foldl step [] = p) (hs : step d x = d ++ [x]) :
    ∀ p, p <+: d ++ [x] → p.foldl step [] = p := by
  intro p hp
  rcases List.prefix_concat_iff.mp hp with h | h
  · rw [h, List.foldl_append, hQ d (List.prefix_refl d)]
    simpa using hs
  · exact hQ p h

/-- The buffers that the pre-pass builds from ASCII bytes reproduce themselves,
prefix by prefix, when the pre-pass runs over them. -/
theorem TextsearchJa.appendString_stable (d : List Nat) (b : Nat)
    (hd : ∀ x ∈ d, x < 0x80)
    (hQ : ∀ p, p <+: d → p.foldl (fun d b => TextsearchJa.appendString d [b]) [] = p) :
    ∀ p, p <+: TextsearchJa.appendString d [b] →
      p.foldl (fun d b => TextsearchJa.appendString d [b]) [] = p := by
  have hchar := TextsearchJa.appendString_ascii d b hd
  by_cases hp : TextsearchJa.isprint b = false
  · by_cases hc : d = [] ∨ d.getLast? ≠ some 0x0b
    · rw [hchar]; simp only [hp, hc, if_true]
      apply prefix_stable_concat _ d 0x0b hQ
      have h2 := TextsearchJa.appendString_ascii d 0x0b hd
      have hnp : TextsearchJa.isprint 0x0b = false := by decide
      simp only [hnp, hc, if_true] at h2
      exact h2
    · rw [hchar]; simp only [hp, hc, if_true, if_false]
      exact hQ
  · by_cases hc : d.length > 1 ∧ d.getLast? = some 0x0b
    · rw [hchar]; simp only [hp, hc, if_false, if_true, and_self]
      obtain ⟨hlen, hlast⟩ := hc
      obtain ⟨d1, hd1⟩ : ∃ d1, d = d1 ++ [0x0b] := by
        rcases List.eq_nil_or_concat d with h | ⟨d1, x, h⟩
        · simp [h] at hlen
        · refine ⟨d1, ?_⟩
          simp only [List.concat_eq_append] at h
          rw [h] at hlast
          simp at hlast
          rw [h, hlast]
      subst hd1
      simp only [List.dropLast_concat]
      have hd1a : ∀ x ∈ d1, x < 0x80 := fun x hx => hd x (List.mem_append_left _ hx)
      have hQ1 : ∀ p, p <+: d1 → p.foldl (fun d b => TextsearchJa.appendString d [b]) [] = p :=
        fun p hp1 => hQ p (hp1.trans (List.prefix_append d1 _))
      have hd1len : d1.length ≥ 1 := by
        simp only [List.length_append, List.length_singleton] at hlen; omega
      have hne : d1.getLast? ≠ some 0x0b := by
        intro hl
        have h2 := TextsearchJa.appendString_ascii d1 0x0b hd1a
        have hnp : TextsearchJa.isprint 0x0b = false := by decide
        have hd1ne : d1 ≠ [] := by intro h0; simp [h0] at hd1len
        simp only [hnp, hl, hd1ne, if_true, false_or, ne_eq, not_true_eq_false, if_false] at h2
        have h3 := hQ (d1 ++ [0x0b]) (List.prefix_refl _)
        rw [List.foldl_append, hQ1 d1 (List.prefix_refl d1)] at h3
        simp only [List.foldl_cons, List.foldl_nil] at h3
        rw [h2] at h3
        have := congrArg List.length h3
        simp at this
      have hs1 : TextsearchJa.appendString d1 [0x20] = d1 ++ [0x20] := by
        have h2 := TextsearchJa.appendString_ascii d1 0x20 hd1a
        have hpr : TextsearchJa.isprint 0x20 = true := by decide
        simp only [hpr, hne, and_false, if_false, Bool.true_eq_false] at h2
        exact h2
      have hQ2 := prefix_stable_concat _ d1 0x20 hQ1 hs1
      have hd2a : ∀ x ∈ d1 ++ [0x20], x < 0x80 := by
        intro x hx
        rcases List.mem_append.mp hx with h | h
        · exact hd1a x h
        · simp at h; omega
      have hs2 : TextsearchJa.appendString (d1 ++ [0x20]) [b] = d1 ++ [0x20] ++ [b] := by
        have h2 := TextsearchJa.appendString_ascii (d1 ++ [0x20]) b hd2a
        simp only [hp, if_false, List.getLast?_append, List.getLast?_singleton] at h2
        simpa using h2
      have hQ3 := prefix_stable_concat _ (d1 ++ [0x20]) b hQ2 hs2
      simpa using hQ3
    · have hpt : TextsearchJa.isprint b = true := by simpa using hp
      have hval : TextsearchJa.appendString d [b] = d ++ [b] := by
        rw [hchar]; simp [hpt, hc]
      rw [hval]
      exact prefix_stable_concat _ d b hQ hval

theorem TextsearchJa.prepass_fold_stable (s : List Nat) :
    ∀ (d : List Nat), (∀ x ∈ d, x < 0x80) →
      (∀ p, p <+: d → p.foldl (fun d b => TextsearchJa.appendString d [b]) [] = p) →
      (∀ b ∈ s, b < 0x80) →
      (∀ x ∈ s.foldl (fun d b => TextsearchJa.appendString d [b]) d, x < 0x80) ∧
      ∀ p, p <+: s.foldl (fun d b => TextsearchJa.appendString d [b]) d →
        p.foldl (fun d b => TextsearchJa.appendString d [b]) [] = p := by
  induction s with
  | nil => intro d hd hQ _; exact ⟨hd, hQ⟩
  | cons b rest ih =>
    intro d hd hQ hs
    have hb : b < 0x80 := hs b (List.mem_cons_self b rest)
    simp only [List.foldl_cons]
    exact ih _ (TextsearchJa.appendString_ascii_bytes d b hd hb)
      (TextsearchJa.appendString_stable d b hd hQ)
      (fun x hx => hs x (List.mem_cons_of_mem b hx))

/-- C12 (counterexample): the pre-pass is not idempotent.  On `あA` it gives
`あ`, SEPARATOR, `A`, and on that output it gives `あA` again; on `あ` followed
by the full-width space it gives `あ` and a space, and on that output `あ`,
SEPARATOR and a space. -/
theorem ts_ja_start_normalize_not_idempotent :
    TextsearchJa.ts_ja_start_normalize [0xe3, 0x81, 0x82, 0x41] = [0xe3, 0x81, 0x82, 0x0b, 0x41] ∧
    TextsearchJa.ts_ja_start_normalize [0xe3, 0x81, 0x82, 0x0b, 0x41] = [0xe3, 0x81, 0x82, 0x41] ∧
    TextsearchJa.ts_ja_start_normalize [0xe3, 0x81, 0x82, 0xe3, 0x80, 0x80]
      = [0xe3, 0x81, 0x82, 0x20] ∧
    TextsearchJa.ts_ja_start_normalize [0xe3, 0x81, 0x82, 0x20]
      = [0xe3, 0x81, 0x82, 0x0b, 0x20] ∧
    TextsearchJa.ts_ja_start_normalize
        (TextsearchJa.ts_ja_start_normalize [0xe3, 0x81, 0x82, 0x41])
      ≠ TextsearchJa.ts_ja_start_normalize [0xe3, 0x81, 0x82, 0x41] := by decide!

/-- C12 (amended): on every input of single-byte ASCII characters (bytes below
`0x80`), the tokenizer pre-pass is idempotent: applying it to its own output
yields the same bytes. -/
theorem ts_ja_start_normalize_idempotent_ascii (s : List Nat) (h : ∀ b ∈ s, b < 0x80) :
    TextsearchJa.ts_ja_start_normalize (TextsearchJa.ts_ja_start_normalize s)
      = TextsearchJa.ts_ja_start_normalize s := by
  have h1 : TextsearchJa.ts_ja_start_normalize s =
      s.foldl (fun d b => TextsearchJa.appendString d [b]) [] := by
    unfold TextsearchJa.ts_ja_start_normalize normalize_utf8
    exact normalize_utf8_loop_ascii_fold _ s s.length [] h (le_refl _)
  obtain ⟨hout, hstab⟩ := TextsearchJa.prepass_fold_stable s [] (by simp)
    (by intro p hp; rw [List.prefix_nil.mp hp]; rfl) h
  rw [← h1] at hout hstab
  have h2 : TextsearchJa.ts_ja_start_normalize (TextsearchJa.ts_ja_start_normalize s) =
      (TextsearchJa.ts_ja_start_normalize s).foldl
        (fun d b => TextsearchJa.appendString d [b]) [] := by
    unfold TextsearchJa.ts_ja_start_normalize normalize_utf8
    exact normalize_utf8_loop_ascii_fold _ _ _ [] hout (le_refl _)
  rw [h2]
  exact hstab _ (List.prefix_refl _)

theorem ts_ja_start_normalize_idempotent_ascii_witness :
    (∀ b ∈ [0x41, 0x0a, 0x0a, 0x42, 0x09], b < 0x80) ∧
    TextsearchJa.ts_ja_start_normalize [0x41, 0x0a, 0x0a, 0x42, 0x09]
      = [0x41, 0x20, 0x42, 0x0b] ∧
    TextsearchJa.ts_ja_start_normalize
        (TextsearchJa.ts_ja_start_normalize [0x41, 0x0a, 0x0a, 0x42, 0x09])
      = TextsearchJa.ts_ja_start_normalize [0x41, 0x0a, 0x0a, 0x42, 0x09] :=
  ⟨by decide, by decide!,
    ts_ja_start_normalize_idempotent_ascii [0x41, 0x0a, 0x0a, 0x42, 0x09] (by decide)⟩

/-! ### The token stream -/

theorem next_token_real (nodes : List mecab_node_t) :
    (real_nodes nodes = [] → next_token nodes = (none, [])) ∧
    (∀ n r, real_nodes nodes = n :: r →
      ∃ rest, next_token nodes = (some n, rest) ∧ real_nodes rest = r ∧
        rest.length < nodes.length ∧ rest <:+ nodes) := by
  induction nodes with
  | nil =>
    refine ⟨fun _ => rfl, ?_⟩
    intro n r h
    simp [real_nodes] at h
  | cons a tl ih =>
    by_cases hb : a.stat = MECAB_BOS_NODE ∨ a.stat = MECAB_EOS_NODE
    · have hreal : real_nodes (a :: tl) = real_nodes tl := by
        rcases hb with h | h <;> simp [real_nodes, h]
      refine ⟨?_, ?_⟩
      · intro h
        rw [hreal] at h
        simp only [next_token, hb, if_true]
        exact ih.1 h
      · intro n r h
        rw [hreal] at h
        obtain ⟨rest, h1, h2, h3, h4⟩ := ih.2 n r h
        refine ⟨rest, ?_, h2, ?_, h4.trans (List.suffix_cons a tl)⟩
        · simp only [next_token, hb, if_true]; exact h1
        · simp only [List.length_cons]; omega
    · have hreal : real_nodes (a :: tl) = a :: real_nodes tl := by
        have h1 : ¬ a.stat = MECAB_BOS_NODE := fun h => hb (Or.inl h)
        have h2 : ¬ a.stat = MECAB_EOS_NODE := fun h => hb (Or.inr h)
        simp [real_nodes, h1, h2]
      refine ⟨?_, ?_⟩
      · intro h; rw [hreal] at h; simp at h
      · intro n r h
        rw [hreal] at h
        simp only [List.cons.injEq] at h
        refine ⟨tl, ?_, h.2, by simp, List.suffix_cons a tl⟩
        rw [← h.1]
        simp only [next_token, hb, if_false]

theorem node_boundary_ge (R : List mecab_node_t) :
    ∀ (p x : Nat), node_boundary R p x → p ≤ x := by
  induction R with
  | nil => intro p x h; simp only [node_boundary] at h; omega
  | cons n r ih =>
    intro p x h
    simp only [node_boundary] at h
    rcases h with h | h
    · omega
    · have := ih _ _ h; omega

theorem node_boundary_next (n : mecab_node_t) (r : List mecab_node_t) (p x : Nat)
    (h : node_boundary (n :: r) p x) (hx : p < x) :
    node_boundary r (p + n.length) x ∧ p + n.length ≤ x := by
  simp only [node_boundary] at h
  rcases h with h | h
  · omega
  · exact ⟨h, node_boundary_ge r _ _ h⟩

/-- The catch-up loop on nodes that partition the buffer: with `skip` at a node
boundary `p` before the end, it returns the node that starts at `p`. -/
theorem skip_nodes_to (L p : Nat) (fuel : Nat) :
    ∀ (nodes : List mecab_node_t) (q : Nat), nodes.length ≤ fuel →
      nodes_partition (real_nodes nodes) q L → node_boundary (real_nodes nodes) q p →
      p < L →
      ∃ n r rest, skip_nodes (some p) fuel nodes = (some n, rest) ∧ real_nodes rest = r ∧
        nodes_partition (n :: r) p L ∧ rest.length < nodes.length ∧ rest <:+ nodes ∧
        n ∈ real_nodes nodes ∧
        ∀ x, p < x → node_boundary (real_nodes nodes) q x → node_boundary (n :: r) p x := by
  induction fuel with
  | zero =>
    intro nodes q hf hpart hb hpL
    have hn : nodes = [] := List.length_eq_zero.mp (by omega)
    subst hn
    simp only [real_nodes, List.filter_nil, nodes_partition, node_boundary] at hpart hb
    omega
  | succ f ih =>
    intro nodes q hf hpart hb hpL
    cases hR : real_nodes nodes with
    | nil =>
      rw [hR] at hpart hb
      simp only [nodes_partition, node_boundary] at hpart hb
      omega
    | cons n r =>
      rw [hR] at hpart hb
      obtain ⟨rest, hnt, hrr, hlt, hsuf⟩ := (next_token_real nodes).2 n r hR
      have hnmem : n ∈ nodes := (next_token_some nodes n rest hnt).1
      obtain ⟨hs, hpos, hpr⟩ := hpart
      by_cases hqp : q < p
      · obtain ⟨hb2, hge⟩ := node_boundary_next n r q p hb hqp
        rw [← hrr] at hpr hb2
        obtain ⟨n2, r2, rest2, h1, h2, h3, h4, h5, h6, h7⟩ :=
          ih rest (q + n.length) (by omega) hpr hb2 hpL
        have hmem2 : n2 ∈ n :: r := by rw [← hrr]; exact List.mem_cons_of_mem n h6
        refine ⟨n2, r2, rest2, ?_, h2, h3, by omega, h5.trans hsuf, hmem2, ?_⟩
        · simp only [skip_nodes, hnt, surface_before, hs, hqp, decide_True, if_true]
          exact h1
        · intro x hx hbx
          have := node_boundary_next n r q x hbx (by omega)
          rw [← hrr] at this
          exact h7 x hx this.1
      · have hpq : p = q := by
          have := node_boundary_ge _ _ _ hb; omega
        subst hpq
        refine ⟨n, r, rest, ?_, hrr, ⟨hs, hpos, hpr⟩, hlt, hsuf, List.mem_cons_self n r, ?_⟩
        · simp only [skip_nodes, hnt, surface_before, hs, lt_irrefl, decide_False]
          simp
        · intro x _ hbx
          exact hbx

theorem real_nodes_suffix (rest nodes : List mecab_node_t) (h : rest <:+ nodes) :
    ∀ x ∈ real_nodes rest, x ∈ real_nodes nodes := by
  intro x hx
  simp only [real_nodes, List.mem_filter] at hx ⊢
  exact ⟨h.subset hx.1, hx.2⟩

theorem tokens_partition_bounds (A : List prsd_token) :
    ∀ (p L : Nat), tokens_partition A p L → p ≤ L ∧ ∀ tok ∈ A, p ≤ tok.t ∧ tok.t + tok.tlen ≤ L := by
  induction A with
  | nil => intro p L h; simp only [tokens_partition] at h; subst h; simp
  | cons a tl ih =>
    intro p L h
    simp only [tokens_partition] at h
    obtain ⟨h1, h2, _, h4⟩ := h
    obtain ⟨h5, h6⟩ := ih _ _ h4
    refine ⟨by omega, ?_⟩
    intro tok htok
    rcases List.mem_cons.mp htok with h | h
    · subst h; omega
    · have := h6 tok h; omega

theorem nodes_partition_start_le (R : List mecab_node_t) :
    ∀ (p L : Nat), nodes_partition R p L → p ≤ L := by
  induction R with
  | nil => intro p L h; simp only [nodes_partition] at h; omega
  | cons n r ih =>
    intro p L h
    simp only [nodes_partition] at h
    have := ih _ _ h.2.2
    omega

theorem nodes_partition_le (R : List mecab_node_t) :
    ∀ (p L x : Nat), nodes_partition R p L → node_boundary R p x → x ≤ L := by
  induction R with
  | nil =>
    intro p L x h hb
    simp only [nodes_partition, node_boundary] at h hb; omega
  | cons n r ih =>
    intro p L x h hb
    have hle := nodes_partition_start_le _ _ _ h
    simp only [nodes_partition, node_boundary] at h hb
    obtain ⟨_, _, h3⟩ := h
    rcases hb with hb | hb
    · omega
    · exact ih _ _ _ h3 hb

theorem partition_from_skip (str : List Nat) (tok : prsd_token) (A toks : List prsd_token)
    (p L : Nat) (h : partition_from str A toks p L)
    (hx : ¬ (tok.lextype = SPACE ∧ byteAt str tok.t = 0x0b) ∨ tok.t + tok.tlen ≤ p) :
    partition_from str (tok :: A) toks p L := by
  obtain ⟨h1, h2, h3, h4⟩ := h
  refine ⟨h1, h2, ?_, ?_⟩
  · intro i hi hl
    rcases h3 i hi hl with h | ⟨t, hm, hrest⟩
    · exact Or.inl h
    · exact Or.inr ⟨t, List.mem_cons_of_mem _ hm, hrest⟩
  · rintro i hc ⟨t, hm, hs, hb, hlo, hhi⟩
    rcases List.mem_cons.mp hm with e | hm2
    · subst e
      rcases hx with hx | hx
      · exact hx ⟨hs, hb⟩
      · obtain ⟨c, hcm, hc1, _⟩ := hc
        have := (h1 c hcm).1
        omega
    · exact h4 i hc ⟨t, hm2, hs, hb, hlo, hhi⟩

theorem partition_from_cons (str : List Nat) (A toks : List prsd_token) (p L ty len : Nat)
    (hty : ty ≠ 0) (hfree : ∀ i, p ≤ i → i < p + len → ¬ in_separator str A i)
    (h : partition_from str A toks (p + len) L) :
    partition_from str A (prsd_token.mk ty p len :: toks) p L := by
  obtain ⟨h1, h2, h3, h4⟩ := h
  refine ⟨?_, ?_, ?_, ?_⟩
  · intro tok htok
    rcases List.mem_cons.mp htok with h | h
    · subst h; exact ⟨le_refl _, hty⟩
    · have := h1 tok h; exact ⟨by omega, this.2⟩
  · refine List.pairwise_cons.mpr ⟨?_, h2⟩
    intro b hb
    exact (h1 b hb).1
  · intro i hi hl
    by_cases hlt : i < p + len
    · exact Or.inl ⟨prsd_token.mk ty p len, List.mem_cons_self _ _, hi, hlt⟩
    · rcases h3 i (by omega) hl with ⟨tok, hm, hrest⟩ | h
      · exact Or.inl ⟨tok, List.mem_cons_of_mem _ hm, hrest⟩
      · exact Or.inr h
  · rintro i ⟨c, hcm, hc1, hc2⟩
    rcases List.mem_cons.mp hcm with e | hm2
    · subst e
      exact hfree i hc1 hc2
    · exact h4 i ⟨c, hm2, hc1, hc2⟩

theorem partition_from_separator (str : List Nat) (A toks : List prsd_token) (p L : Nat)
    (sep : prsd_token) (hm : sep ∈ A) (ht : sep.t = p) (hs : sep.lextype = SPACE)
    (hb : byteAt str sep.t = 0x0b) (h : partition_from str A toks (p + sep.tlen) L) :
    partition_from str A toks p L := by
  obtain ⟨h1, h2, h3, h4⟩ := h
  refine ⟨?_, h2, ?_, h4⟩
  · intro tok htok
    have := h1 tok htok; exact ⟨by omega, this.2⟩
  · intro i hi hl
    by_cases hlt : i < p + sep.tlen
    · exact Or.inr ⟨sep, hm, hs, hb, by omega, by omega⟩
    · exact h3 i (by omega) hl

theorem ascii_loop_same_text (isWord : Nat → Bool) (parser parser2 : parser_data)
    (h1 : parser2.str = parser.str) (h2 : parser2.node = parser.node)
    (h3 : parser2.last_node_pos = parser.last_node_pos) (A : List prsd_token) :
    ∀ (t0 tlen0 : Nat),
      ascii_loop isWord parser2 t0 tlen0 A = ascii_loop isWord parser t0 tlen0 A := by
  induction A with
  | nil => intro t0 tlen0; simp only [ascii_loop, h1, h2, h3]
  | cons a tl ih =>
    intro t0 tlen0
    simp only [ascii_loop, h1, h2, h3]
    rw [ih]

/-- The result of the analyzer pull once the catch-up loop has found a node. -/
theorem analyzer_phase_emit (classify : mecab_node_t → Option Nat) (skip : Option Nat)
    (t1 tlen1 e ty : Nat) (parser1 : parser_data) (n : mecab_node_t)
    (rest : List mecab_node_t) (hl : parser1.last_node_pos = some e)
    (hsk : skip_nodes skip parser1.node.length parser1.node = (some n, rest))
    (hc : classify n = some ty) :
    analyzer_phase classify skip t1 tlen1 parser1 =
      some (gettoken_result.mk ty n.surface n.length
        { parser1 with
          node := rest
          last_node_pos := (if n.surface + n.length ≥ e then none else some e) }
        (some n)) := by
  simp only [analyzer_phase, hsk, hc, hl]

theorem skip_nodes_none (nodes : List mecab_node_t) (n : mecab_node_t)
    (rest : List mecab_node_t) (h : next_token nodes = (some n, rest)) :
    skip_nodes none nodes.length nodes = (some n, rest) := by
  cases nodes with
  | nil => simp [next_token] at h
  | cons a tl =>
    simp only [List.length_cons, skip_nodes, h, surface_before]
    simp

theorem stream_inv_after_emit (isWord : Nat → Bool) (L p e : Nat) (n : mecab_node_t)
    (r : List mecab_node_t) (parser2 : parser_data)
    (hnp : nodes_partition (n :: r) p L) (hbe : node_boundary (n :: r) p e) (hpe : p < e)
    (htp : tokens_partition parser2.ascprs e L)
    (hal : ∀ tok ∈ parser2.ascprs, isWord tok.lextype = true →
      node_boundary (n :: r) p tok.t ∧ node_boundary (n :: r) p (tok.t + tok.tlen))
    (hrr : real_nodes parser2.node = r)
    (hl : parser2.last_node_pos = if n.surface + n.length ≥ e then none else some e) :
    stream_inv isWord L parser2 (p + n.length) := by
  obtain ⟨hs, hpos, hnp2⟩ := hnp
  obtain ⟨hbe2, hle⟩ := node_boundary_next n r p e hbe hpe
  have hbounds := (tokens_partition_bounds _ _ _ htp).2
  have hal2 : ∀ tok ∈ parser2.ascprs, isWord tok.lextype = true →
      node_boundary r (p + n.length) tok.t ∧
      node_boundary r (p + n.length) (tok.t + tok.tlen) := by
    intro tok hm hw
    obtain ⟨h1, h2⟩ := hal tok hm hw
    have hb := hbounds tok hm
    exact ⟨(node_boundary_next n r p _ h1 (by omega)).1,
      (node_boundary_next n r p _ h2 (by omega)).1⟩
  by_cases hge : n.surface + n.length ≥ e
  · left
    rw [if_pos hge] at hl
    have he : e = p + n.length := by omega
    rw [he] at htp
    rw [hrr]
    exact ⟨hl, htp, p + n.length, le_refl _, hnp2, hal2⟩
  · right
    rw [if_neg hge] at hl
    rw [hrr]
    exact ⟨e, hl, by omega, htp, hnp2, hbe2, hal2⟩

/-- From a state that satisfies `stream_inv` at `p`, repeated `next()` calls
reach the terminator, and the tokens they return partition `p..L` apart from
the discarded separator tokens. -/
theorem token_stream_partition_aux (isWord : Nat → Bool)
    (classify : mecab_node_t → Option Nat) (L : Nat) (m : Nat) :
    ∀ (parser : parser_data) (p t0 tlen0 fuel : Nat),
      parser.ascprs.length + parser.node.length ≤ m → m + 1 ≤ fuel →
      (∀ n ∈ real_nodes parser.node, ∃ ty, classify n = some ty ∧ ty ≠ 0) →
      stream_inv isWord L parser p →
      ∃ toks, token_stream isWord classify fuel parser t0 tlen0 = some toks ∧
        partition_from parser.str parser.ascprs toks p L := by
  induction m using Nat.strong_induction_on with
  | _ m ih =>
  intro parser p t0 tlen0 fuel hm hfuel hcl hinv
  obtain ⟨f, rfl⟩ : ∃ f, fuel = f + 1 := ⟨fuel - 1, by omega⟩
  -- the step shared by both modes: a node has been emitted
  have emit : ∀ (skip : Option Nat) (t1 tlen1 e : Nat) (parser1 : parser_data)
      (n : mecab_node_t) (r rest : List mecab_node_t),
      gettoken isWord classify parser t0 tlen0 =
        analyzer_phase classify skip t1 tlen1 parser1 →
      parser1.last_node_pos = some e → parser1.str = parser.str →
      (∀ toks q, p ≤ q → partition_from parser.str parser1.ascprs toks q L →
        partition_from parser.str parser.ascprs toks q L) →
      (∀ i, p ≤ i → i < e → ¬ in_separator parser.str parser.ascprs i) →
      parser1.ascprs.length + rest.length < parser.ascprs.length + parser.node.length →
      skip_nodes skip parser1.node.length parser1.node = (some n, rest) →
      n ∈ real_nodes parser.node → rest <:+ parser.node → real_nodes rest = r →
      nodes_partition (n :: r) p L → node_boundary (n :: r) p e → p < e →
      tokens_partition parser1.ascprs e L →
      (∀ tok ∈ parser1.ascprs, isWord tok.lextype = true →
        node_boundary (n :: r) p tok.t ∧ node_boundary (n :: r) p (tok.t + tok.tlen)) →
      ∃ toks, token_stream isWord classify (f + 1) parser t0 tlen0 = some toks ∧
        partition_from parser.str parser.ascprs toks p L := by
    intro skip t1 tlen1 e parser1 n r rest hget hl1 hstr hlift hfree hmeas hsk hnmem hsuf hrr
      hnp hbe hpe htp hal
    obtain ⟨ty, hty, hty0⟩ := hcl n hnmem
    have hres := analyzer_phase_emit classify skip t1 tlen1 e ty parser1 n rest hl1 hsk hty
    have hinv2 := stream_inv_after_emit isWord L p e n r
      { parser1 with
        node := rest
        last_node_pos := (if n.surface + n.length ≥ e then none else some e) }
      hnp hbe hpe htp hal hrr rfl
    obtain ⟨toks, htoks, hpart⟩ := ih (m - 1) (by omega)
      { parser1 with
        node := rest
        last_node_pos := (if n.surface + n.length ≥ e then none else some e) }
      (p + n.length) n.surface n.length f (by simp only; omega) (by omega)
      (fun x hx => hcl x (real_nodes_suffix _ _ hsuf x hx)) hinv2
    refine ⟨prsd_token.mk ty n.surface n.length :: toks, ?_, ?_⟩
    · simp only [token_stream, hget, hres, hty0, if_false, htoks]
    · have hs : n.surface = p := hnp.1
      have hne := (node_boundary_next n r p e hbe hpe).2
      rw [hs]
      simp only [hstr] at hpart
      exact partition_from_cons _ _ _ _ _ _ _ hty0
        (fun i h1 h2 => hfree i h1 (by omega)) (hlift _ _ (by omega) hpart)
  rcases hinv with ⟨hl, htp, q, hq, hnp, hal⟩ | ⟨e, hl, hpe, htp, hnp, hbe, hal⟩
  · -- no analyzer region is active
    cases hA : parser.ascprs with
    | nil =>
      rw [hA] at htp
      simp only [tokens_partition] at htp
      refine ⟨[], ?_, ?_⟩
      · simp [token_stream, gettoken, hl, hA, ascii_loop]
      · refine ⟨by simp, List.Pairwise.nil, ?_, ?_⟩
        · intro i hi hlt; omega
        · rintro i ⟨c, hc, _⟩
          simp at hc
    | cons tok rest =>
      rw [hA] at htp hal
      rw [← hA]
      have hm2 : rest.length + 1 + parser.node.length ≤ m := by
        rw [hA, List.length_cons] at hm; exact hm
      obtain ⟨ht, hlen, hty0, htp2⟩ := htp
      have hbounds := tokens_partition_bounds _ _ _ htp2
      by_cases hsep : tok.lextype = SPACE ∧ tok.tlen > 0 ∧ byteAt parser.str tok.t = 0x0b
      · -- a separator token is discarded
        have hget : gettoken isWord classify parser t0 tlen0 =
            gettoken isWord classify { parser with ascprs := rest } tok.t tok.tlen := by
          have hph : ascii_loop isWord parser t0 tlen0 (tok :: rest) =
              ascii_loop isWord { parser with ascprs := rest } tok.t tok.tlen rest := by
            rw [ascii_loop_same_text isWord parser { parser with ascprs := rest } rfl rfl rfl]
            simp only [ascii_loop]
            rw [if_neg hty0, if_pos hsep]
          unfold gettoken
          simp only [hl, hA]
          rw [hph]
          simp only [hl]
        have hinv2 : stream_inv isWord L { parser with ascprs := rest } (p + tok.tlen) :=
          Or.inl ⟨hl, htp2, q, by omega, hnp,
            fun x hx hw => hal x (List.mem_cons_of_mem tok hx) hw⟩
        obtain ⟨toks, htoks, hpart⟩ := ih (m - 1) (by omega)
          { parser with ascprs := rest } (p + tok.tlen) tok.t tok.tlen (f + 1)
          (by simp only; omega) (by omega) hcl hinv2
        refine ⟨toks, ?_, ?_⟩
        · simp only [token_stream, hget] at htoks ⊢
          exact htoks
        · simp only at hpart
          rw [hA]
          exact partition_from_separator _ _ _ _ _ tok (List.mem_cons_self _ _)
            ht hsep.1 hsep.2.2 (partition_from_skip _ tok rest _ _ _ hpart
              (Or.inr (by omega)))
      · by_cases hw : isWord tok.lextype = true
        · -- the token opens an analyzer region
          have hget : gettoken isWord classify parser t0 tlen0 =
              analyzer_phase classify (some tok.t) tok.t tok.tlen
                { parser with ascprs := rest, last_node_pos := some (tok.t + tok.tlen) } := by
            simp [gettoken, hl, hA, ascii_loop, hty0, hsep, hw]
          obtain ⟨hb1, hb2⟩ := hal tok (List.mem_cons_self _ _) hw
          have hpL : p < L := by have := hbounds.1; omega
          rw [ht] at hb1 hb2 hget
          obtain ⟨n, r, rest2, h1, h2, h3, h4, h5, h6, h7⟩ :=
            skip_nodes_to L p parser.node.length parser.node q (le_refl _) hnp hb1 hpL
          refine emit (some p) p tok.tlen (p + tok.tlen)
            { parser with ascprs := rest, last_node_pos := some (p + tok.tlen) } n r rest2
            hget rfl rfl
            (fun toks q _ h => by
              rw [hA]
              exact partition_from_skip _ tok rest toks q L h
                (Or.inl (fun hh => hsep ⟨hh.1, hlen, hh.2⟩)))
            (by
              rw [hA]
              rintro i hi1 hi2 ⟨x, hx, hs, hb, hlo, hhi⟩
              rcases List.mem_cons.mp hx with e | hx2
              · subst e
                exact hsep ⟨hs, hlen, hb⟩
              · have := (hbounds.2 x hx2).1
                omega)
            (by rw [hA]; simp only [List.length_cons]; omega) h1 h6 h5 h2 h3
            (h7 _ (by omega) hb2) (by omega) htp2 ?_
          intro x hx hwx
          obtain ⟨hx1, hx2⟩ := hal x (List.mem_cons_of_mem tok hx) hwx
          have hxb := hbounds.2 x hx
          exact ⟨h7 _ (by omega) hx1, h7 _ (by omega) hx2⟩
        · -- any other token is returned as it is
          have hget : gettoken isWord classify parser t0 tlen0 =
              some (gettoken_result.mk tok.lextype tok.t tok.tlen
                { parser with ascprs := rest, last_node_pos := none } none) := by
            simp [gettoken, hl, hA, ascii_loop, hty0, hsep, hw]
          have hinv2 : stream_inv isWord L
              { parser with ascprs := rest, last_node_pos := none } (p + tok.tlen) :=
            Or.inl ⟨rfl, htp2, q, by omega, hnp,
              fun x hx hwx => hal x (List.mem_cons_of_mem tok hx) hwx⟩
          obtain ⟨toks, htoks, hpart⟩ := ih (m - 1) (by omega)
            { parser with ascprs := rest, last_node_pos := none } (p + tok.tlen)
            tok.t tok.tlen f (by simp only; omega) (by omega) hcl hinv2
          refine ⟨prsd_token.mk tok.lextype tok.t tok.tlen :: toks, ?_, ?_⟩
          · simp only [token_stream, hget, hty0, if_false, htoks]
          · rw [ht, hA]
            simp only at hpart
            refine partition_from_cons _ _ _ _ _ _ _ hty0 ?_
              (partition_from_skip _ tok rest _ _ _ hpart (Or.inr (by omega)))
            rintro i hi1 hi2 ⟨x, hx, hs, hb, hlo, hhi⟩
            rcases List.mem_cons.mp hx with e | hx2
            · subst e
              exact hsep ⟨hs, hlen, hb⟩
            · have := (hbounds.2 x hx2).1
              omega
  · -- an analyzer region is active
    have hget : gettoken isWord classify parser t0 tlen0 =
        analyzer_phase classify none t0 tlen0 parser := by
      simp [gettoken, hl]
    cases hR : real_nodes parser.node with
    | nil =>
      rw [hR] at hbe
      simp only [node_boundary] at hbe
      omega
    | cons n r =>
      rw [hR] at hnp hbe hal
      obtain ⟨rest2, hnt, hrr, hlt, hsuf⟩ := (next_token_real parser.node).2 n r hR
      have hnmem : n ∈ real_nodes parser.node := by rw [hR]; simp
      have hb2 := tokens_partition_bounds _ _ _ htp
      exact emit none t0 tlen0 e parser n r rest2 hget hl rfl (fun _ _ _ h => h)
        (by
          rintro i _ hi2 ⟨x, hx, _, _, hlo, _⟩
          have := (hb2.2 x hx).1
          omega)
        (by omega)
        (skip_nodes_none parser.node n rest2 hnt) hnmem hsuf hrr hnp hbe hpe htp hal

theorem nodes_partition_surface_le (R : List mecab_node_t) :
    ∀ (p L : Nat), nodes_partition R p L → ∀ n ∈ R, p ≤ n.surface := by
  induction R with
  | nil => intro p L _ n hn; simp at hn
  | cons a r ih =>
    intro p L h n hn
    simp only [nodes_partition] at h
    rcases List.mem_cons.mp hn with h1 | h1
    · subst h1; omega
    · have := ih _ _ h.2.2 n h1; omega

theorem TsMecabKo.classify_ne_zero (n : mecab_node_t) (ty : Nat)
    (h : TsMecabKo.classify n = some ty) : ty ≠ 0 := by
  unfold TsMecabKo.classify at h
  cases hi : TsMecabKo.inflect_detail n with
  | some d =>
    rw [hi] at h
    simp only [Option.some.injEq] at h
    rw [← h]
    decide
  | none =>
    rw [hi] at h
    simp only at h
    cases hc : strchr n.feature 0x2c with
    | none => rw [hc] at h; simp at h
    | some next =>
      rw [hc] at h
      simp only at h
      cases ha : TsMecabKo.accept_mecab_ko_part n.feature
          ((n.feature.length : Int) - (next.length : Int)) with
      | none => rw [ha] at h; simp at h
      | some b =>
        rw [ha] at h
        cases b <;> (simp only [Option.some.injEq] at h; rw [← h]; decide)

/-- C15 (counterexample): the ASCII parser's tokens and the analyzer's nodes both
partition the normalized buffer, and the returned ranges do not cover it.  On
`AB`, SEPARATOR, `あ`, the pre-pass output for `ABあ`, `ts_ja_gettoken` returns
the ranges (0,2) and (3,3): byte 2, the separator, lies in none.  On `AB`,
SEPARATOR, space, `것`, the normalizer's output for `AB`, vertical tab, `것`,
`ts_mecabko_gettoken` returns (0,2) and (4,3): bytes 2 and 3 lie in none. -/
theorem token_stream_not_partition :
    (TextsearchJa.ts_ja_start_normalize [0x41, 0x42, 0xe3, 0x81, 0x82] = parserSeparated.str ∧
      tokens_partition parserSeparated.ascprs 0 parserSeparated.str.length ∧
      nodes_partition (real_nodes parserSeparated.node) 0 parserSeparated.str.length ∧
      token_stream TextsearchJa.IS_JWORD TextsearchJa.classify 9 parserSeparated 0 0
        = some [prsd_token.mk 1 0 2, prsd_token.mk 12 3 3] ∧
      ¬ covered [prsd_token.mk 1 0 2, prsd_token.mk 12 3 3] 2) ∧
    (TsMecabKo.ts_mecabko_start_normalize [0x41, 0x42, 0x0b, 0xea, 0xb2, 0x83]
        = parserSeparatedKo.str ∧
      tokens_partition parserSeparatedKo.ascprs 0 parserSeparatedKo.str.length ∧
      nodes_partition (real_nodes parserSeparatedKo.node) 0 parserSeparatedKo.str.length ∧
      token_stream TsMecabKo.IS_MECAB_WORD TsMecabKo.classify 9 parserSeparatedKo 0 0
        = some [prsd_token.mk 1 0 2, prsd_token.mk 2 4 3] ∧
      ¬ covered [prsd_token.mk 1 0 2, prsd_token.mk 2 4 3] 2 ∧
      ¬ covered [prsd_token.mk 1 0 2, prsd_token.mk 2 4 3] 3) := by
  refine ⟨⟨by decide!, ?_, ?_, by decide!, ?_⟩, ⟨by decide!, ?_, ?_, by decide!, ?_, ?_⟩⟩
  · simp [tokens_partition, parserSeparated, parser_start, ASCIIWORD, WORD_T, SPACE]
  · simp [nodes_partition, real_nodes, parserSeparated, parser_start, MECAB_BOS_NODE,
      MECAB_EOS_NODE]
  · simp [covered]
  · simp [tokens_partition, parserSeparatedKo, parser_start, ASCIIWORD, WORD_T, SPACE]
  · simp [nodes_partition, real_nodes, parserSeparatedKo, parser_start, MECAB_BOS_NODE,
      MECAB_EOS_NODE]
  · simp [covered]
  · simp [covered]

/-- C15 (amended): let the ASCII parser's tokens partition the normalized
buffer, let the surfaces of the analyzer's nodes (BOS and EOS apart) partition
it in order, let every token that the tokenizer sends to the analyzer start
and end at a node boundary, and let the classification of every node be
defined (it always is in `ts_ja_gettoken`; in `ts_mecabko_gettoken` it is
undefined for a node that is not inflected and has no comma in its feature or
15 bytes or more in front of it).  Then repeated `next()` calls reach the
terminator 0, and the ranges of the tokens returned before it are in
increasing order and pairwise disjoint, contain no byte of a SPACE token that
begins with SEPARATOR (these tokens are discarded and returned by no call),
and together with those tokens cover every byte of the buffer. -/
theorem token_stream_partition (str : List Nat) (node : List mecab_node_t)
    (ascprs : List prsd_token)
    (hA : tokens_partition ascprs 0 str.length)
    (hN : nodes_partition (real_nodes node) 0 str.length) :
    ((∀ tok ∈ ascprs, TsMecabKo.IS_MECAB_WORD tok.lextype = true →
        node_boundary (real_nodes node) 0 tok.t ∧
        node_boundary (real_nodes node) 0 (tok.t + tok.tlen)) →
      (∀ n ∈ real_nodes node, TsMecabKo.classify n ≠ none) →
      ∃ toks, token_stream TsMecabKo.IS_MECAB_WORD TsMecabKo.classify
          (ascprs.length + node.length + 1) (parser_start str node ascprs) 0 0 = some toks ∧
        partition_from str ascprs toks 0 str.length) ∧
    ((∀ tok ∈ ascprs, TextsearchJa.IS_JWORD tok.lextype = true →
        node_boundary (real_nodes node) 0 tok.t ∧
        node_boundary (real_nodes node) 0 (tok.t + tok.tlen)) →
      ∃ toks, token_stream TextsearchJa.IS_JWORD TextsearchJa.classify
          (ascprs.length + node.length + 1) (parser_start str node ascprs) 0 0 = some toks ∧
        partition_from str ascprs toks 0 str.length) := by
  constructor
  · intro hal hdef
    have hcl : ∀ n ∈ real_nodes (parser_start str node ascprs).node,
        ∃ ty, TsMecabKo.classify n = some ty ∧ ty ≠ 0 := by
      intro n hn
      obtain ⟨ty, hty⟩ := Option.ne_none_iff_exists'.mp (hdef n hn)
      exact ⟨ty, hty, TsMecabKo.classify_ne_zero n ty hty⟩
    exact token_stream_partition_aux _ _ str.length (ascprs.length + node.length)
      (parser_start str node ascprs) 0 0 0 _ (le_refl _) (le_refl _) hcl
      (Or.inl ⟨rfl, hA, 0, le_refl _, hN, hal⟩)
  · intro hal
    have hcl : ∀ n ∈ real_nodes (parser_start str node ascprs).node,
        ∃ ty, TextsearchJa.classify n = some ty ∧ ty ≠ 0 := by
      intro n _
      refine ⟨_, rfl, ?_⟩
      split_ifs <;> simp [WORD_T, SPACE]
    exact token_stream_partition_aux _ _ str.length (ascprs.length + node.length)
      (parser_start str node ascprs) 0 0 0 _ (le_refl _) (le_refl _) hcl
      (Or.inl ⟨rfl, hA, 0, le_refl _, hN, hal⟩)

theorem token_stream_partition_witness :
    tokens_partition parserSeparatedKo.ascprs 0 parserSeparatedKo.str.length ∧
    nodes_partition (real_nodes parserSeparatedKo.node) 0 parserSeparatedKo.str.length ∧
    (∃ toks, token_stream TsMecabKo.IS_MECAB_WORD TsMecabKo.classify
        (parserSeparatedKo.ascprs.length + parserSeparatedKo.node.length + 1)
        (parser_start parserSeparatedKo.str parserSeparatedKo.node parserSeparatedKo.ascprs)
        0 0 = some toks ∧
      partition_from parserSeparatedKo.str parserSeparatedKo.ascprs toks 0
        parserSeparatedKo.str.length) ∧
    token_stream TsMecabKo.IS_MECAB_WORD TsMecabKo.classify
        (parserSeparatedKo.ascprs.length + parserSeparatedKo.node.length + 1)
        (parser_start parserSeparatedKo.str parserSeparatedKo.node parserSeparatedKo.ascprs)
        0 0 = some [prsd_token.mk 1 0 2, prsd_token.mk 2 4 3] :=
  have hA : tokens_partition parserSeparatedKo.ascprs 0 parserSeparatedKo.str.length := by
    simp [tokens_partition, parserSeparatedKo, parser_start, ASCIIWORD, WORD_T, SPACE]
  have hN : nodes_partition (real_nodes parserSeparatedKo.node) 0
      parserSeparatedKo.str.length := by
    simp [nodes_partition, real_nodes, parserSeparatedKo, parser_start, MECAB_BOS_NODE,
      MECAB_EOS_NODE]
  ⟨hA, hN,
    (token_stream_partition parserSeparatedKo.str parserSeparatedKo.node
      parserSeparatedKo.ascprs hA hN).1
      (by
        simp [parserSeparatedKo, parser_start, real_nodes, node_boundary, MECAB_BOS_NODE,
          MECAB_EOS_NODE, ASCIIWORD, WORD_T, SPACE, TsMecabKo.IS_MECAB_WORD])
      (by
        intro n hn
        simp only [parserSeparatedKo, parser_start, real_nodes, MECAB_BOS_NODE,
          MECAB_EOS_NODE] at hn
        simp at hn
        rcases hn with rfl | rfl | rfl <;> decide),
    by decide!⟩

/-! ### Idempotence of `normalize_utf8` -/

theorem WIDEN_eq (a b : Nat) : WIDEN a b = (a % 256) * 256 + b % 256 := by
  unfold WIDEN
  rw [Nat.shiftLeft_eq]
  have hb : b % 256 < 2 ^ 8 := Nat.mod_lt _ (by norm_num)
  have := Nat.mul_add_lt_is_or hb (a % 256)
  rw [Nat.mul_comm] at this
  rw [← this]

theorem WIDEN_bytes (a b k : Nat) (ha : a < 256) (hb : b < 256) (h : WIDEN a b = k) :
    a = k / 256 ∧ b = k % 256 := by
  rw [WIDEN_eq, Nat.mod_eq_of_lt ha, Nat.mod_eq_of_lt hb] at h
  omega

theorem uchar_mblen_cases (s : List Nat) :
    uchar_mblen s = 1 ∨ uchar_mblen s = 2 ∨ uchar_mblen s = 3 ∨ uchar_mblen s = 4 := by
  unfold uchar_mblen
  simp only []
  split_ifs <;> simp

theorem uchar_mblen_lead (s : List Nat)
    (h : byteAt s 0 = 0xe2 ∨ byteAt s 0 = 0xe3 ∨ byteAt s 0 = 0xef) : uchar_mblen s = 3 := by
  unfold uchar_mblen
  rcases h with h | h | h <;> rw [h] <;> decide

theorem normalize_utf8_switch_plain (append : append_t) (dst s : List Nat) (len : Nat)
    (h : uchar_mblen s ≠ 3) :
    normalize_utf8_switch append dst s len = append dst (s.take len) := by
  have h2 : byteAt s 0 ≠ 0xe2 := fun h0 => h (uchar_mblen_lead s (Or.inl h0))
  have h3 : byteAt s 0 ≠ 0xe3 := fun h0 => h (uchar_mblen_lead s (Or.inr (Or.inl h0)))
  have hf : byteAt s 0 ≠ 0xef := fun h0 => h (uchar_mblen_lead s (Or.inr (Or.inr h0)))
  simp [normalize_utf8_switch, h2, h3, hf]

theorem normalize_utf8_voicing_not3 (dst s : List Nat) (len : Nat) (h : len ≠ 3) :
    normalize_utf8_voicing dst s len = none := by
  simp [normalize_utf8_voicing, h]

/-- The loop body on a character other than a 3-byte one: it is appended as it is. -/
theorem normalize_utf8_body_not3 (append : append_t) (dst s : List Nat)
    (h : uchar_mblen s ≠ 3) :
    normalize_utf8_body append dst s = (append dst (s.take (uchar_mblen s)), uchar_mblen s) := by
  unfold normalize_utf8_body
  simp only []
  split_ifs with h1
  · rfl
  · rw [normalize_utf8_voicing_not3 dst s _ h, normalize_utf8_switch_plain append dst s _ h]

theorem normalize_utf8_body_append (append : append_t) (dst c rest : List Nat) (hne : c ≠ [])
    (hlen : c.length = uchar_mblen c) :
    normalize_utf8_body append dst (c ++ rest) = normalize_utf8_body append dst c := by
  have hm := uchar_mblen_append c rest hne
  by_cases h3 : uchar_mblen c = 3
  · have hc3 : c.length = 3 := by omega
    have ht : c.take 3 = c := List.take_of_length_le (by omega)
    simp [normalize_utf8_body, normalize_utf8_voicing, normalize_utf8_switch, hm, h3,
      EQ3_append c rest _ hc3, byteAt_append_of_lt c rest 0 (by omega),
      byteAt_append_of_lt c rest 1 (by omega), byteAt_append_of_lt c rest 2 (by omega),
      appendMappedChar_append dst c rest _ _ hc3, List.take_left' hc3, ht]
  · rw [normalize_utf8_body_not3 append dst c h3,
      normalize_utf8_body_not3 append dst (c ++ rest) (by rw [hm]; exact h3), hm,
      List.take_left' hlen, List.take_of_length_le (by omega)]

theorem normalize_utf8_loop_chunk (append : append_t) (dst c rest : List Nat) (fuel : Nat)
    (hne : c ≠ []) (hlen : c.length = uchar_mblen c) :
    normalize_utf8_loop append (fuel + 1) dst (c ++ rest) =
      normalize_utf8_loop append fuel (normalize_utf8_body append dst c).1 rest := by
  have hne2 : c ++ rest ≠ [] := by simp [hne]
  have hb := normalize_utf8_body_append append dst c rest hne hlen
  have h2 : (normalize_utf8_body append dst c).2 = c.length := by
    rw [normalize_utf8_body_len, hlen]
  simp only [normalize_utf8_loop, hne2, if_false, hb, h2, List.drop_left]

/-- Running the loop over a stable buffer rebuilds it, and the loop goes on
with what follows. -/
theorem Stable.loop_append {d : List Nat} (hd : Stable d) :
    ∀ (t : List Nat) (f1 f2 : Nat), (d ++ t).length ≤ f1 → t.length ≤ f2 →
      normalize_utf8_loop appendBinaryStringInfo f1 [] (d ++ t) =
        normalize_utf8_loop appendBinaryStringInfo f2 d t := by
  induction hd with
  | nil =>
    intro t f1 f2 h1 h2
    exact normalize_utf8_loop_fuel _ t.length t [] f1 f2 (le_refl _) (by simpa using h1) h2
  | snoc d c _ hne hlen hbody ih =>
    intro t f1 f2 h1 h2
    have hpos : 0 < c.length := List.length_pos.mpr hne
    obtain ⟨k, hk⟩ : ∃ k, (c ++ t).length = k + 1 :=
      ⟨(c ++ t).length - 1, by simp only [List.length_append]; omega⟩
    rw [List.append_assoc, ih (c ++ t) f1 (k + 1) (by simpa using h1) (by omega),
      normalize_utf8_loop_chunk _ d c t k hne hlen, hbody]
    simp only [List.length_append] at hk
    exact normalize_utf8_loop_fuel _ t.length t (d ++ c) k f2 (le_refl _) (by omega) h2

theorem Stable.normalize {d : List Nat} (hd : Stable d) :
    normalize_utf8 [] d appendBinaryStringInfo = d := by
  have h := hd.loop_append [] d.length 0 (by simp) (by simp)
  simp only [List.append_nil] at h
  unfold normalize_utf8
  rw [h]
  rfl

theorem bsearch_loop_sound (key : Nat) (map : List Map) (fuel : Nat) :
    ∀ (l u : Nat) (m : Map), bsearch_loop key map fuel l u = some m →
      m ∈ map ∧ m.from_ = key := by
  induction fuel with
  | zero => intro l u m h; simp [bsearch_loop] at h
  | succ f ih =>
    intro l u m h
    simp only [bsearch_loop] at h
    split_ifs at h with hlu
    cases hg : map.get? ((l + u) / 2) with
    | none => rw [hg] at h; simp at h
    | some p =>
      rw [hg] at h
      simp only at h
      split_ifs at h with h1 h2
      · exact ih _ _ m h
      · exact ih _ _ m h
      · simp only [Option.some.injEq] at h
        subst h
        refine ⟨List.get?_mem hg, ?_⟩
        unfold mapcmp at h1 h2
        split_ifs at h1 h2 with h3 h4
        · simp at h1
        · simp at h2
        · omega

theorem bsearch_sound (key : Nat) (map : List Map) (m : Map) (h : bsearch key map = some m) :
    m ∈ map ∧ m.from_ = key :=
  bsearch_loop_sound key map _ _ _ m h

theorem uchar_mblen_cons (b : Nat) (rest : List Nat) : uchar_mblen (b :: rest) = uchar_mblen [b] := by
  simp [uchar_mblen, byteAt]

theorem uchar_mblen_cont (b : Nat) (rest : List Nat) (h1 : 0x80 ≤ b) (h2 : b ≤ 0xbf) :
    uchar_mblen (b :: rest) = 1 := by
  rw [uchar_mblen_cons]
  have key : ∀ i < 64, uchar_mblen [0x80 + i] = 1 := by decide
  have := key (b - 0x80) (by omega)
  rwa [show 0x80 + (b - 0x80) = b by omega] at this

theorem normalize_utf8_switch_dst (dst c : List Nat) (len : Nat) :
    normalize_utf8_switch appendBinaryStringInfo dst c len =
      dst ++ normalize_utf8_switch appendBinaryStringInfo [] c len := by
  unfold normalize_utf8_switch
  split_ifs <;>
    first
    | simp [appendStringInfoChar, appendBinaryStringInfo]
    | exact appendMappedChar_binary dst c len _

/-- A 3-byte character that is not fused with what stands in the buffer and
that the `switch` does not fold is appended as it is. -/
theorem normalize_utf8_body_unfused (dst c : List Nat) (hm : uchar_mblen c = 3)
    (hc : c.length = 3) (hv : normalize_utf8_voicing dst c 3 = none)
    (hs : normalize_utf8_switch appendBinaryStringInfo [] c 3 = c) :
    normalize_utf8_body appendBinaryStringInfo dst c = (dst ++ c, c.length) := by
  simp only [normalize_utf8_body, hm, hv, hc]
  rw [normalize_utf8_switch_dst dst, hs]
  simp

theorem normalize_utf8_voicing_none (dst c : List Nat)
    (hd : (EQ3 c DAKUTEN_HALF || EQ3 c DAKUTEN_WIDE) = false)
    (hh : (EQ3 c HANDAKU_HALF || EQ3 c HANDAKU_WIDE) = false) :
    normalize_utf8_voicing dst c 3 = none := by
  unfold normalize_utf8_voicing
  simp [hd, hh]

theorem normalize_utf8_voicing_congr (dst s s2 : List Nat)
    (hd : (EQ3 s DAKUTEN_HALF || EQ3 s DAKUTEN_WIDE) =
      (EQ3 s2 DAKUTEN_HALF || EQ3 s2 DAKUTEN_WIDE))
    (hh : (EQ3 s HANDAKU_HALF || EQ3 s HANDAKU_WIDE) =
      (EQ3 s2 HANDAKU_HALF || EQ3 s2 HANDAKU_WIDE)) :
    normalize_utf8_voicing dst s 3 = normalize_utf8_voicing dst s2 3 := by
  unfold normalize_utf8_voicing
  simp only [hd, hh]

/-- What `UTF8_MAP` holds: every entry gives one ASCII byte, or a 3-byte
character with lead byte E3 that the `switch` leaves alone; the two entries
for the half-width voicing marks give the wide marks, and no other output is
a voicing mark. -/
theorem UTF8_MAP_images :
    ∀ m ∈ UTF8_MAP,
      (∀ b ∈ m.to4.take (uchar_strlen m.to4), b < 256) ∧
      (((m.to4.take (uchar_strlen m.to4)).length = 1 ∧
          uchar_mblen (m.to4.take (uchar_strlen m.to4)) = 1) ∨
        ((m.to4.take (uchar_strlen m.to4)).length = 3 ∧
          uchar_mblen (m.to4.take (uchar_strlen m.to4)) = 3 ∧
          normalize_utf8_switch appendBinaryStringInfo [] (m.to4.take (uchar_strlen m.to4)) 3
            = m.to4.take (uchar_strlen m.to4) ∧
          (EQ3 (m.to4.take (uchar_strlen m.to4)) DAKUTEN_HALF ||
            EQ3 (m.to4.take (uchar_strlen m.to4)) DAKUTEN_WIDE) = (m.from_ == 0xbe9e) ∧
          (EQ3 (m.to4.take (uchar_strlen m.to4)) HANDAKU_HALF ||
            EQ3 (m.to4.take (uchar_strlen m.to4)) HANDAKU_WIDE) = (m.from_ == 0xbe9f))) := by
  decide!

theorem Stable.snoc_byte {d : List Nat} (hd : Stable d) (x : Nat) (hx : uchar_mblen [x] = 1) :
    Stable (d ++ [x]) := by
  refine Stable.snoc d [x] hd (by simp) (by rw [hx]; rfl) ?_
  rw [normalize_utf8_body_not3 _ d [x] (by rw [hx]; decide), hx]
  rfl

/-- What the `switch` of `normalize_utf8` makes of a 3-byte character: it is
appended as it is, or one ASCII byte replaces it, or the output of its
`UTF8_MAP` entry does. -/
theorem normalize_utf8_switch_cases (c : List Nat) (hc : c.length = 3) :
    normalize_utf8_switch appendBinaryStringInfo [] c 3 = c ∨
    (∃ x, x < 0x80 ∧ normalize_utf8_switch appendBinaryStringInfo [] c 3 = [x]) ∨
    (∃ m ∈ UTF8_MAP, m.from_ = WIDEN (byteAt c 1) (byteAt c 2) ∧ byteAt c 0 = 0xef ∧
      normalize_utf8_switch appendBinaryStringInfo [] c 3 = m.to4.take (uchar_strlen m.to4)) := by
  have ht : c.take 3 = c := List.take_of_length_le (by omega)
  unfold normalize_utf8_switch
  split_ifs with h1 h2 h3 h4 h5 h6 h7 h8
  · exact Or.inr (Or.inl ⟨0x60, by norm_num, by simp [appendStringInfoChar]⟩)
  · exact Or.inr (Or.inl ⟨0x27, by norm_num, by simp [appendStringInfoChar]⟩)
  · exact Or.inr (Or.inl ⟨0x22, by norm_num, by simp [appendStringInfoChar]⟩)
  · exact Or.inl (by simp [appendBinaryStringInfo, ht])
  · exact Or.inl (by simp [appendBinaryStringInfo, ht])
  · exact Or.inr (Or.inl ⟨0x20, by norm_num, by simp [appendStringInfoChar]⟩)
  · exact Or.inl (by simp [appendBinaryStringInfo, ht])
  · unfold appendMappedChar
    simp only [if_true]
    cases hb : bsearch (WIDEN (byteAt c 1) (byteAt c 2)) UTF8_MAP with
    | none => exact Or.inl (by simp [appendBinaryStringInfo, ht])
    | some m =>
      obtain ⟨hm1, hm2⟩ := bsearch_sound _ _ m hb
      exact Or.inr (Or.inr ⟨m, hm1, hm2, h8, by simp [appendBinaryStringInfo]⟩)
  · exact Or.inl (by simp [appendBinaryStringInfo, ht])

theorem EQ3_halfwidth_marks (c : List Nat) (hc : c.length = 3) (hcb : ∀ b ∈ c, b < 256)
    (h0 : byteAt c 0 = 0xef) :
    (EQ3 c DAKUTEN_HALF || EQ3 c DAKUTEN_WIDE) = (WIDEN (byteAt c 1) (byteAt c 2) == 0xbe9e) ∧
    (EQ3 c HANDAKU_HALF || EQ3 c HANDAKU_WIDE) = (WIDEN (byteAt c 1) (byteAt c 2) == 0xbe9f) := by
  obtain ⟨a, b1, b2, rfl⟩ : ∃ a b1 b2, c = [a, b1, b2] := by
    match c, hc with
    | [a, b1, b2], _ => exact ⟨a, b1, b2, rfl⟩
  have hb1 : b1 < 256 := hcb b1 (by simp)
  have hb2 : b2 < 256 := hcb b2 (by simp)
  simp only [byteAt, List.getD_cons_zero] at h0
  subst h0
  have e1 : byteAt [239, b1, b2] 1 = b1 := rfl
  have e2 : byteAt [239, b1, b2] 2 = b2 := rfl
  rw [WIDEN_eq, e1, e2, Nat.mod_eq_of_lt hb1, Nat.mod_eq_of_lt hb2]
  simp only [EQ3, byteAt, DAKUTEN_HALF, DAKUTEN_WIDE, HANDAKU_HALF, HANDAKU_WIDE,
    List.getD_cons_zero, List.getD_cons_succ]
  constructor
  · by_cases h : b1 = 0xbe ∧ b2 = 0x9e
    · obtain ⟨rfl, rfl⟩ := h; decide
    · have h2 : ¬ (b1 * 256 + b2 = 0xbe9e) := by omega
      have h3 : (b1 == 0xbe && b2 == 0x9e) = false := by
        by_cases hb : b1 = 0xbe
        · have : b2 ≠ 0x9e := fun h4 => h ⟨hb, h4⟩
          simp [hb, this]
        · simp [hb]
      simp [h2, h3]
  · by_cases h : b1 = 0xbe ∧ b2 = 0x9f
    · obtain ⟨rfl, rfl⟩ := h; decide
    · have h2 : ¬ (b1 * 256 + b2 = 0xbe9f) := by omega
      have h3 : (b1 == 0xbe && b2 == 0x9f) = false := by
        by_cases hb : b1 = 0xbe
        · have : b2 ≠ 0x9f := fun h4 => h ⟨hb, h4⟩
          simp [hb, this]
        · simp [hb]
      simp [h2, h3]

/-- The step of the loop on a complete 3-byte character that is not fused:
the buffer stays stable. -/
theorem Stable.step_unfused {dst : List Nat} (hst : Stable dst) (c : List Nat)
    (hcb : ∀ b ∈ c, b < 256) (hm : uchar_mblen c = 3) (hc : c.length = 3)
    (hv : normalize_utf8_voicing dst c 3 = none) :
    Stable (normalize_utf8_switch appendBinaryStringInfo dst c 3) ∧
    ∀ b ∈ normalize_utf8_switch appendBinaryStringInfo [] c 3, b < 256 := by
  rw [normalize_utf8_switch_dst]
  rcases normalize_utf8_switch_cases c hc with h | ⟨x, hx, h⟩ | ⟨m, hm1, hm2, h0, h⟩
  · rw [h]
    refine ⟨Stable.snoc dst c hst (by intro h0; simp [h0] at hc) (by omega) ?_, hcb⟩
    exact normalize_utf8_body_unfused dst c hm hc hv h
  · rw [h]
    refine ⟨hst.snoc_byte x ?_, by intro b hb; simp at hb; omega⟩
    exact uchar_mblen_ascii x [] hx
  · rw [h]
    obtain ⟨hbytes, himg⟩ := UTF8_MAP_images m hm1
    refine ⟨?_, hbytes⟩
    rcases himg with ⟨h1, h2⟩ | ⟨h1, h2, h3, h4, h5⟩
    · refine Stable.snoc dst _ hst (by intro h0; simp [h0] at h1) (by omega) ?_
      rw [normalize_utf8_body_not3 _ dst _ (by rw [h2]; decide), h2, h1,
        List.take_of_length_le (by omega)]
      rfl
    · refine Stable.snoc dst _ hst (by intro h0; simp [h0] at h1) (by omega) ?_
      obtain ⟨e1, e2⟩ := EQ3_halfwidth_marks c hc hcb h0
      rw [← hm2] at e1 e2
      have hv2 : normalize_utf8_voicing dst (m.to4.take (uchar_strlen m.to4)) 3 = none := by
        rw [normalize_utf8_voicing_congr dst _ c (by rw [h4, e1]) (by rw [h5, e2])]
        exact hv
      exact normalize_utf8_body_unfused dst _ h2 h1 hv2 h3

theorem Stable.inv {d : List Nat} (hd : Stable d) :
    d = [] ∨ ∃ d0 c, d = d0 ++ c ∧ Stable d0 ∧ c ≠ [] ∧ c.length = uchar_mblen c ∧
      normalize_utf8_body appendBinaryStringInfo d0 c = (d0 ++ c, c.length) := by
  cases hd with
  | nil => exact Or.inl rfl
  | snoc d0 c h1 h2 h3 h4 => exact Or.inr ⟨d0, c, rfl, h1, h2, h3, h4⟩

theorem list_of_length_le4 (c : List Nat) (h1 : 1 ≤ c.length) (h4 : c.length ≤ 4) :
    (∃ a, c = [a]) ∨ (∃ a b, c = [a, b]) ∨ (∃ a b e, c = [a, b, e]) ∨
      (∃ a b e f, c = [a, b, e, f]) := by
  match c, h1, h4 with
  | [a], _, _ => exact Or.inl ⟨a, rfl⟩
  | [a, b], _, _ => exact Or.inr (Or.inl ⟨a, b, rfl⟩)
  | [a, b, e], _, _ => exact Or.inr (Or.inr (Or.inl ⟨a, b, e, rfl⟩))
  | [a, b, e, f], _, _ => exact Or.inr (Or.inr (Or.inr ⟨a, b, e, f, rfl⟩))
  | _ :: _ :: _ :: _ :: _ :: _, _, h => simp at h

theorem chunk_shapes (c : List Nat) (hne : c ≠ []) (hlen : c.length = uchar_mblen c) :
    (∃ a, c = [a]) ∨ (∃ a b, c = [a, b]) ∨ (∃ a b e, c = [a, b, e]) ∨
      (∃ a b e f, c = [a, b, e, f]) := by
  have hpos : 0 < c.length := List.length_pos.mpr hne
  have := uchar_mblen_cases c
  exact list_of_length_le4 c (by omega) (by omega)

/-- A character whose second byte is E3 and whose third byte lies in `81..83` is
appended as it is, whatever its lead byte. -/
theorem normalize_utf8_body_second_e3 (dst : List Nat) (l z : Nat)
    (hm : uchar_mblen [l, 0xe3, z] = 3) (hz1 : 0x81 ≤ z) (hz2 : z ≤ 0x83) :
    normalize_utf8_body appendBinaryStringInfo dst [l, 0xe3, z] =
      (dst ++ [l, 0xe3, z], 3) := by
  have hd : (EQ3 [l, 0xe3, z] DAKUTEN_HALF || EQ3 [l, 0xe3, z] DAKUTEN_WIDE) = false := by
    simp [EQ3, byteAt, DAKUTEN_HALF, DAKUTEN_WIDE]
  have hh : (EQ3 [l, 0xe3, z] HANDAKU_HALF || EQ3 [l, 0xe3, z] HANDAKU_WIDE) = false := by
    simp [EQ3, byteAt, HANDAKU_HALF, HANDAKU_WIDE]
  have hv := normalize_utf8_voicing_none dst [l, 0xe3, z] hd hh
  have hs : normalize_utf8_switch appendBinaryStringInfo [] [l, 0xe3, z] 3 = [l, 0xe3, z] := by
    have hb : bsearch (WIDEN 0xe3 z) UTF8_MAP = none := by
      cases hb : bsearch (WIDEN 0xe3 z) UTF8_MAP with
      | none => rfl
      | some m =>
        exfalso
        obtain ⟨hm1, hm2⟩ := bsearch_sound _ _ m hb
        have key : ∀ m ∈ UTF8_MAP, ∀ z ∈ [0x81, 0x82, 0x83], m.from_ ≠ WIDEN 0xe3 z := by
          decide!
        have hzm : z ∈ [0x81, 0x82, 0x83] := by
          simp only [List.mem_cons, List.mem_singleton, List.not_mem_nil, or_false]; omega
        exact key m hm1 z hzm hm2
    have e0 : byteAt [l, 0xe3, z] 0 = l := rfl
    have e1 : byteAt [l, 0xe3, z] 1 = 0xe3 := rfl
    have e2 : byteAt [l, 0xe3, z] 2 = z := rfl
    unfold normalize_utf8_switch appendMappedChar
    rw [e0, e1, e2, hb]
    simp [appendBinaryStringInfo]
  have := normalize_utf8_body_unfused dst [l, 0xe3, z] hm rfl hv hs
  simpa using this

theorem list_last3 (d : List Nat) (h : 3 ≤ d.length) : ∃ p a x y, d = p ++ [a, x, y] := by
  refine ⟨d.take (d.length - 3), (d.drop (d.length - 3)).getD 0 0,
    (d.drop (d.length - 3)).getD 1 0, (d.drop (d.length - 3)).getD 2 0, ?_⟩
  have hl : (d.drop (d.length - 3)).length = 3 := by simp; omega
  have h3 : d.drop (d.length - 3) = [(d.drop (d.length - 3)).getD 0 0,
      (d.drop (d.length - 3)).getD 1 0, (d.drop (d.length - 3)).getD 2 0] := by
    match hq : d.drop (d.length - 3), hl with
    | [a, x, y], _ => rfl
  rw [← h3, List.take_append_drop]

theorem StringInfoTail_last3 (p : List Nat) (a x y : Nat) :
    StringInfoTail (p ++ [a, x, y]) 3 0 = a ∧ StringInfoTail (p ++ [a, x, y]) 3 1 = x ∧
      StringInfoTail (p ++ [a, x, y]) 3 2 = y := by
  have hl : (p ++ [a, x, y]).length - 3 = p.length := by simp
  have g0 : (p ++ [a, x, y])[p.length + 0]? = some a := by
    rw [List.getElem?_append_right (by omega)]
    simp
  have g1 : (p ++ [a, x, y])[p.length + 1]? = some x := by
    rw [List.getElem?_append_right (by omega)]
    simp
  have g2 : (p ++ [a, x, y])[p.length + 2]? = some y := by
    rw [List.getElem?_append_right (by omega)]
    simp
  unfold StringInfoTail
  rw [hl]
  simp only [List.getD_eq_getElem?_getD, g0, g1, g2, Option.getD_some, and_self]

theorem setStringInfoTail_last3 (p : List Nat) (a x y v : Nat) :
    setStringInfoTail (p ++ [a, x, y]) 3 1 v = p ++ [a, v % 256, y] ∧
      setStringInfoTail (p ++ [a, x, y]) 3 2 v = p ++ [a, x, v % 256] := by
  have hl : (p ++ [a, x, y]).length - 3 = p.length := by simp
  unfold setStringInfoTail
  rw [hl]
  constructor <;> simp [List.set_append]

/-- What a fusion does: the buffer ends in a 3-byte kana `E3 x y`, and the
kana is rewritten in place into `E3 x2 y2`, which is no voicing mark. -/
theorem normalize_utf8_voicing_some (dst c dst2 : List Nat) (hb : ∀ b ∈ dst, b < 256)
    (h : normalize_utf8_voicing dst c 3 = some dst2) :
    ∃ p x y x2 y2, dst = p ++ [0xe3, x, y] ∧ dst2 = p ++ [0xe3, x2, y2] ∧
      0x80 ≤ x ∧ x ≤ 0xbf ∧ 0x81 ≤ x2 ∧ x2 ≤ 0x83 ∧ 0x80 ≤ y2 ∧ y2 ≤ 0xbf ∧
      ¬ (x2 = 0x82 ∧ (y2 = 0x9b ∨ y2 = 0x9c)) := by
  unfold normalize_utf8_voicing at h
  by_cases h0 : 3 = 3 ∧ dst.length ≥ 3 ∧ StringInfoTail dst 3 0 = 0xe3
  swap
  · rw [if_neg h0] at h
    exact absurd h (by simp)
  rw [if_pos h0] at h
  obtain ⟨_, hlen, he3⟩ := h0
  obtain ⟨p, a, x, y, rfl⟩ := list_last3 dst hlen
  obtain ⟨t0, t1, t2⟩ := StringInfoTail_last3 p a x y
  rw [t0] at he3
  subst he3
  have hx : x < 256 := hb x (by simp)
  have hy : y < 256 := hb y (by simp)
  simp only [t1, t2] at h
  refine ⟨p, x, y, ?_⟩
  split_ifs at h with h1 h2 h3 h4 h5 h6
  all_goals
    simp only [Option.some.injEq] at h
    subst h
  · have : x = 0x81 ∧ y = 0x86 ∨ x = 0x82 ∧ y = 0xa6 := by
      rcases h2 with h2 | h2
      · have := WIDEN_bytes x y _ hx hy h2; omega
      · have := WIDEN_bytes x y _ hx hy h2; omega
    refine ⟨0x83, 0xb4, rfl, ?_, ?_⟩
    · rw [(setStringInfoTail_last3 p 0xe3 x y 0x83).1, (setStringInfoTail_last3 p 0xe3 _ y 0xb4).2]
    · omega
  · have := WIDEN_bytes x y _ hx hy h3
    refine ⟨0x83, 0x80, rfl, ?_, ?_⟩
    · rw [(setStringInfoTail_last3 p 0xe3 x y 0x83).1, (setStringInfoTail_last3 p 0xe3 _ y 0x80).2]
    · omega
  · have key : ∀ k ∈ dakutenPlus1, 0x80 ≤ k / 256 ∧ k / 256 ≤ 0xbf ∧ 0x81 ≤ k / 256 ∧
        k / 256 ≤ 0x83 ∧ 0x80 ≤ (k % 256 + 1) % 256 ∧ (k % 256 + 1) % 256 ≤ 0xbf ∧
        ¬ (k / 256 = 0x82 ∧ ((k % 256 + 1) % 256 = 0x9b ∨ (k % 256 + 1) % 256 = 0x9c)) := by
      decide
    obtain ⟨e1, e2⟩ := WIDEN_bytes x y _ hx hy rfl
    have := key _ h4
    rw [← e1, ← e2] at this
    refine ⟨x, (y + 1) % 256, rfl, ?_, this⟩
    rw [(setStringInfoTail_last3 p 0xe3 x y (y + 1)).2]
  · have key : ∀ k ∈ handakuPlus2, 0x80 ≤ k / 256 ∧ k / 256 ≤ 0xbf ∧ 0x81 ≤ k / 256 ∧
        k / 256 ≤ 0x83 ∧ 0x80 ≤ (k % 256 + 2) % 256 ∧ (k % 256 + 2) % 256 ≤ 0xbf ∧
        ¬ (k / 256 = 0x82 ∧ ((k % 256 + 2) % 256 = 0x9b ∨ (k % 256 + 2) % 256 = 0x9c)) := by
      decide
    obtain ⟨e1, e2⟩ := WIDEN_bytes x y _ hx hy rfl
    have := key _ h6
    rw [← e1, ← e2] at this
    refine ⟨x, (y + 2) % 256, rfl, ?_, this⟩
    rw [(setStringInfoTail_last3 p 0xe3 x y (y + 2)).2]

theorem normalize_utf8_body_verbatim (dst c : List Nat) (h : uchar_mblen c ≠ 3)
    (hlen : c.length = uchar_mblen c) :
    normalize_utf8_body appendBinaryStringInfo dst c = (dst ++ c, c.length) := by
  rw [normalize_utf8_body_not3 _ dst c h, ← hlen, List.take_length]
  rfl

/-- A 3-byte character `E3 x y` with `x` in `81..83` that is no voicing mark is
appended as it is. -/
theorem normalize_utf8_body_kana (dst : List Nat) (x y : Nat) (h1 : 0x81 ≤ x) (h2 : x ≤ 0x83)
    (hn : ¬ (x = 0x82 ∧ (y = 0x9b ∨ y = 0x9c))) :
    normalize_utf8_body appendBinaryStringInfo dst [0xe3, x, y] = (dst ++ [0xe3, x, y], 3) := by
  have hm : uchar_mblen [0xe3, x, y] = 3 := uchar_mblen_lead _ (Or.inr (Or.inl rfl))
  have hx80 : x ≠ 0x80 := by omega
  have hxbe : x ≠ 0xbe := by omega
  have hd : (EQ3 [0xe3, x, y] DAKUTEN_HALF || EQ3 [0xe3, x, y] DAKUTEN_WIDE) = false := by
    simp only [EQ3, byteAt, DAKUTEN_HALF, DAKUTEN_WIDE, List.getD_cons_zero, List.getD_cons_succ]
    by_cases hx : x = 0x82
    · have : y ≠ 0x9b := fun hy => hn ⟨hx, Or.inl hy⟩
      simp [hx, this]
    · simp [hx]
  have hh : (EQ3 [0xe3, x, y] HANDAKU_HALF || EQ3 [0xe3, x, y] HANDAKU_WIDE) = false := by
    simp only [EQ3, byteAt, HANDAKU_HALF, HANDAKU_WIDE, List.getD_cons_zero, List.getD_cons_succ]
    by_cases hx : x = 0x82
    · have : y ≠ 0x9c := fun hy => hn ⟨hx, Or.inr hy⟩
      simp [hx, this]
    · simp [hx]
  have hv := normalize_utf8_voicing_none dst [0xe3, x, y] hd hh
  have hs : normalize_utf8_switch appendBinaryStringInfo [] [0xe3, x, y] 3 = [0xe3, x, y] := by
    have e0 : byteAt [0xe3, x, y] 0 = 0xe3 := rfl
    have e1 : byteAt [0xe3, x, y] 1 = x := rfl
    unfold normalize_utf8_switch
    rw [e0, e1]
    simp [appendBinaryStringInfo, hx80]
  have := normalize_utf8_body_unfused dst [0xe3, x, y] hm rfl hv hs
  simpa using this

theorem Stable.fuse2 (p : List Nat) (x x2 : Nat) (hst : Stable (p ++ [0xe3, x]))
    (h1 : 0x81 ≤ x2) (h2 : x2 ≤ 0x83) : Stable (p ++ [0xe3, x2]) := by
  rcases hst.inv with h | ⟨d0, c, hd, hs0, hne, hlen, hbody⟩
  · simp at h
  rcases chunk_shapes c hne hlen with ⟨a, rfl⟩ | ⟨a, b, rfl⟩ | ⟨a, b, e, rfl⟩ | ⟨a, b, e, f, rfl⟩
  · have hd2 : (p ++ [0xe3]) ++ [x] = d0 ++ [a] := by simpa using hd
    obtain ⟨e1, _⟩ := List.append_inj' hd2 rfl
    subst e1
    have := hs0.snoc_byte x2 (uchar_mblen_cont x2 [] (by omega) (by omega))
    simpa using this
  · exfalso
    obtain ⟨_, e2⟩ := List.append_inj' hd rfl
    simp only [List.cons.injEq, and_true] at e2
    obtain ⟨rfl, _⟩ := e2
    rw [uchar_mblen_cons] at hlen
    have h3 : uchar_mblen [0xe3] = 3 := by decide
    rw [h3] at hlen
    simp at hlen
  · have hd2 : p ++ [0xe3, x] = (d0 ++ [a]) ++ [b, e] := by simpa using hd
    obtain ⟨e1, e2⟩ := List.append_inj' hd2 rfl
    simp only [List.cons.injEq, and_true] at e2
    obtain ⟨rfl, rfl⟩ := e2
    subst e1
    have hm : uchar_mblen [a, 0xe3, x2] = 3 := by
      rw [uchar_mblen_cons] at hlen ⊢
      exact hlen.symm
    have := Stable.snoc d0 [a, 0xe3, x2] hs0 (by simp) (by rw [hm]; rfl)
      (normalize_utf8_body_second_e3 d0 a x2 hm h1 h2)
    simpa using this
  · have hd2 : p ++ [0xe3, x] = (d0 ++ [a, b]) ++ [e, f] := by simpa using hd
    obtain ⟨e1, e2⟩ := List.append_inj' hd2 rfl
    simp only [List.cons.injEq, and_true] at e2
    obtain ⟨rfl, rfl⟩ := e2
    subst e1
    have hm : uchar_mblen [a, b, 0xe3, x2] = 4 := by
      rw [uchar_mblen_cons] at hlen ⊢
      exact hlen.symm
    have := Stable.snoc d0 [a, b, 0xe3, x2] hs0 (by simp) (by rw [hm]; rfl)
      (normalize_utf8_body_verbatim d0 _ (by rw [hm]; decide) (by rw [hm]; rfl))
    simpa using this

/-- A fusion keeps the buffer stable: whatever way the bytes `E3 x y` at its
end were appended, the bytes `E3 x2 y2` of a kana could stand there as well. -/
theorem Stable.fuse (p : List Nat) (x y x2 y2 : Nat) (hst : Stable (p ++ [0xe3, x, y]))
    (hx1 : 0x80 ≤ x) (hx2 : x ≤ 0xbf) (h1 : 0x81 ≤ x2) (h2 : x2 ≤ 0x83)
    (h3 : 0x80 ≤ y2) (h4 : y2 ≤ 0xbf) (hn : ¬ (x2 = 0x82 ∧ (y2 = 0x9b ∨ y2 = 0x9c))) :
    Stable (p ++ [0xe3, x2, y2]) := by
  rcases hst.inv with h | ⟨d0, c, hd, hs0, hne, hlen, hbody⟩
  · simp at h
  rcases chunk_shapes c hne hlen with ⟨a, rfl⟩ | ⟨a, b, rfl⟩ | ⟨a, b, e, rfl⟩ | ⟨a, b, e, f, rfl⟩
  · have hd2 : (p ++ [0xe3, x]) ++ [y] = d0 ++ [a] := by simpa using hd
    obtain ⟨e1, _⟩ := List.append_inj' hd2 rfl
    subst e1
    have := (Stable.fuse2 p x x2 hs0 h1 h2).snoc_byte y2 (uchar_mblen_cont y2 [] h3 h4)
    simpa using this
  · exfalso
    have hd2 : (p ++ [0xe3]) ++ [x, y] = d0 ++ [a, b] := by simpa using hd
    obtain ⟨_, e2⟩ := List.append_inj' hd2 rfl
    simp only [List.cons.injEq, and_true] at e2
    obtain ⟨rfl, _⟩ := e2
    rw [uchar_mblen_cont x _ hx1 hx2] at hlen
    simp at hlen
  · obtain ⟨e1, e2⟩ := List.append_inj' hd rfl
    subst e1
    exact Stable.snoc p [0xe3, x2, y2] hs0 (by simp)
      (by rw [uchar_mblen_lead [0xe3, x2, y2] (Or.inr (Or.inl rfl))]; rfl)
      (normalize_utf8_body_kana p x2 y2 h1 h2 hn)
  · have hd2 : p ++ [0xe3, x, y] = (d0 ++ [a]) ++ [b, e, f] := by simpa using hd
    obtain ⟨e1, e2⟩ := List.append_inj' hd2 rfl
    simp only [List.cons.injEq, and_true] at e2
    obtain ⟨rfl, rfl, rfl⟩ := e2
    subst e1
    have hm : uchar_mblen [a, 0xe3, x2, y2] = 4 := by
      rw [uchar_mblen_cons] at hlen ⊢
      exact hlen.symm
    have := Stable.snoc d0 [a, 0xe3, x2, y2] hs0 (by simp) (by rw [hm]; rfl)
      (normalize_utf8_body_verbatim d0 _ (by rw [hm]; decide) (by rw [hm]; rfl))
    simpa using this

theorem normalize_utf8_loop_nil (append : append_t) (fuel : Nat) (dst : List Nat) :
    normalize_utf8_loop append fuel dst [] = dst := by
  cases fuel <;> simp [normalize_utf8_loop]

/-- The loop body on a character cut short by the end of the input: what is
left of it is appended as it is. -/
theorem normalize_utf8_body_truncated (dst s : List Nat)
    (hlt : s.length < uchar_mblen s) :
    normalize_utf8_body appendBinaryStringInfo dst s = (dst ++ s, uchar_mblen s) := by
  have ht : s.take (uchar_mblen s) = s := List.take_of_length_le (by omega)
  by_cases h3 : uchar_mblen s = 3
  · have e2 : byteAt s 2 = 0 := by
      unfold byteAt
      rw [List.getD_eq_getElem?_getD, List.getElem?_eq_none (by omega)]
      rfl
    have hq : ∀ m : List Nat, byteAt m 2 ≠ 0 → EQ3 s m = false := by
      intro m hm
      unfold EQ3
      rw [e2]
      have : (0 == byteAt m 2) = false := by simpa using fun h => hm h.symm
      rw [this, Bool.and_false]
    have hd : (EQ3 s DAKUTEN_HALF || EQ3 s DAKUTEN_WIDE) = false := by
      rw [hq _ (by decide), hq _ (by decide)]
      rfl
    have hh : (EQ3 s HANDAKU_HALF || EQ3 s HANDAKU_WIDE) = false := by
      rw [hq _ (by decide), hq _ (by decide)]
      rfl
    have hv := normalize_utf8_voicing_none dst s hd hh
    have hb : bsearch (WIDEN (byteAt s 1) 0) UTF8_MAP = none := by
      cases hb : bsearch (WIDEN (byteAt s 1) 0) UTF8_MAP with
      | none => rfl
      | some m =>
        exfalso
        obtain ⟨hm1, hm2⟩ := bsearch_sound _ _ m hb
        have key : ∀ m ∈ UTF8_MAP, m.from_ % 256 ≠ 0 := by decide!
        apply key m hm1
        rw [hm2, WIDEN_eq]
        omega
    have ht3 : s.take 3 = s := by rw [← h3]; exact ht
    have hs : normalize_utf8_switch appendBinaryStringInfo dst s 3 = dst ++ s := by
      unfold normalize_utf8_switch appendMappedChar
      rw [e2, hb]
      simp [appendBinaryStringInfo, ht3]
    simp only [normalize_utf8_body, h3, hv, hs]
    simp
  · rw [normalize_utf8_body_not3 _ dst s h3, ht]
    rfl

/-- One iteration of the loop on a complete character keeps the buffer stable. -/
theorem Stable.step {dst : List Nat} (hst : Stable dst) (hdb : ∀ b ∈ dst, b < 256)
    (c : List Nat) (hcb : ∀ b ∈ c, b < 256) (hne : c ≠ []) (hlen : c.length = uchar_mblen c) :
    Stable (normalize_utf8_body appendBinaryStringInfo dst c).1 ∧
      ∀ b ∈ (normalize_utf8_body appendBinaryStringInfo dst c).1, b < 256 := by
  by_cases h3 : uchar_mblen c = 3
  · have hc3 : c.length = 3 := by omega
    cases hv : normalize_utf8_voicing dst c 3 with
    | none =>
      have hb : normalize_utf8_body appendBinaryStringInfo dst c =
          (normalize_utf8_switch appendBinaryStringInfo dst c 3, 3) := by
        simp [normalize_utf8_body, h3, hv]
      obtain ⟨g1, g2⟩ := hst.step_unfused c hcb h3 hc3 hv
      rw [hb]
      refine ⟨g1, ?_⟩
      intro b hbm
      simp only [] at hbm
      rw [normalize_utf8_switch_dst, List.mem_append] at hbm
      rcases hbm with hbm | hbm
      · exact hdb b hbm
      · exact g2 b hbm
    | some d2 =>
      have hb : normalize_utf8_body appendBinaryStringInfo dst c = (d2, 3) := by
        simp [normalize_utf8_body, h3, hv]
      obtain ⟨p, x, y, x2, y2, rfl, rfl, hx1, hx2, k1, k2, k3, k4, kn⟩ :=
        normalize_utf8_voicing_some dst c d2 hdb hv
      rw [hb]
      refine ⟨Stable.fuse p x y x2 y2 hst hx1 hx2 k1 k2 k3 k4 kn, ?_⟩
      intro b hbm
      simp only [List.mem_append, List.mem_cons, List.mem_singleton, List.not_mem_nil,
        or_false] at hbm
      rcases hbm with hbm | hbm | hbm | hbm
      · exact hdb b (List.mem_append_left _ hbm)
      · omega
      · omega
      · omega
  · rw [normalize_utf8_body_verbatim dst c h3 hlen]
    refine ⟨Stable.snoc dst c hst hne hlen (normalize_utf8_body_verbatim dst c h3 hlen), ?_⟩
    intro b hbm
    rcases List.mem_append.mp hbm with hbm | hbm
    · exact hdb b hbm
    · exact hcb b hbm

/-- Whatever the loop of `normalize_utf8` leaves in a stable buffer, a second
run of the function gives back. -/
theorem normalize_utf8_loop_fixed :
    ∀ (fuel : Nat) (s dst : List Nat), s.length ≤ fuel → (∀ b ∈ s, b < 256) →
      Stable dst → (∀ b ∈ dst, b < 256) →
      normalize_utf8 [] (normalize_utf8_loop appendBinaryStringInfo fuel dst s)
          appendBinaryStringInfo
        = normalize_utf8_loop appendBinaryStringInfo fuel dst s := by
  intro fuel
  induction fuel with
  | zero =>
    intro s dst _ _ hst _
    exact hst.normalize
  | succ f ih =>
    intro s dst hf hsb hst hdb
    by_cases hs : s = []
    · subst hs
      rw [normalize_utf8_loop_nil]
      exact hst.normalize
    have hpos : 0 < s.length := List.length_pos.mpr hs
    by_cases hlt : s.length < uchar_mblen s
    · have hrun : ∀ k, normalize_utf8_loop appendBinaryStringInfo (k + 1) dst s = dst ++ s := by
        intro k
        simp only [normalize_utf8_loop, hs, if_false]
        rw [normalize_utf8_body_truncated dst s hlt]
        simp only []
        rw [List.drop_of_length_le (by omega), normalize_utf8_loop_nil]
      rw [hrun f]
      unfold normalize_utf8
      obtain ⟨k, hk⟩ : ∃ k, s.length = k + 1 := ⟨s.length - 1, by omega⟩
      rw [hst.loop_append s _ (k + 1) (le_refl _) (by omega), hrun k]
    · have hme := uchar_mblen_pos s
      obtain ⟨c, rest, rfl, hne, hlen⟩ :
          ∃ c rest, s = c ++ rest ∧ c ≠ [] ∧ c.length = uchar_mblen c := by
        have hcne : s.take (uchar_mblen s) ≠ [] := by
          intro h0
          have h1 := congrArg List.length h0
          rw [List.length_take, List.length_nil] at h1
          omega
        refine ⟨s.take (uchar_mblen s), s.drop (uchar_mblen s),
          (List.take_append_drop _ _).symm, hcne, ?_⟩
        have h1 : uchar_mblen (s.take (uchar_mblen s)) = uchar_mblen s := by
          have := uchar_mblen_append (s.take (uchar_mblen s)) (s.drop (uchar_mblen s)) hcne
          rw [List.take_append_drop] at this
          exact this.symm
        rw [h1, List.length_take]
        omega
      rw [normalize_utf8_loop_chunk _ dst c rest f hne hlen]
      have hcb : ∀ b ∈ c, b < 256 := fun b hb => hsb b (List.mem_append_left _ hb)
      have hrb : ∀ b ∈ rest, b < 256 := fun b hb => hsb b (List.mem_append_right _ hb)
      obtain ⟨g1, g2⟩ := hst.step hdb c hcb hne hlen
      have hpc : 0 < c.length := List.length_pos.mpr hne
      exact ih rest _ (by simp only [List.length_append] at hf; omega) hrb g1 g2

/-- C11: `normalize_utf8` with the verbatim appender is idempotent: for every
input `s` of bytes, normalizing the output of `normalize_utf8(s)` again yields
the same bytes. -/
theorem normalize_utf8_idempotent (s : List Nat) (h : ∀ b ∈ s, b < 256) :
    normalize_utf8 [] (normalize_utf8 [] s appendBinaryStringInfo) appendBinaryStringInfo
      = normalize_utf8 [] s appendBinaryStringInfo :=
  normalize_utf8_loop_fixed s.length s [] (le_refl _) h Stable.nil
    (fun _ hb => absurd hb (List.not_mem_nil _))

theorem normalize_utf8_idempotent_witness :
    (∀ b ∈ [0xef, 0xbd, 0xb6, 0xef, 0xbe, 0x9e, 0xef, 0xbc, 0xa1, 0xe3, 0x80, 0x80, 0x42],
      b < 256) ∧
    normalize_utf8 []
        [0xef, 0xbd, 0xb6, 0xef, 0xbe, 0x9e, 0xef, 0xbc, 0xa1, 0xe3, 0x80, 0x80, 0x42]
        appendBinaryStringInfo
      = [0xe3, 0x82, 0xac, 0x41, 0x20, 0x42] ∧
    normalize_utf8 []
        (normalize_utf8 []
          [0xef, 0xbd, 0xb6, 0xef, 0xbe, 0x9e, 0xef, 0xbc, 0xa1, 0xe3, 0x80, 0x80, 0x42]
          appendBinaryStringInfo)
        appendBinaryStringInfo
      = normalize_utf8 []
          [0xef, 0xbd, 0xb6, 0xef, 0xbe, 0x9e, 0xef, 0xbc, 0xa1, 0xe3, 0x80, 0x80, 0x42]
          appendBinaryStringInfo :=
  ⟨by decide, by decide!,
    normalize_utf8_idempotent
      [0xef, 0xbd, 0xb6, 0xef, 0xbe, 0x9e, 0xef, 0xbc, 0xa1, 0xe3, 0x80, 0x80, 0x42]
      (by decide)⟩

/-! ### The lexizer -/

theorem strchr_none_of_not_mem (s : List Nat) (c : Nat) (h : c ∉ s) : strchr s c = none := by
  induction s with
  | nil => rfl
  | cons b tl ih =>
    have hb : b ≠ c := fun e => h (by simp [e])
    have htl : c ∉ tl := fun e => h (List.mem_cons_of_mem b e)
    simp [strchr, hb, ih htl]

theorem feature_skip_csv_columns (cols : List (List Nat)) (rest : List Nat)
    (h : ∀ c ∈ cols, 0x2c ∉ c) :
    feature_skip (csv_columns cols ++ rest) cols.length = some rest := by
  induction cols with
  | nil => simp [csv_columns, feature_skip]
  | cons c cs ih =>
    have hc : 0x2c ∉ c := h c (List.mem_cons_self _ _)
    have hcs : ∀ c ∈ cs, 0x2c ∉ c := fun x hx => h x (List.mem_cons_of_mem _ hx)
    have e : csv_columns (c :: cs) ++ rest = c ++ 0x2c :: (csv_columns cs ++ rest) := by
      simp [csv_columns]
    rw [e, List.length_cons, feature_skip, strchr_append_of_not_mem c _ 0x2c hc]
    simpa using ih hcs

/-- The column that `feature` finds behind `n` comma-free columns: the text up
to the next comma, when it is neither empty nor `*`. -/
theorem feature_csv_columns (node : mecab_node_t) (cols : List (List Nat)) (col rest : List Nat)
    (h : ∀ c ∈ cols, 0x2c ∉ c) (hcol : 0x2c ∉ col) (hne : col ≠ []) (hstar : col ≠ [0x2a])
    (hf : node.feature = csv_columns cols ++ (col ++ 0x2c :: rest)) :
    feature node cols.length = some (col ++ 0x2c :: rest, col.length) := by
  unfold feature
  rw [hf, feature_skip_csv_columns cols _ h]
  simp only [strchr_append_of_not_mem col rest 0x2c hcol]
  have hl : (col ++ 0x2c :: rest).length - (0x2c :: rest).length = col.length := by simp
  rw [hl]
  have hpos : 0 < col.length := List.length_pos.mpr hne
  have h2 : ¬ (col.length = 0 ∨ col.length = 1 ∧ byteAt (col ++ 0x2c :: rest) 0 = 0x2a) := by
    rintro (h0 | ⟨h1, h3⟩)
    · omega
    · match col, h1 with
      | [x], _ =>
        simp [byteAt] at h3
        exact hstar (by rw [h3])
  rw [if_neg h2]

theorem detail_text_cons (m : List Nat × List Nat) (ms : List (List Nat × List Nat))
    (h : ms ≠ []) : detail_text (m :: ms) = morph_text m ++ 0x2b :: detail_text ms := by
  cases ms with
  | nil => exact absurd rfl h
  | cons m2 rest => rfl

theorem detail_text_no_comma (ms : List (List Nat × List Nat))
    (hs : ∀ m ∈ ms, 0x2c ∉ m.1) (hp : ∀ m ∈ ms, 0x2c ∉ m.2) : 0x2c ∉ detail_text ms := by
  induction ms with
  | nil => simp [detail_text]
  | cons m rest ih =>
    have h1 := hs m (List.mem_cons_self _ _)
    have h2 := hp m (List.mem_cons_self _ _)
    have ih2 := ih (fun x hx => hs x (List.mem_cons_of_mem _ hx))
      (fun x hx => hp x (List.mem_cons_of_mem _ hx))
    cases rest with
    | nil => simp [detail_text, morph_text, h1, h2]
    | cons m2 r =>
      rw [detail_text_cons m _ (by simp)]
      simp [morph_text, h1, h2, ih2]

theorem detail_text_ne (ms : List (List Nat × List Nat)) (h : ms ≠ []) :
    0x2f ∈ detail_text ms := by
  cases ms with
  | nil => exact absurd rfl h
  | cons m rest =>
    cases rest with
    | nil => simp [detail_text, morph_text]
    | cons m2 r =>
      rw [detail_text_cons m _ (by simp)]
      simp [morph_text]

/-- The detail column that the inflection test finds on an inflected feature
string. -/
theorem TsMecabKo.inflect_detail_inflected (node : mecab_node_t)
    (c0 c1 c2 c3 c5 c6 : List Nat) (ms : List (List Nat × List Nat)) (post : List Nat)
    (hf : node.feature = inflected_feature c0 c1 c2 c3 c5 c6 ms post)
    (hcols : ∀ c ∈ [c0, c1, c2, c3, c5, c6], 0x2c ∉ c) (hms : ms ≠ [])
    (hs : ∀ m ∈ ms, 0x2c ∉ m.1) (hp : ∀ m ∈ ms, 0x2c ∉ m.2) :
    TsMecabKo.inflect_detail node =
      some (detail_text ms ++ 0x2c :: post, (detail_text ms).length) := by
  have hd := detail_text_no_comma ms hs hp
  have hsl := detail_text_ne ms hms
  have hI : 0x2c ∉ Inflect := by decide
  have h4 : feature node MECAB_CONJTYPE =
      some (Inflect ++ 0x2c :: (csv_columns [c5, c6, detail_text ms] ++ post), Inflect.length) := by
    refine feature_csv_columns node [c0, c1, c2, c3] Inflect _ ?_ hI (by decide) (by decide) ?_
    · intro c hc
      exact hcols c (by simp only [List.mem_cons] at hc ⊢; tauto)
    · rw [hf]
      simp [inflected_feature, csv_columns]
  have h7 : feature node MECAB_DETAIL =
      some (detail_text ms ++ 0x2c :: post, (detail_text ms).length) := by
    refine feature_csv_columns node [c0, c1, c2, c3, Inflect, c5, c6] (detail_text ms) post
      ?_ hd ?_ ?_ ?_
    · intro c hc
      simp only [List.mem_cons, List.mem_singleton, List.not_mem_nil, or_false] at hc
      rcases hc with rfl | rfl | rfl | rfl | rfl | rfl | rfl
      · exact hcols _ (by simp)
      · exact hcols _ (by simp)
      · exact hcols _ (by simp)
      · exact hcols _ (by simp)
      · exact hI
      · exact hcols _ (by simp)
      · exact hcols _ (by simp)
    · intro h0; rw [h0] at hsl; simp at hsl
    · intro h0; rw [h0] at hsl; simp at hsl
    · rw [hf]
      simp [inflected_feature, csv_columns]
  unfold TsMecabKo.inflect_detail
  rw [h4]
  have hcmp : strncmp_eq (Inflect ++ 0x2c :: (csv_columns [c5, c6, detail_text ms] ++ post))
      TsMecabKo.Inflect_comma 8 = true := by
    simp [strncmp_eq, Inflect, TsMecabKo.Inflect_comma]
  simp only [hcmp, if_true, h7]

theorem strchr_cases (s : List Nat) (c : Nat) :
    (strchr s c = none ∧ c ∉ s) ∨
      ∃ pre r, s = pre ++ c :: r ∧ c ∉ pre ∧ strchr s c = some (c :: r) := by
  by_cases h : c ∈ s
  · right
    obtain ⟨pre, r, hs, hpre⟩ := List.eq_append_cons_of_mem h
    exact ⟨pre, r, hs, hpre, by rw [hs]; exact strchr_append_of_not_mem pre r c hpre⟩
  · exact Or.inl ⟨strchr_none_of_not_mem s c h, h⟩

theorem set_slot (done : List (Option (List Nat))) (r : Nat) (x : Option (List Nat)) :
    (done ++ List.replicate (r + 1) none).set done.length x
      = (done ++ [x]) ++ List.replicate r none := by
  induction done with
  | nil => simp [List.replicate_succ]
  | cons d ds ih => simpa using ih

/-- The whitelist test on a part of speech `pos` that stands at the start of
`str`: it is accepted exactly when it is one of `accept_parts_of_speech`. -/
theorem TsMecabKo.accept_mecab_ko_part_pos (pos rest : List Nat) (hl : pos.length < 15) :
    TsMecabKo.accept_mecab_ko_part (pos ++ rest) (pos.length : Int)
      = some (decide (pos ∈ TsMecabKo.accept_parts_of_speech)) := by
  unfold TsMecabKo.accept_mecab_ko_part
  have h1 : ¬ ((pos.length : Int) < 0 ∨ (pos.length : Int) ≥ 15) := by omega
  simp only [h1, if_false, Int.toNat_ofNat, List.take_left]
  congr 1
  have key : ∀ a ∈ TsMecabKo.accept_parts_of_speech,
      (strncmp_eq a pos (pos.length + 1) = true ↔ a = pos) := by
    intro a ha
    have ha0 : 0 ∉ a := by
      have k : ∀ a ∈ TsMecabKo.accept_parts_of_speech, 0 ∉ a := by decide
      exact k a ha
    unfold strncmp_eq
    have e2 : (pos ++ [0]).take (pos.length + 1) = pos ++ [0] :=
      List.take_of_length_le (by simp)
    rw [e2, beq_iff_eq]
    constructor
    · intro h
      have hlen := congrArg List.length h
      simp only [List.length_take, List.length_append, List.length_singleton] at hlen
      have hge : pos.length ≤ a.length := by omega
      by_cases heq : a.length = pos.length
      · have e1 : (a ++ [0]).take (pos.length + 1) = a ++ [0] :=
          List.take_of_length_le (by simp [heq])
        rw [e1] at h
        exact List.append_cancel_right h
      · exfalso
        have hlt : pos.length < a.length := by omega
        have e1 : (a ++ [0]).take (pos.length + 1) = a.take (pos.length + 1) :=
          List.take_append_of_le_length (by omega)
        rw [e1] at h
        have hm : (0 : Nat) ∈ a.take (pos.length + 1) := by rw [h]; simp
        exact ha0 (List.mem_of_mem_take hm)
    · intro h
      rw [h, e2]
  rw [Bool.eq_iff_iff]
  simp only [List.any_eq_true, decide_eq_true_eq]
  constructor
  · rintro ⟨a, ha, h⟩
    rw [← (key a ha).mp h]
    exact ha
  · intro h
    exact ⟨pos, h, (key pos h).mpr rfl⟩

theorem detail_text_length (ms : List (List Nat × List Nat)) :
    ms.length ≤ (detail_text ms).length := by
  induction ms with
  | nil => simp
  | cons m rest ih =>
    cases rest with
    | nil =>
      simp only [detail_text, morph_text, List.length_append, List.length_cons,
        List.length_nil]
      omega
    | cons m2 r =>
      rw [detail_text_cons m _ (by simp)]
      simp only [List.length_append, List.length_cons, morph_text] at ih ⊢
      omega

/-- The counting loop on a well-formed detail column: one count per morph. -/
theorem TsMecabKo.count_loop_morphs (post : List Nat) (hpost : 0x2b ∉ post) :
    ∀ (ms : List (List Nat × List Nat)) (fuel k : Nat), ms ≠ [] → ms.length ≤ fuel →
      (∀ m ∈ ms, 0x2b ∉ m.1) → (∀ m ∈ ms, 0x2b ∉ m.2) →
      TsMecabKo.count_loop fuel (detail_text ms ++ 0x2c :: post) k = k + ms.length := by
  intro ms
  induction ms with
  | nil => intro fuel k h; exact absurd rfl h
  | cons m rest ih =>
    intro fuel k _ hfuel hs hp
    obtain ⟨f, rfl⟩ : ∃ f, fuel = f + 1 := ⟨fuel - 1, by simp at hfuel; omega⟩
    have h1 := hs m (List.mem_cons_self _ _)
    have h2 := hp m (List.mem_cons_self _ _)
    cases rest with
    | nil =>
      have hno : 0x2b ∉ detail_text [m] ++ 0x2c :: post := by
        simp [detail_text, morph_text, h1, h2, hpost]
      simp [TsMecabKo.count_loop, strchr_none_of_not_mem _ _ hno]
    | cons m2 r =>
      have e : detail_text (m :: m2 :: r) ++ 0x2c :: post
          = morph_text m ++ 0x2b :: (detail_text (m2 :: r) ++ 0x2c :: post) := by
        rw [detail_text_cons m _ (by simp)]; simp
      have hm : 0x2b ∉ morph_text m := by simp [morph_text, h1, h2]
      rw [e, TsMecabKo.count_loop, strchr_append_of_not_mem _ _ 0x2b hm]
      simp only [List.drop_succ_cons, List.drop_zero]
      rw [ih f (k + 1) (by simp) (by simp at hfuel ⊢; omega)
        (fun x hx => hs x (List.mem_cons_of_mem _ hx))
        (fun x hx => hp x (List.mem_cons_of_mem _ hx))]
      simp only [List.length_cons]
      omega

theorem accepted_surfaces_cons (m : List Nat × List Nat) (ms : List (List Nat × List Nat)) :
    accepted_surfaces (m :: ms) =
      if m.2 ∈ TsMecabKo.accept_parts_of_speech then m.1 :: accepted_surfaces ms
      else accepted_surfaces ms := by
  unfold accepted_surfaces
  by_cases h : m.2 ∈ TsMecabKo.accept_parts_of_speech <;> simp [List.filter_cons, h]

theorem accepted_surfaces_length (ms : List (List Nat × List Nat)) :
    (accepted_surfaces ms).length ≤ ms.length := by
  unfold accepted_surfaces
  rw [List.length_map]
  exact List.length_filter_le _ _

/-- One morph under the cursor of the splitting loop: where the slash stands,
what `lexize` copies and what the whitelist test answers. -/
theorem TsMecabKo.split_morph (m : List Nat × List Nat) (c : Nat) (rest : List Nat)
    (hs : 0x2f ∉ m.1) (hl : m.2.length < 15) :
    strchr (morph_text m ++ c :: rest) 0x2f = some (0x2f :: (m.2 ++ c :: rest)) ∧
    TsMecabKo.lexize (morph_text m ++ c :: rest)
        ((morph_text m ++ c :: rest).length - (0x2f :: (m.2 ++ c :: rest)).length) = m.1 ∧
    TsMecabKo.accept_mecab_ko_part ((0x2f :: (m.2 ++ c :: rest)).drop 1)
        (((0x2f :: (m.2 ++ c :: rest)).length : Int) - ((c :: rest).length : Int) - 1)
      = some (decide (m.2 ∈ TsMecabKo.accept_parts_of_speech)) := by
  have e : morph_text m ++ c :: rest = m.1 ++ 0x2f :: (m.2 ++ c :: rest) := by
    simp [morph_text]
  refine ⟨?_, ?_, ?_⟩
  · rw [e]; exact strchr_append_of_not_mem _ _ _ hs
  · rw [e]
    unfold TsMecabKo.lexize
    have : (m.1 ++ 0x2f :: (m.2 ++ c :: rest)).length - (0x2f :: (m.2 ++ c :: rest)).length
        = m.1.length := by simp
    rw [this, List.take_left]
  · have hlen : (((0x2f :: (m.2 ++ c :: rest)).length : Int) - ((c :: rest).length : Int) - 1)
        = (m.2.length : Int) := by
      simp only [List.length_cons, List.length_append]; push_cast; ring
    rw [hlen, List.drop_succ_cons, List.drop_zero]
    exact TsMecabKo.accept_mecab_ko_part_pos m.2 (c :: rest) hl

/-- The splitting loop on a well-formed detail column: it stores the accepted
surfaces, in order, from slot `i` on. -/
theorem TsMecabKo.split_loop_morphs (post : List Nat) (hpost : 0x2b ∉ post) :
    ∀ (ms : List (List Nat × List Nat)) (fuel r : Nat) (done : List (Option (List Nat))),
      ms ≠ [] → ms.length ≤ fuel → ms.length ≤ r →
      (∀ m ∈ ms, 0x2b ∉ m.1 ∧ 0x2f ∉ m.1 ∧ 0x2c ∉ m.1) →
      (∀ m ∈ ms, 0x2b ∉ m.2 ∧ 0x2c ∉ m.2 ∧ m.2.length < 15) →
      TsMecabKo.split_loop fuel (detail_text ms ++ 0x2c :: post)
          (done ++ List.replicate r none) done.length
        = some (done ++ (accepted_surfaces ms).map some ++
            List.replicate (r - (accepted_surfaces ms).length) none) := by
  intro ms
  induction ms with
  | nil => intro fuel r done h; exact absurd rfl h
  | cons m rest ih =>
    intro fuel r done _ hfuel hr hs hp
    obtain ⟨f, rfl⟩ : ∃ f, fuel = f + 1 := ⟨fuel - 1, by simp at hfuel; omega⟩
    obtain ⟨r0, rfl⟩ : ∃ r0, r = r0 + 1 := ⟨r - 1, by simp at hr; omega⟩
    obtain ⟨s1, s2, s3⟩ := hs m (List.mem_cons_self _ _)
    obtain ⟨p1, p2, p3⟩ := hp m (List.mem_cons_self _ _)
    have hlt : done.length < (done ++ List.replicate (r0 + 1) (none : Option (List Nat))).length := by
      simp
    rw [accepted_surfaces_cons]
    cases rest with
    | nil =>
      obtain ⟨q1, q2, q3⟩ := TsMecabKo.split_morph m 0x2c post s2 p3
      have hno : 0x2b ∉ detail_text [m] ++ 0x2c :: post := by
        simp [detail_text, morph_text, s1, p1, hpost]
      have hcomma : strchr (detail_text [m] ++ 0x2c :: post) 0x2c = some (0x2c :: post) := by
        have e : detail_text [m] ++ 0x2c :: post = morph_text m ++ 0x2c :: post := rfl
        rw [e]
        exact strchr_append_of_not_mem _ _ _ (by simp [morph_text, s3, p2])
      have e : detail_text [m] ++ 0x2c :: post = morph_text m ++ 0x2c :: post := rfl
      rw [TsMecabKo.split_loop, strchr_none_of_not_mem _ _ hno, hcomma]
      rw [e, q1]
      simp only [q2, q3]
      by_cases ha : m.2 ∈ TsMecabKo.accept_parts_of_speech
      · simp only [ha, decide_True, if_true, hlt, set_slot]
        simp [accepted_surfaces]
      · simp only [ha, decide_False, if_false]
        simp [accepted_surfaces]
    | cons m2 r2 =>
      have e : detail_text (m :: m2 :: r2) ++ 0x2c :: post
          = morph_text m ++ 0x2b :: (detail_text (m2 :: r2) ++ 0x2c :: post) := by
        rw [detail_text_cons m _ (by simp)]; simp
      obtain ⟨q1, q2, q3⟩ :=
        TsMecabKo.split_morph m 0x2b (detail_text (m2 :: r2) ++ 0x2c :: post) s2 p3
      have hplus : strchr (morph_text m ++ 0x2b :: (detail_text (m2 :: r2) ++ 0x2c :: post)) 0x2b
          = some (0x2b :: (detail_text (m2 :: r2) ++ 0x2c :: post)) :=
        strchr_append_of_not_mem _ _ _ (by simp [morph_text, s1, p1])
      have hs2 := fun x hx => hs x (List.mem_cons_of_mem m hx)
      have hp2 := fun x hx => hp x (List.mem_cons_of_mem m hx)
      have hlen := accepted_surfaces_length (m2 :: r2)
      simp only [List.length_cons] at hfuel hr hlen
      rw [e, TsMecabKo.split_loop, q1, hplus]
      simp only [q2, q3]
      simp only [List.drop_succ_cons, List.drop_zero]
      by_cases ha : m.2 ∈ TsMecabKo.accept_parts_of_speech
      · simp only [ha, decide_True, if_true, hlt, set_slot]
        have := ih f r0 (done ++ [some m.1]) (by simp) (by simp; omega) (by simp; omega) hs2 hp2
        simp only [List.length_append, List.length_singleton] at this
        rw [this]
        simp
      · simp only [ha, decide_False, if_false]
        have := ih f (r0 + 1) done (by simp) (by simp; omega) (by simp; omega) hs2 hp2
        rw [this]

theorem strchr_plus_count (t pre rest : List Nat) (ht : t = pre ++ 0x2b :: rest)
    (hpre : 0x2b ∉ pre) :
    t.count 0x2b = rest.count 0x2b + 1 ∧ rest.length < t.length := by
  subst ht
  constructor
  · rw [List.count_append, List.count_eq_zero_of_not_mem hpre, List.count_cons_self]
    omega
  · simp only [List.length_append, List.length_cons]
    omega

/-- The splitting loop on any text `t`: its outcome, the list of lexemes it
stores or `none` for an undefined run, depends neither on the fuel nor on the
size of the array, as long as the array has a slot for every `+` of `t` and
one more; the loop stores no more lexemes than that. -/
theorem TsMecabKo.split_loop_outcome :
    ∀ (n : Nat) (t : List Nat), t.length ≤ n →
      ∃ outcome : Option (List (List Nat)),
        (∀ L, outcome = some L → L.length ≤ t.count 0x2b + 1) ∧
        ∀ (fuel r : Nat) (done : List (Option (List Nat))),
          t.length < fuel → t.count 0x2b + 1 ≤ r →
          TsMecabKo.split_loop fuel t (done ++ List.replicate r none) done.length
            = outcome.map
                (fun L => done ++ L.map some ++ List.replicate (r - L.length) none) := by
  intro n
  induction n with
  | zero =>
    intro t ht
    have : t = [] := List.length_eq_zero.mp (by omega)
    subst this
    refine ⟨none, by simp, ?_⟩
    intro fuel r done hf _
    obtain ⟨f, rfl⟩ : ∃ f, fuel = f + 1 := ⟨fuel - 1, by omega⟩
    simp [TsMecabKo.split_loop, strchr]
  | succ n ih =>
    intro t ht
    cases hsl : strchr t 0x2f with
    | none =>
      refine ⟨none, by simp, ?_⟩
      intro fuel r done hf _
      obtain ⟨f, rfl⟩ : ∃ f, fuel = f + 1 := ⟨fuel - 1, by omega⟩
      simp [TsMecabKo.split_loop, hsl]
    | some slashpos =>
      rcases strchr_cases t 0x2b with ⟨hpl, _⟩ | ⟨pre, rest, hte, hpre, hpl⟩
      · cases hcm : strchr t 0x2c with
        | none =>
          refine ⟨none, by simp, ?_⟩
          intro fuel r done hf _
          obtain ⟨f, rfl⟩ : ∃ f, fuel = f + 1 := ⟨fuel - 1, by omega⟩
          simp [TsMecabKo.split_loop, hsl, hpl, hcm]
        | some commapos =>
          cases hacc : TsMecabKo.accept_mecab_ko_part (slashpos.drop 1)
              ((slashpos.length : Int) - (commapos.length : Int) - 1) with
          | none =>
            refine ⟨none, by simp, ?_⟩
            intro fuel r done hf _
            obtain ⟨f, rfl⟩ : ∃ f, fuel = f + 1 := ⟨fuel - 1, by omega⟩
            simp only [TsMecabKo.split_loop, hsl, hpl, hcm, hacc, Option.map_none']
          | some b =>
            cases b with
            | false =>
              refine ⟨some [], by simp, ?_⟩
              intro fuel r done hf _
              obtain ⟨f, rfl⟩ : ∃ f, fuel = f + 1 := ⟨fuel - 1, by omega⟩
              simp only [TsMecabKo.split_loop, hsl, hpl, hcm, hacc]
              simp
            | true =>
              refine ⟨some [TsMecabKo.lexize t (t.length - slashpos.length)], by simp, ?_⟩
              intro fuel r done hf hr
              obtain ⟨f, rfl⟩ : ∃ f, fuel = f + 1 := ⟨fuel - 1, by omega⟩
              obtain ⟨r0, rfl⟩ : ∃ r0, r = r0 + 1 := ⟨r - 1, by omega⟩
              have hlt : done.length <
                  (done ++ List.replicate (r0 + 1) (none : Option (List Nat))).length := by
                simp
              simp only [TsMecabKo.split_loop, hsl, hpl, hcm, hacc, hlt, if_true, set_slot]
              simp
      · obtain ⟨hcount, hlen⟩ := strchr_plus_count t pre rest hte hpre
        obtain ⟨outcome, hbound, hrun⟩ := ih rest (by omega)
        cases hacc : TsMecabKo.accept_mecab_ko_part (slashpos.drop 1)
            ((slashpos.length : Int) - ((0x2b :: rest).length : Int) - 1) with
        | none =>
          refine ⟨none, by simp, ?_⟩
          intro fuel r done hf _
          obtain ⟨f, rfl⟩ : ∃ f, fuel = f + 1 := ⟨fuel - 1, by omega⟩
          simp only [TsMecabKo.split_loop, hsl, hpl, hacc, Option.map_none']
        | some b =>
          cases b with
          | false =>
            refine ⟨outcome, fun L hL => by have := hbound L hL; omega, ?_⟩
            intro fuel r done hf hr
            obtain ⟨f, rfl⟩ : ∃ f, fuel = f + 1 := ⟨fuel - 1, by omega⟩
            simp only [TsMecabKo.split_loop, hsl, hpl, hacc, List.drop_succ_cons, List.drop_zero]
            exact hrun f r done (by omega) (by omega)
          | true =>
            refine ⟨outcome.map (fun L => TsMecabKo.lexize t (t.length - slashpos.length) :: L),
              ?_, ?_⟩
            · intro L hL
              cases outcome with
              | none => simp at hL
              | some L0 =>
                simp only [Option.map_some', Option.some.injEq] at hL
                subst hL
                have := hbound L0 rfl
                simp only [List.length_cons]
                omega
            · intro fuel r done hf hr
              obtain ⟨f, rfl⟩ : ∃ f, fuel = f + 1 := ⟨fuel - 1, by omega⟩
              obtain ⟨r0, rfl⟩ : ∃ r0, r = r0 + 1 := ⟨r - 1, by omega⟩
              have hlt : done.length <
                  (done ++ List.replicate (r0 + 1) (none : Option (List Nat))).length := by
                simp
              simp only [TsMecabKo.split_loop, hsl, hpl, hacc, List.drop_succ_cons,
                List.drop_zero, hlt, if_true, set_slot]
              have := hrun f r0 (done ++ [some (TsMecabKo.lexize t (t.length - slashpos.length))])
                (by omega) (by omega)
              simp only [List.length_append, List.length_singleton] at this
              rw [this]
              cases outcome with
              | none => rfl
              | some L0 => simp

/-- The counting loop on any text: one more than the number of its `+`. -/
theorem TsMecabKo.count_loop_count :
    ∀ (n : Nat) (t : List Nat) (fuel k : Nat), t.length ≤ n → t.length < fuel →
      TsMecabKo.count_loop fuel t k = k + t.count 0x2b + 1 := by
  intro n
  induction n with
  | zero =>
    intro t fuel k ht hf
    have : t = [] := List.length_eq_zero.mp (by omega)
    subst this
    obtain ⟨f, rfl⟩ : ∃ f, fuel = f + 1 := ⟨fuel - 1, by omega⟩
    simp [TsMecabKo.count_loop, strchr]
  | succ n ih =>
    intro t fuel k ht hf
    obtain ⟨f, rfl⟩ : ∃ f, fuel = f + 1 := ⟨fuel - 1, by omega⟩
    rcases strchr_cases t 0x2b with ⟨hpl, hno⟩ | ⟨pre, rest, hte, hpre, hpl⟩
    · simp [TsMecabKo.count_loop, hpl, List.count_eq_zero_of_not_mem hno]
    · obtain ⟨hcount, hlen⟩ := strchr_plus_count t pre rest hte hpre
      simp only [TsMecabKo.count_loop, hpl, List.drop_succ_cons, List.drop_zero]
      rw [ih rest f (k + 1) (by omega) (by omega), hcount]
      omega

/-- C21 (failing input): the node `VV,*,F,x,Inflect,VV,EC,a/VV,b+c/NNG,` has
`Inflect` in column 4 and the single morph `a/VV`, on the whitelist, in column 7,
followed by a comma; the lexizer returns the lexeme `c`, not `a` as the claim
has it, because the scan for `+` runs on behind the comma.  With a part of
speech of 15 bytes the run is undefined: the closing NUL is stored behind
`input_str[15]`. -/
theorem ts_mecabko_lexize_plus_behind_detail :
    accepted_surfaces [([0x61], [0x56, 0x56])] = [[0x61]] ∧
    TsMecabKo.ts_mecabko_lexize (some nodePlusBehind) [0x61] 1
      = some [some [0x63], none, none] ∧
    TsMecabKo.ts_mecabko_lexize (some nodeLongPos) [0x61] 1 = none := by
  decide

/-- The lexizer on the inputs where the two defects do not show: for every node
whose feature column 4 is `Inflect` and whose column 7, followed by a comma, is
a `+`-separated list of morphs `surface_i/POS_i` (no `+`, `/` or `,` in a
surface, no `+` or `,` in a part of speech), where every part of speech is
shorter than 15 bytes and no `+` stands behind the comma of column 7,
`ts_mecabko_lexize` returns, in order, exactly the surfaces whose part of
speech is on the whitelist `accept_parts_of_speech`, followed by NIL slots: one
slot more than there are morphs in all. -/
theorem ts_mecabko_lexize_inflected (node : mecab_node_t) (c0 c1 c2 c3 c5 c6 : List Nat)
    (morphs : List (List Nat × List Nat)) (post t : List Nat) (tlen : Nat)
    (hf : node.feature = inflected_feature c0 c1 c2 c3 c5 c6 morphs post)
    (hcols : ∀ c ∈ [c0, c1, c2, c3, c5, c6], 0x2c ∉ c) (hms : morphs ≠ [])
    (hs : ∀ m ∈ morphs, 0x2b ∉ m.1 ∧ 0x2f ∉ m.1 ∧ 0x2c ∉ m.1)
    (hp : ∀ m ∈ morphs, 0x2b ∉ m.2 ∧ 0x2c ∉ m.2 ∧ m.2.length < 15)
    (hpost : 0x2b ∉ post) :
    TsMecabKo.ts_mecabko_lexize (some node) t tlen
      = some ((accepted_surfaces morphs).map some ++
          List.replicate (morphs.length + 1 - (accepted_surfaces morphs).length) none) := by
  have hd := TsMecabKo.inflect_detail_inflected node c0 c1 c2 c3 c5 c6 morphs post hf hcols hms
    (fun m hm => (hs m hm).2.2) (fun m hm => (hp m hm).2.1)
  have hlen := detail_text_length morphs
  have hfuel : morphs.length ≤ (detail_text morphs ++ 0x2c :: post).length + 1 := by
    simp only [List.length_append, List.length_cons]; omega
  have hc := TsMecabKo.count_loop_morphs post hpost morphs _ 0 hms hfuel
    (fun m hm => (hs m hm).1) (fun m hm => (hp m hm).1)
  have hsp := TsMecabKo.split_loop_morphs post hpost morphs _ (morphs.length + 1) [] hms hfuel
    (by omega) hs hp
  simp only [TsMecabKo.ts_mecabko_lexize, hd, hc, Nat.zero_add]
  simpa using hsp

theorem ts_mecabko_lexize_inflected_witness :
    nodeGakkawo.feature = inflected_feature [0x56, 0x56, 0x2b, 0x45, 0x43, 0x2b, 0x45, 0x50]
      [0x2a] [0x46] [0xea, 0xb0, 0x80, 0xea, 0xb9, 0x8c, 0xec, 0x9b, 0x8c] [0x56, 0x56]
      [0x45, 0x50] morphsGakkap [] ∧
    accepted_surfaces morphsGakkap = [[0xea, 0xb0, 0x80, 0xea, 0xb9, 0x9d]] ∧
    TsMecabKo.ts_mecabko_lexize (some nodeGakkawo)
        [0xea, 0xb0, 0x80, 0xea, 0xb9, 0x8c, 0xec, 0x9b, 0x8c] 9
      = some ((accepted_surfaces morphsGakkap).map some ++
          List.replicate (morphsGakkap.length + 1 - (accepted_surfaces morphsGakkap).length)
            none) :=
  ⟨rfl, by decide,
    ts_mecabko_lexize_inflected nodeGakkawo _ _ _ _ _ _ morphsGakkap [] _ 9 rfl
      (by decide) (by decide) (by decide) (by decide) (by decide)⟩

/-- C22 (failing input): on the node `NNG,*,F,*,Compound,*,*,*` and the token
`tok` the lexizer returns the single lexeme `Compound`, the text of column 4,
not the token's bytes; on `VV,*,F,*,Inflect,*,*,*` it returns `Inflect`.  The
inflection test has stored column 4 in `t` and `tlen` before the fallback reads
them.  With a base form in column 3 (`NNG,*,T,한국,*,*,*,*`) the lexeme is the
base form. -/
theorem ts_mecabko_lexize_fallback_is_conjtype :
    TsMecabKo.inflect_detail nodeCompound = none ∧
    feature nodeCompound MECAB_BASIC = none ∧
    TsMecabKo.ts_mecabko_lexize (some nodeCompound) [0x74, 0x6f, 0x6b] 3
      = some [some [0x43, 0x6f, 0x6d, 0x70, 0x6f, 0x75, 0x6e, 0x64], none] ∧
    TsMecabKo.inflect_detail nodeInflectNoDetail = none ∧
    feature nodeInflectNoDetail MECAB_BASIC = none ∧
    TsMecabKo.ts_mecabko_lexize (some nodeInflectNoDetail) [0x74, 0x6f, 0x6b] 3
      = some [some [0x49, 0x6e, 0x66, 0x6c, 0x65, 0x63, 0x74], none] ∧
    TsMecabKo.ts_mecabko_lexize (some nodeHanguk) [0x74, 0x6f, 0x6b] 3
      = some [some [0xed, 0x95, 0x9c, 0xea, 0xb5, 0xad], none] := by
  decide

/-- C23: in the inflected branch of `ts_mecabko_lexize`, on the detail text
`td` that the scans run over, the counting loop gives one more than the number
of `+`, so the array has that number plus 2 slots.  The run has one outcome,
the list of the lexemes stored or none for an undefined run, which is the same
for every larger array and longer run; it holds no more lexemes than there
are morphs (the number of `+` plus 1), so the array returned ends in at least
one NIL slot. -/
theorem ts_mecabko_lexize_slots (node : mecab_node_t) (td : List Nat) (n : Nat)
    (t : List Nat) (tlen : Nat) (h : TsMecabKo.inflect_detail node = some (td, n)) :
    TsMecabKo.count_loop (td.length + 1) td 0 = td.count 0x2b + 1 ∧
    ∃ outcome : Option (List (List Nat)),
      (∀ L, outcome = some L → L.length ≤ td.count 0x2b + 1) ∧
      TsMecabKo.ts_mecabko_lexize (some node) t tlen
        = outcome.map
            (fun L => L.map some ++ List.replicate (td.count 0x2b + 2 - L.length) none) ∧
      (∀ fuel r, td.length < fuel → td.count 0x2b + 1 ≤ r →
        TsMecabKo.split_loop fuel td (List.replicate r none) 0
          = outcome.map (fun L => L.map some ++ List.replicate (r - L.length) none)) ∧
      ∀ res, TsMecabKo.ts_mecabko_lexize (some node) t tlen = some res →
        res.length = td.count 0x2b + 2 ∧ res.getLast? = some none := by
  have hc := TsMecabKo.count_loop_count td.length td (td.length + 1) 0 (le_refl _) (by omega)
  rw [Nat.zero_add] at hc
  refine ⟨hc, ?_⟩
  obtain ⟨outcome, hbound, hrun⟩ := TsMecabKo.split_loop_outcome td.length td (le_refl _)
  have hrun0 : ∀ fuel r, td.length < fuel → td.count 0x2b + 1 ≤ r →
      TsMecabKo.split_loop fuel td (List.replicate r none) 0
        = outcome.map (fun L => L.map some ++ List.replicate (r - L.length) none) := by
    intro fuel r hf hr
    have := hrun fuel r [] hf hr
    simpa using this
  have hlex : TsMecabKo.ts_mecabko_lexize (some node) t tlen
      = outcome.map
          (fun L => L.map some ++ List.replicate (td.count 0x2b + 2 - L.length) none) := by
    simp only [TsMecabKo.ts_mecabko_lexize, h, hc]
    exact hrun0 _ _ (by omega) (by omega)
  refine ⟨outcome, hbound, hlex, hrun0, ?_⟩
  intro res hres
  rw [hlex] at hres
  cases outcome with
  | none => simp at hres
  | some L =>
    have hL := hbound L rfl
    simp only [Option.map_some', Option.some.injEq] at hres
    subst hres
    obtain ⟨k, hk⟩ : ∃ k, td.count 0x2b + 2 - L.length = k + 1 :=
      ⟨td.count 0x2b + 1 - L.length, by omega⟩
    constructor
    · simp only [List.length_append, List.length_map, List.length_replicate]
      omega
    · rw [hk, List.replicate_succ', ← List.append_assoc, List.getLast?_append]
      simp

theorem ts_mecabko_lexize_slots_witness :
    TsMecabKo.inflect_detail nodeGakkawo = some (detail_text morphsGakkap ++ [0x2c], 23) ∧
    (detail_text morphsGakkap ++ [0x2c]).count 0x2b = 2 ∧
    TsMecabKo.ts_mecabko_lexize (some nodeGakkawo) [0xea, 0xb0, 0x80] 3
      = some [some [0xea, 0xb0, 0x80, 0xea, 0xb9, 0x9d], none, none, none] ∧
    ∃ outcome : Option (List (List Nat)),
      (∀ L, outcome = some L → L.length ≤ (detail_text morphsGakkap ++ [0x2c]).count 0x2b + 1) ∧
      TsMecabKo.ts_mecabko_lexize (some nodeGakkawo) [0xea, 0xb0, 0x80] 3
        = outcome.map
            (fun L => L.map some ++ List.replicate
              ((detail_text morphsGakkap ++ [0x2c]).count 0x2b + 2 - L.length) none) ∧
      (∀ fuel r, (detail_text morphsGakkap ++ [0x2c]).length < fuel →
        (detail_text morphsGakkap ++ [0x2c]).count 0x2b + 1 ≤ r →
        TsMecabKo.split_loop fuel (detail_text morphsGakkap ++ [0x2c]) (List.replicate r none) 0
          = outcome.map (fun L => L.map some ++ List.replicate (r - L.length) none)) ∧
      ∀ res, TsMecabKo.ts_mecabko_lexize (some nodeGakkawo) [0xea, 0xb0, 0x80] 3 = some res →
        res.length = (detail_text morphsGakkap ++ [0x2c]).count 0x2b + 2 ∧
          res.getLast? = some none :=
  ⟨by decide, by decide, by decide,
    (ts_mecabko_lexize_slots nodeGakkawo (detail_text morphsGakkap ++ [0x2c]) 23
      [0xea, 0xb0, 0x80] 3 (by decide)).2⟩

/-! ### The appender of the tokenizer pre-pass -/

theorem StringInfoTail_last (dst : List Nat) :
    dst.getLast? = some (StringInfoTail dst 1 0) ∨ dst = [] := by
  rcases List.eq_nil_or_concat dst with h | ⟨d, x, rfl⟩
  · exact Or.inr h
  · left
    rw [List.concat_eq_append, StringInfoTail_concat]
    simp

theorem TextsearchJa.appendString_nonprintable (dst : List Nat) (b : Nat)
    (hb : TextsearchJa.isprint b = false) :
    TextsearchJa.appendString dst [b] =
      if dst.getLast? = some TextsearchJa.SEPARATOR_CHAR then dst
      else dst ++ [TextsearchJa.SEPARATOR_CHAR] := by
  have h1 : ([b] : List Nat).length = 1 ∧ ¬ TextsearchJa.isprint (byteAt [b] 0) = true := by
    simp [byteAt, hb]
  have hsep : appendStringInfoChar dst TextsearchJa.SEPARATOR_CHAR
      = dst ++ [TextsearchJa.SEPARATOR_CHAR] := rfl
  unfold TextsearchJa.appendString
  simp only [h1, if_true, hsep]
  rcases StringInfoTail_last dst with h | h
  · have hne : dst.length ≠ 0 := by
      intro h0
      rw [List.length_eq_zero.mp h0] at h
      simp at h
    rw [h]
    by_cases ht : StringInfoTail dst 1 0 = TextsearchJa.SEPARATOR_CHAR
    · simp [ht, hne]
    · simp [ht]
  · subst h
    simp

/-- C24: under the `appendString` policy a non-printable single byte appends
the separator `0x0B` only if the buffer is empty or does not already end in
`0x0B`, and otherwise changes nothing; so a run of one or more consecutive
non-printable single bytes leaves the buffer as it is when it ends in `0x0B`
and appends one `0x0B` when it does not: at most one separator byte. -/
theorem appendString_nonprintable_run (dst bs : List Nat) (hne : bs ≠ [])
    (hbs : ∀ b ∈ bs, TextsearchJa.isprint b = false) :
    (∀ b ∈ bs, TextsearchJa.appendString dst [b] =
      if dst = [] ∨ dst.getLast? ≠ some 0x0b then dst ++ [0x0b] else dst) ∧
    bs.foldl (fun d b => TextsearchJa.appendString d [b]) dst =
      (if dst.getLast? = some 0x0b then dst else dst ++ [0x0b]) ∧
    (bs.foldl (fun d b => TextsearchJa.appendString d [b]) dst).count 0x0b
      ≤ dst.count 0x0b + 1 := by
  have hone : ∀ d b, TextsearchJa.isprint b = false →
      TextsearchJa.appendString d [b] = if d.getLast? = some 0x0b then d else d ++ [0x0b] :=
    fun d b hb => TextsearchJa.appendString_nonprintable d b hb
  have hfold : ∀ (l d : List Nat), (∀ b ∈ l, TextsearchJa.isprint b = false) →
      d.getLast? = some 0x0b → l.foldl (fun d b => TextsearchJa.appendString d [b]) d = d := by
    intro l
    induction l with
    | nil => intro d _ _; rfl
    | cons b tl ih =>
      intro d hl hd
      rw [List.foldl_cons, hone d b (hl b (List.mem_cons_self _ _)), if_pos hd]
      exact ih d (fun x hx => hl x (List.mem_cons_of_mem _ hx)) hd
  have hrun : bs.foldl (fun d b => TextsearchJa.appendString d [b]) dst =
      (if dst.getLast? = some 0x0b then dst else dst ++ [0x0b]) := by
    cases bs with
    | nil => exact absurd rfl hne
    | cons b tl =>
      have htl : ∀ x ∈ tl, TextsearchJa.isprint x = false :=
        fun x hx => hbs x (List.mem_cons_of_mem _ hx)
      rw [List.foldl_cons, hone dst b (hbs b (List.mem_cons_self _ _))]
      by_cases hd : dst.getLast? = some 0x0b
      · rw [if_pos hd]
        exact hfold tl dst htl hd
      · rw [if_neg hd]
        exact hfold tl _ htl (by simp)
  refine ⟨?_, hrun, ?_⟩
  · intro b hb
    rw [hone dst b (hbs b hb)]
    by_cases hd : dst.getLast? = some 0x0b
    · have hn : dst ≠ [] := by intro h0; rw [h0] at hd; simp at hd
      simp [hd, hn]
    · simp [hd]
  · rw [hrun]
    split_ifs
    · omega
    · simp

theorem appendString_nonprintable_run_witness :
    ([0x0a, 0x0d, 0x09] : List Nat) ≠ [] ∧
    (∀ b ∈ [0x0a, 0x0d, 0x09], TextsearchJa.isprint b = false) ∧
    [0x0a, 0x0d, 0x09].foldl (fun d b => TextsearchJa.appendString d [b]) [0x41]
      = [0x41, 0x0b] ∧
    [0x0a, 0x0d, 0x09].foldl (fun d b => TextsearchJa.appendString d [b]) [0x41, 0x0b]
      = [0x41, 0x0b] :=
  ⟨by decide, by decide,
    (appendString_nonprintable_run [0x41] [0x0a, 0x0d, 0x09] (by decide) (by decide)).2.1,
    (appendString_nonprintable_run [0x41, 0x0b] [0x0a, 0x0d, 0x09] (by decide)
      (by decide)).2.1⟩

theorem TextsearchJa.appendString_printable (dst src : List Nat)
    (h : ¬ (src.length = 1 ∧ TextsearchJa.isprint (byteAt src 0) = false))
    (hlen : 1 < dst.length) :
    TextsearchJa.appendString dst src =
      (if StringInfoTail dst 1 0 = TextsearchJa.SEPARATOR_CHAR then
        if src.length = 1 ∧ TextsearchJa.IS_HIGHBIT_SET (StringInfoTail dst 2 0) = false then
          setStringInfoTail dst 1 0 0x20
        else if TextsearchJa.IS_HIGHBIT_SET (StringInfoTail dst 2 0) = true then
          dst.take (dst.length - 1)
        else dst
      else
        if (src.length = 1 ∧ TextsearchJa.IS_HIGHBIT_SET (StringInfoTail dst 1 0) = true) ∨
            (src.length > 1 ∧ TextsearchJa.IS_HIGHBIT_SET (StringInfoTail dst 1 0) = false) then
          dst ++ [TextsearchJa.SEPARATOR_CHAR]
        else dst) ++ src := by
  have hsep : appendStringInfoChar dst TextsearchJa.SEPARATOR_CHAR
      = dst ++ [TextsearchJa.SEPARATOR_CHAR] := rfl
  unfold TextsearchJa.appendString
  simp only [hlen, gt_iff_lt, if_true, hsep, appendBinaryStringInfo, Bool.not_eq_true]
  rw [if_neg h]

/-- C25: under the `appendString` policy, when the buffer has more than one
byte and ends in the separator and a printable character is appended: if the
byte before the separator is ASCII (high bit clear) and the incoming character
is a single byte, the separator is replaced by `0x20` and the character
appended; if the byte before the separator has its high bit set and the
incoming character is multi-byte, the separator is removed and the character
appended directly behind the preceding character. -/
theorem appendString_after_separator (p : List Nat) (x : Nat) (src : List Nat) :
    (TextsearchJa.IS_HIGHBIT_SET x = false → src.length = 1 →
      TextsearchJa.isprint (byteAt src 0) = true →
      TextsearchJa.appendString (p ++ [x, 0x0b]) src = p ++ [x, 0x20] ++ src) ∧
    (TextsearchJa.IS_HIGHBIT_SET x = true → 1 < src.length →
      TextsearchJa.appendString (p ++ [x, 0x0b]) src = p ++ [x] ++ src) := by
  obtain ⟨t2, t1⟩ := StringInfoTail_concat2 p x 0x0b
  have hlen : 1 < (p ++ [x, 0x0b]).length := by simp
  constructor
  · intro hx hs hp
    rw [TextsearchJa.appendString_printable _ src (by simp [hp]) hlen, t1, t2]
    have e : setStringInfoTail (p ++ [x, 0x0b]) 1 0 0x20 = p ++ [x, 0x20] := by
      have := setStringInfoTail_concat (p ++ [x]) 0x0b 0x20
      simpa using this
    rw [if_pos (show (11 : Nat) = TextsearchJa.SEPARATOR_CHAR from rfl), if_pos ⟨hs, hx⟩, e]
  · intro hx hs
    rw [TextsearchJa.appendString_printable _ src (by omega) hlen, t1, t2]
    have e : (p ++ [x, 0x0b]).take ((p ++ [x, 0x0b]).length - 1) = p ++ [x] := by
      have : p ++ [x, 0x0b] = (p ++ [x]) ++ [0x0b] := by simp
      rw [this, List.length_append, List.length_singleton, Nat.add_sub_cancel, List.take_left]
    have hs1 : ¬ (src.length = 1 ∧ TextsearchJa.IS_HIGHBIT_SET x = false) := by omega
    rw [if_pos (show (11 : Nat) = TextsearchJa.SEPARATOR_CHAR from rfl), if_neg hs1, if_pos hx, e]

theorem appendString_after_separator_witness :
    (TextsearchJa.IS_HIGHBIT_SET 0x41 = false ∧ ([0x42] : List Nat).length = 1 ∧
      TextsearchJa.isprint (byteAt [0x42] 0) = true ∧
      TextsearchJa.appendString [0x41, 0x0b] [0x42] = [0x41, 0x20, 0x42]) ∧
    (TextsearchJa.IS_HIGHBIT_SET 0x82 = true ∧ 1 < ([0xe3, 0x81, 0x84] : List Nat).length ∧
      TextsearchJa.appendString [0xe3, 0x81, 0x82, 0x0b] [0xe3, 0x81, 0x84]
        = [0xe3, 0x81, 0x82, 0xe3, 0x81, 0x84]) :=
  ⟨⟨by decide, by decide, by decide,
      (appendString_after_separator [] 0x41 [0x42]).1 (by decide) (by decide) (by decide)⟩,
    ⟨by decide, by decide,
      (appendString_after_separator [0xe3, 0x81] 0x82 [0xe3, 0x81, 0x84]).2 (by decide)
        (by decide)⟩⟩

/-- C26 (failing input): appending `あ` (E3 81 82) to the one-byte buffer `A`
yields `Aあ`, not `A`, SEPARATOR, `あ` as the claim and the header comment of
`appendString` have it; the whole pre-pass on `Aあ` gives `Aあ` as well. -/
theorem appendString_no_separator_after_one_byte :
    TextsearchJa.appendString [0x41] [0xe3, 0x81, 0x82] = [0x41, 0xe3, 0x81, 0x82] ∧
    TextsearchJa.appendString [0x41] [0xe3, 0x81, 0x82] ≠ [0x41, 0x0b, 0xe3, 0x81, 0x82] ∧
    TextsearchJa.ts_ja_start_normalize [0x41, 0xe3, 0x81, 0x82] = [0x41, 0xe3, 0x81, 0x82] := by
  decide

/-- The script-boundary test of `appendString` where the code reaches it: when
the buffer has more than one byte, does not end in the separator, and a
printable character is appended whose script class differs from the buffer's
last byte, a separator byte is inserted between them.  On a buffer of one byte
the code appends the character with no separator. -/
theorem appendString_script_boundary (p : List Nat) (y x : Nat) (src : List Nat)
    (hx : x ≠ 0x0b) :
    (TextsearchJa.IS_HIGHBIT_SET x = true → src.length = 1 →
      TextsearchJa.isprint (byteAt src 0) = true →
      TextsearchJa.appendString (p ++ [y, x]) src = p ++ [y, x] ++ [0x0b] ++ src) ∧
    (TextsearchJa.IS_HIGHBIT_SET x = false → 1 < src.length →
      TextsearchJa.appendString (p ++ [y, x]) src = p ++ [y, x] ++ [0x0b] ++ src) ∧
    (¬ (src.length = 1 ∧ TextsearchJa.isprint (byteAt src 0) = false) →
      TextsearchJa.appendString [x] src = [x] ++ src) := by
  obtain ⟨_, t1⟩ := StringInfoTail_concat2 p y x
  have hlen : 1 < (p ++ [y, x]).length := by simp
  have hsep : ¬ (x = TextsearchJa.SEPARATOR_CHAR) := hx
  refine ⟨?_, ?_, ?_⟩
  · intro hh hs hp
    rw [TextsearchJa.appendString_printable _ src (by simp [hp]) hlen, t1, if_neg hsep,
      if_pos (Or.inl ⟨hs, hh⟩)]
    rfl
  · intro hh hs
    rw [TextsearchJa.appendString_printable _ src (by omega) hlen, t1, if_neg hsep,
      if_pos (Or.inr ⟨hs, hh⟩)]
    rfl
  · intro h
    unfold TextsearchJa.appendString
    simp only [Bool.not_eq_true, List.length_singleton, gt_iff_lt, lt_irrefl, if_false,
      appendBinaryStringInfo]
    rw [if_neg h]

theorem appendString_script_boundary_witness :
    (0x42 : Nat) ≠ 0x0b ∧ TextsearchJa.IS_HIGHBIT_SET 0x42 = false ∧
    1 < ([0xe3, 0x81, 0x82] : List Nat).length ∧
    TextsearchJa.appendString [0x41, 0x42] [0xe3, 0x81, 0x82]
      = [0x41, 0x42, 0x0b, 0xe3, 0x81, 0x82] ∧
    (0x82 : Nat) ≠ 0x0b ∧ TextsearchJa.IS_HIGHBIT_SET 0x82 = true ∧
    TextsearchJa.isprint (byteAt [0x41] 0) = true ∧
    TextsearchJa.appendString [0xe3, 0x81, 0x82] [0x41] = [0xe3, 0x81, 0x82, 0x0b, 0x41] :=
  ⟨by decide, by decide, by decide,
    (appendString_script_boundary [] 0x41 0x42 [0xe3, 0x81, 0x82] (by decide)).2.1 (by decide)
      (by decide),
    by decide, by decide, by decide,
    (appendString_script_boundary [0xe3] 0x81 0x82 [0x41] (by decide)).1 (by decide)
      (by decide) (by decide)⟩

/-! ### The lexeme helper `lexize_utf8` -/

theorem last3_eq_drop (s : List Nat) (h : 3 ≤ s.length) :
    (List.range DASH_LEN).map (fun i => byteAt s (s.length - DASH_LEN + i))
      = s.drop (s.length - 3) := by
  obtain ⟨p, a, x, y, rfl⟩ := list_last3 s h
  obtain ⟨t0, t1, t2⟩ := StringInfoTail_last3 p a x y
  have hd : (p ++ [a, x, y]).drop ((p ++ [a, x, y]).length - 3) = [a, x, y] := by
    have : (p ++ [a, x, y]).length - 3 = p.length := by simp
    rw [this, List.drop_left]
  rw [hd]
  have hr : List.range DASH_LEN = [0, 1, 2] := rfl
  rw [hr]
  simp only [List.map_cons, List.map_nil]
  exact congrArg₂ _ t0 (congrArg₂ _ t1 (congrArg₂ _ t2 rfl))

/-- What `lexize_utf8` returns for a token that it does not drop: the token
without its last 3 bytes when it has at least 12 bytes and ends in `DASH`, the
token itself otherwise. -/
theorem lexize_utf8_some (s : List Nat)
    (h : ¬ (s.length = 3 ∧ byteAt s 0 = 0xe3 ∧ 0x8181 ≤ WIDEN (byteAt s 1) (byteAt s 2) ∧
      WIDEN (byteAt s 1) (byteAt s 2) ≤ 0x83b6)) :
    lexize_utf8 s s.length =
      some (if 12 ≤ s.length ∧ s.drop (s.length - 3) = DASH then s.take (s.length - 3)
        else s) := by
  unfold lexize_utf8
  simp only [CHAR_LEN]
  rw [if_neg h]
  by_cases h12 : 12 ≤ s.length
  · rw [last3_eq_drop s (by omega)]
    by_cases hd : s.drop (s.length - 3) = DASH
    · simp [h12, hd, DASH_LEN]
    · simp [h12, hd]
  · have h2 : ¬ (s.length ≥ 4 * 3) := by omega
    simp [h12, h2]

/-- C27 (failing input): the token `cafeー` (63 61 66 65 E3 83 BC), 5
characters that end in ー, comes back unchanged, not as `cafe`: the code
comment says 4 characters or more, the test `len >= 4 * CHAR_LEN` counts bytes,
and the token has 7. -/
theorem lexize_utf8_cafe_not_stripped :
    lexize_utf8 [0x63, 0x61, 0x66, 0x65, 0xe3, 0x83, 0xbc] 7
      = some [0x63, 0x61, 0x66, 0x65, 0xe3, 0x83, 0xbc] ∧
    lexize_utf8 [0x63, 0x61, 0x66, 0x65, 0xe3, 0x83, 0xbc] 7
      ≠ some [0x63, 0x61, 0x66, 0x65] := by
  decide

/-- The length test of `lexize_utf8` as the code has it: one trailing long-vowel
mark ー (E3 83 BC) is stripped from a token that ends in it and has at least 12
bytes, that is 4 characters of 3 bytes; a shorter token that ends in ー is
returned whole. -/
theorem lexize_utf8_strips_dash (p : List Nat) :
    (9 ≤ p.length → lexize_utf8 (p ++ DASH) (p ++ DASH).length = some p) ∧
    (p.length < 9 → lexize_utf8 (p ++ DASH) (p ++ DASH).length = some (p ++ DASH)) ∧
    (∀ cs : List Nat, p = utf8_text3 cs → 3 ≤ cs.length →
      lexize_utf8 (p ++ DASH) (p ++ DASH).length = some p) := by
  have hlen : (p ++ DASH).length = p.length + 3 := by simp [DASH]
  have hdrop : (p ++ DASH).drop ((p ++ DASH).length - 3) = DASH := by
    rw [hlen, Nat.add_sub_cancel, List.drop_left]
  have htake : (p ++ DASH).take ((p ++ DASH).length - 3) = p := by
    rw [hlen, Nat.add_sub_cancel, List.take_left]
  have hnil : ¬ ((p ++ DASH).length = 3 ∧ byteAt (p ++ DASH) 0 = 0xe3 ∧
      0x8181 ≤ WIDEN (byteAt (p ++ DASH) 1) (byteAt (p ++ DASH) 2) ∧
      WIDEN (byteAt (p ++ DASH) 1) (byteAt (p ++ DASH) 2) ≤ 0x83b6) := by
    rintro ⟨h3, _, _, hw⟩
    have hp : p = [] := List.length_eq_zero.mp (by omega)
    subst hp
    revert hw
    decide
  have h9 : 9 ≤ p.length → lexize_utf8 (p ++ DASH) (p ++ DASH).length = some p := by
    intro h
    rw [lexize_utf8_some _ hnil, hdrop, htake, if_pos ⟨by omega, rfl⟩]
  refine ⟨h9, ?_, ?_⟩
  · intro h
    rw [lexize_utf8_some _ hnil, if_neg (by omega)]
  · intro cs hcs h
    apply h9
    have hl : ∀ l : List Nat, (utf8_text3 l).length = 3 * l.length := by
      intro l
      induction l with
      | nil => rfl
      | cons c tl ih =>
        have : utf8_text3 (c :: tl) = utf8_encode3 c ++ utf8_text3 tl := by
          simp [utf8_text3]
        rw [this, List.length_append, ih]
        simp [utf8_encode3]
        omega
    rw [hcs, hl]
    omega

theorem lexize_utf8_strips_dash_witness :
    utf8_text3 [0x30b3, 0x30fc, 0x30d2] = [0xe3, 0x82, 0xb3, 0xe3, 0x83, 0xbc, 0xe3, 0x83, 0x92] ∧
    9 ≤ (utf8_text3 [0x30b3, 0x30fc, 0x30d2]).length ∧
    lexize_utf8 (utf8_text3 [0x30b3, 0x30fc, 0x30d2] ++ DASH)
        (utf8_text3 [0x30b3, 0x30fc, 0x30d2] ++ DASH).length
      = some (utf8_text3 [0x30b3, 0x30fc, 0x30d2]) ∧
    ([0x63, 0x61, 0x66, 0x65] : List Nat).length < 9 ∧
    lexize_utf8 ([0x63, 0x61, 0x66, 0x65] ++ DASH) ([0x63, 0x61, 0x66, 0x65] ++ DASH).length
      = some ([0x63, 0x61, 0x66, 0x65] ++ DASH) :=
  ⟨by decide, by decide,
    (lexize_utf8_strips_dash (utf8_text3 [0x30b3, 0x30fc, 0x30d2])).1 (by decide),
    by decide, (lexize_utf8_strips_dash [0x63, 0x61, 0x66, 0x65]).2.1 (by decide)⟩

theorem utf8_encode3_key (c : Nat) (h1 : 0x800 ≤ c) (h2 : c ≤ 0xffff) :
    (byteAt (utf8_encode3 c) 0 = 0xe3 ∧
      0x8181 ≤ WIDEN (byteAt (utf8_encode3 c) 1) (byteAt (utf8_encode3 c) 2) ∧
      WIDEN (byteAt (utf8_encode3 c) 1) (byteAt (utf8_encode3 c) 2) ≤ 0x83b6)
      ↔ 0x3041 ≤ c ∧ c ≤ 0x30f6 := by
  have e0 : byteAt (utf8_encode3 c) 0 = 0xe0 + c / 0x1000 := rfl
  have e1 : byteAt (utf8_encode3 c) 1 = 0x80 + c / 0x40 % 0x40 := rfl
  have e2 : byteAt (utf8_encode3 c) 2 = 0x80 + c % 0x40 := rfl
  have hq : c / 0x40 / 0x40 = c / 0x1000 := Nat.div_div_eq_div_mul c 0x40 0x40
  have m1 : byteAt (utf8_encode3 c) 1 % 256 = byteAt (utf8_encode3 c) 1 :=
    Nat.mod_eq_of_lt (by omega)
  have m2 : byteAt (utf8_encode3 c) 2 % 256 = byteAt (utf8_encode3 c) 2 :=
    Nat.mod_eq_of_lt (by omega)
  rw [WIDEN_eq, m1, m2]
  constructor
  · rintro ⟨h0, hlo, hhi⟩
    have h3 : c / 0x1000 = 3 := by omega
    omega
  · intro h
    have h3 : c / 0x1000 = 3 := by omega
    refine ⟨by omega, by omega, by omega⟩

/-- C28: `lexize_utf8` returns NIL if and only if the token is exactly 3 bytes
with lead byte E3 whose low two bytes, joined, lie in `0x8181..0x83B6`; for
a well-formed 3-byte character that is a codepoint of `U+3041..U+30F6`.  Every
other token is returned as a copy, whole or without one trailing ー: the
character ー alone and every token that goes on behind its first character are
never dropped. -/
theorem lexize_utf8_nil_iff (s : List Nat) :
    (lexize_utf8 s s.length = none ↔
      s.length = 3 ∧ byteAt s 0 = 0xe3 ∧ 0x8181 ≤ WIDEN (byteAt s 1) (byteAt s 2) ∧
        WIDEN (byteAt s 1) (byteAt s 2) ≤ 0x83b6) ∧
    (lexize_utf8 s s.length ≠ none →
      lexize_utf8 s s.length = some s ∨
        ∃ p, s = p ++ DASH ∧ lexize_utf8 s s.length = some p) ∧
    (uchar_mblen s < s.length → lexize_utf8 s s.length ≠ none) ∧
    lexize_utf8 DASH DASH.length = some DASH ∧
    (∀ c, 0x800 ≤ c → c ≤ 0xffff →
      (lexize_utf8 (utf8_encode3 c) (utf8_encode3 c).length = none ↔
        0x3041 ≤ c ∧ c ≤ 0x30f6)) := by
  have hiff : ∀ t : List Nat, lexize_utf8 t t.length = none ↔
      t.length = 3 ∧ byteAt t 0 = 0xe3 ∧ 0x8181 ≤ WIDEN (byteAt t 1) (byteAt t 2) ∧
        WIDEN (byteAt t 1) (byteAt t 2) ≤ 0x83b6 := by
    intro t
    constructor
    · intro h
      by_contra hc
      rw [lexize_utf8_some t hc] at h
      exact absurd h (by simp)
    · intro h
      unfold lexize_utf8
      simp only [CHAR_LEN]
      rw [if_pos h]
  refine ⟨hiff s, ?_, ?_, by decide, ?_⟩
  · intro hne
    have hc := fun h => hne ((hiff s).mpr h)
    rw [lexize_utf8_some s hc]
    by_cases hd : 12 ≤ s.length ∧ s.drop (s.length - 3) = DASH
    · right
      refine ⟨s.take (s.length - 3), ?_, by rw [if_pos hd]⟩
      rw [← hd.2, List.take_append_drop]
    · left
      rw [if_neg hd]
  · intro hlt hnone
    obtain ⟨h3, h0, _, _⟩ := (hiff s).mp hnone
    have := uchar_mblen_lead s (Or.inr (Or.inl h0))
    omega
  · intro c h1 h2
    rw [hiff]
    have hl : (utf8_encode3 c).length = 3 := rfl
    constructor
    · rintro ⟨_, h⟩
      exact (utf8_encode3_key c h1 h2).mp h
    · intro h
      exact ⟨hl, (utf8_encode3_key c h1 h2).mpr h⟩

theorem lexize_utf8_nil_iff_witness :
    utf8_encode3 0x3042 = [0xe3, 0x81, 0x82] ∧
    lexize_utf8 [0xe3, 0x81, 0x82] 3 = none ∧
    uchar_mblen [0xe3, 0x81, 0x82, 0xe3, 0x81, 0x84] < 6 ∧
    lexize_utf8 [0xe3, 0x81, 0x82, 0xe3, 0x81, 0x84] 6 ≠ none ∧
    (0x800 ≤ 0x30f7 ∧ 0x30f7 ≤ 0xffff ∧
      (lexize_utf8 (utf8_encode3 0x30f7) (utf8_encode3 0x30f7).length = none ↔
        0x3041 ≤ 0x30f7 ∧ 0x30f7 ≤ 0x30f6)) :=
  ⟨by decide, by decide, by decide,
    (lexize_utf8_nil_iff [0xe3, 0x81, 0x82, 0xe3, 0x81, 0x84]).2.2.1 (by decide),
    by decide, by decide,
    (lexize_utf8_nil_iff []).2.2.2.2 0x30f7 (by decide) (by decide)⟩

/-! ### Voicing marks that are not fused -/

/-- When the voicing block rewrites the buffer, the buffer ends in `E3 x y`
and the key of `x y` is a case of the switch that the mark selects. -/
theorem normalize_utf8_voicing_some_key (dst c dst2 : List Nat)
    (h : normalize_utf8_voicing dst c 3 = some dst2) :
    ∃ p x y, dst = p ++ [0xe3, x, y] ∧
      (((EQ3 c DAKUTEN_HALF || EQ3 c DAKUTEN_WIDE) = true ∧
          WIDEN x y ∈ 0x8186 :: 0x82a6 :: 0x82bf :: dakutenPlus1) ∨
        ((EQ3 c DAKUTEN_HALF || EQ3 c DAKUTEN_WIDE) = false ∧
          (EQ3 c HANDAKU_HALF || EQ3 c HANDAKU_WIDE) = true ∧ WIDEN x y ∈ handakuPlus2)) := by
  unfold normalize_utf8_voicing at h
  by_cases h0 : 3 = 3 ∧ dst.length ≥ 3 ∧ StringInfoTail dst 3 0 = 0xe3
  swap
  · rw [if_neg h0] at h
    exact absurd h (by simp)
  rw [if_pos h0] at h
  obtain ⟨_, hlen, he3⟩ := h0
  obtain ⟨p, a, x, y, rfl⟩ := list_last3 dst hlen
  obtain ⟨t0, t1, t2⟩ := StringInfoTail_last3 p a x y
  rw [t0] at he3
  subst he3
  simp only [t1, t2] at h
  refine ⟨p, x, y, rfl, ?_⟩
  split_ifs at h with h1 h2 h3 h4 h5 h6
  · rcases h2 with h2 | h2
    · exact Or.inl ⟨h1, by rw [h2]; simp⟩
    · exact Or.inl ⟨h1, by rw [h2]; simp⟩
  · exact Or.inl ⟨h1, by rw [h3]; simp⟩
  · exact Or.inl ⟨h1, by simp [h4]⟩
  · exact Or.inr ⟨by simpa using h1, h5, h6⟩

/-- A mark that follows no voicing-compatible character is not fused. -/
theorem normalize_utf8_voicing_incompatible (dst m : List Nat) (hb : ∀ b ∈ dst, b < 256)
    (hm : m ∈ voicingMarks) (hnc : ¬ voicingCompatible dst m) :
    normalize_utf8_voicing dst m 3 = none := by
  cases hv : normalize_utf8_voicing dst m 3 with
  | none => rfl
  | some d2 =>
    exfalso
    apply hnc
    obtain ⟨p, x, y, rfl, hk⟩ := normalize_utf8_voicing_some_key dst m d2 hv
    have hx : x < 256 := hb x (by simp)
    have hy : y < 256 := hb y (by simp)
    obtain ⟨e1, e2⟩ := WIDEN_bytes x y _ hx hy rfl
    have hkana : ∃ k ∈ markKana m, utf8_encode3 k = [0xe3, WIDEN x y / 256, WIDEN x y % 256] := by
      have T1 : ∀ w ∈ 0x8186 :: 0x82a6 :: 0x82bf :: dakutenPlus1,
          ∃ k ∈ 0x3046 :: 0x30a6 :: fusibleKana, utf8_encode3 k = [0xe3, w / 256, w % 256] := by
        decide
      have T2 : ∀ w ∈ handakuPlus2,
          ∃ k ∈ plus2Kana, utf8_encode3 k = [0xe3, w / 256, w % 256] := by
        decide
      have M : ∀ m ∈ voicingMarks,
          ((EQ3 m DAKUTEN_HALF || EQ3 m DAKUTEN_WIDE) = true →
            markKana m = 0x3046 :: 0x30a6 :: fusibleKana) ∧
          ((EQ3 m DAKUTEN_HALF || EQ3 m DAKUTEN_WIDE) = false →
            (EQ3 m HANDAKU_HALF || EQ3 m HANDAKU_WIDE) = true → markKana m = plus2Kana) := by
        decide
      rcases hk with ⟨hd, hw⟩ | ⟨hd, hh, hw⟩
      · rw [(M m hm).1 hd]
        exact T1 _ hw
      · rw [(M m hm).2 hd hh]
        exact T2 _ hw
    obtain ⟨k, hk1, hk2⟩ := hkana
    refine ⟨k, hk1, ?_⟩
    rw [hk2, ← e1, ← e2]
    exact List.suffix_append p _

/-- C29 (counterexample): the half-width dakuten EF BE 9E at the start of the
input, and the half-width handakuten EF BE 9F behind `A`, do not come out as
their own 3 bytes: the wide marks E3 82 9B and E3 82 9C are emitted. -/
theorem normalize_utf8_halfwidth_mark_widened :
    normalize_utf8 [] [0xef, 0xbe, 0x9e] appendBinaryStringInfo = [0xe3, 0x82, 0x9b] ∧
    normalize_utf8 [] [0xef, 0xbe, 0x9e] appendBinaryStringInfo ≠ [0xef, 0xbe, 0x9e] ∧
    normalize_utf8 [] [0x41, 0xef, 0xbe, 0x9f] appendBinaryStringInfo
      = [0x41, 0xe3, 0x82, 0x9c] := by
  decide!

/-- C29 (amended): in `normalize_utf8` with the verbatim appender, when a
dakuten or handakuten mark in a recognized form follows a character that is
not voicing-compatible, or starts the input, a wide mark (E3 82 9B, E3 82 9C)
is emitted as its own 3 bytes, and a half-width mark (EF BE 9E, EF BE 9F) is
emitted as the 3 bytes of the wide mark, its `UTF8_MAP` image; the run goes on
behind the mark with these 3 bytes appended to the buffer. -/
theorem normalize_utf8_mark_unfused (dst m rest : List Nat) (hb : ∀ b ∈ dst, b < 256)
    (hm : m ∈ voicingMarks) (hnc : ¬ voicingCompatible dst m) :
    normalize_utf8_body appendBinaryStringInfo dst (m ++ rest) = (dst ++ wideMark m, 3) ∧
    normalize_utf8 dst (m ++ rest) appendBinaryStringInfo
      = normalize_utf8 (dst ++ wideMark m) rest appendBinaryStringInfo ∧
    normalize_utf8 [] (m ++ rest) appendBinaryStringInfo
      = normalize_utf8 (wideMark m) rest appendBinaryStringInfo ∧
    (m = DAKUTEN_WIDE ∨ m = HANDAKU_WIDE → wideMark m = m) ∧
    (m = DAKUTEN_HALF → wideMark m = DAKUTEN_WIDE) ∧
    (m = HANDAKU_HALF → wideMark m = HANDAKU_WIDE) := by
  have K : ∀ m ∈ voicingMarks, m ≠ [] ∧ m.length = 3 ∧ uchar_mblen m = 3 ∧
      normalize_utf8_switch appendBinaryStringInfo [] m 3 = wideMark m := by
    decide!
  obtain ⟨hne, hl, hmb, hsw⟩ := K m hm
  have hbody : ∀ d : List Nat, (∀ b ∈ d, b < 256) → ¬ voicingCompatible d m →
      normalize_utf8_body appendBinaryStringInfo d (m ++ rest) = (d ++ wideMark m, 3) := by
    intro d hd hc
    rw [normalize_utf8_body_append _ d m rest hne (by rw [hl, hmb])]
    have hv := normalize_utf8_voicing_incompatible d m hd hm hc
    simp only [normalize_utf8_body, hmb, hv]
    rw [normalize_utf8_switch_dst, hsw]
    simp
  have hrun : ∀ d : List Nat, (∀ b ∈ d, b < 256) → ¬ voicingCompatible d m →
      normalize_utf8 d (m ++ rest) appendBinaryStringInfo
        = normalize_utf8 (d ++ wideMark m) rest appendBinaryStringInfo := by
    intro d hd hc
    unfold normalize_utf8
    have hlen : (m ++ rest).length = (rest.length + 2) + 1 := by
      rw [List.length_append, hl]; omega
    rw [hlen, normalize_utf8_loop_chunk _ d m rest _ hne (by rw [hl, hmb])]
    have hb2 := hbody d hd hc
    rw [normalize_utf8_body_append _ d m rest hne (by rw [hl, hmb])] at hb2
    rw [hb2]
    exact normalize_utf8_loop_fuel _ rest.length rest _ _ _ (le_refl _) (by omega) (le_refl _)
  have hnil : ¬ voicingCompatible [] m := by
    rintro ⟨k, _, hk⟩
    have := List.eq_nil_of_suffix_nil hk
    simp [utf8_encode3] at this
  refine ⟨hbody dst hb hnc, hrun dst hb hnc, ?_, ?_, ?_, ?_⟩
  · have := hrun [] (by simp) hnil
    simpa using this
  · rintro (rfl | rfl) <;> decide
  · rintro rfl; decide
  · rintro rfl; decide

theorem normalize_utf8_mark_unfused_witness :
    (∀ b ∈ [0xe3, 0x81, 0x82], b < 256) ∧ DAKUTEN_HALF ∈ voicingMarks ∧
    ¬ voicingCompatible [0xe3, 0x81, 0x82] DAKUTEN_HALF ∧
    normalize_utf8 [0xe3, 0x81, 0x82] (DAKUTEN_HALF ++ [0x41]) appendBinaryStringInfo
      = normalize_utf8 ([0xe3, 0x81, 0x82] ++ wideMark DAKUTEN_HALF) [0x41]
          appendBinaryStringInfo ∧
    normalize_utf8 ([0xe3, 0x81, 0x82] ++ wideMark DAKUTEN_HALF) [0x41] appendBinaryStringInfo
      = [0xe3, 0x81, 0x82, 0xe3, 0x82, 0x9b, 0x41] ∧
    normalize_utf8 [] (HANDAKU_WIDE ++ []) appendBinaryStringInfo
      = normalize_utf8 (wideMark HANDAKU_WIDE) [] appendBinaryStringInfo :=
  ⟨by decide, by decide, by decide,
    (normalize_utf8_mark_unfused [0xe3, 0x81, 0x82] DAKUTEN_HALF [0x41] (by decide)
      (by decide) (by decide)).2.1,
    by decide!,
    (normalize_utf8_mark_unfused [0xe3, 0x81, 0x82] HANDAKU_WIDE [] (by decide)
      (by decide) (by decide)).2.2.1⟩

/-! ### The table lookup -/

theorem keys_lt_of_pairwise (map : List Map)
    (hs : (map.map Map.from_).Pairwise (fun a b => a < b)) (i j : Nat) (a b : Map)
    (hi : map.get? i = some a) (hj : map.get? j = some b) (hij : i < j) :
    a.from_ < b.from_ := by
  rw [List.pairwise_iff_getElem] at hs
  rw [List.get?_eq_getElem?] at hi hj
  obtain ⟨hi1, hi2⟩ := List.getElem?_eq_some.mp hi
  obtain ⟨hj1, hj2⟩ := List.getElem?_eq_some.mp hj
  have := hs i j (by simpa using hi1) (by simpa using hj1) hij
  simpa [hi2, hj2] using this

/-- On a table with strictly increasing keys the search loop finds the entry
at index `i` whenever `i` lies in the range searched. -/
theorem bsearch_loop_complete (key : Nat) (map : List Map)
    (hs : (map.map Map.from_).Pairwise (fun a b => a < b)) (i : Nat) (m : Map)
    (hi : map.get? i = some m) (hk : m.from_ = key) :
    ∀ (fuel l u : Nat), l ≤ i → i < u → u ≤ map.length → u - l < fuel →
      bsearch_loop key map fuel l u = some m := by
  intro fuel
  induction fuel with
  | zero => intro l u _ _ _ h; omega
  | succ f ih =>
    intro l u hl hu hlen hf
    have hlu : l < u := by omega
    have hidx : (l + u) / 2 < map.length := by omega
    obtain ⟨p, hp⟩ : ∃ p, map.get? ((l + u) / 2) = some p := by
      rw [List.get?_eq_getElem?]
      exact ⟨map[(l + u) / 2], List.getElem?_eq_getElem hidx⟩
    simp only [bsearch_loop, hlu, if_true, hp]
    by_cases h1 : key < p.from_
    · have hlt : i < (l + u) / 2 := by
        by_contra hc
        rcases Nat.eq_or_lt_of_le (Nat.le_of_not_lt hc) with he | hgt
        · rw [he, hi] at hp
          cases hp
          omega
        · have := keys_lt_of_pairwise map hs _ _ p m hp hi hgt
          omega
      have hc : mapcmp key p < 0 := by simp [mapcmp, h1]
      simp only [hc, if_true]
      exact ih l _ hl hlt (by omega) (by omega)
    · by_cases h2 : key > p.from_
      · have hgt : (l + u) / 2 < i := by
          by_contra hc
          rcases Nat.eq_or_lt_of_le (Nat.le_of_not_lt hc) with he | hlt
          · rw [← he, hi] at hp
            cases hp
            omega
          · have := keys_lt_of_pairwise map hs _ _ m p hi hp hlt
            omega
        have hc1 : ¬ mapcmp key p < 0 := by simp [mapcmp, h1, h2]
        have hc2 : mapcmp key p > 0 := by simp [mapcmp, h1, h2]
        simp only [hc1, if_false, hc2, if_true]
        exact ih _ u (by omega) hu hlen (by omega)
      · have hc1 : ¬ mapcmp key p < 0 := by simp [mapcmp, h1, h2]
        have hc2 : ¬ mapcmp key p > 0 := by simp [mapcmp, h1, h2]
        simp only [hc1, if_false, hc2]
        have hidx2 : (l + u) / 2 = i := by
          by_contra hne
          rcases Nat.lt_or_gt_of_ne hne with hlt | hgt
          · have := keys_lt_of_pairwise map hs _ _ p m hp hi hlt
            omega
          · have := keys_lt_of_pairwise map hs _ _ m p hi hp hgt
            omega
        rw [hidx2, hi] at hp
        rw [hp]

/-- On a table with strictly increasing keys `bsearch` finds an entry if and
only if the table holds an entry with the key, and returns that entry. -/
theorem bsearch_iff (map : List Map) (hs : (map.map Map.from_).Pairwise (fun a b => a < b))
    (key : Nat) (m : Map) : bsearch key map = some m ↔ m ∈ map ∧ m.from_ = key := by
  constructor
  · exact bsearch_sound key map m
  · rintro ⟨hm, hk⟩
    obtain ⟨i, hi⟩ := List.get?_of_mem hm
    have hlt : i < map.length := by
      rw [List.get?_eq_getElem?] at hi
      exact (List.getElem?_eq_some.mp hi).1
    exact bsearch_loop_complete key map hs i m hi hk _ 0 map.length (Nat.zero_le _) hlt
      (le_refl _) (by omega)

theorem bsearch_none_iff (map : List Map)
    (hs : (map.map Map.from_).Pairwise (fun a b => a < b)) (key : Nat) :
    bsearch key map = none ↔ ∀ m ∈ map, m.from_ ≠ key := by
  constructor
  · intro h m hm hk
    have := (bsearch_iff map hs key m).mpr ⟨hm, hk⟩
    rw [h] at this
    exact absurd this (by simp)
  · intro h
    cases hb : bsearch key map with
    | none => rfl
    | some m =>
      obtain ⟨hm, hk⟩ := bsearch_sound key map m hb
      exact absurd hk (h m hm)

theorem UTF8_MAP_keys_increasing :
    (UTF8_MAP.map Map.from_).Pairwise (fun a b => a < b) := by
  decide!

theorem UTF8_HANKANA2ZENHIRA_keys_increasing :
    (UTF8_HANKANA2ZENHIRA.map Map.from_).Pairwise (fun a b => a < b) := by
  decide!

theorem appendMappedChar_lookup (map : List Map)
    (hs : (map.map Map.from_).Pairwise (fun a b => a < b)) (dst s : List Nat)
    (append : append_t) :
    (∀ m ∈ map, m.from_ = WIDEN (byteAt s 1) (byteAt s 2) →
      appendMappedChar dst s 3 map append = append dst (m.to4.take (uchar_strlen m.to4))) ∧
    ((∀ m ∈ map, m.from_ ≠ WIDEN (byteAt s 1) (byteAt s 2)) →
      appendMappedChar dst s 3 map append = append dst (s.take 3)) := by
  constructor
  · intro m hm hk
    have := (bsearch_iff map hs _ m).mpr ⟨hm, hk⟩
    simp [appendMappedChar, this]
  · intro h
    have := (bsearch_none_iff map hs _).mpr h
    simp [appendMappedChar, this]

/-- C30: the keys of `UTF8_MAP` and of `UTF8_HANKANA2ZENHIRA` are strictly
increasing, so on either table the binary search finds an entry for a key if
and only if the table holds an entry with that key, and returns that entry;
`appendMappedChar` on a 3-byte character then appends that entry's output, and
the character itself when no entry has the key of its low two bytes.  Every
entry's output is 1 or 3 non-zero bytes. -/
theorem bsearch_tables (key : Nat) (m : Map) (dst s : List Nat) (append : append_t) :
    ∀ map ∈ [UTF8_MAP, UTF8_HANKANA2ZENHIRA],
      (map.map Map.from_).Pairwise (fun a b => a < b) ∧
      (bsearch key map = some m ↔ m ∈ map ∧ m.from_ = key) ∧
      (bsearch key map = none ↔ ∀ e ∈ map, e.from_ ≠ key) ∧
      (∀ e ∈ map, e.from_ = WIDEN (byteAt s 1) (byteAt s 2) →
        appendMappedChar dst s 3 map append = append dst e.to_) ∧
      ((∀ e ∈ map, e.from_ ≠ WIDEN (byteAt s 1) (byteAt s 2)) →
        appendMappedChar dst s 3 map append = append dst (s.take 3)) ∧
      (∀ e ∈ map, (e.to_.length = 1 ∨ e.to_.length = 3) ∧ (∀ b ∈ e.to_, b ≠ 0 ∧ b < 256) ∧
        e.to4.take (uchar_strlen e.to4) = e.to_) := by
  have hout : ∀ map ∈ [UTF8_MAP, UTF8_HANKANA2ZENHIRA], ∀ e ∈ map,
      (e.to_.length = 1 ∨ e.to_.length = 3) ∧ (∀ b ∈ e.to_, b ≠ 0 ∧ b < 256) ∧
        e.to4.take (uchar_strlen e.to4) = e.to_ := by
    decide!
  have hsorted : ∀ map ∈ [UTF8_MAP, UTF8_HANKANA2ZENHIRA],
      (map.map Map.from_).Pairwise (fun a b => a < b) := by
    intro map hmap
    simp only [List.mem_cons, List.mem_singleton, List.not_mem_nil, or_false] at hmap
    rcases hmap with rfl | rfl
    · exact UTF8_MAP_keys_increasing
    · exact UTF8_HANKANA2ZENHIRA_keys_increasing
  intro map hmap
  have hs := hsorted map hmap
  obtain ⟨h1, h2⟩ := appendMappedChar_lookup map hs dst s append
  refine ⟨hs, bsearch_iff map hs key m, bsearch_none_iff map hs key, ?_, h2, hout map hmap⟩
  intro e he hk
  rw [h1 e he hk, (hout map hmap e he).2.2]

theorem bsearch_tables_witness :
    Map.mk 0xbe9e [0xe3, 0x82, 0x9b] ∈ UTF8_MAP ∧
    bsearch 0xbe9e UTF8_MAP = some (Map.mk 0xbe9e [0xe3, 0x82, 0x9b]) ∧
    (∀ e ∈ UTF8_HANKANA2ZENHIRA, e.from_ ≠ 0xbe9e) ∧
    bsearch 0xbe9e UTF8_HANKANA2ZENHIRA = none ∧
    appendMappedChar [0x41] [0xef, 0xbe, 0x9e] 3 UTF8_HANKANA2ZENHIRA appendBinaryStringInfo
      = [0x41, 0xef, 0xbe, 0x9e] ∧
    appendMappedChar [0x41] [0xef, 0xbe, 0x9e] 3 UTF8_MAP appendBinaryStringInfo
      = [0x41, 0xe3, 0x82, 0x9b] :=
  ⟨by decide!,
    ((bsearch_tables 0xbe9e (Map.mk 0xbe9e [0xe3, 0x82, 0x9b]) [] [] appendBinaryStringInfo
      UTF8_MAP (by simp)).2.1).mpr ⟨by decide!, rfl⟩,
    by decide!,
    ((bsearch_tables 0xbe9e (Map.mk 0 []) [] [] appendBinaryStringInfo
      UTF8_HANKANA2ZENHIRA (by simp)).2.2.1).mpr (by decide!),
    (bsearch_tables 0 (Map.mk 0 []) [0x41] [0xef, 0xbe, 0x9e] appendBinaryStringInfo
      UTF8_HANKANA2ZENHIRA (by simp)).2.2.2.2.1 (by decide!),
    (bsearch_tables 0 (Map.mk 0 []) [0x41] [0xef, 0xbe, 0x9e] appendBinaryStringInfo
      UTF8_MAP (by simp)).2.2.2.1 (Map.mk 0xbe9e [0xe3, 0x82, 0x9b]) (by decide!) (by decide!)⟩

/-! ### The quotes and the full-width space -/

theorem normalize_utf8_switch_folded (l b1 b2 : Nat) (hl : l = 0xe2 ∨ l = 0xe3) :
    normalize_utf8_switch appendBinaryStringInfo [] [l, b1, b2] 3 = foldedChar [l, b1, b2] := by
  have e0 : byteAt [l, b1, b2] 0 = l := rfl
  have e1 : byteAt [l, b1, b2] 1 = b1 := rfl
  have e2 : byteAt [l, b1, b2] 2 = b2 := rfl
  unfold normalize_utf8_switch foldedChar
  rw [e0, e1, e2]
  rcases hl with rfl | rfl
  · by_cases h1 : b1 = 0x80
    · subst h1
      by_cases h98 : b2 = 0x98
      · subst h98; rfl
      · by_cases h99 : b2 = 0x99
        · subst h99; rfl
        · by_cases h9d : b2 = 0x9d
          · subst h9d; rfl
          · simp [h98, h99, h9d, appendBinaryStringInfo]
    · simp [h1, appendBinaryStringInfo]
  · by_cases h1 : b1 = 0x80 ∧ b2 = 0x80
    · obtain ⟨rfl, rfl⟩ := h1; rfl
    · have h2 : ¬ ([0xe3, b1, b2] = [0xe3, 0x80, 0x80]) := by
        intro h; simp at h; exact h1 h
      simp [h1, h2, appendBinaryStringInfo]

/-- C31: `normalize_utf8` with the verbatim appender maps U+2018 (E2 80 98) to
the byte `0x60`, U+2019 (E2 80 99) to `0x27`, U+201D (E2 80 9D) to `0x22` and
U+3000 (E3 80 80) to `0x20`, and emits every other 3-byte character with lead
byte E2, and every other character with lead byte E3 that is no voicing mark,
unchanged: the bytes emitted are appended to the buffer and the run goes on
behind the character. -/
theorem normalize_utf8_quotes_space (dst rest : List Nat) (l b1 b2 : Nat)
    (hl : l = 0xe2 ∨ l = 0xe3)
    (hm : [l, b1, b2] ≠ DAKUTEN_WIDE ∧ [l, b1, b2] ≠ HANDAKU_WIDE) :
    normalize_utf8_body appendBinaryStringInfo dst ([l, b1, b2] ++ rest)
      = (dst ++ foldedChar [l, b1, b2], 3) ∧
    normalize_utf8 dst ([l, b1, b2] ++ rest) appendBinaryStringInfo
      = normalize_utf8 (dst ++ foldedChar [l, b1, b2]) rest appendBinaryStringInfo ∧
    foldedChar [0xe2, 0x80, 0x98] = [0x60] ∧ foldedChar [0xe2, 0x80, 0x99] = [0x27] ∧
    foldedChar [0xe2, 0x80, 0x9d] = [0x22] ∧ foldedChar [0xe3, 0x80, 0x80] = [0x20] ∧
    ([l, b1, b2] ∉ [[0xe2, 0x80, 0x98], [0xe2, 0x80, 0x99], [0xe2, 0x80, 0x9d],
        [0xe3, 0x80, 0x80]] → foldedChar [l, b1, b2] = [l, b1, b2]) := by
  have hmb : uchar_mblen [l, b1, b2] = 3 :=
    uchar_mblen_lead _ (by rcases hl with h | h
                           · exact Or.inl h
                           · exact Or.inr (Or.inl h))
  have hne : ([l, b1, b2] : List Nat) ≠ [] := by simp
  have hd : (EQ3 [l, b1, b2] DAKUTEN_HALF || EQ3 [l, b1, b2] DAKUTEN_WIDE) = false := by
    have h1 : EQ3 [l, b1, b2] DAKUTEN_HALF = false := by
      rcases hl with rfl | rfl <;> simp [EQ3, byteAt, DAKUTEN_HALF]
    have h2 : EQ3 [l, b1, b2] DAKUTEN_WIDE = false := by
      by_contra h
      have h3 : EQ3 [l, b1, b2] DAKUTEN_WIDE = true := by simpa using h
      apply hm.1
      simp only [EQ3, byteAt, DAKUTEN_WIDE, List.getD_cons_zero, List.getD_cons_succ,
        Bool.and_eq_true, beq_iff_eq] at h3
      obtain ⟨⟨r1, r2⟩, r3⟩ := h3
      rw [r1, r2, r3]
      rfl
    rw [h1, h2]; rfl
  have hh : (EQ3 [l, b1, b2] HANDAKU_HALF || EQ3 [l, b1, b2] HANDAKU_WIDE) = false := by
    have h1 : EQ3 [l, b1, b2] HANDAKU_HALF = false := by
      rcases hl with rfl | rfl <;> simp [EQ3, byteAt, HANDAKU_HALF]
    have h2 : EQ3 [l, b1, b2] HANDAKU_WIDE = false := by
      by_contra h
      have h3 : EQ3 [l, b1, b2] HANDAKU_WIDE = true := by simpa using h
      apply hm.2
      simp only [EQ3, byteAt, HANDAKU_WIDE, List.getD_cons_zero, List.getD_cons_succ,
        Bool.and_eq_true, beq_iff_eq] at h3
      obtain ⟨⟨r1, r2⟩, r3⟩ := h3
      rw [r1, r2, r3]
      rfl
    rw [h1, h2]; rfl
  have hbody : normalize_utf8_body appendBinaryStringInfo dst [l, b1, b2]
      = (dst ++ foldedChar [l, b1, b2], 3) := by
    have hv := normalize_utf8_voicing_none dst [l, b1, b2] hd hh
    simp only [normalize_utf8_body, hmb, hv]
    rw [normalize_utf8_switch_dst, normalize_utf8_switch_folded l b1 b2 hl]
    simp
  have hba := normalize_utf8_body_append appendBinaryStringInfo dst [l, b1, b2] rest hne
    (by rw [hmb]; rfl)
  refine ⟨by rw [hba, hbody], ?_, by decide, by decide, by decide, by decide, ?_⟩
  · unfold normalize_utf8
    have hlen : ([l, b1, b2] ++ rest).length = (rest.length + 2) + 1 := by
      simp only [List.length_append, List.length_cons, List.length_nil]; omega
    rw [hlen, normalize_utf8_loop_chunk _ dst [l, b1, b2] rest _ hne (by rw [hmb]; rfl), hbody]
    exact normalize_utf8_loop_fuel _ rest.length rest _ _ _ (le_refl _) (by omega) (le_refl _)
  · intro hnot
    simp only [List.mem_cons, List.mem_singleton, List.not_mem_nil, or_false, not_or] at hnot
    obtain ⟨n1, n2, n3, n4⟩ := hnot
    unfold foldedChar
    rw [if_neg n1, if_neg n2, if_neg n3, if_neg n4]

theorem normalize_utf8_quotes_space_witness :
    ([0xe2, 0x80, 0x98] ≠ DAKUTEN_WIDE ∧ [0xe2, 0x80, 0x98] ≠ HANDAKU_WIDE) ∧
    normalize_utf8 [0x41] ([0xe2, 0x80, 0x98] ++ [0x42]) appendBinaryStringInfo
      = normalize_utf8 ([0x41] ++ foldedChar [0xe2, 0x80, 0x98]) [0x42] appendBinaryStringInfo ∧
    normalize_utf8 ([0x41] ++ foldedChar [0xe2, 0x80, 0x98]) [0x42] appendBinaryStringInfo
      = [0x41, 0x60, 0x42] ∧
    ([0xe3, 0x81, 0x82] ≠ DAKUTEN_WIDE ∧ [0xe3, 0x81, 0x82] ≠ HANDAKU_WIDE) ∧
    normalize_utf8_body appendBinaryStringInfo [] ([0xe3, 0x81, 0x82] ++ [])
      = ([] ++ foldedChar [0xe3, 0x81, 0x82], 3) ∧
    foldedChar [0xe3, 0x81, 0x82] = [0xe3, 0x81, 0x82] :=
  ⟨by decide,
    (normalize_utf8_quotes_space [0x41] [0x42] 0xe2 0x80 0x98 (Or.inl rfl) (by decide)).2.1,
    by decide, by decide,
    (normalize_utf8_quotes_space [] [] 0xe3 0x81 0x82 (Or.inr rfl) (by decide)).1,
    by decide⟩

/-! ### The column reader `feature` -/

theorem feature_columns_ne_nil (s : List Nat) : feature_columns s ≠ [] := by
  cases s with
  | nil => simp [feature_columns]
  | cons b rest =>
    unfold feature_columns
    split_ifs
    · simp
    · cases feature_columns rest <;> simp

theorem feature_columns_no_comma (s : List Nat) (h : 0x2c ∉ s) : feature_columns s = [s] := by
  induction s with
  | nil => rfl
  | cons b rest ih =>
    have hb : b ≠ 0x2c := fun e => h (by simp [e])
    have hr : 0x2c ∉ rest := fun e => h (List.mem_cons_of_mem _ e)
    simp [feature_columns, hb, ih hr]

theorem feature_columns_comma (pre rest : List Nat) (h : 0x2c ∉ pre) :
    feature_columns (pre ++ 0x2c :: rest) = pre :: feature_columns rest := by
  induction pre with
  | nil => simp [feature_columns]
  | cons b tl ih =>
    have hb : b ≠ 0x2c := fun e => h (by simp [e])
    have hr : 0x2c ∉ tl := fun e => h (List.mem_cons_of_mem _ e)
    simp [feature_columns, hb, ih hr]

/-- The `for` loop of `feature` against the columns: behind `n` commas it
stands at the start of column `n`, and it fails when there are fewer columns. -/
theorem feature_skip_columns (n : Nat) :
    ∀ s : List Nat,
      (n < (feature_columns s).length →
        feature_skip s n = some (s.drop (column_offset (feature_columns s) n)) ∧
        feature_columns (s.drop (column_offset (feature_columns s) n))
          = (feature_columns s).drop n) ∧
      (¬ n < (feature_columns s).length → feature_skip s n = none) := by
  induction n with
  | zero =>
    intro s
    have hpos : 0 < (feature_columns s).length :=
      List.length_pos.mpr (feature_columns_ne_nil s)
    refine ⟨fun _ => ⟨by simp [feature_skip, column_offset], by simp [column_offset]⟩, ?_⟩
    intro h
    exact absurd hpos h
  | succ n ih =>
    intro s
    rcases strchr_cases s 0x2c with ⟨hnone, hno⟩ | ⟨pre, rest, hs, hpre, hsome⟩
    · rw [feature_columns_no_comma s hno]
      refine ⟨fun h => ?_, fun _ => ?_⟩
      · simp at h
      · simp [feature_skip, hnone]
    · subst hs
      rw [feature_columns_comma pre rest hpre]
      obtain ⟨ih1, ih2⟩ := ih rest
      have hoff : column_offset (pre :: feature_columns rest) (n + 1)
          = (pre.length + 1) + column_offset (feature_columns rest) n := by
        simp [column_offset]
      have hdrop : ∀ k, (pre ++ 0x2c :: rest).drop ((pre.length + 1) + k) = rest.drop k := by
        intro k
        have : pre ++ 0x2c :: rest = (pre ++ [0x2c]) ++ rest := by simp
        rw [this, ← List.drop_drop]
        congr 1
        have hl : pre.length + 1 = (pre ++ [0x2c]).length := by simp
        rw [hl, List.drop_left]
      refine ⟨fun h => ?_, fun h => ?_⟩
      · have hn : n < (feature_columns rest).length := by simpa using h
        obtain ⟨g1, g2⟩ := ih1 hn
        simp only [feature_skip, hsome, List.drop_succ_cons, List.drop_zero]
        rw [hoff, hdrop]
        exact ⟨g1, g2⟩
      · have hn : ¬ n < (feature_columns rest).length := by simpa using h
        simp only [feature_skip, hsome, List.drop_succ_cons, List.drop_zero]
        exact ih2 hn

/-- The length that `feature` measures at the start of a column is the length
of the first column of the text from there on. -/
theorem feature_first_column (csv : List Nat) :
    ∃ col cs, feature_columns csv = col :: cs ∧ csv.take col.length = col ∧
      (strchr csv 0x2c = none → csv.length = col.length) ∧
      (∀ next, strchr csv 0x2c = some next → csv.length - next.length = col.length) := by
  rcases strchr_cases csv 0x2c with ⟨hnone, hno⟩ | ⟨pre, rest, hs, hpre, hsome⟩
  · refine ⟨csv, [], feature_columns_no_comma csv hno, by simp, fun _ => rfl, ?_⟩
    intro next h
    rw [hnone] at h
    exact absurd h (by simp)
  · subst hs
    refine ⟨pre, feature_columns rest, feature_columns_comma pre rest hpre, by simp, ?_, ?_⟩
    · intro h
      rw [hsome] at h
      exact absurd h (by simp)
    · intro next h
      rw [hsome] at h
      cases h
      simp

/-- C32: `feature(node, n)` succeeds if and only if the node's feature string
has at least `n + 1` comma-separated columns and column `n` (0-based) is
neither empty nor exactly `*`; on success it returns the start of column `n`
and its length, the text up to the next comma or the end of the string.  On
failure nothing is returned: the caller's pointer and length are not stored to. -/
theorem feature_iff (node : mecab_node_t) (n : Nat) :
    ((feature node n).isSome ↔
      ∃ col, (feature_columns node.feature).get? n = some col ∧ col ≠ [] ∧ col ≠ [0x2a]) ∧
    (∀ t tlen, feature node n = some (t, tlen) →
      t = node.feature.drop (column_offset (feature_columns node.feature) n) ∧
      (feature_columns node.feature).get? n = some (t.take tlen) ∧
      (0x2c ∉ t.take tlen) ∧
      (t.drop tlen = [] ∨ ∃ r, t.drop tlen = 0x2c :: r)) := by
  obtain ⟨hs1, hs2⟩ := feature_skip_columns n node.feature
  by_cases hn : n < (feature_columns node.feature).length
  · obtain ⟨g1, g2⟩ := hs1 hn
    obtain ⟨col, cs, hc1, hc2, hc3, hc4⟩ :=
      feature_first_column (node.feature.drop (column_offset (feature_columns node.feature) n))
    have hget : (feature_columns node.feature).get? n = some col := by
      have h0 : ((feature_columns node.feature).drop n).get? 0 = some col := by
        rw [← g2, hc1]; rfl
      rw [List.get?_eq_getElem?, List.getElem?_drop] at h0
      rw [List.get?_eq_getElem?]
      simpa using h0
    have hval : feature node n =
        if col.length = 0 ∨ (col.length = 1 ∧
            byteAt (node.feature.drop (column_offset (feature_columns node.feature) n)) 0 = 0x2a)
        then none
        else some (node.feature.drop (column_offset (feature_columns node.feature) n),
          col.length) := by
      unfold feature
      rw [g1]
      cases hstr : strchr (node.feature.drop
          (column_offset (feature_columns node.feature) n)) 0x2c with
      | none =>
        simp only [hstr]
        rw [hc3 hstr]
      | some next =>
        simp only [hstr]
        rw [hc4 next hstr]
    have hstar : (col.length = 0 ∨ (col.length = 1 ∧
        byteAt (node.feature.drop (column_offset (feature_columns node.feature) n)) 0 = 0x2a))
        ↔ (col = [] ∨ col = [0x2a]) := by
      constructor
      · rintro (h0 | ⟨h1, h2⟩)
        · exact Or.inl (List.length_eq_zero.mp h0)
        · right
          match col, h1, hc2 with
          | [x], _, hc2 =>
            have : byteAt (node.feature.drop
                (column_offset (feature_columns node.feature) n)) 0 = x := by
              cases hd : node.feature.drop (column_offset (feature_columns node.feature) n) with
              | nil => rw [hd] at hc2; simp at hc2
              | cons y ys =>
                rw [hd] at hc2
                simp only [List.length_singleton, List.take_succ_cons, List.take_zero,
                  List.cons.injEq, and_true] at hc2
                rw [hc2]; rfl
            rw [this] at h2
            rw [h2]
      · rintro (h0 | h1)
        · exact Or.inl (by rw [h0]; rfl)
        · right
          refine ⟨by rw [h1]; rfl, ?_⟩
          rw [h1] at hc2
          cases hd : node.feature.drop (column_offset (feature_columns node.feature) n) with
          | nil => rw [hd] at hc2; simp at hc2
          | cons y ys =>
            rw [hd] at hc2
            simp only [List.length_singleton, List.take_succ_cons, List.take_zero,
              List.cons.injEq, and_true] at hc2
            rw [hc2]; rfl
    have hcomma : 0x2c ∉ col ∧
        ((node.feature.drop (column_offset (feature_columns node.feature) n)).drop col.length = [] ∨
          ∃ r, (node.feature.drop (column_offset (feature_columns node.feature) n)).drop
            col.length = 0x2c :: r) := by
      rcases strchr_cases (node.feature.drop (column_offset (feature_columns node.feature) n))
          0x2c with ⟨_, hno⟩ | ⟨pre, rest, hs, hpre, _⟩
      · rw [feature_columns_no_comma _ hno] at hc1
        simp only [List.cons.injEq] at hc1
        rw [← hc1.1]
        exact ⟨hno, Or.inl (List.drop_length _)⟩
      · rw [hs, feature_columns_comma pre rest hpre] at hc1
        simp only [List.cons.injEq] at hc1
        rw [← hc1.1, hs]
        exact ⟨hpre, Or.inr ⟨rest, by simp⟩⟩
    constructor
    · rw [hval]
      constructor
      · intro h
        refine ⟨col, hget, ?_⟩
        by_cases hc : col = [] ∨ col = [0x2a]
        · rw [if_pos (hstar.mpr hc)] at h
          simp at h
        · exact ⟨fun e => hc (Or.inl e), fun e => hc (Or.inr e)⟩
      · rintro ⟨c2, hg2, hne, hnstar⟩
        rw [hget] at hg2
        cases hg2
        rw [if_neg (fun h => (hstar.mp h).elim hne hnstar)]
        rfl
    · intro t tlen ht
      rw [hval] at ht
      split_ifs at ht with hc
      simp only [Option.some.injEq, Prod.mk.injEq] at ht
      obtain ⟨rfl, rfl⟩ := ht
      exact ⟨rfl, by rw [hc2]; exact hget, by rw [hc2]; exact hcomma.1, hcomma.2⟩
  · have hnone : feature node n = none := by
      unfold feature
      rw [hs2 hn]
    constructor
    · rw [hnone]
      constructor
      · intro h; simp at h
      · rintro ⟨col, hg, _⟩
        exfalso
        rw [List.get?_eq_getElem?] at hg
        exact hn (List.getElem?_eq_some.mp hg).1
    · intro t tlen ht
      rw [hnone] at ht
      simp at ht

theorem feature_iff_witness :
    feature_columns nodeHanguk.feature
      = [[0x4e, 0x4e, 0x47], [0x2a], [0x54], [0xed, 0x95, 0x9c, 0xea, 0xb5, 0xad], [0x2a],
          [0x2a], [0x2a], [0x2a]] ∧
    feature nodeHanguk 3 = some (nodeHanguk.feature.drop 8, 6) ∧
    (nodeHanguk.feature.drop 8 = nodeHanguk.feature.drop
        (column_offset (feature_columns nodeHanguk.feature) 3) ∧
      (feature_columns nodeHanguk.feature).get? 3 = some ((nodeHanguk.feature.drop 8).take 6) ∧
      (0x2c ∉ (nodeHanguk.feature.drop 8).take 6) ∧
      ((nodeHanguk.feature.drop 8).drop 6 = [] ∨
        ∃ r, (nodeHanguk.feature.drop 8).drop 6 = 0x2c :: r)) ∧
    feature nodeHanguk 4 = none ∧ feature nodeHanguk 8 = none :=
  ⟨by decide, by decide,
    (feature_iff nodeHanguk 3).2 (nodeHanguk.feature.drop 8) 6 (by decide),
    by decide, by decide⟩

/-! ### The two half-width tables and the whitelist test -/

/-- C38: the two half-width-kana tables agree: for every entry of
`UTF8_HANKANA2ZENHIRA`, `UTF8_MAP` has an entry with the same key, and the
hiragana output equals `hiragana_utf8` applied to the full-width katakana that
`UTF8_MAP` gives; hence for every half-width katakana letter `h` of
`U+FF66..U+FF9D` other than U+FF70, `hiragana_utf8(h)` equals
`hiragana_utf8(normalize_utf8(h))`. -/
theorem hankana_tables_agree (h : Nat) :
    (∀ e ∈ UTF8_HANKANA2ZENHIRA, ∃ m ∈ UTF8_MAP, m.from_ = e.from_ ∧
      bsearch e.from_ UTF8_MAP = some m ∧ hiragana_utf8 [] m.to_ = e.to_) ∧
    (0xff66 ≤ h → h ≤ 0xff9d → h ≠ 0xff70 →
      (∃ e ∈ UTF8_HANKANA2ZENHIRA, e.from_ = lowKey h ∧
        hiragana_utf8 [] (utf8_encode3 h) = e.to_) ∧
      hiragana_utf8 [] (utf8_encode3 h)
        = hiragana_utf8 [] (normalize_utf8 [] (utf8_encode3 h) appendBinaryStringInfo)) := by
  refine ⟨by decide!, ?_⟩
  intro h1 h2 h3
  have key : ∀ i < 56, 0xff66 + i = 0xff70 ∨
      ((∃ e ∈ UTF8_HANKANA2ZENHIRA, e.from_ = lowKey (0xff66 + i) ∧
        hiragana_utf8 [] (utf8_encode3 (0xff66 + i)) = e.to_) ∧
      hiragana_utf8 [] (utf8_encode3 (0xff66 + i))
        = hiragana_utf8 []
            (normalize_utf8 [] (utf8_encode3 (0xff66 + i)) appendBinaryStringInfo)) := by
    decide!
  have hk := key (h - 0xff66) (by omega)
  rw [show 0xff66 + (h - 0xff66) = h by omega] at hk
  exact hk.resolve_left h3

theorem hankana_tables_agree_witness :
    (0xff66 ≤ 0xff76 ∧ 0xff76 ≤ 0xff9d ∧ 0xff76 ≠ 0xff70) ∧
    utf8_encode3 0xff76 = [0xef, 0xbd, 0xb6] ∧
    hiragana_utf8 [] [0xef, 0xbd, 0xb6] = [0xe3, 0x81, 0x8b] ∧
    normalize_utf8 [] [0xef, 0xbd, 0xb6] appendBinaryStringInfo = [0xe3, 0x82, 0xab] ∧
    hiragana_utf8 [] (utf8_encode3 0xff76)
      = hiragana_utf8 [] (normalize_utf8 [] (utf8_encode3 0xff76) appendBinaryStringInfo) :=
  ⟨by decide, by decide, by decide!, by decide!,
    ((hankana_tables_agree 0xff76).2 (by decide) (by decide) (by decide)).2⟩

/-- C39: for every byte string `str` and length `slen` of at most 14 with no
NUL among the first `slen` bytes, `accept_mecab_ko_part(str, slen)` is true if
and only if the first `slen` bytes of `str` are exactly one of the 12 whitelist
tags: whole-tag equality, so `NN` and `NNGX` are rejected, and so is
`slen = 0`. -/
theorem accept_mecab_ko_part_iff (str : List Nat) (slen : Nat) (h14 : slen ≤ 14)
    (hlen : slen ≤ str.length) (hnul : 0 ∉ str.take slen) :
    TsMecabKo.accept_mecab_ko_part str (slen : Int)
      = some (decide (str.take slen ∈ TsMecabKo.accept_parts_of_speech)) ∧
    (slen = 0 → TsMecabKo.accept_mecab_ko_part str (slen : Int) = some false) ∧
    TsMecabKo.accept_parts_of_speech.length = 12 ∧
    [0x4e, 0x4e] ∉ TsMecabKo.accept_parts_of_speech ∧
    [0x4e, 0x4e, 0x47, 0x58] ∉ TsMecabKo.accept_parts_of_speech := by
  have hl : (str.take slen).length = slen := by
    rw [List.length_take]; omega
  have h := TsMecabKo.accept_mecab_ko_part_pos (str.take slen) (str.drop slen) (by omega)
  rw [List.take_append_drop, hl] at h
  refine ⟨h, ?_, by decide, by decide, by decide⟩
  intro h0
  subst h0
  rw [h]
  simp only [List.take_zero]
  have : ([] : List Nat) ∉ TsMecabKo.accept_parts_of_speech := by decide
  simp [this]

theorem accept_mecab_ko_part_iff_witness :
    (3 ≤ 14 ∧ 3 ≤ ([0x4e, 0x4e, 0x47, 0x2f, 0x2a] : List Nat).length ∧
      0 ∉ ([0x4e, 0x4e, 0x47, 0x2f, 0x2a] : List Nat).take 3) ∧
    TsMecabKo.accept_mecab_ko_part [0x4e, 0x4e, 0x47, 0x2f, 0x2a] (3 : Nat)
      = some (decide (([0x4e, 0x4e, 0x47, 0x2f, 0x2a] : List Nat).take 3
          ∈ TsMecabKo.accept_parts_of_speech)) ∧
    TsMecabKo.accept_mecab_ko_part [0x4e, 0x4e, 0x47, 0x2f, 0x2a] 3 = some true ∧
    TsMecabKo.accept_mecab_ko_part [0x4e, 0x4e, 0x47, 0x2f, 0x2a] 2 = some false ∧
    TsMecabKo.accept_mecab_ko_part [0x4e, 0x4e, 0x47, 0x58, 0x2f] 4 = some false ∧
    TsMecabKo.accept_mecab_ko_part [0x4e, 0x4e, 0x47, 0x2f, 0x2a] 0 = some false :=
  ⟨by decide,
    (accept_mecab_ko_part_iff [0x4e, 0x4e, 0x47, 0x2f, 0x2a] 3 (by decide) (by decide)
      (by decide)).1,
    by decide, by decide, by decide, by decide⟩

/-! ### The Korean normalizer, character by character -/

theorem TsMecabKo.ismbascii_append (c rest : List Nat) (h : c.length = 3) :
    TsMecabKo.ismbascii (c ++ rest) = TsMecabKo.ismbascii c := by
  simp [TsMecabKo.ismbascii, byteAt_append_of_lt c rest 0 (by omega),
    byteAt_append_of_lt c rest 1 (by omega), byteAt_append_of_lt c rest 2 (by omega)]

theorem TsMecabKo.normalize_emit_append (dst c rest : List Nat) (hne : c ≠ [])
    (hlen : c.length = uchar_mblen c) :
    TsMecabKo.normalize_emit dst (c ++ rest) (uchar_mblen c)
      = TsMecabKo.normalize_emit dst c (uchar_mblen c) := by
  have hpos : 0 < c.length := List.length_pos.mpr hne
  have h0 := byteAt_append_of_lt c rest 0 hpos
  have ht : (c ++ rest).take (uchar_mblen c) = c.take (uchar_mblen c) := by
    rw [← hlen, List.take_left' rfl, List.take_length]
  unfold TsMecabKo.normalize_emit
  by_cases h3 : uchar_mblen c = 3
  · rw [TsMecabKo.ismbascii_append c rest (by omega), h0, ht]
  · simp only [h0, ht, h3, if_false]

/-- The look-ahead of `normalize` reads of the rest of the input only whether
it is empty, whether its first character counts as 3 bytes long and whether
its first byte is a sign; of the current character it reads only whether its
first byte is a sign. -/
theorem TsMecabKo.normalize_gap_congr (d s s2 next next2 : List Nat) (cl : Nat)
    (h0 : TsMecabKo.strchr_is_null TsMecabKo.ascii_sign (byteAt s 0)
      = TsMecabKo.strchr_is_null TsMecabKo.ascii_sign (byteAt s2 0))
    (he : next = [] ↔ next2 = [])
    (hcond : (uchar_mblen next = 3 ∧ TsMecabKo.ismbascii next = none) ↔
      (uchar_mblen next2 = 3 ∧ TsMecabKo.ismbascii next2 = none))
    (hb : TsMecabKo.strchr_is_null TsMecabKo.ascii_sign (byteAt next 0)
      = TsMecabKo.strchr_is_null TsMecabKo.ascii_sign (byteAt next2 0)) :
    TsMecabKo.normalize_gap d s next cl = TsMecabKo.normalize_gap d s2 next2 cl := by
  unfold TsMecabKo.normalize_gap
  by_cases hn : next = []
  · have hn2 : next2 = [] := he.mp hn
    simp [hn, hn2]
  · have hn2 : next2 ≠ [] := fun h => hn (he.mpr h)
    simp only [hn, hn2, ne_eq, not_false_eq_true, if_true, h0, hb, hcond]

theorem TsMecabKo.normalize_body_append (dst c more : List Nat) (hne : c ≠ [])
    (hlen : c.length = uchar_mblen c) :
    TsMecabKo.normalize_body dst (c ++ more) =
      (TsMecabKo.normalize_gap (TsMecabKo.normalize_emit dst c c.length).1 c more
        (TsMecabKo.normalize_emit dst c c.length).2, c.length) := by
  have hpos : 0 < c.length := List.length_pos.mpr hne
  have hm := uchar_mblen_append c more hne
  unfold TsMecabKo.normalize_body
  simp only [hm]
  rw [TsMecabKo.normalize_emit_append dst c more hne hlen, ← hlen, List.drop_left' rfl]
  congr 1
  exact TsMecabKo.normalize_gap_congr _ _ _ _ _ _
    (by rw [byteAt_append_of_lt c more 0 hpos]) Iff.rfl Iff.rfl rfl

theorem TsMecabKo.normalize_chunk (dst c more : List Nat) (append : append_t) (hne : c ≠ [])
    (hlen : c.length = uchar_mblen c) :
    TsMecabKo.normalize dst (c ++ more) append =
      TsMecabKo.normalize (TsMecabKo.normalize_body dst (c ++ more)).1 more append := by
  have hpos : 0 < c.length := List.length_pos.mpr hne
  have hb := TsMecabKo.normalize_body_append dst c more hne hlen
  unfold TsMecabKo.normalize
  obtain ⟨k, hk⟩ : ∃ k, (c ++ more).length = k + 1 :=
    ⟨(c ++ more).length - 1, by simp only [List.length_append]; omega⟩
  have hne2 : c ++ more ≠ [] := by simp [hne]
  rw [hk]
  simp only [TsMecabKo.normalize_loop, hne2, if_false]
  rw [hb]
  simp only [List.drop_left]
  simp only [List.length_append] at hk
  exact TsMecabKo.normalize_loop_fuel more.length more _ _ _ (le_refl _) (by omega) (le_refl _)

theorem uchar_mblen_lead3 (c : List Nat) (h1 : 0xe0 ≤ byteAt c 0) (h2 : byteAt c 0 ≤ 0xef) :
    uchar_mblen c = 3 := by
  have key : ∀ i < 16, uchar_mblen [0xe0 + i] = 3 := by decide
  have e : uchar_mblen c = uchar_mblen [byteAt c 0] := by simp [uchar_mblen, byteAt]
  have := key (byteAt c 0 - 0xe0) (by omega)
  rw [show 0xe0 + (byteAt c 0 - 0xe0) = byteAt c 0 by omega] at this
  rw [e, this]

theorem koChar_mblen (c : List Nat) (hc : koChar c) : c ≠ [] ∧ c.length = uchar_mblen c := by
  rcases hc with ⟨h1, _, h3⟩ | h
  · match c, h1 with
    | [b], _ =>
      simp only [byteAt, List.getD_cons_zero] at h3
      exact ⟨by simp, by rw [uchar_mblen_ascii b [] h3]; rfl⟩
  · have := uchar_mblen_lead3 c h.2.1 h.2.2.1
    refine ⟨?_, by rw [this]; exact h.1⟩
    intro h0
    rw [h0] at h
    exact absurd h.1 (by simp)

/-- For a well-formed 3-byte character, `ismbascii` answers true exactly on
`U+FF00..U+FF5E`. -/
theorem TsMecabKo.ismbascii_fullwidth (c : List Nat) (h : wellFormed3 c) :
    TsMecabKo.ismbascii c ≠ none ↔ fullwidthAscii c := by
  have hw := h
  obtain ⟨_, a1, a2, b1, b2, c1, c2, _, _⟩ := h
  unfold TsMecabKo.ismbascii
  simp only [fullwidthAscii, utf8_decode3]
  constructor
  · intro hne
    split_ifs at hne with hr
    · refine ⟨hw, ?_, ?_⟩ <;> omega
    · exact absurd rfl hne
  · rintro ⟨_, l1, l2⟩
    have hr : (256 * 256) * byteAt c 0 + 256 * byteAt c 1 + byteAt c 2 ≥ 15711360 ∧
        (256 * 256) * byteAt c 0 + 256 * byteAt c 1 + byteAt c 2 ≤ 15711646 := by
      constructor <;> omega
    rw [if_pos hr]
    simp

theorem koChar_not_single (c : List Nat) (hc : koChar c) : ¬ singleLike c ↔ wide3 c := by
  constructor
  · intro h
    rcases hc with ⟨h1, _⟩ | hw
    · exact absurd (Or.inl h1) h
    · exact ⟨hw, fun hf => h (Or.inr hf)⟩
  · rintro ⟨hw, hnf⟩ hs
    rcases hs with h1 | hf
    · have := hw.1
      omega
    · exact hnf hf

/-- The class `current_len` that the normalizer gives a character: 1 for a
single byte and for full-width ASCII, 3 otherwise. -/
theorem TsMecabKo.normalize_emit_class (dst c : List Nat) (_hc : koChar c) :
    (singleLike c → (TsMecabKo.normalize_emit dst c c.length).2 = 1) ∧
    (wide3 c → (TsMecabKo.normalize_emit dst c c.length).2 = 3) := by
  constructor
  · rintro (h1 | hf)
    · simp [TsMecabKo.normalize_emit, h1]
    · have h3 : c.length = 3 := hf.1.1
      have hne := (TsMecabKo.ismbascii_fullwidth c hf.1).mpr hf
      obtain ⟨a, ha⟩ := Option.ne_none_iff_exists'.mp hne
      simp [TsMecabKo.normalize_emit, h3, ha]
  · rintro ⟨hw, hnf⟩
    have h3 : c.length = 3 := hw.1
    have hn : TsMecabKo.ismbascii c = none := by
      by_contra h
      exact hnf ((TsMecabKo.ismbascii_fullwidth c hw).mp h)
    simp [TsMecabKo.normalize_emit, h3, hn]

/-- The class `next_len` that the look-ahead gives a character: 3 exactly for
a 3-byte character that is not full-width ASCII. -/
theorem TsMecabKo.next_len_class (n rest : List Nat) (hn : koChar n) :
    (uchar_mblen (n ++ rest) = 3 ∧ TsMecabKo.ismbascii (n ++ rest) = none) ↔ wide3 n := by
  obtain ⟨hne, hlen⟩ := koChar_mblen n hn
  rw [uchar_mblen_append n rest hne]
  constructor
  · rintro ⟨h3, hi⟩
    rw [TsMecabKo.ismbascii_append n rest (by omega)] at hi
    rcases hn with ⟨h1, _⟩ | hw
    · omega
    · exact ⟨hw, fun hf => ((TsMecabKo.ismbascii_fullwidth n hw).mpr hf) hi⟩
  · rintro ⟨hw, hnf⟩
    have h3 : n.length = 3 := hw.1
    refine ⟨by omega, ?_⟩
    rw [TsMecabKo.ismbascii_append n rest h3]
    by_contra h
    exact hnf ((TsMecabKo.ismbascii_fullwidth n hw).mp h)

/-- The sign test on the first byte of a character: it finds the byte in
`ascii_sign` exactly for a single-byte ASCII sign. -/
theorem TsMecabKo.sign_test (c : List Nat) (hc : koChar c) :
    TsMecabKo.strchr_is_null TsMecabKo.ascii_sign (byteAt c 0) = true ↔ ¬ asciiSign c := by
  have key : ∀ b < 256, b ≠ 0 →
      (TsMecabKo.strchr_is_null TsMecabKo.ascii_sign b = true ↔ b ∉ TsMecabKo.ascii_sign) := by
    decide!
  rcases hc with ⟨h1, h2, h3⟩ | hw
  · rw [key _ (by omega) (by omega)]
    constructor
    · rintro h ⟨_, hs⟩
      exact h hs
    · intro h hs
      exact h ⟨h1, hs⟩
  · rw [key _ (by have := hw.2.2.1; omega) (by have := hw.2.1; omega)]
    have hhigh : ∀ b ∈ TsMecabKo.ascii_sign, b < 0x80 := by decide
    constructor
    · rintro _ ⟨hl, _⟩
      have := hw.1
      omega
    · intro _ hs
      have := hhigh _ hs
      have := hw.2.1
      omega

/-- The look-ahead between two characters: a space is appended exactly for the
pairs of `spaceBetween`. -/
theorem TsMecabKo.normalize_gap_pair (d dst c n rest : List Nat) (hc : koChar c)
    (hn : koChar n) :
    (spaceBetween c n →
      TsMecabKo.normalize_gap d c (n ++ rest) (TsMecabKo.normalize_emit dst c c.length).2
        = d ++ [0x20]) ∧
    (¬ spaceBetween c n →
      TsMecabKo.normalize_gap d c (n ++ rest) (TsMecabKo.normalize_emit dst c c.length).2
        = d) := by
  obtain ⟨hnne, _⟩ := koChar_mblen n hn
  have hnext : n ++ rest ≠ [] := by simp [hnne]
  obtain ⟨cls1, cls3⟩ := TsMecabKo.normalize_emit_class dst c hc
  have hnl := TsMecabKo.next_len_class n rest hn
  have hsc := TsMecabKo.sign_test c hc
  have hsn : TsMecabKo.strchr_is_null TsMecabKo.ascii_sign (byteAt (n ++ rest) 0) = true
      ↔ ¬ asciiSign n := by
    rw [byteAt_append_of_lt n rest 0 (List.length_pos.mpr hnne)]
    exact TsMecabKo.sign_test n hn
  have hcs := koChar_not_single c hc
  have hns := koChar_not_single n hn
  unfold TsMecabKo.normalize_gap
  simp only [hnext, ne_eq, not_false_eq_true, if_true, appendBinaryStringInfo]
  by_cases hs : singleLike c
  · rw [cls1 hs]
    by_cases hw : wide3 n
    · rw [if_pos (hnl.mpr hw)]
      by_cases hsign : asciiSign c
      · have hnull : ¬ (TsMecabKo.strchr_is_null TsMecabKo.ascii_sign (byteAt c 0) = true) :=
          fun h => (hsc.mp h) hsign
        constructor
        · rintro (⟨_, _, h⟩ | ⟨h, _⟩)
          · exact absurd hsign h
          · exact absurd hs (hcs.mpr h)
        · intro _
          simp [hnull]
      · have hnull := hsc.mpr hsign
        constructor
        · intro _
          simp [hnull]
        · intro h
          exact absurd (Or.inl ⟨hs, hw, hsign⟩) h
    · rw [if_neg (fun h => hw (hnl.mp h))]
      constructor
      · rintro (⟨_, h, _⟩ | ⟨h, _⟩)
        · exact absurd h hw
        · exact absurd hs (hcs.mpr h)
      · intro _
        simp
  · have hwc := hcs.mp hs
    rw [cls3 hwc]
    by_cases hw : wide3 n
    · rw [if_pos (hnl.mpr hw)]
      constructor
      · rintro (⟨h, _⟩ | ⟨_, h, _⟩)
        · exact absurd h hs
        · exact absurd h (hns.mpr hw)
      · intro _
        simp
    · rw [if_neg (fun h => hw (hnl.mp h))]
      have hsl : singleLike n := by
        by_contra h
        exact hw (hns.mp h)
      by_cases hsign : asciiSign n
      · have hnull : ¬ (TsMecabKo.strchr_is_null TsMecabKo.ascii_sign
            (byteAt (n ++ rest) 0) = true) := fun h => (hsn.mp h) hsign
        constructor
        · rintro (⟨h, _⟩ | ⟨_, _, h⟩)
          · exact absurd h hs
          · exact absurd hsign h
        · intro _
          simp [hnull]
      · have hnull := hsn.mpr hsign
        constructor
        · intro _
          simp [hnull]
        · intro h
          exact absurd (Or.inr ⟨hwc, hsl, hsign⟩) h

/-- C34 (counterexample): between the 2-byte character `é` (C3 A9) and a letter
that follows it, and between two `é`, the Korean normalizer inserts a space;
between a letter and an `é` that follows it inserts none. -/
theorem ko_normalize_space_after_two_byte :
    TsMecabKo.normalize [] [0xc3, 0xa9, 0x61] appendBinaryStringInfo
      = [0xc3, 0xa9, 0x20, 0x61] ∧
    TsMecabKo.normalize [] [0xc3, 0xa9, 0xc3, 0xa9] appendBinaryStringInfo
      = [0xc3, 0xa9, 0x20, 0xc3, 0xa9] ∧
    TsMecabKo.normalize [] [0x61, 0xc3, 0xa9] appendBinaryStringInfo = [0x61, 0xc3, 0xa9] := by
  decide

/-- C34 (amended): between two adjacent input characters, each a single ASCII
byte or a well-formed 3-byte character, the Korean normalizer inserts exactly
one space when one is single-byte or full-width ASCII and the other a 3-byte
character that is not full-width ASCII, unless the single-byte character is
one of the ASCII signs of `ascii_sign`; it inserts nothing between any other
such pair, and the run goes on at the second character. -/
theorem ko_normalize_space_between (dst c n rest : List Nat) (append : append_t)
    (hc : koChar c) (hn : koChar n) :
    (spaceBetween c n →
      TsMecabKo.normalize_body dst (c ++ (n ++ rest))
        = ((TsMecabKo.normalize_emit dst c c.length).1 ++ [0x20], c.length) ∧
      TsMecabKo.normalize dst (c ++ (n ++ rest)) append
        = TsMecabKo.normalize ((TsMecabKo.normalize_emit dst c c.length).1 ++ [0x20])
            (n ++ rest) append) ∧
    (¬ spaceBetween c n →
      TsMecabKo.normalize_body dst (c ++ (n ++ rest))
        = ((TsMecabKo.normalize_emit dst c c.length).1, c.length) ∧
      TsMecabKo.normalize dst (c ++ (n ++ rest)) append
        = TsMecabKo.normalize (TsMecabKo.normalize_emit dst c c.length).1 (n ++ rest) append) ∧
    (singleLike c → ∃ a, (TsMecabKo.normalize_emit dst c c.length).1 = dst ++ [a]) ∧
    (wide3 c → (TsMecabKo.normalize_emit dst c c.length).1 = dst ++ c) := by
  obtain ⟨hne, hlen⟩ := koChar_mblen c hc
  have hb := TsMecabKo.normalize_body_append dst c (n ++ rest) hne hlen
  have hch := TsMecabKo.normalize_chunk dst c (n ++ rest) append hne hlen
  obtain ⟨g1, g2⟩ := TsMecabKo.normalize_gap_pair
    (TsMecabKo.normalize_emit dst c c.length).1 dst c n rest hc hn
  refine ⟨fun h => ?_, fun h => ?_, ?_, ?_⟩
  · rw [hch, hb, g1 h]
    exact ⟨rfl, rfl⟩
  · rw [hch, hb, g2 h]
    exact ⟨rfl, rfl⟩
  · rintro (h1 | hf)
    · exact ⟨byteAt c 0 % 256, by simp [TsMecabKo.normalize_emit, h1, appendStringInfoChar]⟩
    · have h3 : c.length = 3 := hf.1.1
      have hne2 := (TsMecabKo.ismbascii_fullwidth c hf.1).mpr hf
      obtain ⟨a, ha⟩ := Option.ne_none_iff_exists'.mp hne2
      exact ⟨a % 256, by simp [TsMecabKo.normalize_emit, h3, ha, appendStringInfoChar]⟩
  · rintro ⟨hw, hnf⟩
    have h3 : c.length = 3 := hw.1
    have hn2 : TsMecabKo.ismbascii c = none := by
      by_contra h
      exact hnf ((TsMecabKo.ismbascii_fullwidth c hw).mp h)
    have ht : c.take 3 = c := List.take_of_length_le (by omega)
    simp [TsMecabKo.normalize_emit, h3, hn2, appendBinaryStringInfo, ht]

theorem ko_normalize_space_between_witness :
    koChar [0x61] ∧ koChar [0xea, 0xb0, 0x80] ∧ spaceBetween [0x61] [0xea, 0xb0, 0x80] ∧
    TsMecabKo.normalize [] ([0x61] ++ ([0xea, 0xb0, 0x80] ++ [])) appendBinaryStringInfo
      = TsMecabKo.normalize ((TsMecabKo.normalize_emit [] [0x61] 1).1 ++ [0x20])
          ([0xea, 0xb0, 0x80] ++ []) appendBinaryStringInfo ∧
    TsMecabKo.normalize [] [0x61, 0xea, 0xb0, 0x80] appendBinaryStringInfo
      = [0x61, 0x20, 0xea, 0xb0, 0x80] ∧
    koChar [0x21] ∧ ¬ spaceBetween [0xea, 0xb0, 0x80] [0x21] ∧
    TsMecabKo.normalize [] ([0xea, 0xb0, 0x80] ++ ([0x21] ++ [])) appendBinaryStringInfo
      = TsMecabKo.normalize (TsMecabKo.normalize_emit [] [0xea, 0xb0, 0x80] 3).1
          ([0x21] ++ []) appendBinaryStringInfo ∧
    TsMecabKo.normalize [] [0xea, 0xb0, 0x80, 0x21] appendBinaryStringInfo
      = [0xea, 0xb0, 0x80, 0x21] :=
  ⟨by decide, by decide, Or.inl (by decide),
    ((ko_normalize_space_between [] [0x61] [0xea, 0xb0, 0x80] [] appendBinaryStringInfo
      (by decide) (by decide)).1 (Or.inl (by decide))).2,
    by decide, by decide,
    fun h => h.elim (fun h1 => absurd h1 (by decide)) (fun h2 => absurd h2 (by decide)),
    ((ko_normalize_space_between [] [0xea, 0xb0, 0x80] [0x21] [] appendBinaryStringInfo
      (by decide) (by decide)).2.1
        (fun h => h.elim (fun h1 => absurd h1 (by decide)) (fun h2 => absurd h2 (by decide)))).2,
    by decide⟩

theorem Aligned.head {s : List Nat} (h : Aligned s) :
    s = [] ∨ ∃ c rest, s = c ++ rest ∧ c ≠ [] ∧ c.length = uchar_mblen c ∧ Aligned rest := by
  cases h with
  | nil => exact Or.inl rfl
  | cons c rest h1 h2 h3 => exact Or.inr ⟨c, rest, rfl, h1, h2, h3⟩

/-- What the Korean normalizer reads of a full-width digit or capital letter
and of its ASCII counterpart. -/
theorem TsMecabKo.fullwidth_facts (c : Nat)
    (hc : (0xff10 ≤ c ∧ c ≤ 0xff19) ∨ (0xff21 ≤ c ∧ c ≤ 0xff3a)) :
    TsMecabKo.ismbascii (utf8_encode3 c) = some (c - 0xfee0) ∧
    byteAt (utf8_encode3 c) 0 = 0xef ∧ c - 0xfee0 < 0x80 ∧
    TsMecabKo.strchr_is_null TsMecabKo.ascii_sign (c - 0xfee0) = true := by
  have key : ∀ i < 43, (0xff10 + i ≤ 0xff19 ∨ 0xff21 ≤ 0xff10 + i) →
      TsMecabKo.ismbascii (utf8_encode3 (0xff10 + i)) = some (0xff10 + i - 0xfee0) ∧
      byteAt (utf8_encode3 (0xff10 + i)) 0 = 0xef ∧ 0xff10 + i - 0xfee0 < 0x80 ∧
      TsMecabKo.strchr_is_null TsMecabKo.ascii_sign (0xff10 + i - 0xfee0) = true := by
    decide!
  have := key (c - 0xff10) (by omega) (by omega)
  rwa [show 0xff10 + (c - 0xff10) = c by omega] at this

/-- The look-ahead sees no difference between a full-width digit or capital
letter and its ASCII counterpart. -/
theorem TsMecabKo.normalize_gap_fullwidth (d s post : List Nat) (cl c : Nat)
    (hc : (0xff10 ≤ c ∧ c ≤ 0xff19) ∨ (0xff21 ≤ c ∧ c ≤ 0xff3a)) :
    TsMecabKo.normalize_gap d s (utf8_encode3 c ++ post) cl
      = TsMecabKo.normalize_gap d s ([c - 0xfee0] ++ post) cl := by
  obtain ⟨f1, f2, f3, f4⟩ := TsMecabKo.fullwidth_facts c hc
  have hl : (utf8_encode3 c).length = 3 := rfl
  apply TsMecabKo.normalize_gap_congr _ _ _ _ _ _ rfl
  · simp [utf8_encode3]
  · rw [TsMecabKo.ismbascii_append _ post hl, f1,
      uchar_mblen_append [c - 0xfee0] post (by simp), uchar_mblen_ascii _ [] f3]
    simp
  · rw [byteAt_append_of_lt _ post 0 (by rw [hl]; omega), f2,
      byteAt_append_of_lt [c - 0xfee0] post 0 (by simp)]
    have hb0 : ∀ x : Nat, byteAt [x] 0 = x := fun _ => rfl
    rw [hb0, f4]
    decide

/-- The iteration on a full-width digit or capital letter and the iteration on
its ASCII counterpart leave the same buffer. -/
theorem TsMecabKo.normalize_body_fullwidth (dst post : List Nat) (c : Nat)
    (hc : (0xff10 ≤ c ∧ c ≤ 0xff19) ∨ (0xff21 ≤ c ∧ c ≤ 0xff3a)) :
    (TsMecabKo.normalize_body dst (utf8_encode3 c ++ post)).1
      = (TsMecabKo.normalize_body dst ([c - 0xfee0] ++ post)).1 := by
  obtain ⟨f1, f2, f3, f4⟩ := TsMecabKo.fullwidth_facts c hc
  have hl : (utf8_encode3 c).length = 3 := rfl
  have hm3 : uchar_mblen (utf8_encode3 c) = 3 :=
    uchar_mblen_lead _ (Or.inr (Or.inr f2))
  have hm1 : uchar_mblen [c - 0xfee0] = 1 := uchar_mblen_ascii _ [] f3
  rw [TsMecabKo.normalize_body_append dst (utf8_encode3 c) post (by simp [utf8_encode3])
      (by rw [hm3, hl]),
    TsMecabKo.normalize_body_append dst [c - 0xfee0] post (by simp) (by rw [hm1]; rfl)]
  have e1 : TsMecabKo.normalize_emit dst (utf8_encode3 c) (utf8_encode3 c).length
      = (dst ++ [c - 0xfee0], 1) := by
    have hmod : (c - 0xfee0) % 256 = c - 0xfee0 := Nat.mod_eq_of_lt (by omega)
    simp [TsMecabKo.normalize_emit, hl, f1, appendStringInfoChar, hmod]
  have e2 : TsMecabKo.normalize_emit dst [c - 0xfee0] [c - 0xfee0].length
      = (dst ++ [c - 0xfee0], 1) := by
    have hmod : (c - 0xfee0) % 256 = c - 0xfee0 := Nat.mod_eq_of_lt (by omega)
    have hsingle : ∀ x : Nat, TsMecabKo.normalize_emit dst [x] [x].length
        = (dst ++ [x % 256], 1) := fun _ => rfl
    rw [hsingle, hmod]
  rw [e1, e2]
  simp only []
  apply TsMecabKo.normalize_gap_congr _ _ _ _ _ _ _ Iff.rfl Iff.rfl rfl
  have hb0 : ∀ x : Nat, byteAt [x] 0 = x := fun _ => rfl
  rw [f2, hb0, f4]
  decide

/-- Behind a sequence of complete characters the Korean normalizer gives the
same output for a full-width digit or capital letter and for its ASCII
counterpart. -/
theorem TsMecabKo.normalize_fullwidth_at (post : List Nat) (c : Nat) (append : append_t)
    (hc : (0xff10 ≤ c ∧ c ≤ 0xff19) ∨ (0xff21 ≤ c ∧ c ≤ 0xff3a)) :
    ∀ pre : List Nat, Aligned pre → ∀ dst : List Nat,
      TsMecabKo.normalize dst (pre ++ (utf8_encode3 c ++ post)) append
        = TsMecabKo.normalize dst (pre ++ ([c - 0xfee0] ++ post)) append := by
  obtain ⟨f1, f2, f3, f4⟩ := TsMecabKo.fullwidth_facts c hc
  have hl : (utf8_encode3 c).length = 3 := rfl
  have hm3 : uchar_mblen (utf8_encode3 c) = 3 :=
    uchar_mblen_lead _ (Or.inr (Or.inr f2))
  have hm1 : uchar_mblen [c - 0xfee0] = 1 := uchar_mblen_ascii _ [] f3
  intro pre hpre
  induction hpre with
  | nil =>
    intro dst
    rw [List.nil_append, List.nil_append,
      TsMecabKo.normalize_chunk dst (utf8_encode3 c) post append (by simp [utf8_encode3])
        (by rw [hm3, hl]),
      TsMecabKo.normalize_chunk dst [c - 0xfee0] post append (by simp) (by rw [hm1]; rfl),
      TsMecabKo.normalize_body_fullwidth dst post c hc]
  | cons ch rest hne hlen hrest ih =>
    intro dst
    rw [List.append_assoc, List.append_assoc,
      TsMecabKo.normalize_chunk dst ch _ append hne hlen,
      TsMecabKo.normalize_chunk dst ch _ append hne hlen,
      TsMecabKo.normalize_body_append dst ch _ hne hlen,
      TsMecabKo.normalize_body_append dst ch _ hne hlen]
    have hgap : ∀ d cl, TsMecabKo.normalize_gap d ch (rest ++ (utf8_encode3 c ++ post)) cl
        = TsMecabKo.normalize_gap d ch (rest ++ ([c - 0xfee0] ++ post)) cl := by
      intro d cl
      rcases hrest.head with h0 | ⟨c2, r2, hr, hne2, hlen2, _⟩
      · subst h0
        exact TsMecabKo.normalize_gap_fullwidth d ch post cl c hc
      · subst hr
        have hpos : 0 < c2.length := List.length_pos.mpr hne2
        apply TsMecabKo.normalize_gap_congr _ _ _ _ _ _ rfl
        · simp [hne2]
        · rw [List.append_assoc, List.append_assoc, uchar_mblen_append c2 _ hne2,
            uchar_mblen_append c2 _ hne2]
          constructor
          · rintro ⟨h3, hi⟩
            refine ⟨h3, ?_⟩
            rw [TsMecabKo.ismbascii_append c2 _ (by omega)] at hi ⊢
            exact hi
          · rintro ⟨h3, hi⟩
            refine ⟨h3, ?_⟩
            rw [TsMecabKo.ismbascii_append c2 _ (by omega)] at hi ⊢
            exact hi
        · rw [List.append_assoc, List.append_assoc, byteAt_append_of_lt c2 _ 0 hpos,
            byteAt_append_of_lt c2 _ 0 hpos]
    simp only [hgap]
    exact ih _

/-- C36 (counterexample): behind `가` the full-width exclamation mark U+FF01
(EF BC 81) gets a space in front, its ASCII counterpart `!` gets none. -/
theorem ko_normalize_fullwidth_sign_differs :
    utf8_encode3 0xff01 = [0xef, 0xbc, 0x81] ∧ 0xff01 - 0xfee0 = 0x21 ∧
    TsMecabKo.normalize [] ([0xea, 0xb0, 0x80] ++ [0xef, 0xbc, 0x81]) appendBinaryStringInfo
      = [0xea, 0xb0, 0x80, 0x20, 0x21] ∧
    TsMecabKo.normalize [] ([0xea, 0xb0, 0x80] ++ [0x21]) appendBinaryStringInfo
      = [0xea, 0xb0, 0x80, 0x21] := by
  decide

/-- C36 (amended): the Korean normalizer treats a full-width digit or capital
letter exactly like its half-width counterpart: for every input and every
character position in it that holds a full-width `c` of `U+FF10..U+FF19` or
`U+FF21..U+FF3A`, replacing `c` by the ASCII byte `c - 0xFEE0` does not change
the output.  These are the characters of `U+FF01..U+FF3F` whose counterpart is
not one of the ASCII signs. -/
theorem ko_normalize_fullwidth_like_ascii (dst pre post : List Nat) (c : Nat)
    (append : append_t) (hpre : Aligned pre)
    (hc : (0xff10 ≤ c ∧ c ≤ 0xff19) ∨ (0xff21 ≤ c ∧ c ≤ 0xff3a)) :
    TsMecabKo.normalize dst (pre ++ utf8_encode3 c ++ post) append
      = TsMecabKo.normalize dst (pre ++ [c - 0xfee0] ++ post) append ∧
    (∀ k, 0xff01 ≤ k → k ≤ 0xff3f →
      (k - 0xfee0 ∉ TsMecabKo.ascii_sign ↔
        (0xff10 ≤ k ∧ k ≤ 0xff19) ∨ (0xff21 ≤ k ∧ k ≤ 0xff3a))) := by
  constructor
  · have := TsMecabKo.normalize_fullwidth_at post c append hc pre hpre dst
    simpa only [List.append_assoc] using this
  · intro k h1 h2
    have key : ∀ i < 63, (0xff01 + i - 0xfee0 ∉ TsMecabKo.ascii_sign ↔
        (0xff10 ≤ 0xff01 + i ∧ 0xff01 + i ≤ 0xff19) ∨
          (0xff21 ≤ 0xff01 + i ∧ 0xff01 + i ≤ 0xff3a)) := by
      decide!
    have := key (k - 0xff01) (by omega)
    rwa [show 0xff01 + (k - 0xff01) = k by omega] at this

theorem ko_normalize_fullwidth_like_ascii_witness :
    Aligned ([0xea, 0xb0, 0x80] ++ []) ∧ (0xff21 ≤ 0xff21 ∧ 0xff21 ≤ 0xff3a) ∧
    TsMecabKo.normalize [] ([0xea, 0xb0, 0x80] ++ [] ++ utf8_encode3 0xff21 ++ [0x42])
        appendBinaryStringInfo
      = TsMecabKo.normalize [] ([0xea, 0xb0, 0x80] ++ [] ++ [0xff21 - 0xfee0] ++ [0x42])
          appendBinaryStringInfo ∧
    TsMecabKo.normalize [] ([0xea, 0xb0, 0x80] ++ [] ++ [0xff21 - 0xfee0] ++ [0x42])
        appendBinaryStringInfo
      = [0xea, 0xb0, 0x80, 0x20, 0x41, 0x42] :=
  ⟨Aligned.cons [0xea, 0xb0, 0x80] [] (by decide) (by decide) Aligned.nil, by decide,
    (ko_normalize_fullwidth_like_ascii [] ([0xea, 0xb0, 0x80] ++ []) [0x42] 0xff21
      appendBinaryStringInfo
      (Aligned.cons [0xea, 0xb0, 0x80] [] (by decide) (by decide) Aligned.nil)
      (Or.inr (by decide))).1,
    by decide⟩

/-! ### Well-formed UTF-8 text -/

theorem uchar_mblen_lead2 (c : List Nat) (h1 : 0xc0 ≤ byteAt c 0) (h2 : byteAt c 0 ≤ 0xdf) :
    uchar_mblen c = 2 := by
  have key : ∀ i < 32, uchar_mblen [0xc0 + i] = 2 := by decide
  have e : uchar_mblen c = uchar_mblen [byteAt c 0] := by simp [uchar_mblen, byteAt]
  have := key (byteAt c 0 - 0xc0) (by omega)
  rw [show 0xc0 + (byteAt c 0 - 0xc0) = byteAt c 0 by omega] at this
  rw [e, this]

theorem uchar_mblen_lead4 (c : List Nat) (h1 : 0xf0 ≤ byteAt c 0) (h2 : byteAt c 0 ≤ 0xf7) :
    uchar_mblen c = 4 := by
  have key : ∀ i < 8, uchar_mblen [0xf0 + i] = 4 := by decide
  have e : uchar_mblen c = uchar_mblen [byteAt c 0] := by simp [uchar_mblen, byteAt]
  have := key (byteAt c 0 - 0xf0) (by omega)
  rw [show 0xf0 + (byteAt c 0 - 0xf0) = byteAt c 0 by omega] at this
  rw [e, this]

theorem uchar_mblen_lead1 (c : List Nat) (h : byteAt c 0 < 0x80) : uchar_mblen c = 1 := by
  have key : ∀ i < 128, uchar_mblen [i] = 1 := by decide!
  have e : uchar_mblen c = uchar_mblen [byteAt c 0] := by simp [uchar_mblen, byteAt]
  rw [e, key _ h]

/-- The length of a complete character is the length that the host reads off
its lead byte. -/
theorem utf8Char_mblen (c : List Nat) (hc : utf8Char c) :
    c ≠ [] ∧ c.length = uchar_mblen c := by
  have hne : c ≠ [] := by
    intro h0
    subst h0
    rcases hc with h | h | h | h <;> exact absurd h.1 (by simp)
  refine ⟨hne, ?_⟩
  rcases hc with ⟨h, h1⟩ | ⟨h, h1, h2, _⟩ | h | ⟨h, h1, h2, _⟩
  · rw [uchar_mblen_lead1 c h1, h]
  · rw [uchar_mblen_lead2 c (by omega) h2, h]
  · rw [uchar_mblen_lead3 c h.2.1 h.2.2.1, h.1]
  · rw [uchar_mblen_lead4 c h1 (by omega), h]

theorem utf8Char_shape (c : List Nat) (hc : utf8Char c) :
    (∃ a, c = [a] ∧ a < 0x80) ∨
    (∃ a b, c = [a, b] ∧ 0xc2 ≤ a ∧ a ≤ 0xdf ∧ contByte b) ∨
    (∃ a b e, c = [a, b, e] ∧ 0xe0 ≤ a ∧ a ≤ 0xef ∧ contByte b ∧ contByte e) ∨
    (∃ a b e f, c = [a, b, e, f] ∧ 0xf0 ≤ a ∧ a ≤ 0xf4 ∧ contByte b ∧ contByte e ∧
      contByte f) := by
  rcases hc with ⟨h, h1⟩ | ⟨h, h1, h2, h3⟩ | h | ⟨h, h1, h2, h3, h4, h5, _⟩
  · match c, h with
    | [a], _ => exact Or.inl ⟨a, rfl, h1⟩
  · match c, h with
    | [a, b], _ => exact Or.inr (Or.inl ⟨a, b, rfl, h1, h2, h3⟩)
  · obtain ⟨h, h1, h2, h3, h4, h5, h6, _⟩ := h
    match c, h with
    | [a, b, e], _ => exact Or.inr (Or.inr (Or.inl ⟨a, b, e, rfl, h1, h2, ⟨h3, h4⟩, ⟨h5, h6⟩⟩))
  · match c, h with
    | [a, b, e, f], _ => exact Or.inr (Or.inr (Or.inr ⟨a, b, e, f, rfl, h1, h2, h3, h4, h5⟩))

theorem utf8Char_bytes (c : List Nat) (hc : utf8Char c) : ∀ b ∈ c, b < 256 := by
  rcases utf8Char_shape c hc with ⟨a, rfl, h⟩ | ⟨a, b, rfl, h1, h2, h3⟩ |
    ⟨a, b, e, rfl, h1, h2, h3, h4⟩ | ⟨a, b, e, f, rfl, h1, h2, h3, h4, h5⟩ <;>
  · intro x hx
    simp only [List.mem_cons, List.mem_singleton, List.not_mem_nil, or_false] at hx
    rcases hx with rfl | rfl | rfl | rfl <;> omega

theorem Utf8.append {a b : List Nat} (ha : Utf8 a) (hb : Utf8 b) : Utf8 (a ++ b) := by
  induction ha with
  | nil => simpa using hb
  | cons c rest hc _ ih =>
    rw [List.append_assoc]
    exact Utf8.cons c _ hc ih

theorem Utf8.single {c : List Nat} (hc : utf8Char c) : Utf8 c := by
  have := Utf8.cons c [] hc Utf8.nil
  simpa using this

theorem Utf8.snoc {d c : List Nat} (hd : Utf8 d) (hc : utf8Char c) : Utf8 (d ++ c) :=
  Utf8.append hd (Utf8.single hc)

theorem Utf8.bytes {d : List Nat} (hd : Utf8 d) : ∀ b ∈ d, b < 256 := by
  induction hd with
  | nil => simp
  | cons c rest hc _ ih =>
    intro b hb
    rcases List.mem_append.mp hb with h | h
    · exact utf8Char_bytes c hc b h
    · exact ih b h

/-- Well-formed text read from its end: it is empty, or a well-formed text
followed by one complete character. -/
theorem Utf8.inv_last {d : List Nat} (hd : Utf8 d) :
    d = [] ∨ ∃ d0 c, d = d0 ++ c ∧ Utf8 d0 ∧ utf8Char c := by
  induction hd with
  | nil => exact Or.inl rfl
  | cons c rest hc hrest ih =>
    right
    rcases ih with h | ⟨d0, c1, h, hd0, hc1⟩
    · subst h
      exact ⟨[], c, by simp, Utf8.nil, hc⟩
    · subst h
      exact ⟨c ++ d0, c1, by simp, Utf8.cons c d0 hc hd0, hc1⟩

/-- A well-formed text that ends in an ASCII byte is well-formed before it. -/
theorem Utf8.last_ascii {d : List Nat} {b : Nat} (hd : Utf8 (d ++ [b])) (hb : b < 0x80) :
    Utf8 d := by
  rcases Utf8.inv_last hd with h | ⟨d0, c, h, hd0, hc⟩
  · exact absurd h (by simp)
  · rcases utf8Char_shape c hc with ⟨a, rfl, _⟩ | ⟨a, x, rfl, _, _, h3⟩ |
      ⟨a, x, e, rfl, _, _, _, h4⟩ | ⟨a, x, e, f, rfl, _, _, _, _, h5⟩
    · have := List.append_inj' h (by simp)
      rw [this.1]
      exact hd0
    · have := List.append_inj' (show d ++ [b] = (d0 ++ [a]) ++ [x] by simpa using h) (by simp)
      have e : b = x := by simpa using this.2
      have := h3.1
      omega
    · have := List.append_inj' (show d ++ [b] = (d0 ++ [a, x]) ++ [e] by simpa using h)
        (by simp)
      have e : b = e := by simpa using this.2
      have := h4.1
      omega
    · have := List.append_inj' (show d ++ [b] = (d0 ++ [a, x, e]) ++ [f] by simpa using h)
        (by simp)
      have e : b = f := by simpa using this.2
      have := h5.1
      omega

/-- A well-formed text whose last three bytes are a lead byte `E0..EF`, a
continuation byte and a byte with the high bit set ends in that 3-byte character. -/
theorem Utf8.last3 {p : List Nat} {a x y : Nat} (hd : Utf8 (p ++ [a, x, y]))
    (ha : 0xe0 ≤ a) (hx : contByte x) (hy : 0x80 ≤ y) : Utf8 p := by
  rcases Utf8.inv_last hd with h | ⟨d0, c, h, hd0, hc⟩
  · exact absurd h (by simp)
  · rcases utf8Char_shape c hc with ⟨a1, rfl, h1⟩ | ⟨a1, x1, rfl, _, h2, _⟩ |
      ⟨a1, x1, e1, rfl, _, _, _, _⟩ | ⟨a1, x1, e1, f1, rfl, _, _, h3, _, _⟩
    · have := List.append_inj' (show (p ++ [a, x]) ++ [y] = d0 ++ [a1] by simpa using h)
        (by simp)
      have e : y = a1 := by simpa using this.2
      omega
    · have := List.append_inj' (show (p ++ [a]) ++ [x, y] = d0 ++ [a1, x1] by simpa using h)
        (by simp)
      have e : x = a1 ∧ y = x1 := by simpa using this.2
      have := hx.2
      omega
    · have := List.append_inj' h (by simp)
      rw [this.1]
      exact hd0
    · have hlen : 1 ≤ d0.length + 1 := by omega
      have := List.append_inj' (show p ++ [a, x, y] = (d0 ++ [a1]) ++ [x1, e1, f1] by
        simpa using h) (by simp)
      have e : a = x1 := by
        have := this.2
        simp only [List.cons.injEq] at this
        exact this.1
      have := h3.2
      omega
/-! ### The appender argument of the Korean normalizer -/

theorem TsMecabKo.ismbascii_not_separator (c : List Nat) (h : wellFormed3 c) (v : Nat)
    (hv : TsMecabKo.ismbascii c = some v) : v % 256 ≠ 0x0b ∧ 0x20 ≤ v ∧ v < 0x60 := by
  obtain ⟨_, a1, a2, b1, b2, c1, c2, _, _⟩ := h
  unfold TsMecabKo.ismbascii at hv
  simp only [] at hv
  split_ifs at hv with hr
  simp only [Option.some.injEq] at hv
  omega

theorem TsMecabKo.normalize_body_count (dst c rest : List Nat) (hc : utf8Char c) :
    (TsMecabKo.normalize_body dst (c ++ rest)).1.count 0x0b
      = dst.count 0x0b + c.count 0x0b := by
  obtain ⟨hne, hlen⟩ := utf8Char_mblen c hc
  rw [TsMecabKo.normalize_body_append dst c rest hne hlen]
  have hgap : ∀ d s n k, (TsMecabKo.normalize_gap d s n k).count 0x0b = d.count 0x0b := by
    intro d s n k
    unfold TsMecabKo.normalize_gap
    simp only [appendBinaryStringInfo]
    split_ifs <;> simp
  simp only [hgap]
  unfold TsMecabKo.normalize_emit
  simp only [appendStringInfoChar, appendBinaryStringInfo]
  rcases utf8Char_shape c hc with ⟨a, rfl, h⟩ | ⟨a, b, rfl, h1, h2, h3⟩ |
    ⟨a, b, e, rfl, h1, h2, h3, h4⟩ | ⟨a, b, e, f, rfl, h1, h2, h3, h4, h5⟩
  · have : a % 256 = a := by omega
    simp [byteAt, this]
  · simp [List.count_cons]
  · have hw : wellFormed3 [a, b, e] := by
      rcases hc with h | h | h | h
      · exact absurd h.1 (by simp)
      · exact absurd h.1 (by simp)
      · exact h
      · exact absurd h.1 (by simp)
    have := h3.1
    have := h4.1
    have hcnt : [a, b, e].count 0x0b = 0 := by
      simp [List.count_cons]
      omega
    cases hv : TsMecabKo.ismbascii [a, b, e] with
    | none => simp [List.count_cons]
    | some v =>
      have := (TsMecabKo.ismbascii_not_separator _ hw v hv).1
      have hmod : v % 256 % 256 = v % 256 := by omega
      rw [hcnt]
      simp [List.count_cons, hmod, this]
  · simp [List.count_cons]

theorem TsMecabKo.normalize_count (src : List Nat) (hs : Utf8 src) (append : append_t) :
    ∀ dst : List Nat,
      (TsMecabKo.normalize dst src append).count 0x0b = dst.count 0x0b + src.count 0x0b := by
  induction hs with
  | nil => intro dst; simp [TsMecabKo.normalize, TsMecabKo.normalize_loop]
  | cons c rest hc _ ih =>
    intro dst
    obtain ⟨hne, hlen⟩ := utf8Char_mblen c hc
    rw [TsMecabKo.normalize_chunk dst c rest append hne hlen, ih,
      TsMecabKo.normalize_body_count dst c rest hc, List.count_append]
    omega

/-- C35: the Korean normalizer gives the same bytes whatever appender it is
handed, so the pre-pass of `ts_mecabko_start` (with `appendString`) and the call
of `korean_normalize` (with the verbatim appender) agree on every input.  The
separator policy is therefore never applied: a well-formed text comes out with
exactly the vertical tabs it came in with, a text of ASCII bytes, the
non-printable ones included, comes out as it is, and an ASCII byte at the head
of any text is copied as it is, followed by at most one space. -/
theorem ko_normalize_append_irrelevant (dst src : List Nat) (a1 a2 : append_t) :
    TsMecabKo.normalize dst src a1 = TsMecabKo.normalize dst src a2 ∧
    TsMecabKo.ts_mecabko_start_normalize src = TsMecabKo.korean_normalize_call src ∧
    (Utf8 src → (TsMecabKo.normalize dst src TsMecabKo.appendString).count 0x0b
      = dst.count 0x0b + src.count 0x0b) ∧
    ((∀ b ∈ src, b < 0x80) → TsMecabKo.normalize dst src TsMecabKo.appendString = dst ++ src) ∧
    (∀ b rest, b < 0x80 → src = b :: rest →
      ∃ gap, (gap = [] ∨ gap = [0x20]) ∧
        TsMecabKo.normalize dst src TsMecabKo.appendString
          = TsMecabKo.normalize (dst ++ [b] ++ gap) rest TsMecabKo.appendString) := by
  refine ⟨rfl, rfl, fun h => TsMecabKo.normalize_count src h _ dst, ?_, ?_⟩
  · intro h
    simpa [TsMecabKo.normalize] using
      TsMecabKo.normalize_loop_ascii src src.length dst h (le_refl _)
  · rintro b rest hb rfl
    have hc : utf8Char [b] := Or.inl ⟨rfl, hb⟩
    obtain ⟨hne, hlen⟩ := utf8Char_mblen [b] hc
    have := TsMecabKo.normalize_chunk dst [b] rest TsMecabKo.appendString hne hlen
    rw [List.singleton_append] at this
    rw [this]
    have hb2 := TsMecabKo.normalize_body_append dst [b] rest hne hlen
    rw [List.singleton_append] at hb2
    rw [hb2]
    have hmod : b % 256 = b := by omega
    have hemit : TsMecabKo.normalize_emit dst [b] [b].length = (dst ++ [b], 1) := by
      have hsingle : ∀ x : Nat, TsMecabKo.normalize_emit dst [x] [x].length
          = (dst ++ [x % 256], 1) := fun _ => rfl
      rw [hsingle, hmod]
    rw [hemit]
    simp only []
    unfold TsMecabKo.normalize_gap
    simp only [appendBinaryStringInfo]
    split_ifs
    all_goals first
      | (refine ⟨[0x20], Or.inr rfl, ?_⟩; simp; done)
      | (refine ⟨[], Or.inl rfl, ?_⟩; simp)

theorem ko_normalize_append_irrelevant_witness :
    TsMecabKo.normalize [] [0x61, 0x0a, 0xea, 0xb0, 0x80, 0x0b] TsMecabKo.appendString
      = TsMecabKo.normalize [] [0x61, 0x0a, 0xea, 0xb0, 0x80, 0x0b] appendBinaryStringInfo ∧
    TsMecabKo.normalize [] [0x61, 0x0a, 0xea, 0xb0, 0x80, 0x0b] appendBinaryStringInfo
      = [0x61, 0x0a, 0x20, 0xea, 0xb0, 0x80, 0x20, 0x0b] ∧
    TsMecabKo.appendString [0x61] [0x0a] = [0x61, 0x0b] :=
  ⟨(ko_normalize_append_irrelevant [] [0x61, 0x0a, 0xea, 0xb0, 0x80, 0x0b]
      TsMecabKo.appendString appendBinaryStringInfo).1, by decide, by decide⟩

/-! ### Well-formedness of the output of `normalize_utf8` -/

theorem normalize_utf8_chunk (append : append_t) (dst c rest : List Nat) (hne : c ≠ [])
    (hlen : c.length = uchar_mblen c) :
    normalize_utf8 dst (c ++ rest) append
      = normalize_utf8 (normalize_utf8_body append dst c).1 rest append := by
  unfold normalize_utf8
  have hpos : 0 < c.length := List.length_pos.mpr hne
  have hl : (c ++ rest).length = c.length + rest.length := List.length_append _ _
  rw [normalize_utf8_loop_fuel append (c ++ rest).length (c ++ rest) dst (c ++ rest).length
      ((c.length + rest.length - 1) + 1) (le_refl _) (le_refl _) (by omega),
    normalize_utf8_loop_chunk append dst c rest _ hne hlen]
  exact normalize_utf8_loop_fuel append rest.length rest _ _ _ (le_refl _) (by omega)
    (le_refl _)

theorem UTF8_MAP_images_utf8Char :
    ∀ m ∈ UTF8_MAP, utf8Char (m.to4.take (uchar_strlen m.to4)) := by
  decide!

/-- A well-formed text whose last three bytes are a lead byte `E0..EF`, a
continuation byte and one more byte ends in that 3-byte character. -/
theorem Utf8.last3_char {p : List Nat} {a x y : Nat} (hd : Utf8 (p ++ [a, x, y]))
    (ha : 0xe0 ≤ a) (hx : contByte x) : Utf8 p ∧ wellFormed3 [a, x, y] := by
  rcases Utf8.inv_last hd with h | ⟨d0, c, h, hd0, hc⟩
  · exact absurd h (by simp)
  · rcases utf8Char_shape c hc with ⟨a1, rfl, h1⟩ | ⟨a1, x1, rfl, h2, _, _⟩ |
      ⟨a1, x1, e1, rfl, _, _, _, _⟩ | ⟨a1, x1, e1, f1, rfl, _, _, h3, _, _⟩
    · exfalso
      have := List.append_inj' (show (p ++ [a, x]) ++ [y] = d0 ++ [a1] by simpa using h)
        (by simp)
      rw [← this.1] at hd0
      rcases Utf8.inv_last hd0 with h | ⟨d1, c1, h, _, hc1⟩
      · exact absurd h (by simp)
      · rcases utf8Char_shape c1 hc1 with ⟨a2, rfl, k1⟩ | ⟨a2, x2, rfl, _, k2, _⟩ |
          ⟨a2, x2, e2, rfl, _, _, k3, _⟩ | ⟨a2, x2, e2, f2, rfl, _, _, _, k4, _⟩
        · have := List.append_inj' (show (p ++ [a]) ++ [x] = d1 ++ [a2] by simpa using h)
            (by simp)
          have e : x = a2 := by simpa using this.2
          have := hx.1
          omega
        · have := List.append_inj' (show p ++ [a, x] = d1 ++ [a2, x2] by simpa using h)
            (by simp)
          have e : a = a2 ∧ x = x2 := by simpa using this.2
          omega
        · have := List.append_inj' (show p ++ [a, x] = (d1 ++ [a2]) ++ [x2, e2] by
            simpa using h) (by simp)
          have e : a = x2 ∧ x = e2 := by simpa using this.2
          have := k3.2
          omega
        · have := List.append_inj' (show p ++ [a, x] = (d1 ++ [a2, x2]) ++ [e2, f2] by
            simpa using h) (by simp)
          have e : a = e2 ∧ x = f2 := by simpa using this.2
          have := k4.2
          omega
    · exfalso
      have := List.append_inj' (show (p ++ [a]) ++ [x, y] = d0 ++ [a1, x1] by simpa using h)
        (by simp)
      have e : x = a1 ∧ y = x1 := by simpa using this.2
      have := hx.2
      omega
    · have := List.append_inj' h (by simp)
      rw [this.1, this.2]
      refine ⟨hd0, ?_⟩
      rcases hc with h | h | h | h
      · exact absurd h.1 (by simp)
      · exact absurd h.1 (by simp)
      · exact h
      · exact absurd h.1 (by simp)
    · exfalso
      have := List.append_inj' (show p ++ [a, x, y] = (d0 ++ [a1]) ++ [x1, e1, f1] by
        simpa using h) (by simp)
      have e : a = x1 := by
        have := this.2
        simp only [List.cons.injEq] at this
        exact this.1
      have := h3.2
      omega

/-- Every rewrite of the voicing-mark block replaces the complete 3-byte
character at the end of a well-formed buffer by a complete 3-byte character. -/
theorem normalize_utf8_voicing_utf8 (dst s dst2 : List Nat) (len : Nat) (hd : Utf8 dst)
    (h : normalize_utf8_voicing dst s len = some dst2) :
    ∃ p c c2, dst = p ++ c ∧ dst2 = p ++ c2 ∧ Utf8 p ∧ wellFormed3 c ∧ wellFormed3 c2 := by
  have h3 : len = 3 := by
    by_contra hne
    rw [normalize_utf8_voicing_not3 dst s len hne] at h
    exact absurd h (by simp)
  subst h3
  obtain ⟨p, x, y, x2, y2, e1, e2, hx1, hx2, k1, k2, k3, k4, _⟩ :=
    normalize_utf8_voicing_some dst s dst2 (Utf8.bytes hd) h
  rw [e1] at hd
  obtain ⟨hp, hw⟩ := Utf8.last3_char hd (by omega) ⟨hx1, hx2⟩
  refine ⟨p, [0xe3, x, y], [0xe3, x2, y2], e1, e2, hp, hw, ?_⟩
  refine ⟨rfl, ?_⟩
  simp only [byteAt, utf8_decode3, List.getD_cons_zero, List.getD_cons_succ]
  refine ⟨by omega, by omega, k1.trans' (by omega), by omega, k3, k4, by omega, by omega⟩

/-- One iteration of the loop keeps the buffer well-formed, for every appender
that does so. -/
theorem normalize_utf8_body_utf8 (append : append_t)
    (hA : ∀ d c, Utf8 d → utf8Char c → Utf8 (append d c)) (dst c : List Nat)
    (hd : Utf8 dst) (hc : utf8Char c) : Utf8 (normalize_utf8_body append dst c).1 := by
  obtain ⟨hne, hlen⟩ := utf8Char_mblen c hc
  have htake : c.take (uchar_mblen c) = c := by rw [← hlen]; exact List.take_length c
  have hq : ∀ x : Nat, x < 0x80 → Utf8 (appendStringInfoChar dst x) := by
    intro x hx
    have : x % 256 = x := by omega
    simp only [appendStringInfoChar, this]
    exact Utf8.snoc hd (Or.inl ⟨rfl, hx⟩)
  unfold normalize_utf8_body
  simp only []
  split_ifs with h1
  · rw [htake]
    exact hA dst c hd hc
  · cases hv : normalize_utf8_voicing dst c (uchar_mblen c) with
    | some dst1 =>
      obtain ⟨p, c1, c2, _, e2, hp, _, hw2⟩ := normalize_utf8_voicing_utf8 dst c dst1 _ hd hv
      simp only []
      rw [e2]
      exact Utf8.snoc hp (Or.inr (Or.inr (Or.inl hw2)))
    | none =>
      simp only []
      unfold normalize_utf8_switch
      rw [htake]
      split_ifs
      any_goals exact hA dst c hd hc
      any_goals exact hq _ (by decide)
      unfold appendMappedChar
      split_ifs with h3
      · cases hb : bsearch (WIDEN (byteAt c 1) (byteAt c 2)) UTF8_MAP with
        | none =>
          simp only []
          rw [htake]
          exact hA dst c hd hc
        | some m =>
          simp only []
          exact hA dst _ hd (UTF8_MAP_images_utf8Char m (bsearch_sound _ _ m hb).1)
      · rw [htake]
        exact hA dst c hd hc

theorem normalize_utf8_utf8 (append : append_t)
    (hA : ∀ d c, Utf8 d → utf8Char c → Utf8 (append d c)) (src : List Nat) (hs : Utf8 src) :
    ∀ dst, Utf8 dst → Utf8 (normalize_utf8 dst src append) := by
  induction hs with
  | nil => intro dst hd; simpa [normalize_utf8, normalize_utf8_loop] using hd
  | cons c rest hc _ ih =>
    intro dst hd
    obtain ⟨hne, hlen⟩ := utf8Char_mblen c hc
    rw [normalize_utf8_chunk append dst c rest hne hlen]
    exact ih _ (normalize_utf8_body_utf8 append hA dst c hd hc)

theorem StringInfoTail_snoc (d : List Nat) (v : Nat) (hl : 1 < d.length)
    (h : StringInfoTail d 1 0 = v) : ∃ d0, d = d0 ++ [v] := by
  rcases List.eq_nil_or_concat d with h0 | ⟨d0, x, h0⟩
  · subst h0; simp at hl
  · have e : d = d0 ++ [x] := by simpa using h0
    subst e
    rw [StringInfoTail_concat] at h
    exact ⟨d0, by rw [h]⟩

theorem TextsearchJa.appendString_utf8 (d c : List Nat) (hd : Utf8 d) (hc : utf8Char c) :
    Utf8 (TextsearchJa.appendString d c) := by
  have hsep : Utf8 (d ++ [TextsearchJa.SEPARATOR_CHAR]) := Utf8.snoc hd (Or.inl ⟨rfl, by decide⟩)
  by_cases hnp : c.length = 1 ∧ TextsearchJa.isprint (byteAt c 0) = false
  · obtain ⟨b, rfl⟩ : ∃ b, c = [b] := by
      match c, hnp.1 with
      | [b], _ => exact ⟨b, rfl⟩
    rw [TextsearchJa.appendString_nonprintable d b (by simpa [byteAt] using hnp.2)]
    split_ifs
    · exact hd
    · exact hsep
  · by_cases hl : 1 < d.length
    · rw [TextsearchJa.appendString_printable d c hnp hl]
      refine Utf8.snoc ?_ hc
      split_ifs with t1 t2 t3 t4
      · obtain ⟨d0, rfl⟩ := StringInfoTail_snoc d _ hl t1
        rw [setStringInfoTail_concat]
        exact Utf8.snoc (Utf8.last_ascii hd (by decide)) (Or.inl ⟨rfl, by decide⟩)
      · obtain ⟨d0, rfl⟩ := StringInfoTail_snoc d _ hl t1
        simp only [List.length_append, List.length_singleton, Nat.add_sub_cancel,
          List.take_left']
        exact Utf8.last_ascii hd (by decide)
      · exact hd
      · exact hsep
      · exact hd
    · have : TextsearchJa.appendString d c = d ++ c := by
        unfold TextsearchJa.appendString
        simp only []
        have hnp2 : ¬ (c.length = 1 ∧ ¬ TextsearchJa.isprint (byteAt c 0) = true) := by
          simpa using hnp
        rw [if_neg hnp2, if_neg (by omega)]
        rfl
      rw [this]
      exact Utf8.snoc hd hc

/-- C33: for every well-formed UTF-8 input, and every well-formed buffer to
start from, the buffer that `normalize_utf8` returns is well-formed UTF-8, a
concatenation of complete characters, under the verbatim appender and under the
`appendString` policy; and every rewrite of the voicing-mark block on a
well-formed buffer replaces the complete 3-byte character at its end by
another complete 3-byte character, leaving what stands before it well-formed. -/
theorem normalize_utf8_well_formed (dst src : List Nat) (hd : Utf8 dst) (hs : Utf8 src) :
    Utf8 (normalize_utf8 dst src appendBinaryStringInfo) ∧
    Utf8 (normalize_utf8 dst src TextsearchJa.appendString) ∧
    (∀ s len dst2, normalize_utf8_voicing dst s len = some dst2 →
      ∃ p c c2, dst = p ++ c ∧ dst2 = p ++ c2 ∧ Utf8 p ∧ wellFormed3 c ∧ wellFormed3 c2) :=
  ⟨normalize_utf8_utf8 appendBinaryStringInfo (fun _ _ h1 h2 => Utf8.snoc h1 h2) src hs dst hd,
    normalize_utf8_utf8 TextsearchJa.appendString TextsearchJa.appendString_utf8 src hs dst hd,
    fun s len dst2 h => normalize_utf8_voicing_utf8 dst s dst2 len hd h⟩

theorem normalize_utf8_well_formed_witness :
    Utf8 ([0x41] ++ ([0xe3, 0x81, 0x8b] ++ ([0xe3, 0x82, 0x9b] ++ ([0x0a] ++ [])))) ∧
    Utf8 (normalize_utf8 [] ([0x41] ++ ([0xe3, 0x81, 0x8b] ++ ([0xe3, 0x82, 0x9b] ++
      ([0x0a] ++ [])))) TextsearchJa.appendString) ∧
    normalize_utf8 [] ([0x41] ++ ([0xe3, 0x81, 0x8b] ++ ([0xe3, 0x82, 0x9b] ++
      ([0x0a] ++ [])))) TextsearchJa.appendString = [0x41, 0xe3, 0x81, 0x8c, 0x0b] ∧
    normalize_utf8_voicing [0x41, 0xe3, 0x81, 0x8b] [0xe3, 0x82, 0x9b] 3
      = some [0x41, 0xe3, 0x81, 0x8c] :=
  ⟨Utf8.cons _ _ (by decide) (Utf8.cons _ _ (by decide) (Utf8.cons _ _ (by decide)
      (Utf8.cons _ _ (by decide) Utf8.nil))),
    (normalize_utf8_well_formed [] _ Utf8.nil
      (Utf8.cons _ _ (by decide) (Utf8.cons _ _ (by decide) (Utf8.cons _ _ (by decide)
        (Utf8.cons _ _ (by decide) Utf8.nil))))).2.1,
    by decide, by decide⟩

/-! ### Script boundaries in the output of the tokenizer pre-pass -/

theorem TextsearchJa.IS_HIGHBIT_SET_iff (b : Nat) (h : b < 256) :
    TextsearchJa.IS_HIGHBIT_SET b = true ↔ 0x80 ≤ b := by
  have key : ∀ i < 256, (TextsearchJa.IS_HIGHBIT_SET i = true ↔ 0x80 ≤ i) := by decide!
  exact key b h

theorem TextsearchJa.isprint_iff (b : Nat) :
    TextsearchJa.isprint b = true ↔ 0x20 ≤ b ∧ b ≤ 0x7e := by
  simp [TextsearchJa.isprint]

theorem utf8Char_wide_high (c : List Nat) (hc : utf8Char c) (hl : 1 < c.length) :
    ∀ b ∈ c, 0x80 ≤ b ∧ b < 256 := by
  rcases utf8Char_shape c hc with ⟨a, rfl, h⟩ | ⟨a, b, rfl, h1, h2, h3⟩ |
    ⟨a, b, e, rfl, h1, h2, h3, h4⟩ | ⟨a, b, e, f, rfl, h1, h2, h3, h4, h5⟩
  · simp at hl
  all_goals
    intro x hx
    simp only [List.mem_cons, List.mem_singleton, List.not_mem_nil, or_false] at hx
    rcases hx with rfl | rfl | rfl | rfl <;> omega

theorem UTF8_MAP_images_class :
    ∀ m ∈ UTF8_MAP,
      (∃ g, m.to4.take (uchar_strlen m.to4) = [g] ∧ 0x21 ≤ g ∧ g ≤ 0x7e) ∨
      ((m.to4.take (uchar_strlen m.to4)).length = 3) := by
  have key : ∀ m ∈ UTF8_MAP,
      ((m.to4.take (uchar_strlen m.to4)).length = 1 ∧
        0x21 ≤ byteAt (m.to4.take (uchar_strlen m.to4)) 0 ∧
        byteAt (m.to4.take (uchar_strlen m.to4)) 0 ≤ 0x7e) ∨
      ((m.to4.take (uchar_strlen m.to4)).length = 3) := by
    decide!
  intro m hm
  rcases key m hm with ⟨h1, h2, h3⟩ | h
  · left
    match hh : m.to4.take (uchar_strlen m.to4), h1 with
    | [g], _ =>
      rw [hh] at h2 h3
      exact ⟨g, rfl, h2, h3⟩
  · exact Or.inr h

theorem appendMappedChar_emitted (append : append_t) (dst c : List Nat) :
    appendMappedChar dst c 3 UTF8_MAP append
      = append dst (appendMappedChar [] c 3 UTF8_MAP appendBinaryStringInfo) := by
  unfold appendMappedChar
  simp only [if_true]
  cases bsearch (WIDEN (byteAt c 1) (byteAt c 2)) UTF8_MAP <;>
    simp [appendBinaryStringInfo]

/-- The `switch` of `normalize_utf8` on a complete character: a directly
folded character is written behind the buffer, every other character goes to
the appender in the form `emitted` gives. -/
theorem normalize_utf8_switch_emitted (append : append_t) (dst c : List Nat)
    (hc : utf8Char c) :
    normalize_utf8_switch append dst c c.length =
      if directFold c then dst ++ emitted c else append dst (emitted c) := by
  rcases utf8Char_shape c hc with ⟨a, rfl, h⟩ | ⟨a, b, rfl, h1, h2, h3⟩ |
    ⟨a, b, e, rfl, h1, h2, h3, h4⟩ | ⟨a, b, e, f, rfl, h1, h2, h3, h4, h5⟩
  · have n1 : a ≠ 0xe2 := by omega
    have n2 : a ≠ 0xe3 := by omega
    have n3 : a ≠ 0xef := by omega
    simp [normalize_utf8_switch, emitted, byteAt, directFold, foldedQuote, n1, n2, n3,
      appendBinaryStringInfo]
  · have n1 : a ≠ 0xe2 := by omega
    have n2 : a ≠ 0xe3 := by omega
    have n3 : a ≠ 0xef := by omega
    simp [normalize_utf8_switch, emitted, byteAt, directFold, foldedQuote, n1, n2, n3,
      appendBinaryStringInfo]
  · by_cases ea : a = 0xe2
    · subst ea
      by_cases eb : b = 0x80
      · subst eb
        by_cases e1 : e = 0x98
        · subst e1
          simp [normalize_utf8_switch, emitted, byteAt, appendStringInfoChar, directFold,
            foldedQuote]
        by_cases e2 : e = 0x99
        · subst e2
          simp [normalize_utf8_switch, emitted, byteAt, appendStringInfoChar, directFold,
            foldedQuote]
        by_cases e3 : e = 0x9d
        · subst e3
          simp [normalize_utf8_switch, emitted, byteAt, appendStringInfoChar, directFold,
            foldedQuote]
        simp [normalize_utf8_switch, emitted, byteAt, directFold, foldedQuote, e1, e2, e3,
          appendBinaryStringInfo]
      · simp [normalize_utf8_switch, emitted, byteAt, directFold, foldedQuote, eb,
          appendBinaryStringInfo]
    by_cases ea3 : a = 0xe3
    · subst ea3
      by_cases eb : b = 0x80 ∧ e = 0x80
      · obtain ⟨rfl, rfl⟩ := eb
        simp [normalize_utf8_switch, emitted, byteAt, appendStringInfoChar, directFold,
          foldedQuote]
      · have hd : ¬ directFold [0xe3, b, e] := by
          rintro ((h | h | h) | h)
          · simp at h
          · simp at h
          · simp at h
          · simp only [List.cons.injEq, and_true, true_and] at h
            exact eb h
        rw [if_neg hd]
        simp [normalize_utf8_switch, emitted, byteAt, eb, appendBinaryStringInfo]
    by_cases eaf : a = 0xef
    · subst eaf
      have hd : ¬ directFold [0xef, b, e] := by simp [directFold, foldedQuote]
      rw [if_neg hd]
      have e1 : normalize_utf8_switch append dst [0xef, b, e] [0xef, b, e].length
          = appendMappedChar dst [0xef, b, e] 3 UTF8_MAP append := by
        simp [normalize_utf8_switch, byteAt]
      have e2 : emitted [0xef, b, e]
          = appendMappedChar [] [0xef, b, e] 3 UTF8_MAP appendBinaryStringInfo := by
        simp [emitted, normalize_utf8_switch, byteAt]
      rw [e1, e2]
      exact appendMappedChar_emitted append dst _
    simp [normalize_utf8_switch, emitted, byteAt, directFold, foldedQuote, ea, ea3, eaf,
      appendBinaryStringInfo]
  · have n1 : a ≠ 0xe2 := by omega
    have n2 : a ≠ 0xe3 := by omega
    have n3 : a ≠ 0xef := by omega
    simp [normalize_utf8_switch, emitted, byteAt, directFold, foldedQuote, n1, n2, n3,
      appendBinaryStringInfo]

theorem emitted_three (a b e : Nat) :
    emitted [a, b, e] = [a, b, e] ∨
    (∃ g, emitted [a, b, e] = [g] ∧ 0x20 ≤ g ∧ g ≤ 0x7e) ∨
    (∃ m ∈ UTF8_MAP, emitted [a, b, e] = m.to4.take (uchar_strlen m.to4)) := by
  by_cases ea : a = 0xe2
  · subst ea
    by_cases eb : b = 0x80
    · subst eb
      by_cases e1 : e = 0x98
      · subst e1; exact Or.inr (Or.inl ⟨0x60, by decide, by decide, by decide⟩)
      by_cases e2 : e = 0x99
      · subst e2; exact Or.inr (Or.inl ⟨0x27, by decide, by decide, by decide⟩)
      by_cases e3 : e = 0x9d
      · subst e3; exact Or.inr (Or.inl ⟨0x22, by decide, by decide, by decide⟩)
      left
      simp [normalize_utf8_switch, emitted, byteAt, e1, e2, e3, appendBinaryStringInfo]
    · left
      simp [normalize_utf8_switch, emitted, byteAt, eb, appendBinaryStringInfo]
  by_cases ea3 : a = 0xe3
  · subst ea3
    by_cases eb : b = 0x80 ∧ e = 0x80
    · obtain ⟨rfl, rfl⟩ := eb
      exact Or.inr (Or.inl ⟨0x20, by decide, by decide, by decide⟩)
    · left
      simp [normalize_utf8_switch, emitted, byteAt, eb, appendBinaryStringInfo]
  by_cases eaf : a = 0xef
  · subst eaf
    have e2 : emitted [0xef, b, e]
        = appendMappedChar [] [0xef, b, e] 3 UTF8_MAP appendBinaryStringInfo := by
      simp [emitted, normalize_utf8_switch, byteAt]
    rw [e2]
    unfold appendMappedChar
    simp only [if_true]
    cases hb : bsearch (WIDEN (byteAt [0xef, b, e] 1) (byteAt [0xef, b, e] 2)) UTF8_MAP with
    | none => left; simp [appendBinaryStringInfo]
    | some m =>
      right; right
      exact ⟨m, (bsearch_sound _ _ m hb).1, by simp [appendBinaryStringInfo]⟩
  left
  simp [normalize_utf8_switch, emitted, byteAt, ea, ea3, eaf, appendBinaryStringInfo]

/-- The three classes of a complete character by what is emitted for it: a
non-printable byte, one printable ASCII byte, or a multi-byte character. -/
theorem emitted_cases (c : List Nat) (hc : utf8Char c) :
    (controlChar c ∧ emitted c = c) ∨
    (¬ controlChar c ∧ ∃ g, emitted c = [g] ∧ 0x20 ≤ g ∧ g ≤ 0x7e) ∨
    (¬ controlChar c ∧ 1 < (emitted c).length ∧ utf8Char (emitted c)) := by
  rcases utf8Char_shape c hc with ⟨a, rfl, h⟩ | ⟨a, b, rfl, h1, h2, h3⟩ |
    ⟨a, b, e, rfl, h1, h2, h3, h4⟩ | ⟨a, b, e, f, rfl, h1, h2, h3, h4, h5⟩
  · have n1 : a ≠ 0xe2 := by omega
    have n2 : a ≠ 0xe3 := by omega
    have n3 : a ≠ 0xef := by omega
    have he : emitted [a] = [a] := by
      simp [normalize_utf8_switch, emitted, byteAt, n1, n2, n3, appendBinaryStringInfo]
    cases hp : TextsearchJa.isprint a with
    | false => exact Or.inl ⟨⟨rfl, by simpa [byteAt] using hp⟩, he⟩
    | true =>
      have := (TextsearchJa.isprint_iff a).mp hp
      exact Or.inr (Or.inl ⟨by simp [controlChar, byteAt, hp], a, he, this.1, this.2⟩)
  · have n1 : a ≠ 0xe2 := by omega
    have n2 : a ≠ 0xe3 := by omega
    have n3 : a ≠ 0xef := by omega
    have he : emitted [a, b] = [a, b] := by
      simp [normalize_utf8_switch, emitted, byteAt, n1, n2, n3, appendBinaryStringInfo]
    rw [he]
    exact Or.inr (Or.inr ⟨by simp [controlChar], by simp, hc⟩)
  · have hnc : ¬ controlChar [a, b, e] := by simp [controlChar]
    rcases emitted_three a b e with h | ⟨g, h, g1, g2⟩ | ⟨m, hm, h⟩
    · rw [h]
      exact Or.inr (Or.inr ⟨hnc, by simp, hc⟩)
    · exact Or.inr (Or.inl ⟨hnc, g, h, g1, g2⟩)
    · rcases UTF8_MAP_images_class m hm with ⟨g, hg, g1, g2⟩ | h3
      · exact Or.inr (Or.inl ⟨hnc, g, by rw [h, hg], by omega, g2⟩)
      · refine Or.inr (Or.inr ⟨hnc, by rw [h, h3]; decide, ?_⟩)
        rw [h]
        exact UTF8_MAP_images_utf8Char m hm
  · have n1 : a ≠ 0xe2 := by omega
    have n2 : a ≠ 0xe3 := by omega
    have n3 : a ≠ 0xef := by omega
    have he : emitted [a, b, e, f] = [a, b, e, f] := by
      simp [normalize_utf8_switch, emitted, byteAt, n1, n2, n3, appendBinaryStringInfo]
    rw [he]
    exact Or.inr (Or.inr ⟨by simp [controlChar], by simp, hc⟩)

/-- A directly folded character is emitted as one ASCII byte: a glyph for a
quote, the space for U+3000. -/
theorem directFold_emitted (c : List Nat) (h : directFold c) :
    (foldedQuote c ∧ ∃ g, emitted c = [g] ∧ glyphByte g) ∨
    (¬ foldedQuote c ∧ emitted c = [0x20]) := by
  rcases h with (h | h | h) | h
  · subst h; exact Or.inl ⟨by decide, 0x60, by decide, by decide⟩
  · subst h; exact Or.inl ⟨by decide, 0x27, by decide, by decide⟩
  · subst h; exact Or.inl ⟨by decide, 0x22, by decide, by decide⟩
  · subst h; exact Or.inr ⟨by decide, by decide⟩

/-- The loop body on a complete character when no voicing rewrite applies. -/
theorem normalize_utf8_body_emitted (append : append_t) (dst c : List Nat)
    (hc : utf8Char c) (hv : normalize_utf8_voicing dst c (uchar_mblen c) = none) :
    (normalize_utf8_body append dst c).1 =
      if directFold c then dst ++ emitted c else append dst (emitted c) := by
  obtain ⟨hne, hlen⟩ := utf8Char_mblen c hc
  have htake : c.take (uchar_mblen c) = c := by rw [← hlen]; exact List.take_length c
  unfold normalize_utf8_body
  simp only [hv]
  split_ifs with h1 h2 h2
  · exfalso
    rw [← hlen] at h1
    rcases h2 with (h | h | h) | h <;> (subst h; simp at h1)
  · rw [htake]
    rw [← hlen] at h1
    obtain ⟨a, rfl⟩ : ∃ a, c = [a] := by
      match c, h1 with
      | [a], _ => exact ⟨a, rfl⟩
    have := normalize_utf8_switch_emitted appendBinaryStringInfo [] [a] hc
    rw [if_neg h2] at this
    have he : emitted [a] = [a] := by
      rcases utf8Char_shape [a] hc with ⟨a1, h, hlt⟩ | ⟨_, _, h, _⟩ | ⟨_, _, _, h, _⟩ |
        ⟨_, _, _, _, h, _⟩
      · have n1 : a ≠ 0xe2 := by simp at h; omega
        have n2 : a ≠ 0xe3 := by simp at h; omega
        have n3 : a ≠ 0xef := by simp at h; omega
        simp [normalize_utf8_switch, emitted, byteAt, n1, n2, n3, appendBinaryStringInfo]
      · simp at h
      · simp at h
      · simp at h
    rw [he]
  · have := normalize_utf8_switch_emitted append dst c hc
    rw [if_pos h2, hlen] at this
    exact this
  · have := normalize_utf8_switch_emitted append dst c hc
    rw [if_neg h2, hlen] at this
    exact this

theorem TextsearchJa.appendString_short (dst e : List Nat)
    (hnp : ¬ (e.length = 1 ∧ TextsearchJa.isprint (byteAt e 0) = false))
    (hl : dst.length ≤ 1) : TextsearchJa.appendString dst e = dst ++ e := by
  unfold TextsearchJa.appendString
  simp only []
  have hnp2 : ¬ (e.length = 1 ∧ ¬ TextsearchJa.isprint (byteAt e 0) = true) := by
    simpa using hnp
  rw [if_neg hnp2, if_neg (by omega)]
  rfl

/-- The appender on a buffer of two bytes or more, by the last two bytes `y`
and `t` of the buffer, for anything but a non-printable byte. -/
theorem TextsearchJa.appendString_two (d0 e : List Nat) (y t : Nat) (hy : y < 256)
    (ht : t < 256)
    (hnp : ¬ (e.length = 1 ∧ TextsearchJa.isprint (byteAt e 0) = false)) :
    TextsearchJa.appendString (d0 ++ [y, t]) e =
      (if t = 0x0b then
        if e.length = 1 ∧ y < 0x80 then d0 ++ [y, 0x20]
        else if 0x80 ≤ y then d0 ++ [y]
        else d0 ++ [y, t]
      else if (e.length = 1 ∧ 0x80 ≤ t) ∨ (e.length > 1 ∧ t < 0x80) then d0 ++ [y, t, 0x0b]
      else d0 ++ [y, t]) ++ e := by
  rw [TextsearchJa.appendString_printable (d0 ++ [y, t]) e hnp (by simp)]
  congr 1
  obtain ⟨h2, h1⟩ := StringInfoTail_concat2 d0 y t
  rw [h1, h2]
  have hhy : TextsearchJa.IS_HIGHBIT_SET y = true ↔ 0x80 ≤ y :=
    TextsearchJa.IS_HIGHBIT_SET_iff y hy
  have hht : TextsearchJa.IS_HIGHBIT_SET t = true ↔ 0x80 ≤ t :=
    TextsearchJa.IS_HIGHBIT_SET_iff t ht
  have hfy : TextsearchJa.IS_HIGHBIT_SET y = false ↔ y < 0x80 := by
    rw [← Bool.not_eq_true, hhy]; omega
  have hft : TextsearchJa.IS_HIGHBIT_SET t = false ↔ t < 0x80 := by
    rw [← Bool.not_eq_true, hht]; omega
  have hset : setStringInfoTail (d0 ++ [y, t]) 1 0 0x20 = d0 ++ [y, 0x20] := by
    have := setStringInfoTail_concat (d0 ++ [y]) t 0x20
    simpa using this
  have htake : (d0 ++ [y, t]).take ((d0 ++ [y, t]).length - 1) = d0 ++ [y] := by
    have : d0 ++ [y, t] = (d0 ++ [y]) ++ [t] := by simp
    rw [this, List.length_append, List.length_singleton, Nat.add_sub_cancel]
    exact List.take_left' rfl
  simp only [hhy, hht, hfy, hft, hset, htake, TextsearchJa.SEPARATOR_CHAR, List.append_assoc,
    List.cons_append, List.nil_append]

theorem list_shape2 (d : List Nat) :
    d = [] ∨ (∃ x, d = [x]) ∨ ∃ d0 y t, d = d0 ++ [y, t] := by
  rcases List.eq_nil_or_concat d with h | ⟨d1, t, h⟩
  · exact Or.inl h
  · rcases List.eq_nil_or_concat d1 with h1 | ⟨d0, y, h1⟩
    · subst h1
      exact Or.inr (Or.inl ⟨t, by simpa using h⟩)
    · subst h1
      exact Or.inr (Or.inr ⟨d0, y, t, by simpa using h⟩)

theorem Utf8.single_byte {x : Nat} (h : Utf8 [x]) : x < 0x80 := by
  rcases Utf8.inv_last h with h0 | ⟨d0, c, h0, _, hc⟩
  · exact absurd h0 (by simp)
  · obtain ⟨hne, _⟩ := utf8Char_mblen c hc
    have hl : d0.length + c.length = 1 := by
      have := congrArg List.length h0
      simpa using this.symm
    have hc1 : 0 < c.length := List.length_pos.mpr hne
    have hd0 : d0 = [] := List.length_eq_zero.mp (by omega)
    subst hd0
    simp only [List.nil_append] at h0
    subst h0
    rcases hc with h | h | h | h
    · simpa [byteAt] using h.2
    · exact absurd h.1 (by simp)
    · exact absurd h.1 (by simp)
    · exact absurd h.1 (by simp)

theorem noMixedPair_high (e : List Nat) (h : ∀ b ∈ e, 0x80 ≤ b) : noMixedPair e := by
  induction e with
  | nil => exact List.chain'_nil
  | cons a r ih =>
    cases r with
    | nil => exact List.chain'_singleton a
    | cons b r2 =>
      refine List.chain'_cons.mpr ⟨?_, ih (fun x hx => h x (List.mem_cons_of_mem _ hx))⟩
      have ha := h a (List.mem_cons_self _ _)
      have hb := h b (List.mem_cons_of_mem _ (List.mem_cons_self _ _))
      unfold mixedPair glyphByte
      omega

/-- Appending to a buffer without a mixed pair: the new bytes have none, and
the last byte of the buffer makes none with the first new byte. -/
theorem noMixedPair_append (X e : List Nat) (hX : noMixedPair X) (he : noMixedPair e)
    (h : ∀ x y, X.getLast? = some x → e.head? = some y → ¬ mixedPair x y) :
    noMixedPair (X ++ e) :=
  List.chain'_append.mpr ⟨hX, he, fun x hx y hy => h x y hx hy⟩

theorem noMixedPair_left (X e : List Nat) (h : noMixedPair (X ++ e)) : noMixedPair X :=
  List.Chain'.left_of_append h

theorem gapsSafe_cons (c : List Nat) (r : List (List Nat)) (h : gapsSafe (c :: r) = true) :
    (wideGlyph c → safeBehindWide r = true) ∧ gapsSafe r = true := by
  simp only [gapsSafe, Bool.and_eq_true, Bool.or_eq_true, decide_eq_true_eq] at h
  refine ⟨fun hw => ?_, h.2⟩
  rcases h.1 with h1 | h1
  · exact absurd hw h1
  · exact h1

theorem safeBehindWide_control (c : List Nat) (r : List (List Nat)) (hc : controlChar c)
    (h : safeBehindWide (c :: r) = true) : noGlyphBehindControls r = true := by
  simpa only [safeBehindWide, if_pos hc] using h

theorem safeBehindWide_other (c : List Nat) (r : List (List Nat)) (hc : ¬ controlChar c)
    (h : safeBehindWide (c :: r) = true) : ¬ foldedQuote c := by
  simpa only [safeBehindWide, if_neg hc, decide_eq_true_eq] using h

theorem noGlyphBehindControls_control (c : List Nat) (r : List (List Nat))
    (hc : controlChar c) (h : noGlyphBehindControls (c :: r) = true) :
    noGlyphBehindControls r = true := by
  simpa only [noGlyphBehindControls, if_pos hc] using h

theorem noGlyphBehindControls_other (c : List Nat) (r : List (List Nat))
    (hc : ¬ controlChar c) (h : noGlyphBehindControls (c :: r) = true) :
    ¬ (asciiGlyph c ∧ ¬ foldedQuote c) := by
  simpa only [noGlyphBehindControls, if_neg hc, decide_eq_true_eq] using h

theorem headSafe_cons (c : List Nat) (r : List (List Nat)) (h : headSafe (c :: r) = true)
    (hc : asciiGlyph c) : ∀ n r2, r = n :: r2 → ¬ wideGlyph n := by
  intro n r2 hr hw
  subst hr
  simp only [headSafe, decide_eq_true_eq] at h
  exact h ⟨hc, hw⟩

/-- The invariant for a buffer that ends in an ASCII byte other than the separator. -/
theorem prepassInv_low (X : List Nat) (g : Nat) (r : List (List Nat)) (hg : g < 0x80)
    (hs : g ≠ 0x0b) (hm : noMixedPair (X ++ [g])) (hu : Utf8 (X ++ [g]))
    (hh : X = [] → glyphByte g → ∀ n r2, r = n :: r2 → ¬ wideGlyph n)
    (hgs : gapsSafe r = true) : prepassInv (X ++ [g]) r := by
  refine ⟨hm, hu, fun h => absurd h (by simp), ?_, ?_, ?_, hgs⟩
  · rintro ⟨g1, h1, h2⟩
    have hl := congrArg List.length h1
    simp only [List.length_append, List.length_singleton] at hl
    have hX : X = [] := List.length_eq_zero.mp (by omega)
    subst hX
    simp only [List.nil_append, List.cons.injEq, and_true] at h1
    subst h1
    exact hh rfl h2
  · rintro ⟨x, h1, h2⟩
    rw [List.getLast?_append_of_ne_nil _ (List.cons_ne_nil _ _), List.getLast?_singleton,
      Option.some.injEq] at h1
    omega
  · rintro ⟨d0, y, h1, _⟩
    have := List.append_inj' (show X ++ [g] = (d0 ++ [y]) ++ [0x0b] by simpa using h1)
      (by simp)
    have e : g = 0x0b := by simpa using this.2
    exact absurd e hs

/-- The invariant for a buffer that ends in a multi-byte character. -/
theorem prepassInv_wide (X e : List Nat) (r : List (List Nat)) (he : ∀ b ∈ e, 0x80 ≤ b)
    (hl : 1 < e.length) (hm : noMixedPair (X ++ e)) (hu : Utf8 (X ++ e))
    (hsb : safeBehindWide r = true) (hgs : gapsSafe r = true) : prepassInv (X ++ e) r := by
  have hne : e ≠ [] := by
    intro h0
    subst h0
    simp at hl
  have hlast : ∀ x, (X ++ e).getLast? = some x → 0x80 ≤ x := by
    intro x hx
    rw [List.getLast?_append_of_ne_nil _ hne] at hx
    exact he x (List.mem_of_getLast?_eq_some hx)
  refine ⟨hm, hu, fun h => absurd h (by simp [hne]), ?_, fun _ => hsb, ?_, hgs⟩
  · rintro ⟨g1, h1, _⟩
    have := congrArg List.length h1
    simp only [List.length_append, List.length_singleton] at this
    omega
  · rintro ⟨d0, y, h1, _⟩
    have := hlast 0x0b (by rw [h1]; simp)
    omega

/-- The invariant for a buffer that ends in the separator. -/
theorem prepassInv_sep (X : List Nat) (r : List (List Nat))
    (hm : noMixedPair (X ++ [0x0b])) (hu : Utf8 (X ++ [0x0b]))
    (hp : (∃ x, X.getLast? = some x ∧ 0x80 ≤ x) → noGlyphBehindControls r = true)
    (hgs : gapsSafe r = true) : prepassInv (X ++ [0x0b]) r := by
  refine ⟨hm, hu, fun h => absurd h (by simp), ?_, ?_, ?_, hgs⟩
  · rintro ⟨g1, h1, h2⟩
    have hl := congrArg List.length h1
    simp only [List.length_append, List.length_singleton] at hl
    have hX : X = [] := List.length_eq_zero.mp (by omega)
    subst hX
    simp only [List.nil_append, List.cons.injEq, and_true] at h1
    subst h1
    exact absurd h2 (by decide)
  · rintro ⟨x, h1, h2⟩
    rw [List.getLast?_append_of_ne_nil _ (List.cons_ne_nil _ _), List.getLast?_singleton,
      Option.some.injEq] at h1
    omega
  · rintro ⟨d0, y, h1, h2⟩
    have := List.append_inj' (show X ++ [0x0b] = (d0 ++ [y]) ++ [0x0b] by simpa using h1)
      (by simp)
    exact hp ⟨y, by rw [this.1]; simp, h2⟩

theorem mixedPair_low (a b : Nat) (ha : a < 0x80) (hb : b < 0x80) : ¬ mixedPair a b := by
  unfold mixedPair glyphByte
  omega

theorem mixedPair_left_plain (a b : Nat) (ha : a < 0x80) (hg : ¬ glyphByte a) :
    ¬ mixedPair a b := by
  unfold mixedPair
  unfold glyphByte at hg ⊢
  omega

theorem mixedPair_right_plain (a b : Nat) (hb : b < 0x80) (hg : ¬ glyphByte b) :
    ¬ mixedPair a b := by
  unfold mixedPair
  unfold glyphByte at hg ⊢
  omega

theorem mixedPair_high (a b : Nat) (ha : 0x80 ≤ a) (hb : 0x80 ≤ b) : ¬ mixedPair a b := by
  unfold mixedPair glyphByte
  omega

theorem noMixedPair_snoc (X : List Nat) (g : Nat) (hX : noMixedPair X)
    (h : ∀ x, X.getLast? = some x → ¬ mixedPair x g) : noMixedPair (X ++ [g]) :=
  noMixedPair_append X [g] hX (List.chain'_singleton g) (fun x y hx hy => by
    simp only [List.head?_cons, Option.some.injEq] at hy
    subst hy
    exact h x hx)

/-- One iteration of the pre-pass on a non-printable byte keeps the invariant. -/
theorem prepassInv_control (dst c : List Nat) (r : List (List Nat))
    (hI : prepassInv dst (c :: r)) (hctl : controlChar c) :
    prepassInv (TextsearchJa.appendString dst c) r := by
  obtain ⟨hm, hu, h0, hS, hH, hP, hG⟩ := hI
  obtain ⟨_, hG2⟩ := gapsSafe_cons c r hG
  obtain ⟨b, rfl⟩ : ∃ b, c = [b] := by
    match c, hctl.1 with
    | [b], _ => exact ⟨b, rfl⟩
  have hb : TextsearchJa.isprint b = false := by simpa [byteAt] using hctl.2
  rw [TextsearchJa.appendString_nonprintable dst b hb]
  have hsep : TextsearchJa.SEPARATOR_CHAR = 0x0b := rfl
  rw [hsep]
  split_ifs with hlast
  · refine ⟨hm, hu, ?_, ?_, ?_, ?_, hG2⟩
    · intro h
      subst h
      simp at hlast
    · rintro ⟨g, h1, h2⟩
      subst h1
      simp only [List.getLast?_singleton, Option.some.injEq] at hlast
      subst hlast
      exact absurd h2 (by decide)
    · rintro ⟨x, h1, h2⟩
      rw [hlast, Option.some.injEq] at h1
      omega
    · intro h
      exact noGlyphBehindControls_control [b] r hctl (hP h)
  · refine prepassInv_sep dst r ?_ (Utf8.snoc hu (Or.inl ⟨rfl, by decide⟩)) ?_ hG2
    · exact noMixedPair_snoc dst 0x0b hm
        (fun x _ => mixedPair_right_plain x 0x0b (by decide) (by decide))
    · intro h
      exact safeBehindWide_control [b] r hctl (hH h)

/-- One iteration of the pre-pass on a character that reaches the appender as
one printable ASCII byte keeps the invariant. -/
theorem prepassInv_print (dst c : List Nat) (r : List (List Nat)) (g : Nat)
    (hI : prepassInv dst (c :: r)) (hnc : ¬ controlChar c) (hnd : ¬ directFold c)
    (he : emitted c = [g]) (g1 : 0x20 ≤ g) (g2 : g ≤ 0x7e) :
    prepassInv (TextsearchJa.appendString dst [g]) r := by
  obtain ⟨hm, hu, h0, hS, hH, hP, hG⟩ := hI
  obtain ⟨_, hG2⟩ := gapsSafe_cons c r hG
  have hU : Utf8 (TextsearchJa.appendString dst [g]) :=
    TextsearchJa.appendString_utf8 dst [g] hu (Or.inl ⟨rfl, by simp [byteAt]; omega⟩)
  have hpr : TextsearchJa.isprint g = true := (TextsearchJa.isprint_iff g).mpr ⟨g1, g2⟩
  have hnp : ¬ ([g].length = 1 ∧ TextsearchJa.isprint (byteAt [g] 0) = false) := by
    simp [byteAt, hpr]
  have hglyph : glyphByte g → asciiGlyph c := fun h => ⟨by rw [he]; rfl, by rw [he]; exact h⟩
  rcases list_shape2 dst with rfl | ⟨x, rfl⟩ | ⟨d0, y, t, rfl⟩
  · rw [TextsearchJa.appendString_short [] [g] hnp (by simp)] at hU ⊢
    exact prepassInv_low [] g r (by omega) (by omega) (List.chain'_singleton g) hU
      (fun _ hgl => headSafe_cons c r (h0 rfl) (hglyph hgl)) hG2
  · rw [TextsearchJa.appendString_short [x] [g] hnp (by simp)] at hU ⊢
    have hx := Utf8.single_byte hu
    refine prepassInv_low [x] g r (by omega) (by omega) ?_ hU
      (fun h => absurd h (by simp)) hG2
    exact noMixedPair_snoc [x] g hm (fun x1 h1 => by
      simp only [List.getLast?_singleton, Option.some.injEq] at h1
      subst h1
      exact mixedPair_low _ g hx (by omega))
  · have hy : y < 256 := Utf8.bytes hu y (by simp)
    have ht : t < 256 := Utf8.bytes hu t (by simp)
    have hmL : noMixedPair (d0 ++ [y]) := by
      have : d0 ++ [y, t] = (d0 ++ [y]) ++ [t] := by simp
      rw [this] at hm
      exact noMixedPair_left _ _ hm
    rw [TextsearchJa.appendString_two d0 [g] y t hy ht hnp] at hU ⊢
    by_cases e1 : t = 0x0b
    · subst e1
      by_cases e2 : y < 0x80
      · have hc1 : [g].length = 1 ∧ y < 0x80 := ⟨rfl, e2⟩
        rw [if_pos rfl, if_pos hc1] at hU ⊢
        refine prepassInv_low (d0 ++ [y, 0x20]) g r (by omega) (by omega) ?_ hU
          (fun h => absurd h (by simp)) hG2
        refine noMixedPair_snoc (d0 ++ [y, 0x20]) g ?_ (fun x1 h1 => ?_)
        · have : d0 ++ [y, 0x20] = (d0 ++ [y]) ++ [0x20] := by simp
          rw [this]
          exact noMixedPair_snoc _ 0x20 hmL
            (fun x _ => mixedPair_right_plain x 0x20 (by decide) (by decide))
        · have : (d0 ++ [y, 0x20]).getLast? = some 0x20 := by simp
          rw [this, Option.some.injEq] at h1
          subst h1
          exact mixedPair_left_plain 0x20 g (by decide) (by decide)
      · have hc1 : ¬ ([g].length = 1 ∧ y < 0x80) := fun h => e2 h.2
        have hc2 : 0x80 ≤ y := by omega
        rw [if_pos rfl, if_neg hc1, if_pos hc2] at hU ⊢
        have hng : ¬ glyphByte g := by
          intro hgl
          have := noGlyphBehindControls_other c r hnc (hP ⟨d0, y, rfl, hc2⟩)
          exact this ⟨hglyph hgl, fun hq => hnd (Or.inl hq)⟩
        refine prepassInv_low (d0 ++ [y]) g r (by omega) (by omega) ?_ hU
          (fun h => absurd h (by simp)) hG2
        exact noMixedPair_snoc (d0 ++ [y]) g hmL
          (fun x _ => mixedPair_right_plain x g (by omega) hng)
    · by_cases e2 : 0x80 ≤ t
      · have hc1 : ([g].length = 1 ∧ 0x80 ≤ t) ∨ ([g].length > 1 ∧ t < 0x80) :=
          Or.inl ⟨rfl, e2⟩
        rw [if_neg e1, if_pos hc1] at hU ⊢
        refine prepassInv_low (d0 ++ [y, t, 0x0b]) g r (by omega) (by omega) ?_ hU
          (fun h => absurd h (by simp)) hG2
        refine noMixedPair_snoc (d0 ++ [y, t, 0x0b]) g ?_ (fun x1 h1 => ?_)
        · have : d0 ++ [y, t, 0x0b] = (d0 ++ [y, t]) ++ [0x0b] := by simp
          rw [this]
          exact noMixedPair_snoc _ 0x0b hm
            (fun x _ => mixedPair_right_plain x 0x0b (by decide) (by decide))
        · have : (d0 ++ [y, t, 0x0b]).getLast? = some 0x0b := by simp
          rw [this, Option.some.injEq] at h1
          subst h1
          exact mixedPair_left_plain 0x0b g (by decide) (by decide)
      · have hc1 : ¬ (([g].length = 1 ∧ 0x80 ≤ t) ∨ ([g].length > 1 ∧ t < 0x80)) := by
          rintro (h | h)
          · exact e2 h.2
          · exact absurd h.1 (by simp)
        rw [if_neg e1, if_neg hc1] at hU ⊢
        refine prepassInv_low (d0 ++ [y, t]) g r (by omega) (by omega) ?_ hU
          (fun h => absurd h (by simp)) hG2
        refine noMixedPair_snoc (d0 ++ [y, t]) g hm (fun x1 h1 => ?_)
        have : (d0 ++ [y, t]).getLast? = some t := by simp
        rw [this, Option.some.injEq] at h1
        subst h1
        exact mixedPair_low _ g (by omega) (by omega)

/-- One iteration of the pre-pass on a character that reaches the appender as
a multi-byte character keeps the invariant. -/
theorem prepassInv_wide_step (dst c : List Nat) (r : List (List Nat))
    (hI : prepassInv dst (c :: r)) (hl : 1 < (emitted c).length)
    (hce : utf8Char (emitted c)) :
    prepassInv (TextsearchJa.appendString dst (emitted c)) r := by
  obtain ⟨hm, hu, h0, hS, hH, hP, hG⟩ := hI
  obtain ⟨hGw, hG2⟩ := gapsSafe_cons c r hG
  have hsb : safeBehindWide r = true := hGw hl
  have hU : Utf8 (TextsearchJa.appendString dst (emitted c)) :=
    TextsearchJa.appendString_utf8 dst (emitted c) hu hce
  have hhigh : ∀ b ∈ emitted c, 0x80 ≤ b := fun b hb =>
    (utf8Char_wide_high (emitted c) hce hl b hb).1
  have hme : noMixedPair (emitted c) := noMixedPair_high _ hhigh
  have hhead : ∀ y, (emitted c).head? = some y → 0x80 ≤ y := fun y hy =>
    hhigh y (List.mem_of_mem_head? hy)
  have hnp : ¬ ((emitted c).length = 1 ∧
      TextsearchJa.isprint (byteAt (emitted c) 0) = false) := fun h => by omega
  have hn1 : ¬ (emitted c).length = 1 := by omega
  rcases list_shape2 dst with rfl | ⟨x, rfl⟩ | ⟨d0, y, t, rfl⟩
  · rw [TextsearchJa.appendString_short [] _ hnp (by simp)] at hU ⊢
    exact prepassInv_wide [] _ r hhigh hl (by simpa using hme) hU hsb hG2
  · rw [TextsearchJa.appendString_short [x] _ hnp (by simp)] at hU ⊢
    have hx := Utf8.single_byte hu
    have hng : ¬ glyphByte x := fun hgl => hS ⟨x, rfl, hgl⟩ c r rfl hl
    refine prepassInv_wide [x] _ r hhigh hl ?_ hU hsb hG2
    exact noMixedPair_append [x] _ hm hme (fun x1 y1 h1 _ => by
      simp only [List.getLast?_singleton, Option.some.injEq] at h1
      subst h1
      exact mixedPair_left_plain _ y1 hx hng)
  · have hy : y < 256 := Utf8.bytes hu y (by simp)
    have ht : t < 256 := Utf8.bytes hu t (by simp)
    have hmL : noMixedPair (d0 ++ [y]) := by
      have : d0 ++ [y, t] = (d0 ++ [y]) ++ [t] := by simp
      rw [this] at hm
      exact noMixedPair_left _ _ hm
    rw [TextsearchJa.appendString_two d0 _ y t hy ht hnp] at hU ⊢
    by_cases e1 : t = 0x0b
    · subst e1
      have hc1 : ¬ ((emitted c).length = 1 ∧ y < 0x80) := fun h => hn1 h.1
      by_cases e2 : 0x80 ≤ y
      · rw [if_pos rfl, if_neg hc1, if_pos e2] at hU ⊢
        refine prepassInv_wide (d0 ++ [y]) _ r hhigh hl ?_ hU hsb hG2
        exact noMixedPair_append _ _ hmL hme (fun x1 y1 h1 h2 => by
          have : (d0 ++ [y]).getLast? = some y := by simp
          rw [this, Option.some.injEq] at h1
          subst h1
          exact mixedPair_high _ y1 e2 (hhead y1 h2))
      · rw [if_pos rfl, if_neg hc1, if_neg e2] at hU ⊢
        refine prepassInv_wide (d0 ++ [y, 0x0b]) _ r hhigh hl ?_ hU hsb hG2
        exact noMixedPair_append _ _ hm hme (fun x1 y1 h1 _ => by
          have : (d0 ++ [y, 0x0b]).getLast? = some 0x0b := by simp
          rw [this, Option.some.injEq] at h1
          subst h1
          exact mixedPair_left_plain 0x0b y1 (by decide) (by decide))
    · by_cases e2 : t < 0x80
      · have hc1 : ((emitted c).length = 1 ∧ 0x80 ≤ t) ∨ ((emitted c).length > 1 ∧ t < 0x80) :=
          Or.inr ⟨hl, e2⟩
        rw [if_neg e1, if_pos hc1] at hU ⊢
        refine prepassInv_wide (d0 ++ [y, t, 0x0b]) _ r hhigh hl ?_ hU hsb hG2
        refine noMixedPair_append _ _ ?_ hme (fun x1 y1 h1 _ => ?_)
        · have : d0 ++ [y, t, 0x0b] = (d0 ++ [y, t]) ++ [0x0b] := by simp
          rw [this]
          exact noMixedPair_snoc _ 0x0b hm
            (fun x _ => mixedPair_right_plain x 0x0b (by decide) (by decide))
        · have : (d0 ++ [y, t, 0x0b]).getLast? = some 0x0b := by simp
          rw [this, Option.some.injEq] at h1
          subst h1
          exact mixedPair_left_plain 0x0b y1 (by decide) (by decide)
      · have hc1 : ¬ (((emitted c).length = 1 ∧ 0x80 ≤ t) ∨
            ((emitted c).length > 1 ∧ t < 0x80)) := by
          rintro (h | h)
          · exact hn1 h.1
          · exact e2 h.2
        rw [if_neg e1, if_neg hc1] at hU ⊢
        refine prepassInv_wide (d0 ++ [y, t]) _ r hhigh hl ?_ hU hsb hG2
        exact noMixedPair_append _ _ hm hme (fun x1 y1 h1 h2 => by
          have : (d0 ++ [y, t]).getLast? = some t := by simp
          rw [this, Option.some.injEq] at h1
          subst h1
          exact mixedPair_high _ y1 (by omega) (hhead y1 h2))

/-- One iteration of the pre-pass on a directly folded character keeps the
invariant. -/
theorem prepassInv_direct (dst c : List Nat) (r : List (List Nat))
    (hI : prepassInv dst (c :: r)) (hnc : ¬ controlChar c) (hd : directFold c) :
    prepassInv (dst ++ emitted c) r := by
  obtain ⟨hm, hu, h0, hS, hH, hP, hG⟩ := hI
  obtain ⟨_, hG2⟩ := gapsSafe_cons c r hG
  rcases directFold_emitted c hd with ⟨hq, g, he, hg⟩ | ⟨_, he⟩
  · rw [he]
    have hg1 : g < 0x80 := by have := hg.2; omega
    have hg2 : g ≠ 0x0b := by have := hg.1; omega
    refine prepassInv_low dst g r hg1 hg2 ?_ (Utf8.snoc hu (Or.inl ⟨rfl, by simpa [byteAt]⟩))
      (fun h _ => headSafe_cons c r (h0 h) ⟨by rw [he]; rfl, by rw [he]; exact hg⟩) hG2
    refine noMixedPair_snoc dst g hm (fun x hx => ?_)
    have hxl : x < 0x80 := by
      by_contra hge
      exact safeBehindWide_other c r hnc (hH ⟨x, hx, by omega⟩) hq
    exact mixedPair_low x g hxl hg1
  · rw [he]
    refine prepassInv_low dst 0x20 r (by decide) (by decide) ?_
      (Utf8.snoc hu (Or.inl ⟨rfl, by decide⟩)) (fun _ h => absurd h (by decide)) hG2
    exact noMixedPair_snoc dst 0x20 hm
      (fun x _ => mixedPair_right_plain x 0x20 (by decide) (by decide))

/-- A character on which the voicing-mark block rewrites the buffer is a
voicing mark, which on its own is emitted as a multi-byte character. -/
theorem normalize_utf8_voicing_wideGlyph (dst c dst1 : List Nat) (hc : utf8Char c)
    (hv : normalize_utf8_voicing dst c (uchar_mblen c) = some dst1) : wideGlyph c := by
  have h3 : uchar_mblen c = 3 := by
    by_contra hne
    rw [normalize_utf8_voicing_not3 dst c _ hne] at hv
    exact absurd hv (by simp)
  rw [h3] at hv
  obtain ⟨_, hlen⟩ := utf8Char_mblen c hc
  rw [h3] at hlen
  obtain ⟨a, b, e, rfl⟩ : ∃ a b e, c = [a, b, e] := by
    match c, hlen with
    | [a, b, e], _ => exact ⟨a, b, e, rfl⟩
  obtain ⟨p, x, y, _, hk⟩ := normalize_utf8_voicing_some_key dst [a, b, e] dst1 hv
  have hmark : (EQ3 [a, b, e] DAKUTEN_HALF || EQ3 [a, b, e] DAKUTEN_WIDE) = true ∨
      (EQ3 [a, b, e] HANDAKU_HALF || EQ3 [a, b, e] HANDAKU_WIDE) = true := by
    rcases hk with h | h
    · exact Or.inl h.1
    · exact Or.inr h.2.1
  simp only [EQ3, byteAt, DAKUTEN_HALF, DAKUTEN_WIDE, HANDAKU_HALF, HANDAKU_WIDE,
    List.getD_cons_zero, List.getD_cons_succ, Bool.or_eq_true, Bool.and_eq_true,
    beq_iff_eq] at hmark
  rcases hmark with (⟨⟨rfl, rfl⟩, rfl⟩ | ⟨⟨rfl, rfl⟩, rfl⟩) | (⟨⟨rfl, rfl⟩, rfl⟩ | ⟨⟨rfl, rfl⟩, rfl⟩)
  · decide!
  · decide!
  · decide!
  · decide!

/-- One iteration of the pre-pass on which the voicing-mark block rewrites the
last kana keeps the invariant. -/
theorem prepassInv_fuse (dst c dst1 : List Nat) (r : List (List Nat))
    (hI : prepassInv dst (c :: r)) (hc : utf8Char c)
    (hv : normalize_utf8_voicing dst c (uchar_mblen c) = some dst1) : prepassInv dst1 r := by
  obtain ⟨hm, hu, h0, hS, hH, hP, hG⟩ := hI
  obtain ⟨hGw, hG2⟩ := gapsSafe_cons c r hG
  have hsb : safeBehindWide r = true := hGw (normalize_utf8_voicing_wideGlyph dst c dst1 hc hv)
  obtain ⟨p, c1, c2, e1, e2, hp, hw1, hw2⟩ := normalize_utf8_voicing_utf8 dst c dst1 _ hu hv
  subst e1 e2
  have hc2 : utf8Char c2 := Or.inr (Or.inr (Or.inl hw2))
  have hl2 : 1 < c2.length := by rw [hw2.1]; decide
  have hhigh2 : ∀ b ∈ c2, 0x80 ≤ b := fun b hb => (utf8Char_wide_high c2 hc2 hl2 b hb).1
  have hl1 : 1 < c1.length := by rw [hw1.1]; decide
  have hhigh1 : ∀ b ∈ c1, 0x80 ≤ b := fun b hb =>
    (utf8Char_wide_high c1 (Or.inr (Or.inr (Or.inl hw1))) hl1 b hb).1
  refine prepassInv_wide p c2 r hhigh2 hl2 ?_ (Utf8.snoc hp hc2) hsb hG2
  refine noMixedPair_append p c2 (noMixedPair_left _ _ hm) (noMixedPair_high _ hhigh2)
    (fun x y hx hy => ?_)
  obtain ⟨y1, hy1⟩ : ∃ y1, c1.head? = some y1 := by
    cases c1 with
    | nil => simp at hl1
    | cons a _ => exact ⟨a, rfl⟩
  have hb := (List.chain'_append.mp hm).2.2 x hx y1 hy1
  have k1 := hhigh1 y1 (List.mem_of_mem_head? hy1)
  have k2 := hhigh2 y (List.mem_of_mem_head? hy)
  unfold mixedPair at hb ⊢
  unfold glyphByte at hb ⊢
  omega

/-- One iteration of the pre-pass loop keeps the invariant. -/
theorem prepassInv_step (dst c : List Nat) (r : List (List Nat))
    (hI : prepassInv dst (c :: r)) (hc : utf8Char c) :
    prepassInv (normalize_utf8_body TextsearchJa.appendString dst c).1 r := by
  cases hv : normalize_utf8_voicing dst c (uchar_mblen c) with
  | some dst1 =>
    have h3 : uchar_mblen c = 3 := by
      by_contra hne
      rw [normalize_utf8_voicing_not3 dst c _ hne] at hv
      exact absurd hv (by simp)
    have hv3 := hv
    rw [h3] at hv3
    have : (normalize_utf8_body TextsearchJa.appendString dst c).1 = dst1 := by
      unfold normalize_utf8_body
      simp only [h3, hv3]
      rfl
    rw [this]
    exact prepassInv_fuse dst c dst1 r hI hc hv
  | none =>
    rw [normalize_utf8_body_emitted _ dst c hc hv]
    by_cases hd : directFold c
    · rw [if_pos hd]
      have hnc : ¬ controlChar c := by
        rintro ⟨h1, _⟩
        rcases hd with (h | h | h) | h <;> (subst h; simp at h1)
      exact prepassInv_direct dst c r hI hnc hd
    · rw [if_neg hd]
      rcases emitted_cases c hc with ⟨hctl, he⟩ | ⟨hnc, g, he, g1, g2⟩ | ⟨hnc, hl, hce⟩
      · rw [he]
        exact prepassInv_control dst c r hI hctl
      · rw [he]
        exact prepassInv_print dst c r g hI hnc hd he g1 g2
      · exact prepassInv_wide_step dst c r hI hl hce

theorem prepassInv_loop (cs : List (List Nat)) (hcs : ∀ c ∈ cs, utf8Char c) :
    ∀ dst, prepassInv dst cs →
      noMixedPair (normalize_utf8 dst cs.flatten TextsearchJa.appendString) := by
  induction cs with
  | nil =>
    intro dst hI
    simpa [normalize_utf8, normalize_utf8_loop] using hI.1
  | cons c r ih =>
    intro dst hI
    have hc := hcs c (List.mem_cons_self _ _)
    obtain ⟨hne, hlen⟩ := utf8Char_mblen c hc
    rw [List.flatten_cons, normalize_utf8_chunk _ dst c _ hne hlen]
    exact ih (fun x hx => hcs x (List.mem_cons_of_mem _ hx)) _ (prepassInv_step dst c r hI hc)

/-- C37 (counterexample): three well-formed inputs whose pre-pass output has a
printable ASCII byte next to a multi-byte character: `A` + `あ` (the buffer
holds one byte only, so no separator is inserted), `あ` + newline + `A` (the
separator behind a multi-byte character is dropped), and `あ` + U+2018 (the
folded quote is written without the appender). -/
theorem prepass_mixed_pairs :
    (Utf8 [0x41, 0xe3, 0x81, 0x82] ∧
      TextsearchJa.ts_ja_start_normalize [0x41, 0xe3, 0x81, 0x82] = [0x41, 0xe3, 0x81, 0x82] ∧
      ¬ noMixedPair (TextsearchJa.ts_ja_start_normalize [0x41, 0xe3, 0x81, 0x82])) ∧
    (Utf8 [0xe3, 0x81, 0x82, 0x0a, 0x41] ∧
      TextsearchJa.ts_ja_start_normalize [0xe3, 0x81, 0x82, 0x0a, 0x41]
        = [0xe3, 0x81, 0x82, 0x41] ∧
      ¬ noMixedPair (TextsearchJa.ts_ja_start_normalize [0xe3, 0x81, 0x82, 0x0a, 0x41])) ∧
    (Utf8 [0xe3, 0x81, 0x82, 0xe2, 0x80, 0x98] ∧
      TextsearchJa.ts_ja_start_normalize [0xe3, 0x81, 0x82, 0xe2, 0x80, 0x98]
        = [0xe3, 0x81, 0x82, 0x60] ∧
      ¬ noMixedPair (TextsearchJa.ts_ja_start_normalize
        [0xe3, 0x81, 0x82, 0xe2, 0x80, 0x98])) := by
  have e1 : TextsearchJa.ts_ja_start_normalize [0x41, 0xe3, 0x81, 0x82]
      = [0x41, 0xe3, 0x81, 0x82] := by decide
  have e2 : TextsearchJa.ts_ja_start_normalize [0xe3, 0x81, 0x82, 0x0a, 0x41]
      = [0xe3, 0x81, 0x82, 0x41] := by decide
  have e3 : TextsearchJa.ts_ja_start_normalize [0xe3, 0x81, 0x82, 0xe2, 0x80, 0x98]
      = [0xe3, 0x81, 0x82, 0x60] := by decide
  refine ⟨⟨?_, e1, ?_⟩, ⟨?_, e2, ?_⟩, ⟨?_, e3, ?_⟩⟩
  · exact Utf8.cons [0x41] _ (by decide) (Utf8.single (c := [0xe3, 0x81, 0x82]) (by decide))
  · rw [e1]
    simp [mixedPair, glyphByte]
  · exact Utf8.cons [0xe3, 0x81, 0x82] _ (by decide)
      (Utf8.cons [0x0a] _ (by decide) (Utf8.single (c := [0x41]) (by decide)))
  · rw [e2]
    simp [mixedPair, glyphByte]
  · exact Utf8.cons [0xe3, 0x81, 0x82] _ (by decide)
      (Utf8.single (c := [0xe2, 0x80, 0x98]) (by decide))
  · rw [e3]
    simp [mixedPair, glyphByte]

/-- C37 (amended): for a well-formed input, given by its characters `cs`, that
does not begin with an ASCII glyph followed at once by a multi-byte character
(`headSafe`), and in which no multi-byte character is followed at once by a
folded quote, or behind non-printable bytes only by an ASCII glyph that goes
through the appender (`gapsSafe`), the output of the tokenizer pre-pass has no
printable ASCII byte other than the space next to a byte of a multi-byte
character. -/
theorem prepass_no_mixed_pair (cs : List (List Nat)) (hcs : ∀ c ∈ cs, utf8Char c)
    (h1 : headSafe cs = true) (h2 : gapsSafe cs = true) :
    noMixedPair (TextsearchJa.ts_ja_start_normalize cs.flatten) := by
  unfold TextsearchJa.ts_ja_start_normalize
  refine prepassInv_loop cs hcs [] ⟨List.chain'_nil, Utf8.nil, fun _ => h1, ?_, ?_, ?_, h2⟩
  · rintro ⟨g, h, _⟩
    exact absurd h (by simp)
  · rintro ⟨x, h, _⟩
    exact absurd h (by simp)
  · rintro ⟨d0, y, h, _⟩
    exact absurd h (by simp)

theorem prepass_no_mixed_pair_witness :
    (∀ c ∈ [[0x41], [0x42], [0xe3, 0x81, 0x82], [0x0a], [0xe3, 0x81, 0x8b], [0x43]],
      utf8Char c) ∧
    headSafe [[0x41], [0x42], [0xe3, 0x81, 0x82], [0x0a], [0xe3, 0x81, 0x8b], [0x43]] = true ∧
    gapsSafe [[0x41], [0x42], [0xe3, 0x81, 0x82], [0x0a], [0xe3, 0x81, 0x8b], [0x43]] = true ∧
    noMixedPair (TextsearchJa.ts_ja_start_normalize
      [[0x41], [0x42], [0xe3, 0x81, 0x82], [0x0a], [0xe3, 0x81, 0x8b], [0x43]].flatten) ∧
    TextsearchJa.ts_ja_start_normalize
      [[0x41], [0x42], [0xe3, 0x81, 0x82], [0x0a], [0xe3, 0x81, 0x8b], [0x43]].flatten
      = [0x41, 0x42, 0x0b, 0xe3, 0x81, 0x82, 0xe3, 0x81, 0x8b, 0x0b, 0x43] :=
  ⟨by decide, by decide, by decide,
    prepass_no_mixed_pair _ (by decide) (by decide) (by decide), by decide⟩

end TextsearchKo
